import Mathlib

/-!
# Pennants, bags and breadth-first search (neboat/pbfs)

A shallow embedding of `src/bag.h` and `src/graph.cpp`.

Conventions of the embedding.

* A `Pennant<T>*` is a value of `Pennant T`; the null pointer is `Pennant.null`.
  A pennant exclusively owns its children, so the pointer graph is a tree.
* A C array is a `List`; an access outside the array, a dereference of a null
  pointer, and a loop that runs out of its iteration budget all yield `none`.
* `uint32_t` and `int` values are natural numbers and integers; where the
  source relies on wrap-around the reduction modulo `2 ^ 32` is written out.
-/

set_option autoImplicit false

namespace PBFS

/-- Number of slots of the pennant array of a bag (`const uint32_t BAG_SIZE = 64`). -/
def BAG_SIZE : Nat := 64

/-- Number of cells of an element block (`const uint32_t BLK_SIZE = 2048`). -/
def BLK_SIZE : Nat := 2048

/-- Pointer to a pennant node: `null`, or a node with its element block `els`
and the two child pointers `l` and `r`. -/
inductive Pennant (T : Type) where
  | null : Pennant T
  | node (els : List T) (l r : Pennant T) : Pennant T
  deriving DecidableEq, Repr

namespace Pennant

variable {T : Type}

/-- Test `p == NULL`. -/
def isNull : Pennant T → Bool
  | null => true
  | node _ _ _ => false

/-- `Pennant<T>::Pennant(T els_array[])`: a node owning `els`, both children null. -/
def ofBlock (els : List T) : Pennant T := node els null null

/-- The carry pennant that `merge` starts from: `c = NULL`, then
`if (carry != NULL) c = new Pennant<T>(carry);`. -/
def ofCarry : Option (List T) → Pennant T
  | some e => ofBlock e
  | none => null

/-- `Pennant<T>::getLeft`. -/
def getLeft : Pennant T → Option (Pennant T)
  | null => none
  | node _ l _ => some l

/-- `Pennant<T>::getRight`. -/
def getRight : Pennant T → Option (Pennant T)
  | null => none
  | node _ _ r => some r

/-- `Pennant<T>::getElements`. -/
def getElements : Pennant T → Option (List T)
  | null => none
  | node e _ _ => some e

/-- `Pennant<T>::combine`: `that->r = this->l; this->l = that; return this`.
The first argument is `this`, the second `that`; the result is `this` after
the call, which now owns `that`. -/
def combine : Pennant T → Pennant T → Option (Pennant T)
  | node e l r, node e' l' _ => some (node e (node e' l' l) r)
  | _, _ => none

/-- `Pennant<T>::split`: `that = this->l; this->l = that->r; that->r = NULL;
return that`. The result is the pair (`this` after the call, returned `that`). -/
def split : Pennant T → Option (Pennant T × Pennant T)
  | node e (node e' l' r') r => some (node e r' r, node e' l' null)
  | _ => none

/-- The element blocks of a tree: root block, then the left and the right
subtree. -/
def blocks : Pennant T → List (List T)
  | null => []
  | node e l r => e :: (blocks l ++ blocks r)

/-- Number of element blocks of a tree. -/
def numBlocks (p : Pennant T) : Nat := p.blocks.length

/-- The multiset of the element blocks of a tree. -/
def blockSet (p : Pennant T) : Multiset (List T) := (p.blocks : Multiset (List T))

/-- The multiset of the elements held by a tree. -/
def elems (p : Pennant T) : Multiset T := (p.blocks.flatten : Multiset T)

/-- The multiset of the elements of a multiset of blocks. -/
def flat (s : Multiset (List T)) : Multiset T :=
  (s.map (fun e : List T => (e : Multiset T))).sum

/-- Complete binary tree of height `h`: `2 ^ h - 1` nodes. -/
def Complete : Nat → Pennant T → Prop
  | 0, t => t = null
  | _ + 1, null => False
  | h + 1, node _ l r => Complete h l ∧ Complete h r

/-- Pennant of rank `k`: a root whose right child is null and whose left child
is a complete binary tree of height `k` (null when `k = 0`). -/
def IsPennant (k : Nat) : Pennant T → Prop
  | null => False
  | node _ l r => r = null ∧ Complete k l

/-- Every element block of the tree has exactly `BLK_SIZE` cells. -/
def FullBlocks (p : Pennant T) : Prop := ∀ e ∈ p.blocks, e.length = BLK_SIZE

end Pennant

/-! ## Arrays -/

/-- Array store `a[i] = v`; `none` when `i` is outside the array. -/
def store {α : Type} (a : List α) (i : Nat) (v : α) : Option (List α) :=
  if i < a.length then some (a.set i v) else none

/-- The call `memcpy(dst + d, src + s, n * sizeof(T))` on two distinct arrays:
the array `dst` afterwards; `none` when a range leaves its array. -/
def memcpy {α : Type} (dst : List α) (d : Nat) (src : List α) (s n : Nat) :
    Option (List α) :=
  if d + n ≤ dst.length ∧ s + n ≤ src.length then
    some (dst.take d ++ ((src.drop s).take n ++ dst.drop (d + n)))
  else none

/-- Reduction of an integer to the range of `uint32_t`. -/
def u32 (x : Int) : Nat := (x % 2 ^ 32).toNat

/-- Conversion of the 32-bit pattern of `x` to `int` (two's complement). -/
def toInt32 (x : Int) : Int := (x + 2 ^ 31) % 2 ^ 32 - 2 ^ 31

/-! ## Bags -/

/-- The fields of `Bag<T>` (with `FILLING_ARRAY` set): `fill`, the pennant array
`bag`, the element block `filling` (a pointer, `none` when null) and `size`. -/
structure Bag (T : Type) where
  fill : Nat
  bag : List (Pennant T)
  filling : Option (List T)
  size : Nat

namespace Bag

variable {T : Type}

/-- `Bag<T>::Bag()`: `fill` and `size` are zero; `new Pennant<T>*[BAG_SIZE]` and
`new T[BLK_SIZE]` leave their cells indeterminate, so the initial cells `slots`
and `blk` are arguments. -/
def new (slots : List (Pennant T)) (blk : List T) : Bag T :=
  { fill := 0, bag := slots, filling := some blk, size := 0 }

/-- `Bag<T>::getFill`. -/
def getFill (b : Bag T) : Nat := b.fill

/-- `Bag<T>::getFillingSize`. -/
def getFillingSize (b : Bag T) : Nat := b.size

/-- `Bag<T>::getFilling`. -/
def getFilling (b : Bag T) : Option (List T) := b.filling

/-- `Bag<T>::isEmpty`. -/
def isEmpty (b : Bag T) : Bool := b.fill == 0 && b.size == 0

/-- `Bag<T>::clear`. -/
def clear (b : Bag T) : Bag T := { b with fill := 0, size := 0 }

/-- The binomial carry loop shared by `insert` and `merge`:
`do { if (i < lim && bag[i] != NULL) { c = bag[i]->combine(c); bag[i] = NULL; }
else { bag[i] = c; fill = MAX(lim, i + 1); return; } ++i; } while (i < BAG_SIZE);
fill = BAG_SIZE;`. In `insert` the bound `lim` is `this->fill`, in `merge` it is
`max`. The first argument bounds the number of iterations. -/
def carry (lim : Nat) : Nat → Nat → Pennant T → Bag T → Option (Bag T)
  | 0, _, _, _ => none
  | fuel + 1, i, c, b =>
    match (if i < lim then b.bag[i]? else some Pennant.null) with
    | none => none
    | some p =>
      if p.isNull then
        match store b.bag i c with
        | none => none
        | some bag' => some { b with bag := bag', fill := max lim (i + 1) }
      else
        match p.combine c, store b.bag i Pennant.null with
        | some c', some bag' =>
          if i + 1 < BAG_SIZE then carry lim fuel (i + 1) c' { b with bag := bag' }
          else some { b with bag := bag', fill := BAG_SIZE }
        | _, _ => none

/-- `Bag<T>::insert`. The fresh block `new T[BLK_SIZE]` is filled with
`default`; its cells are written before they are read. -/
def insert [Inhabited T] (b : Bag T) (el : T) : Option (Bag T) :=
  match b.filling with
  | none => none
  | some f =>
    match store f b.size el with
    | none => none
    | some f' =>
      let size' := (b.size + 1) % 2 ^ 32
      if size' < BLK_SIZE then
        some { b with filling := some f', size := size' }
      else
        carry b.fill BAG_SIZE 0 (Pennant.ofBlock f')
          { b with filling := some (List.replicate BLK_SIZE default), size := 0 }

/-- `Bag<T>::insert_fblk`. -/
def insert_fblk (b : Bag T) (fblk : List T) : Option (Bag T) :=
  carry b.fill BAG_SIZE 0 (Pennant.ofBlock fblk) b

/-- First part of `Bag<T>::merge`, up to `that->filling = NULL`: the filling
and the size of `this` afterwards, and the block `carry` (`none` when null). -/
def merge_filling (a b : Bag T) : Option (Option (List T) × Nat × Option (List T)) :=
  match a.filling, b.filling with
  | some fa, some fb =>
    if a.size < b.size then
      let i : Int := toInt32 ((a.size : Int) - ((BLK_SIZE : Int) - (b.size : Int)))
      if 0 ≤ i then
        match memcpy fb b.size fa i.toNat (u32 ((BLK_SIZE : Int) - (b.size : Int))) with
        | some fb' => some (some fa, u32 i, some fb')
        | none => none
      else
        match memcpy fb b.size fa 0 a.size with
        | some fb' => some (some fb', (a.size + b.size) % 2 ^ 32, none)
        | none => none
    else
      let i : Int := toInt32 ((b.size : Int) - ((BLK_SIZE : Int) - (a.size : Int)))
      if 0 ≤ i then
        match memcpy fa a.size fb i.toNat (u32 ((BLK_SIZE : Int) - (a.size : Int))) with
        | some fa' => some (some fb, u32 i, some fa')
        | none => none
      else
        match memcpy fa a.size fb 0 b.size with
        | some fa' => some (some fa', (a.size + b.size) % 2 ^ 32, none)
        | none => none
  | _, _ => none

/-- One iteration of the loop `for (i = 0; i < min; ++i)` of `Bag<T>::merge`:
the `switch` on `x = (this->bag[i] != NULL) << 2 |
(i < that->fill && that->bag[i] != NULL) << 1 | (c != NULL)`.
The state is (`this->bag`, `that->bag`, `c`). -/
def merge_step (thatFill i : Nat) (ta tb : List (Pennant T)) (c : Pennant T) :
    Option (List (Pennant T) × List (Pennant T) × Pennant T) :=
  match ta[i]?, tb[i]? with
  | some p, some q =>
    match !p.isNull, (decide (i < thatFill) && !q.isNull), !c.isNull with
    | false, false, false => some (ta.set i Pennant.null, tb.set i Pennant.null, Pennant.null)
    | false, false, true => some (ta.set i c, tb.set i Pennant.null, Pennant.null)
    | false, true, false => some (ta.set i q, tb.set i Pennant.null, Pennant.null)
    | false, true, true =>
      (q.combine c).map fun c' => (ta.set i Pennant.null, tb.set i Pennant.null, c')
    | true, false, false => some (ta, tb.set i Pennant.null, Pennant.null)
    | true, false, true =>
      (p.combine c).map fun c' => (ta.set i Pennant.null, tb.set i Pennant.null, c')
    | true, true, false =>
      (p.combine q).map fun c' => (ta.set i Pennant.null, tb.set i Pennant.null, c')
    | true, true, true =>
      (q.combine c).map fun c' => (ta, tb.set i Pennant.null, c')
  | _, _ => none

/-- The loop `for (i = 0; i < min; ++i)` of `Bag<T>::merge`; the first argument
is the number of iterations left. -/
def merge_loop (thatFill : Nat) :
    Nat → Nat → List (Pennant T) → List (Pennant T) → Pennant T →
      Option (List (Pennant T) × List (Pennant T) × Pennant T)
  | 0, _, ta, tb, c => some (ta, tb, c)
  | n + 1, i, ta, tb, c =>
    match merge_step thatFill i ta tb c with
    | none => none
    | some (ta', tb', c') => merge_loop thatFill n (i + 1) ta' tb' c'

/-- The loops `for (j = ...; j < this->fill; ++j) { this->bag[j] = that->bag[j];
that->bag[j] = NULL; }` of `Bag<T>::merge`; the first argument is the number of
iterations left. -/
def merge_move :
    Nat → Nat → List (Pennant T) → List (Pennant T) →
      Option (List (Pennant T) × List (Pennant T))
  | 0, _, ta, tb => some (ta, tb)
  | n + 1, j, ta, tb =>
    match tb[j]? with
    | none => none
    | some q =>
      match store ta j q, store tb j Pennant.null with
      | some ta', some tb' => merge_move n (j + 1) ta' tb'
      | _, _ => none

/-- The second `do ... while (i < BAG_SIZE)` loop of `Bag<T>::merge` (the case
`that->fill == max`). The result is (`this->bag`, `that->bag`, `this->fill`);
the first argument bounds the number of iterations. -/
def merge_ripple (mx : Nat) :
    Nat → Nat → Pennant T → List (Pennant T) → List (Pennant T) →
      Option (List (Pennant T) × List (Pennant T) × Nat)
  | 0, _, _, _, _ => none
  | fuel + 1, i, c, ta, tb =>
    match (if i < mx then tb[i]? else some Pennant.null) with
    | none => none
    | some q =>
      if q.isNull then
        match store ta i c with
        | none => none
        | some ta' =>
          (merge_move (max mx (i + 1) - (i + 1)) (i + 1) ta' tb).map
            fun r => (r.1, r.2, max mx (i + 1))
      else
        match q.combine c, store ta i Pennant.null, store tb i Pennant.null with
        | some c', some ta', some tb' =>
          if i + 1 < BAG_SIZE then merge_ripple mx fuel (i + 1) c' ta' tb'
          else some (ta', tb', BAG_SIZE)
        | _, _, _ => none

/-- `Bag<T>::merge` on two distinct bags: the pair (`this`, `that`) after
`this->merge(that)`. The `int` variables `min`, `max`, `i`, `j` hold values
bounded by the two `fill`s and by `BAG_SIZE`. -/
def merge (a b : Bag T) : Option (Bag T × Bag T) :=
  match merge_filling a b with
  | none => none
  | some (fa, sz, blk) =>
    let mn := if a.fill > b.fill then b.fill else a.fill
    let mx := if a.fill > b.fill then a.fill else b.fill
    let c0 : Pennant T := Pennant.ofCarry blk
    match merge_loop b.fill mn 0 a.bag b.bag c0 with
    | none => none
    | some (ta, tb, c) =>
      if a.fill = mx then
        if c.isNull then
          some ({ fill := a.fill, bag := ta, filling := fa, size := sz },
                { fill := 0, bag := tb, filling := none, size := b.size })
        else
          (carry mx (BAG_SIZE + 1) mn c
              { fill := a.fill, bag := ta, filling := fa, size := sz }).map
            fun a' => (a', { fill := 0, bag := tb, filling := none, size := b.size })
      else
        if c.isNull then
          (merge_move (mx - mn) mn ta tb).map
            fun r => ({ fill := mx, bag := r.1, filling := fa, size := sz },
                      { fill := 0, bag := r.2, filling := none, size := b.size })
        else
          (merge_ripple mx (BAG_SIZE + 1) mn c ta tb).map
            fun r => ({ fill := r.2.2, bag := r.1, filling := fa, size := sz },
                      { fill := 0, bag := r.2.1, filling := none, size := b.size })

/-- The loop `for (; this->fill > 0; this->fill--) if (this->bag[this->fill - 1]
!= NULL) break;` of `Bag<T>::split`: the final value of `fill`. -/
def split_scan (bag : List (Pennant T)) : Nat → Option Nat
  | 0 => some 0
  | f + 1 =>
    match bag[f]? with
    | none => none
    | some p => if p.isNull then split_scan bag f else some (f + 1)

/-- `Bag<T>::split(Pennant<T> **p)`: the bag afterwards, the pointer stored in
`*p`, and the returned boolean. -/
def split (b : Bag T) : Option (Bag T × Pennant T × Bool) :=
  if b.fill = 0 then some (b, Pennant.null, false)
  else
    match b.bag[b.fill - 1]?, store b.bag (b.fill - 1) Pennant.null with
    | some p, some bag' =>
      (split_scan bag' (b.fill - 1)).map
        fun f => ({ b with fill := f, bag := bag' }, p, true)
    | _, _ => none

/-- Calling `split(&out)` until it returns false: the pennants handed out, in
the order of the calls, and the bag at the end. The first argument bounds the
number of calls. -/
def drain : Nat → Bag T → Option (List (Pennant T) × Bag T)
  | 0, _ => none
  | fuel + 1, b =>
    match b.split with
    | none => none
    | some (b', _, false) => some ([], b')
    | some (b', p, true) => (drain fuel b').map fun r => (p :: r.1, r.2)

/-- The multiset of the element blocks of the pennants in `bag[0 .. fill)`. -/
def blockSet (b : Bag T) : Multiset (List T) :=
  ((b.bag.take b.fill).map Pennant.blockSet).sum

/-- The multiset of the elements of the pennants in `bag[0 .. fill)`. -/
def pennantElems (b : Bag T) : Multiset T :=
  ((b.bag.take b.fill).map Pennant.elems).sum

/-- The multiset of the elements `filling[0 .. size)`. -/
def fillingElems (b : Bag T) : Multiset T :=
  (((b.filling.getD []).take b.size : List T) : Multiset T)

/-- The multiset of the elements held by a bag: `filling[0 .. size)` together
with every block of every pennant in `bag[0 .. fill)`. -/
def elems (b : Bag T) : Multiset T := b.fillingElems + b.pennantElems

/-- Number of full blocks held by the pennants in `bag[0 .. fill)`. -/
def numBlocks (b : Bag T) : Nat := ((b.bag.take b.fill).map Pennant.numBlocks).sum

/-- The bag invariants of the data model: the pennant array has `BAG_SIZE` slots
and the filling block `BLK_SIZE` cells, `size < BLK_SIZE`, `fill ≤ BAG_SIZE`,
every slot at or above `fill` is null, `fill = 0` or slot `fill - 1` is
non-null, and a non-null slot `i` is a pennant of rank `i` of full blocks. -/
structure Inv (b : Bag T) : Prop where
  slots : b.bag.length = BAG_SIZE
  block : ∃ f, b.filling = some f ∧ f.length = BLK_SIZE
  size_lt : b.size < BLK_SIZE
  fill_le : b.fill ≤ BAG_SIZE
  above : ∀ i, b.fill ≤ i → i < BAG_SIZE → b.bag[i]? = some Pennant.null
  top : b.fill = 0 ∨ ∃ p, b.bag[b.fill - 1]? = some p ∧ p ≠ Pennant.null
  rank : ∀ i p, b.bag[i]? = some p → p ≠ Pennant.null →
    Pennant.IsPennant i p ∧ Pennant.FullBlocks p

end Bag

/-! ## Sums over slots, and the weak form of the bag invariants -/

/-- Sum of `f` over the slots `l[i .. n)`; a slot outside the array counts as
null. -/
def wsum {T M : Type} [AddCommMonoid M] (f : Pennant T → M) (l : List (Pennant T))
    (i n : Nat) : M :=
  ∑ j in Finset.Ico i n, f (l.getD j Pennant.null)

/-- A slot of index `i` is null or a pennant of rank `i` made of full blocks. -/
def SlotOK {T : Type} (i : Nat) (p : Pennant T) : Prop :=
  p = Pennant.null ∨ (Pennant.IsPennant i p ∧ Pennant.FullBlocks p)

namespace Bag

variable {T : Type}

/-- The part of the bag invariants that speaks of the slots below `fill` only:
array sizes, `size < BLK_SIZE`, `fill ≤ BAG_SIZE`, and every slot `i < fill` is
null or a pennant of rank `i` made of full blocks. -/
structure WF (b : Bag T) : Prop where
  slots : b.bag.length = BAG_SIZE
  block : ∃ f, b.filling = some f ∧ f.length = BLK_SIZE
  size_lt : b.size < BLK_SIZE
  fill_le : b.fill ≤ BAG_SIZE
  rank : ∀ i p, i < b.fill → b.bag[i]? = some p → SlotOK i p

/-- The invariant `fill == 0` or `bag[fill - 1]` is non-null. -/
def Top (b : Bag T) : Prop :=
  b.fill = 0 ∨ ∃ p, b.bag[b.fill - 1]? = some p ∧ p ≠ Pennant.null

/-- The invariant that every slot at or above `fill` is null. -/
def Above (b : Bag T) : Prop :=
  ∀ i, b.fill ≤ i → i < BAG_SIZE → b.bag[i]? = some Pennant.null

end Bag

namespace Bag

variable {T : Type}

/-- Inserting the elements of a list one by one, first element first. -/
def insertAll [Inhabited T] (b : Bag T) : List T → Option (Bag T)
  | [] => some b
  | x :: xs =>
    match b.insert x with
    | none => none
    | some b' => insertAll b' xs

/-- A bag of natural numbers as the constructor leaves it, with null slots and
a filling block of zeros. -/
def fresh : Bag Nat := Bag.new (List.replicate BAG_SIZE Pennant.null) (List.replicate BLK_SIZE 0)

end Bag

namespace Bag

/-- A bag of natural numbers holding one full block of zeros in slot 0 and
nothing else. -/
def oneBlock : Bag Nat :=
  { fill := 1
    bag := Pennant.ofBlock (List.replicate BLK_SIZE 0) :: List.replicate (BAG_SIZE - 1) Pennant.null
    filling := some (List.replicate BLK_SIZE 0)
    size := 0 }

end Bag

/-! ## Graphs and the serial breadth-first search -/

/-- `UINT_MAX` for a 32-bit `unsigned int`. -/
def UINT_MAX : Nat := 2 ^ 32 - 1

/-- The fields of `Graph`: the CSR arrays `nodes` (offsets) and `edges`
(neighbour ids) with their sizes. The claims below only concern graphs whose
array entries are non-negative, so the `int` entries are natural numbers. -/
structure Graph where
  nNodes : Nat
  nEdges : Nat
  nodes : List Nat
  edges : List Nat

/-- Well-formed CSR graph: `nodes` has `nNodes + 1` entries, is non-decreasing,
starts at 0 and ends at `nEdges`; `edges` has `nEdges` entries, all below
`nNodes`; and `nNodes < 2 ^ 32 - 1`. -/
structure Graph.WellFormed (G : Graph) : Prop where
  nodes_len : G.nodes.length = G.nNodes + 1
  edges_len : G.edges.length = G.nEdges
  nodes_zero : G.nodes[0]? = some 0
  nodes_last : G.nodes[G.nNodes]? = some G.nEdges
  nodes_mono : ∀ i j a b : Nat, i ≤ j → G.nodes[i]? = some a → G.nodes[j]? = some b → a ≤ b
  edges_lt : ∀ i e : Nat, G.edges[i]? = some e → e < G.nNodes
  nNodes_lt : G.nNodes < 2 ^ 32 - 1

/-- There is an edge from `u` to `v`: `v` occurs in `edges[nodes[u] .. nodes[u+1])`. -/
def Graph.Adj (G : Graph) (u v : Nat) : Prop :=
  ∃ a b i, G.nodes[u]? = some a ∧ G.nodes[u + 1]? = some b ∧ a ≤ i ∧ i < b ∧
    G.edges[i]? = some v

/-- `G.Walk s n v`: there is a directed path of `n` edges from `s` to `v`. -/
inductive Graph.Walk (G : Graph) (s : Nat) : Nat → Nat → Prop where
  | refl : Graph.Walk G s 0 s
  | step {n v w : Nat} : Graph.Walk G s n v → G.Adj v w → Graph.Walk G s (n + 1) w

/-- The local variables of `Graph::bfs` together with the caller's array. -/
structure BfsState where
  distances : List Nat
  queue : List Nat
  head : Nat
  tail : Nat
  current : Nat

/-- The loop `for (int i = 0; i < nNodes; ++i) distances[i] = UINT_MAX;`; the
first argument is the number of iterations left. -/
def init_distances : Nat → Nat → List Nat → Option (List Nat)
  | 0, _, ds => some ds
  | n + 1, i, ds =>
    match store ds i UINT_MAX with
    | none => none
    | some ds' => init_distances n (i + 1) ds'

/-- The loop `for (int i = edgeZero; i < edgeLast; i++)` of `Graph::bfs`; the
first argument is the number of iterations left. -/
def bfs_scan (G : Graph) (newdist : Nat) : Nat → Nat → BfsState → Option BfsState
  | 0, _, st => some st
  | n + 1, i, st =>
    match G.edges[i]? with
    | none => none
    | some edge =>
      match st.distances[edge]? with
      | none => none
      | some d =>
        if newdist < d then
          match store st.queue st.tail edge, store st.distances edge newdist with
          | some q, some ds =>
            bfs_scan G newdist n (i + 1)
              { st with queue := q, tail := (st.tail + 1) % 2 ^ 32, distances := ds }
          | _, _ => none
        else bfs_scan G newdist n (i + 1) st

/-- The body of the `do ... while` loop of `Graph::bfs`. -/
def bfs_body (G : Graph) (st : BfsState) : Option BfsState :=
  match st.distances[st.current]?, G.nodes[st.current]?, G.nodes[st.current + 1]? with
  | some d, some edgeZero, some edgeLast =>
    match bfs_scan G ((d + 1) % 2 ^ 32) (edgeLast - edgeZero) edgeZero st with
    | none => none
    | some st' =>
      match st'.queue[st'.head]? with
      | none => none
      | some cur => some { st' with current := cur, head := (st'.head + 1) % 2 ^ 32 }
  | _, _, _ => none

/-- The loop `do { ... } while (head <= tail);` of `Graph::bfs`; the first
argument bounds the number of iterations. -/
def bfs_loop (G : Graph) : Nat → BfsState → Option BfsState
  | 0, _ => none
  | fuel + 1, st =>
    match bfs_body G st with
    | none => none
    | some st' => if st'.head ≤ st'.tail then bfs_loop G fuel st' else some st'

/-- `Graph::bfs`: the returned `int` and the caller's array afterwards.
`queue0` holds the indeterminate initial cells of `new unsigned int[nNodes]`.
The loop is given `nNodes` iterations. -/
def Graph.bfs (G : Graph) (queue0 : List Nat) (s : Int) (distances : List Nat) :
    Option (Int × List Nat) :=
  if s < 0 ∨ s > (G.nNodes : Int) then some (-1, distances)
  else
    match init_distances G.nNodes 0 distances with
    | none => none
    | some ds =>
      match store ds s.toNat 0 with
      | none => none
      | some ds0 =>
        match bfs_loop G G.nNodes
            { distances := ds0, queue := queue0, head := 0, tail := 0, current := s.toNat } with
        | none => none
        | some st => some (0, st.distances)

/-- The invariant of the outer loop of `Graph::bfs`, in terms of the array `ds`
of distances, the list `L` of the nodes discovered so far in the order of their
discovery (the source, then the queue cells written so far), and the number `k`
of nodes of `L` whose edges have been scanned. -/
structure BfsInv (G : Graph) (s : Nat) (ds L : List Nat) (k : Nat) : Prop where
  len : ds.length = G.nNodes
  head : L.head? = some s
  nodup : L.Nodup
  range : ∀ v ∈ L, v < G.nNodes
  mem : ∀ v, v < G.nNodes → (ds.getD v 0 ≠ UINT_MAX ↔ v ∈ L)
  walk : ∀ v ∈ L, G.Walk s (ds.getD v 0) v
  idx : ∀ i, i < L.length → ds.getD (L.getD i 0) 0 ≤ i
  sorted : ∀ i j, i ≤ j → j < L.length → ds.getD (L.getD i 0) 0 ≤ ds.getD (L.getD j 0) 0
  done : ∀ i, i < k → i < L.length → ∀ w, G.Adj (L.getD i 0) w →
    ds.getD w 0 ≤ ds.getD (L.getD i 0) 0 + 1
  front : k < L.length → ∀ v ∈ L, ds.getD v 0 ≤ ds.getD (L.getD k 0) 0 + 1

/-- The invariant of the inner loop of `Graph::bfs` while the edges
`edges[lo .. i)` of the node `L[k]` have been scanned with the value `nd` of
`newdist`. -/
structure ScanInv (G : Graph) (s : Nat) (ds L : List Nat) (k nd lo i : Nat)
    extends BfsInv G s ds L k : Prop where
  cur : k < L.length
  nd_eq : ds.getD (L.getD k 0) 0 + 1 = nd
  bound : ∀ v ∈ L, ds.getD v 0 ≤ nd
  part : ∀ j e, lo ≤ j → j < i → G.edges[j]? = some e → ds.getD e 0 ≤ nd

/-- The queue of a state of `Graph::bfs` holds the discovered nodes `L` other
than the source in its first `tail` cells. -/
def QRel (G : Graph) (s : Nat) (st : BfsState) (L : List Nat) : Prop :=
  st.queue.length = G.nNodes ∧ st.tail < G.nNodes ∧ L = s :: st.queue.take st.tail

/-- The path `0 — 1 — 2` as a CSR graph. -/
def pathGraph : Graph :=
  { nNodes := 3, nEdges := 4, nodes := [0, 1, 3, 4], edges := [1, 0, 2, 1] }

/-! ## The parallel breadth-first search, in its serial elision

`cilk_spawn f(x)` is the call `f(x)`, `cilk_for` is `for`, `cilk_scope` is a
block, and each reducer `Bag_red<int>` is a single bag. -/

/-- Grain of the parallel loops (`#define THRESHOLD 256`). -/
def THRESHOLD : Nat := 256

/-- What the walkers of `pbfs` update: the bag `next` and the caller's array. -/
structure PbfsState where
  next : Bag Nat
  distances : List Nat

/-- The loop `for (int i = localEdgeZero; i < localEdgeLast; ++i)` of
`pbfs_proc_Node` (with `PARALLEL_EDGES` false); the first argument is the number
of iterations left. -/
def pbfs_proc_edges (G : Graph) (newdist : Nat) : Nat → Nat → PbfsState → Option PbfsState
  | 0, _, st => some st
  | n + 1, i, st =>
    match G.edges[i]? with
    | none => none
    | some edge =>
      match st.distances[edge]? with
      | none => none
      | some d =>
        if newdist < d then
          match st.next.insert edge, store st.distances edge newdist with
          | some nx, some ds =>
            pbfs_proc_edges G newdist n (i + 1) { next := nx, distances := ds }
          | _, _ => none
        else pbfs_proc_edges G newdist n (i + 1) st

/-- The call `pbfs_proc_Node(n + off, fillSize, next, newdist, distances, nodes, edges)`:
the loop `for (int j = 0; j < fillSize; ++j)`, whose number of iterations left
is the first numeric argument after `newdist` and whose `j` is the second. -/
def pbfs_proc_Node (G : Graph) (n : List Nat) (off newdist : Nat) :
    Nat → Nat → PbfsState → Option PbfsState
  | 0, _, st => some st
  | cnt + 1, j, st =>
    match n[off + j]? with
    | none => none
    | some u =>
      match G.nodes[u]?, G.nodes[u + 1]? with
      | some edgeZero, some edgeLast =>
        match pbfs_proc_edges G newdist (edgeLast - edgeZero) edgeZero st with
        | none => none
        | some st' => pbfs_proc_Node G n off newdist cnt (j + 1) st'
      | _, _ => none

/-- The loops `for (int i = 0; i < limit; i += THRESHOLD)
pbfs_proc_Node(n + i, THRESHOLD, ...)`; the first numeric argument after
`newdist` is the number of iterations left. -/
def pbfs_slices (G : Graph) (n : List Nat) (newdist : Nat) :
    Nat → Nat → PbfsState → Option PbfsState
  | 0, _, st => some st
  | cnt + 1, i, st =>
    match pbfs_proc_Node G n i newdist THRESHOLD 0 st with
    | none => none
    | some st' => pbfs_slices G n newdist cnt (i + THRESHOLD) st'

/-- `Graph::pbfs_walk_Pennant`. -/
def Graph.pbfs_walk_Pennant (G : Graph) (newdist : Nat) :
    Pennant Nat → PbfsState → Option PbfsState
  | Pennant.null, _ => none
  | Pennant.node els l r, st =>
    match (if l.isNull then some st else Graph.pbfs_walk_Pennant G newdist l st) with
    | none => none
    | some st1 =>
      match (if r.isNull then some st1 else Graph.pbfs_walk_Pennant G newdist r st1) with
      | none => none
      | some st2 =>
        pbfs_slices G els newdist ((BLK_SIZE + THRESHOLD - 1) / THRESHOLD) 0 st2

/-- `Graph::pbfs_walk_Bag`: the bag `b` and the state afterwards. The first
numeric argument bounds the depth of the recursion. -/
def Graph.pbfs_walk_Bag (G : Graph) (newdist : Nat) :
    Nat → Bag Nat → PbfsState → Option (Bag Nat × PbfsState)
  | 0, _, _ => none
  | fuel + 1, b, st =>
    if b.getFill > 0 then
      match b.split with
      | none => none
      | some (b', p, _) =>
        match Graph.pbfs_walk_Pennant G newdist p st with
        | none => none
        | some st' => Graph.pbfs_walk_Bag G newdist fuel b' st'
    else
      match b.getFilling with
      | none => none
      | some n =>
        match pbfs_proc_Node G n (b.getFillingSize - b.getFillingSize % THRESHOLD) newdist
            (b.getFillingSize % THRESHOLD) 0 st with
        | none => none
        | some st1 =>
          (pbfs_slices G n newdist
              ((b.getFillingSize - b.getFillingSize % THRESHOLD + THRESHOLD - 1) / THRESHOLD)
              0 st1).map fun st2 => (b, st2)

/-- The loop `for (int i = nodes[s]; i < nodes[s + 1]; ++i)` of `Graph::pbfs`
that seeds the first frontier; the first numeric argument is the number of
iterations left. -/
def pbfs_seed (G : Graph) (s : Nat) : Nat → Nat → PbfsState → Option PbfsState
  | 0, _, st => some st
  | n + 1, i, st =>
    match G.edges[i]? with
    | none => none
    | some e =>
      if e ≠ s then
        match st.next.insert e, store st.distances e 1 with
        | some nx, some ds => pbfs_seed G s n (i + 1) { next := nx, distances := ds }
        | _, _ => none
      else pbfs_seed G s n (i + 1) st

/-- The variables of the `while` loop of `Graph::pbfs`: the bag `queue[queuei]`,
the bag `queue[!queuei]`, the caller's array and `newdist`. -/
structure PbfsLoop where
  cur : Bag Nat
  other : Bag Nat
  distances : List Nat
  newdist : Nat

/-- The loop `while (!(queue[queuei]->isEmpty())) { ... }` of `Graph::pbfs`; the
first argument bounds the number of iterations. -/
def pbfs_loop (G : Graph) : Nat → PbfsLoop → Option PbfsLoop
  | 0, st => if st.cur.isEmpty then some st else none
  | fuel + 1, st =>
    if st.cur.isEmpty then some st
    else
      match Graph.pbfs_walk_Bag G st.newdist (st.cur.getFill + 1) st.cur
          { next := st.other.clear, distances := st.distances } with
      | none => none
      | some (b, st') =>
        pbfs_loop G fuel
          { cur := st'.next, other := b, distances := st'.distances,
            newdist := (st.newdist + 1) % 2 ^ 32 }

/-- `Graph::pbfs`: the returned `int` and the caller's array afterwards. The
bags `b1` and `b2` are the two views as their constructor leaves them. The loop
is given `nNodes` iterations. -/
def Graph.pbfs (G : Graph) (b1 b2 : Bag Nat) (s : Int) (distances : List Nat) :
    Option (Int × List Nat) :=
  if s < 0 ∨ s > (G.nNodes : Int) then some (-1, distances)
  else
    match init_distances G.nNodes 0 distances with
    | none => none
    | some ds =>
      match store ds s.toNat 0, G.nodes[s.toNat]?, G.nodes[s.toNat + 1]? with
      | some ds0, some lo, some hi =>
        match pbfs_seed G s.toNat (hi - lo) lo { next := b2, distances := ds0 } with
        | none => none
        | some st =>
          match pbfs_loop G G.nNodes
              { cur := st.next, other := b1, distances := st.distances, newdist := 2 } with
          | none => none
          | some fin => some (0, fin.distances)
      | _, _, _ => none

/-- During a level of `pbfs` at distance `d`, a cell of the array either keeps
its value or drops from a value above `d` to `d`. -/
def DStep (d : Nat) (ds ds' : List Nat) : Prop :=
  ∀ v, ds'.getD v 0 = ds.getD v 0 ∨ (d < ds.getD v 0 ∧ ds'.getD v 0 = d)

/-- Every neighbour of `u` has a distance of at most `d` in `ds`. -/
def Closed (G : Graph) (d : Nat) (ds : List Nat) (u : Nat) : Prop :=
  ∀ w, G.Adj u w → ds.getD w 0 ≤ d

/-- The relation between the state `st0` at the start of a level of `pbfs` at
distance `d` and a later state `st` of the same level: the nodes `A` whose cell
changed are distinct, each is a neighbour of a frontier node and now has
distance `d`, and they are exactly what `next` gained. -/
structure LevelRel (G : Graph) (d : Nat) (Fr : Nat → Prop) (st0 st : PbfsState) : Prop where
  len : st.distances.length = G.nNodes
  wf : st.next.WF
  top : st.next.Top
  step : DStep d st0.distances st.distances
  added : ∃ A : List Nat, A.Nodup ∧
    (∀ v ∈ A, v < G.nNodes ∧ d < st0.distances.getD v 0 ∧ st.distances.getD v 0 = d ∧
      ∃ u, Fr u ∧ G.Adj u v) ∧
    st.next.elems = st0.next.elems + (A : Multiset Nat) ∧
    (∀ v, st.distances.getD v 0 ≠ st0.distances.getD v 0 → v ∈ A)

/-- A bag that `pbfs_walk_Bag` can traverse: `fill` is within the array, the top
slot is non-null, the non-null slots below `fill` are trees of full blocks, the
filling holds `size` cells, and every element satisfies `Fr`. -/
def BagOK (Fr : Nat → Prop) (b : Bag Nat) : Prop :=
  b.fill ≤ b.bag.length ∧ b.Top ∧
    (∀ i p, i < b.fill → b.bag[i]? = some p → p ≠ Pennant.null →
      p.FullBlocks ∧ ∀ e ∈ p.blocks, ∀ u ∈ e, Fr u) ∧
    ∃ f, b.filling = some f ∧ b.size ≤ f.length ∧ ∀ k, k < b.size → ∃ u, f[k]? = some u ∧ Fr u

/-- Every element of the bag `b` has all its neighbours at distance at most `d`
in `ds`. -/
def BagClosed (G : Graph) (d : Nat) (ds : List Nat) (b : Bag Nat) : Prop :=
  (∀ i p, i < b.fill → b.bag[i]? = some p → ∀ e ∈ p.blocks, ∀ u ∈ e, Closed G d ds u) ∧
    ∀ f, b.filling = some f → ∀ k u, k < b.size → f[k]? = some u → Closed G d ds u

/-- The storage of a bag as its constructor allocates it: `BAG_SIZE` slots and
a filling block of `BLK_SIZE` cells. -/
def Bag.Alloc (b : Bag Nat) : Prop :=
  b.bag.length = BAG_SIZE ∧ ∃ f, b.filling = some f ∧ f.length = BLK_SIZE

/-- The invariant of the `while` loop of `Graph::pbfs` when `newdist` is `d` and
`queue[queuei]` is `cur`: the cells below `d` are settled shortest distances,
every node at distance less than `d` from `s` is settled, `cur` holds exactly
the nodes at distance `d - 1`, and the neighbours of a node settled below
`d - 1` are at most one step further. -/
structure PbfsInv (G : Graph) (s d : Nat) (cur : Bag Nat) (ds : List Nat) : Prop where
  len : ds.length = G.nNodes
  d_ge : 2 ≤ d
  d_le : d ≤ G.nNodes + 1
  wf : cur.WF
  top : cur.Top
  sound : ∀ v, v < G.nNodes → ds.getD v 0 ≠ UINT_MAX →
    ds.getD v 0 < d ∧ G.Walk s (ds.getD v 0) v
  complete : ∀ n v, G.Walk s n v → n < d → ds.getD v 0 ≤ n
  frontier : ∀ v, v ∈ cur.elems ↔ (v < G.nNodes ∧ ds.getD v 0 = d - 1)
  closed : ∀ u, u < G.nNodes → ds.getD u 0 + 1 < d → Closed G (ds.getD u 0 + 1) ds u

/-- The invariant of the seeding loop of `Graph::pbfs` after the edges
`edges[lo .. i)` of the source: `next` holds the heads other than `s` of these
edges, their cells are 1, the cell of `s` is 0, and every other cell is
`UINT_MAX`. -/
structure SeedInv (G : Graph) (s lo i : Nat) (st : PbfsState) : Prop where
  len : st.distances.length = G.nNodes
  wf : st.next.WF
  top : st.next.Top
  card : Multiset.card st.next.elems ≤ i - lo
  mem : ∀ v, v ∈ st.next.elems ↔ (v ≠ s ∧ ∃ j, lo ≤ j ∧ j < i ∧ G.edges[j]? = some v)
  src : st.distances.getD s 0 = 0
  one : ∀ v, v ∈ st.next.elems → st.distances.getD v 0 = 1
  rest : ∀ v, v < G.nNodes → v ≠ s → v ∉ st.next.elems → st.distances.getD v 0 = UINT_MAX

/-! ## Reachable states of a bag -/

/-- The states of a bag reachable from a newly constructed bag by any sequence
of `insert`, `merge` (with another reachable bag that no `merge` has consumed),
`split` and `clear`. -/
inductive Bag.Reach {T : Type} [Inhabited T] : Bag T → Prop where
  | new (slots : List (Pennant T)) (blk : List T) :
    slots.length = BAG_SIZE → blk.length = BLK_SIZE → Bag.Reach (Bag.new slots blk)
  | insert {b b' : Bag T} (el : T) : Bag.Reach b → b.insert el = some b' → Bag.Reach b'
  | merge {a b a' b' : Bag T} :
    Bag.Reach a → Bag.Reach b → a.merge b = some (a', b') → Bag.Reach a'
  | split {b b' : Bag T} {p : Pennant T} {ret : Bool} :
    Bag.Reach b → b.split = some (b', p, ret) → Bag.Reach b'
  | clear {b : Bag T} : Bag.Reach b → Bag.Reach b.clear

/-- The states of a bag reachable as in `Bag.Reach` without saturating the
pennant array: an `insert` is made only when the elements afterwards are fewer
than `BLK_SIZE * 2 ^ BAG_SIZE`, and a `merge` only when the full blocks of the
two bags (with the block that the two fillings make up, if they do) are fewer
than `2 ^ BAG_SIZE`, so that no carry leaves the last slot. -/
inductive Bag.ReachUnsat {T : Type} [Inhabited T] : Bag T → Prop where
  | new (slots : List (Pennant T)) (blk : List T) :
    slots.length = BAG_SIZE → blk.length = BLK_SIZE → Bag.ReachUnsat (Bag.new slots blk)
  | insert {b b' : Bag T} (el : T) : Bag.ReachUnsat b →
    Multiset.card b.elems + 1 < BLK_SIZE * 2 ^ BAG_SIZE → b.insert el = some b' →
    Bag.ReachUnsat b'
  | merge {a b a' b' : Bag T} : Bag.ReachUnsat a → Bag.ReachUnsat b →
    a.numBlocks + b.numBlocks + (a.size + b.size) / BLK_SIZE < 2 ^ BAG_SIZE →
    a.merge b = some (a', b') → Bag.ReachUnsat a'
  | split {b b' : Bag T} {p : Pennant T} {ret : Bool} :
    Bag.ReachUnsat b → b.split = some (b', p, ret) → Bag.ReachUnsat b'
  | clear {b : Bag T} : Bag.ReachUnsat b → Bag.ReachUnsat b.clear

/-- The states of a bag reachable from a newly constructed bag whose slot array
happens to be all null, by `insert`, `merge` with any other bag, `split`, and
`clear` on a bag whose slots below `fill` are all null (for instance a bag with
`fill == 0`). -/
inductive Bag.ReachNull {T : Type} [Inhabited T] : Bag T → Prop where
  | new (blk : List T) : blk.length = BLK_SIZE →
    Bag.ReachNull (Bag.new (List.replicate BAG_SIZE Pennant.null) blk)
  | insert {b b' : Bag T} (el : T) : Bag.ReachNull b → b.insert el = some b' →
    Bag.ReachNull b'
  | merge {a b a' b' : Bag T} :
    Bag.ReachNull a → a.merge b = some (a', b') → Bag.ReachNull a'
  | split {b b' : Bag T} {p : Pennant T} {ret : Bool} :
    Bag.ReachNull b → b.split = some (b', p, ret) → Bag.ReachNull b'
  | clear {b : Bag T} : Bag.ReachNull b →
    (∀ i p, i < b.fill → b.bag[i]? = some p → p = Pennant.null) → Bag.ReachNull b.clear

/-! ## Counting the elements of a bag -/

/-- The loop `for (uint32_t i = 0; i < this->fill; i++) { if (this->bag[i] !=
NULL) count += k * BLK_SIZE; k = k * 2; }` of `Bag<T>::numElements`, in
`uint32_t` arithmetic; the first argument is the number of iterations left, then
come `i`, `k` and `count`. -/
def Bag.numElements_loop {T : Type} (bag : List (Pennant T)) :
    Nat → Nat → Nat → Nat → Option Nat
  | 0, _, _, count => some count
  | n + 1, i, k, count =>
    match bag[i]? with
    | none => none
    | some p =>
      Bag.numElements_loop bag n (i + 1) ((k * 2) % 2 ^ 32)
        (if p.isNull then count else (count + (k * BLK_SIZE) % 2 ^ 32) % 2 ^ 32)

/-- `Bag<T>::numElements`. -/
def Bag.numElements {T : Type} (b : Bag T) : Option Nat :=
  Bag.numElements_loop b.bag b.fill 0 1 b.size

/-- The element count of the data model, as a natural number:
`size + Σ [bag[i] non-null] · 2^i · BLK_SIZE` over the slots below `fill`. -/
def Bag.countSpec {T : Type} (b : Bag T) : Nat :=
  b.size + ∑ i in Finset.range b.fill,
    if (b.bag.getD i Pennant.null).isNull then 0 else 2 ^ i * BLK_SIZE

/-- Complete binary tree of height `h` all of whose blocks are `e`. -/
def Pennant.completeOf {T : Type} (e : List T) : Nat → Pennant T
  | 0 => Pennant.null
  | h + 1 => Pennant.node e (Pennant.completeOf e h) (Pennant.completeOf e h)

/-- Pennant of rank `k` all of whose blocks are `e`. -/
def Pennant.fullOf {T : Type} (e : List T) (k : Nat) : Pennant T :=
  Pennant.node e (Pennant.completeOf e k) Pennant.null

/-- A bag with an empty filling and a single pennant, of rank 21, in slot 21:
it holds `2 ^ 21 * BLK_SIZE = 2 ^ 32` elements. -/
def Bag.rank21 : Bag Nat :=
  { fill := 22
    bag := List.replicate 21 Pennant.null ++
      Pennant.fullOf (List.replicate BLK_SIZE 0) 21 :: List.replicate 42 Pennant.null
    filling := some (List.replicate BLK_SIZE 0)
    size := 0 }

/-- A bag with no pennants whose filling holds `BLK_SIZE / 2 + 1` elements. -/
def Bag.halfFull : Bag Nat :=
  { fill := 0
    bag := List.replicate BAG_SIZE Pennant.null
    filling := some (List.replicate BLK_SIZE 0)
    size := BLK_SIZE / 2 + 1 }

/-! ## The construction of a graph from coordinate input

`Graph::Graph(int *ir, int *jc, int m, int n, int nnz)`. The entries of `ir` and
`jc` are integers; the sizes `m`, `n`, `nnz` are natural numbers. The counters
in `w` and the offsets in `nodes` never exceed `jc[n]`, itself an `int`, so they
are natural numbers without wrap-around. The cells of `new int[...]` are
indeterminate: the initial arrays are arguments. -/

/-- The loop `for (int i = 0; i < m; ++i) w[i] = 0;`; the first argument is the
number of iterations left. -/
def Graph.new_zero : Nat → Nat → List Nat → Option (List Nat)
  | 0, _, w => some w
  | k + 1, i, w =>
    match store w i 0 with
    | none => none
    | some w' => Graph.new_zero k (i + 1) w'

/-- The loop `for (int i = 0; i < jc[n]; ++i) w[ir[i]]++;`; the first argument is
the number of iterations left. -/
def Graph.new_count (ir : List Int) : Nat → Nat → List Nat → Option (List Nat)
  | 0, _, w => some w
  | k + 1, i, w =>
    match ir[i]? with
    | none => none
    | some r =>
      if r < 0 then none
      else
        match w[r.toNat]? with
        | none => none
        | some c => Graph.new_count ir k (i + 1) (w.set r.toNat (c + 1))

/-- The loop `for (int i = 0; i < m; ++i) { prev = w[i]; w[i] = tempnz;
tempnz += prev; }`: the array `w` and `tempnz` afterwards; the first argument is
the number of iterations left. -/
def Graph.new_prefix : Nat → Nat → List Nat → Nat → Option (List Nat × Nat)
  | 0, _, w, tempnz => some (w, tempnz)
  | k + 1, i, w, tempnz =>
    match w[i]? with
    | none => none
    | some prev => Graph.new_prefix k (i + 1) (w.set i tempnz) (tempnz + prev)

/-- The loop `for (int i = 0; i < m; ++i) this->nodes[i] = w[i];`; the first
argument is the number of iterations left. -/
def Graph.new_copy (w : List Nat) : Nat → Nat → List Nat → Option (List Nat)
  | 0, _, nodes => some nodes
  | k + 1, i, nodes =>
    match w[i]? with
    | none => none
    | some x =>
      match store nodes i x with
      | none => none
      | some nodes' => Graph.new_copy w k (i + 1) nodes'

/-- The loop `for (int j = jc[i]; j < jc[i + 1]; j++) this->edges[w[ir[j]]++] = i;`
for the column `col`: the arrays `w` and `edges` afterwards; the first argument
is the number of iterations left, the second is `j`. -/
def Graph.new_scatter_col (ir : List Int) (col : Nat) :
    Nat → Int → List Nat → List Nat → Option (List Nat × List Nat)
  | 0, _, w, edges => some (w, edges)
  | k + 1, j, w, edges =>
    if j < 0 then none
    else
      match ir[j.toNat]? with
      | none => none
      | some r =>
        if r < 0 then none
        else
          match w[r.toNat]? with
          | none => none
          | some pos =>
            match store edges pos col with
            | none => none
            | some edges' =>
              Graph.new_scatter_col ir col k (j + 1) (w.set r.toNat (pos + 1)) edges'

/-- The loop `for (int i = 0; i < n; ++i) { for (int j = jc[i]; j < jc[i + 1];
j++) ... }`; the first argument is the number of iterations left. -/
def Graph.new_scatter (ir jc : List Int) :
    Nat → Nat → List Nat → List Nat → Option (List Nat × List Nat)
  | 0, _, w, edges => some (w, edges)
  | k + 1, i, w, edges =>
    match jc[i]?, jc[i + 1]? with
    | some lo, some hi =>
      match Graph.new_scatter_col ir i (hi - lo).toNat lo w edges with
      | none => none
      | some (w', edges') => Graph.new_scatter ir jc k (i + 1) w' edges'
    | _, _ => none

/-- `Graph::Graph(ir, jc, m, n, nnz)`: the constructed graph. `nodes0`, `edges0`
and `w0` are the indeterminate initial cells of `new int[m + 1]`,
`new int[nnz]` and `new int[m]`. -/
def Graph.new (ir jc : List Int) (m n nnz : Nat) (nodes0 edges0 w0 : List Nat) :
    Option Graph :=
  match Graph.new_zero m 0 w0, jc[n]? with
  | some w1, some tot =>
    match Graph.new_count ir tot.toNat 0 w1 with
    | none => none
    | some w2 =>
      match Graph.new_prefix m 0 w2 0 with
      | none => none
      | some (w3, tempnz) =>
        match store nodes0 m tempnz with
        | none => none
        | some nodes1 =>
          match Graph.new_copy w3 m 0 nodes1 with
          | none => none
          | some nodes2 =>
            match Graph.new_scatter ir jc n 0 w3 edges0 with
            | none => none
            | some (_, edges1) =>
              some { nNodes := m, nEdges := nnz, nodes := nodes2, edges := edges1 }
  | _, _ => none

/-- A bag with no pennants whose filling holds 1000 ones. -/
def Bag.ones1000 : Bag Nat :=
  { fill := 0
    bag := List.replicate BAG_SIZE Pennant.null
    filling := some (List.replicate BLK_SIZE 1)
    size := 1000 }

/-- A bag with no pennants whose filling holds 1500 twos. -/
def Bag.twos1500 : Bag Nat :=
  { fill := 0
    bag := List.replicate BAG_SIZE Pennant.null
    filling := some (List.replicate BLK_SIZE 2)
    size := 1500 }

/-- The loop `for (int i = pos - 1; i >= 0; i--) { if (this->bag[i] != NULL)
return i; } return -1;` of the indexed `split`; the argument is `i + 1`. -/
def Bag.split_pos_scan {T : Type} (bag : List (Pennant T)) : Nat → Option Int
  | 0 => some (-1)
  | i + 1 =>
    match bag[i]? with
    | none => none
    | some p => if p.isNull then Bag.split_pos_scan bag i else some (i : Int)

/-- `Bag<T>::split(Pennant<T> **p, int pos)`: the bag afterwards, the pointer
stored in `*p`, and the returned `int`. In `this->fill <= pos` the `int` is
converted to `uint32_t`, which for `pos ≥ 0` changes nothing; `this->fill - 1`
is computed in `uint32_t` and converted to `int`. -/
def Bag.split_pos {T : Type} (b : Bag T) (pos : Int) : Option (Bag T × Pennant T × Int) :=
  if pos < 0 ∨ (b.fill : Int) ≤ pos then
    some (b, Pennant.null, toInt32 (u32 ((b.fill : Int) - 1)))
  else
    match b.bag[pos.toNat]? with
    | none => none
    | some p => (Bag.split_pos_scan b.bag pos.toNat).map fun r => (b, p, r)

/-! ## The slices that the walkers of `pbfs` hand to `pbfs_proc_Node` -/

/-- The arguments of a call `pbfs_proc_Node(n + off, cnt, ...)`: the array, the
offset of the slice in it, and the number of cells of the slice. -/
structure PbfsCall where
  n : List Nat
  off : Nat
  cnt : Nat

/-- The cells `n[off .. off + cnt)` that the call reads. -/
def PbfsCall.cells (c : PbfsCall) : List Nat := (c.n.drop c.off).take c.cnt

/-- Making the calls of a list one after the other, each as the code makes it:
`pbfs_proc_Node(n + off, cnt, next, newdist, distances, nodes, edges)`. -/
def Graph.pbfs_run_calls (G : Graph) (newdist : Nat) :
    List PbfsCall → PbfsState → Option PbfsState
  | [], st => some st
  | c :: cs, st =>
    match pbfs_proc_Node G c.n c.off newdist c.cnt 0 st with
    | none => none
    | some st' => Graph.pbfs_run_calls G newdist cs st'

/-- The slices that the claim describes for one array: `cnt` slices of
`THRESHOLD` cells starting at `i`, `i + THRESHOLD`, ... -/
def sliceCallsSpec (n : List Nat) : Nat → Nat → List PbfsCall
  | 0, _ => []
  | cnt + 1, i => { n := n, off := i, cnt := THRESHOLD } :: sliceCallsSpec n cnt (i + THRESHOLD)

/-- The slices that the claim describes for a pennant: the left subtree, the
right subtree, then `BLK_SIZE / THRESHOLD` slices of the block of the root. -/
def Pennant.callsSpec : Pennant Nat → List PbfsCall
  | Pennant.null => []
  | Pennant.node e l r =>
    Pennant.callsSpec l ++ (Pennant.callsSpec r ++ sliceCallsSpec e (BLK_SIZE / THRESHOLD) 0)

/-- The slices that the claim describes for a bag: those of the pennants in the
non-null slots from the top down, then for the filling the trailing slice of
`size % THRESHOLD` cells starting at `size - size % THRESHOLD` and
`size / THRESHOLD` slices of `THRESHOLD` cells starting at the multiples of
`THRESHOLD`. -/
def Bag.callsSpec (b : Bag Nat) : List PbfsCall :=
  (((b.bag.take b.fill).filter (fun p => !p.isNull)).reverse).flatMap Pennant.callsSpec ++
    ({ n := b.filling.getD [], off := b.size - b.size % THRESHOLD,
       cnt := b.size % THRESHOLD } ::
      sliceCallsSpec (b.filling.getD []) (b.size / THRESHOLD) 0)

/-! ## The iterations of the loop of `bfs` -/

/-- The loop `do { ... } while (head <= tail);` of `Graph::bfs` together with a
record of its iterations: the list of the states in which the body was entered,
in the order of the iterations, and the state in which the loop was left. The
first argument bounds the number of iterations. -/
def bfs_loop_trace (G : Graph) : Nat → BfsState → Option (List BfsState × BfsState)
  | 0, _ => none
  | fuel + 1, st =>
    match bfs_body G st with
    | none => none
    | some st' =>
      if st'.head ≤ st'.tail then
        (bfs_loop_trace G fuel st').map fun r => (st :: r.1, r.2)
      else some ([st], st')

/-- The part of `Graph::bfs` between the check of `s` and the loop: the state
in which the loop is entered. -/
def Graph.bfs_start (G : Graph) (queue0 : List Nat) (s : Nat) (distances : List Nat) :
    Option BfsState :=
  match init_distances G.nNodes 0 distances with
  | none => none
  | some ds =>
    match store ds s 0 with
    | none => none
    | some ds0 =>
      some { distances := ds0, queue := queue0, head := 0, tail := 0, current := s }

/-! ## The serial breadth-first search of the revision `bfs-icc` -/

/-- `Graph::bfs` of `bfs-icc/graph.cpp`: the same statements as `Graph::bfs`,
except that the loop `for (int i = 0; i < nNodes; ++i) distances[i] = UINT_MAX;`
stands before the check `if (s < 0 || s > nNodes) return -1;`. -/
def Graph.bfs_icc (G : Graph) (queue0 : List Nat) (s : Int) (distances : List Nat) :
    Option (Int × List Nat) :=
  match init_distances G.nNodes 0 distances with
  | none => none
  | some ds =>
    if s < 0 ∨ s > (G.nNodes : Int) then some (-1, ds)
    else
      match store ds s.toNat 0 with
      | none => none
      | some ds0 =>
        match bfs_loop G G.nNodes
            { distances := ds0, queue := queue0, head := 0, tail := 0, current := s.toNat } with
        | none => none
        | some st => some (0, st.distances)

/-! ## The bag of the archival revision `bfs-cilk++` -/

namespace Archival

/-- `BAG_SIZE` of `bfs-cilk++/bag.h`. -/
def BAG_SIZE : Nat := 64

/-- `BLK_SIZE` of `bfs-cilk++/bag.h`. -/
def BLK_SIZE : Nat := 128

/-- The fields of `Bag<T>` of `bfs-cilk++/bag.h`: `fill`, the pennant array
`bag`, the pointer `filling` to a pennant, and `size`. -/
structure Bag (T : Type) where
  fill : Nat
  bag : List (Pennant T)
  filling : Pennant T
  size : Nat

namespace Bag

variable {T : Type}

/-- `Bag<T>::Bag()` of `bfs-cilk++/bag.cpp`: `fill` and `size` are zero;
`new Pennant<T>*[BAG_SIZE]` and the `new T[BLK_SIZE]` of `new Pennant<T>()`
leave their cells indeterminate, so the initial cells `slots` and `blk` are
arguments. -/
def new (slots : List (Pennant T)) (blk : List T) : Bag T :=
  { fill := 0, bag := slots, filling := Pennant.ofBlock blk, size := 0 }

/-- The loop of `Bag<T>::insert` of `bfs-cilk++/bag.cpp`:
`do { switch(i < this->fill && this->bag[i] != NULL) { case false: this->bag[i] = c;
this->fill = this->fill > i+1 ? this->fill : i+1; return; case true:
c = this->bag[i]->combine(c); this->bag[i] = NULL; break; } ++i; }
while (i < BAG_SIZE); this->fill = BAG_SIZE;`. The first argument bounds the
number of iterations. -/
def insert_loop : Nat → Nat → Pennant T → Bag T → Option (Bag T)
  | 0, _, _, _ => none
  | fuel + 1, i, c, b =>
    match (if i < b.fill then b.bag[i]? else some Pennant.null) with
    | none => none
    | some p =>
      if p.isNull then
        match store b.bag i c with
        | none => none
        | some bag' => some { b with bag := bag', fill := if b.fill > i + 1 then b.fill else i + 1 }
      else
        match p.combine c, store b.bag i Pennant.null with
        | some c', some bag' =>
          if i + 1 < BAG_SIZE then insert_loop fuel (i + 1) c' { b with bag := bag' }
          else some { b with bag := bag', fill := BAG_SIZE }
        | _, _ => none

/-- `Bag<T>::insert` of `bfs-cilk++/bag.cpp`:
`if (this->size < BLK_SIZE) { this->filling->els[this->size++] = el; return; }
Pennant<T> *c = this->filling; this->filling = new Pennant<T>();
this->filling->els[0] = el; this->size = 1;` followed by the loop. The block of
the fresh pennant is filled with `default`. -/
def insert [Inhabited T] (b : Bag T) (el : T) : Option (Bag T) :=
  if b.size < BLK_SIZE then
    match b.filling with
    | Pennant.null => none
    | Pennant.node e l r =>
      match store e b.size el with
      | none => none
      | some e' => some { b with filling := Pennant.node e' l r, size := b.size + 1 }
  else
    match store (List.replicate BLK_SIZE (default : T)) 0 el with
    | none => none
    | some e' =>
      insert_loop BAG_SIZE 0 b.filling { b with filling := Pennant.ofBlock e', size := 1 }

/-- Successive calls of `insert`, one for each element of the list. -/
def insertAll [Inhabited T] (b : Bag T) : List T → Option (Bag T)
  | [] => some b
  | x :: xs =>
    match b.insert x with
    | none => none
    | some b' => insertAll b' xs

/-- The states reachable from a newly constructed bag by `insert`. -/
inductive ReachInsert [Inhabited T] : Bag T → Prop where
  | new (slots : List (Pennant T)) (blk : List T) :
      slots.length = BAG_SIZE → blk.length = BLK_SIZE → ReachInsert (Bag.new slots blk)
  | insert {b b' : Bag T} (el : T) : ReachInsert b → b.insert el = some b' → ReachInsert b'

/-- A newly constructed bag of `int`s whose cells all hold zero. -/
def fresh : Bag Nat :=
  Bag.new (List.replicate BAG_SIZE Pennant.null) (List.replicate BLK_SIZE 0)

end Bag

end Archival

/-! ## The stores of the scatter loop of the constructor -/

/-- The loop `for (int j = jc[i]; j < jc[i + 1]; j++) this->edges[w[ir[j]]++] = i;`
for the column `col`, together with a record of its stores to `edges`: the
arrays `w` and `edges` afterwards and the list of the pairs (index, value) of the
stores, in the order in which they are made. -/
def Graph.new_scatter_col_log (ir : List Int) (col : Nat) :
    Nat → Int → List Nat → List Nat → Option (List Nat × List Nat × List (Nat × Nat))
  | 0, _, w, edges => some (w, edges, [])
  | k + 1, j, w, edges =>
    if j < 0 then none
    else
      match ir[j.toNat]? with
      | none => none
      | some r =>
        if r < 0 then none
        else
          match w[r.toNat]? with
          | none => none
          | some pos =>
            match store edges pos col with
            | none => none
            | some edges' =>
              (Graph.new_scatter_col_log ir col k (j + 1) (w.set r.toNat (pos + 1)) edges').map
                fun x => (x.1, x.2.1, (pos, col) :: x.2.2)

/-- The scatter loop `for (int i = 0; i < n; ++i) { for (int j = jc[i];
j < jc[i + 1]; j++) ... }` together with the record of its stores to `edges`. -/
def Graph.new_scatter_log (ir jc : List Int) :
    Nat → Nat → List Nat → List Nat → Option (List Nat × List Nat × List (Nat × Nat))
  | 0, _, w, edges => some (w, edges, [])
  | k + 1, i, w, edges =>
    match jc[i]?, jc[i + 1]? with
    | some lo, some hi =>
      match Graph.new_scatter_col_log ir i (hi - lo).toNat lo w edges with
      | none => none
      | some (w', edges', log) =>
        (Graph.new_scatter_log ir jc k (i + 1) w' edges').map
          fun x => (x.1, x.2.1, log ++ x.2.2)
    | _, _ => none

/-- `Graph::Graph(ir, jc, m, n, nnz)` together with the array `w` as it is at
`delete[] w` and the record of the stores of the scatter loop to `edges`. -/
def Graph.new_log (ir jc : List Int) (m n nnz : Nat) (nodes0 edges0 w0 : List Nat) :
    Option (Graph × List Nat × List (Nat × Nat)) :=
  match Graph.new_zero m 0 w0, jc[n]? with
  | some w1, some tot =>
    match Graph.new_count ir tot.toNat 0 w1 with
    | none => none
    | some w2 =>
      match Graph.new_prefix m 0 w2 0 with
      | none => none
      | some (w3, tempnz) =>
        match store nodes0 m tempnz with
        | none => none
        | some nodes1 =>
          match Graph.new_copy w3 m 0 nodes1 with
          | none => none
          | some nodes2 =>
            match Graph.new_scatter_log ir jc n 0 w3 edges0 with
            | none => none
            | some (w4, edges1, log) =>
              some ({ nNodes := m, nEdges := nnz, nodes := nodes2, edges := edges1 }, w4, log)
  | _, _ => none

/-- The index of `edges` at which the scatter loop stores when it visits the
entry `ir[t]`, for `ir` of `N` entries: the offset of the node `ir[t]` plus the
number of earlier entries equal to `ir[t]`. -/
def Graph.scatterPos (ir : List Int) (N t : Nat) : Nat :=
  (∑ u in Finset.range (ir.getD t 0).toNat, (ir.take N).count (u : Int)) +
    (ir.take t).count (ir.getD t 0)

/-! ## The slot accesses and the `combine` calls of `insert` and `merge` -/

/-- What `insert` and `merge` do to the pennant arrays, as a record: a read of
`this->bag[i]` (`that = false`) or `that->bag[i]` (`that = true`), a store to
one of them, a call `x->combine(y)`, and reaching the statement
`this->fill = BAG_SIZE;` after a `do ... while (i < BAG_SIZE)` loop. -/
inductive BagEvent (T : Type) where
  | read (that : Bool) (i : Nat) : BagEvent T
  | write (that : Bool) (i : Nat) : BagEvent T
  | combine (x y : Pennant T) : BagEvent T
  | saturate : BagEvent T

/-- The event is harmless for bags whose `fill`s are `fa` (`this`) and `fb`
(`that`) on entry: a read is of a slot below the `fill` of its bag, a store is
to an index below `BAG_SIZE`, `combine` is called on a non-null pennant with an
argument whose root has a null right child, and `this->fill = BAG_SIZE;` is not
reached. -/
def BagEvent.Safe {T : Type} (fa fb : Nat) : BagEvent T → Prop
  | BagEvent.read false i => i < fa ∧ i < BAG_SIZE
  | BagEvent.read true i => i < fb ∧ i < BAG_SIZE
  | BagEvent.write _ i => i < BAG_SIZE
  | BagEvent.combine x y => x.isNull = false ∧ y.getRight = some Pennant.null
  | BagEvent.saturate => False

namespace Bag

variable {T : Type}

/-- The loop `Bag.carry` together with the record of its events. -/
def carry_log (lim : Nat) :
    Nat → Nat → Pennant T → Bag T → Option (Bag T × List (BagEvent T))
  | 0, _, _, _ => none
  | fuel + 1, i, c, b =>
    match (if i < lim then b.bag[i]? else some Pennant.null) with
    | none => none
    | some p =>
      if p.isNull then
        match store b.bag i c with
        | none => none
        | some bag' =>
          some ({ b with bag := bag', fill := max lim (i + 1) },
            (if i < lim then [BagEvent.read false i] else []) ++ [BagEvent.write false i])
      else
        match p.combine c, store b.bag i Pennant.null with
        | some c', some bag' =>
          if i + 1 < BAG_SIZE then
            (carry_log lim fuel (i + 1) c' { b with bag := bag' }).map fun r =>
              (r.1, (if i < lim then [BagEvent.read false i] else []) ++
                [BagEvent.read false i, BagEvent.combine p c, BagEvent.write false i] ++ r.2)
          else
            some ({ b with bag := bag', fill := BAG_SIZE },
              (if i < lim then [BagEvent.read false i] else []) ++
                [BagEvent.read false i, BagEvent.combine p c, BagEvent.write false i,
                  BagEvent.saturate])
        | _, _ => none

/-- `Bag<T>::insert` together with the record of its events. -/
def insert_log [Inhabited T] (b : Bag T) (el : T) : Option (Bag T × List (BagEvent T)) :=
  match b.filling with
  | none => none
  | some f =>
    match store f b.size el with
    | none => none
    | some f' =>
      let size' := (b.size + 1) % 2 ^ 32
      if size' < BLK_SIZE then
        some ({ b with filling := some f', size := size' }, [])
      else
        carry_log b.fill BAG_SIZE 0 (Pennant.ofBlock f')
          { b with filling := some (List.replicate BLK_SIZE default), size := 0 }

/-- One iteration of the loop `for (i = 0; i < min; ++i)` of `Bag<T>::merge`
together with the record of its events: the reads made for `x`, then the
statements of the case taken. -/
def merge_step_log (thatFill i : Nat) (ta tb : List (Pennant T)) (c : Pennant T) :
    Option (List (Pennant T) × List (Pennant T) × Pennant T × List (BagEvent T)) :=
  match ta[i]?, tb[i]? with
  | some p, some q =>
    let rd : List (BagEvent T) :=
      BagEvent.read false i :: (if i < thatFill then [BagEvent.read true i] else [])
    match !p.isNull, (decide (i < thatFill) && !q.isNull), !c.isNull with
    | false, false, false =>
      some (ta.set i Pennant.null, tb.set i Pennant.null, Pennant.null,
        rd ++ [BagEvent.write false i, BagEvent.write true i])
    | false, false, true =>
      some (ta.set i c, tb.set i Pennant.null, Pennant.null,
        rd ++ [BagEvent.write false i, BagEvent.write true i])
    | false, true, false =>
      some (ta.set i q, tb.set i Pennant.null, Pennant.null,
        rd ++ [BagEvent.read true i, BagEvent.write false i, BagEvent.write true i])
    | false, true, true =>
      (q.combine c).map fun c' => (ta.set i Pennant.null, tb.set i Pennant.null, c',
        rd ++ [BagEvent.read true i, BagEvent.combine q c, BagEvent.write true i,
          BagEvent.write false i])
    | true, false, false =>
      some (ta, tb.set i Pennant.null, Pennant.null, rd ++ [BagEvent.write true i])
    | true, false, true =>
      (p.combine c).map fun c' => (ta.set i Pennant.null, tb.set i Pennant.null, c',
        rd ++ [BagEvent.read false i, BagEvent.combine p c, BagEvent.write false i,
          BagEvent.write true i])
    | true, true, false =>
      (p.combine q).map fun c' => (ta.set i Pennant.null, tb.set i Pennant.null, c',
        rd ++ [BagEvent.read false i, BagEvent.read true i, BagEvent.combine p q,
          BagEvent.write true i, BagEvent.write false i])
    | true, true, true =>
      (q.combine c).map fun c' => (ta, tb.set i Pennant.null, c',
        rd ++ [BagEvent.read true i, BagEvent.combine q c, BagEvent.write true i])
  | _, _ => none

/-- The loop `for (i = 0; i < min; ++i)` of `Bag<T>::merge` together with the
record of its events. -/
def merge_loop_log (thatFill : Nat) :
    Nat → Nat → List (Pennant T) → List (Pennant T) → Pennant T →
      Option (List (Pennant T) × List (Pennant T) × Pennant T × List (BagEvent T))
  | 0, _, ta, tb, c => some (ta, tb, c, [])
  | n + 1, i, ta, tb, c =>
    match merge_step_log thatFill i ta tb c with
    | none => none
    | some (ta', tb', c', log) =>
      (merge_loop_log thatFill n (i + 1) ta' tb' c').map fun r =>
        (r.1, r.2.1, r.2.2.1, log ++ r.2.2.2)

/-- The loops `for (j = ...; j < this->fill; ++j) { this->bag[j] = that->bag[j];
that->bag[j] = NULL; }` of `Bag<T>::merge` together with the record of their
events. -/
def merge_move_log :
    Nat → Nat → List (Pennant T) → List (Pennant T) →
      Option (List (Pennant T) × List (Pennant T) × List (BagEvent T))
  | 0, _, ta, tb => some (ta, tb, [])
  | n + 1, j, ta, tb =>
    match tb[j]? with
    | none => none
    | some q =>
      match store ta j q, store tb j Pennant.null with
      | some ta', some tb' =>
        (merge_move_log n (j + 1) ta' tb').map fun r =>
          (r.1, r.2.1,
            [BagEvent.read true j, BagEvent.write false j, BagEvent.write true j] ++ r.2.2)
      | _, _ => none

/-- The second `do ... while (i < BAG_SIZE)` loop of `Bag<T>::merge` together
with the record of its events. -/
def merge_ripple_log (mx : Nat) :
    Nat → Nat → Pennant T → List (Pennant T) → List (Pennant T) →
      Option (List (Pennant T) × List (Pennant T) × Nat × List (BagEvent T))
  | 0, _, _, _, _ => none
  | fuel + 1, i, c, ta, tb =>
    match (if i < mx then tb[i]? else some Pennant.null) with
    | none => none
    | some q =>
      if q.isNull then
        match store ta i c with
        | none => none
        | some ta' =>
          (merge_move_log (max mx (i + 1) - (i + 1)) (i + 1) ta' tb).map
            fun r => (r.1, r.2.1, max mx (i + 1),
              (if i < mx then [BagEvent.read true i] else []) ++ [BagEvent.write false i] ++
                r.2.2)
      else
        match q.combine c, store ta i Pennant.null, store tb i Pennant.null with
        | some c', some ta', some tb' =>
          if i + 1 < BAG_SIZE then
            (merge_ripple_log mx fuel (i + 1) c' ta' tb').map fun r =>
              (r.1, r.2.1, r.2.2.1,
                (if i < mx then [BagEvent.read true i] else []) ++
                  [BagEvent.read true i, BagEvent.combine q c, BagEvent.write false i,
                    BagEvent.write true i] ++ r.2.2.2)
          else
            some (ta', tb', BAG_SIZE,
              (if i < mx then [BagEvent.read true i] else []) ++
                [BagEvent.read true i, BagEvent.combine q c, BagEvent.write false i,
                  BagEvent.write true i, BagEvent.saturate])
        | _, _, _ => none

/-- `Bag<T>::merge` on two distinct bags together with the record of its
events. -/
def merge_log (a b : Bag T) : Option (Bag T × Bag T × List (BagEvent T)) :=
  match merge_filling a b with
  | none => none
  | some (fa, sz, blk) =>
    let mn := if a.fill > b.fill then b.fill else a.fill
    let mx := if a.fill > b.fill then a.fill else b.fill
    let c0 : Pennant T := Pennant.ofCarry blk
    match merge_loop_log b.fill mn 0 a.bag b.bag c0 with
    | none => none
    | some (ta, tb, c, log) =>
      if a.fill = mx then
        if c.isNull then
          some ({ fill := a.fill, bag := ta, filling := fa, size := sz },
                { fill := 0, bag := tb, filling := none, size := b.size }, log)
        else
          (carry_log mx (BAG_SIZE + 1) mn c
              { fill := a.fill, bag := ta, filling := fa, size := sz }).map
            fun r => (r.1, { fill := 0, bag := tb, filling := none, size := b.size },
              log ++ r.2)
      else
        if c.isNull then
          (merge_move_log (mx - mn) mn ta tb).map
            fun r => ({ fill := mx, bag := r.1, filling := fa, size := sz },
                      { fill := 0, bag := r.2.1, filling := none, size := b.size },
                      log ++ r.2.2)
        else
          (merge_ripple_log mx (BAG_SIZE + 1) mn c ta tb).map
            fun r => ({ fill := r.2.2.1, bag := r.1, filling := fa, size := sz },
                      { fill := 0, bag := r.2.1, filling := none, size := b.size },
                      log ++ r.2.2.2)

end Bag

/-! ## The stores and the insertions of `pbfs_proc_Node` -/

/-- What `pbfs_proc_Node` does to `next` and to `distances`, as a record: the
call `bnext.insert(edge)`, and the store `distances[edge] = v` to a cell that
held `old` when the store was made. -/
inductive ProcEvent where
  | insert (edge : Nat) : ProcEvent
  | store (edge old v : Nat) : ProcEvent

/-- The elements inserted into `next`, in the order of the calls. -/
def ProcEvent.inserted : List ProcEvent → List Nat
  | [] => []
  | ProcEvent.insert e :: l => e :: ProcEvent.inserted l
  | ProcEvent.store _ _ _ :: l => ProcEvent.inserted l

/-- The indices of the stores to `distances`, in the order of the stores. -/
def ProcEvent.stored : List ProcEvent → List Nat
  | [] => []
  | ProcEvent.insert _ :: l => ProcEvent.stored l
  | ProcEvent.store e _ _ :: l => e :: ProcEvent.stored l

/-- Replaying the recorded stores on an array: each store must find in its cell
the value it recorded as `old`; the result is the array after the last store. -/
def ProcEvent.replay : List ProcEvent → List Nat → Option (List Nat)
  | [], ds => some ds
  | ProcEvent.insert _ :: l, ds => ProcEvent.replay l ds
  | ProcEvent.store e old v :: l, ds =>
    if ds[e]? = some old then ProcEvent.replay l (ds.set e v) else none

/-- The loop `for (int i = localEdgeZero; i < localEdgeLast; ++i)` of
`pbfs_proc_Node` together with the record of its insertions and stores; `old` is
the value of `distances[edge]` read by the test `newdist < distances[edge]`,
which the store follows with only `bnext.insert(edge)` in between. -/
def pbfs_proc_edges_log (G : Graph) (newdist : Nat) :
    Nat → Nat → PbfsState → Option (PbfsState × List ProcEvent)
  | 0, _, st => some (st, [])
  | n + 1, i, st =>
    match G.edges[i]? with
    | none => none
    | some edge =>
      match st.distances[edge]? with
      | none => none
      | some d =>
        if newdist < d then
          match st.next.insert edge, store st.distances edge newdist with
          | some nx, some ds =>
            (pbfs_proc_edges_log G newdist n (i + 1) { next := nx, distances := ds }).map
              fun r => (r.1, ProcEvent.insert edge :: ProcEvent.store edge d newdist :: r.2)
          | _, _ => none
        else pbfs_proc_edges_log G newdist n (i + 1) st

/-- The call `pbfs_proc_Node(n + off, fillSize, ...)` together with the record
of its insertions and stores. -/
def pbfs_proc_Node_log (G : Graph) (n : List Nat) (off newdist : Nat) :
    Nat → Nat → PbfsState → Option (PbfsState × List ProcEvent)
  | 0, _, st => some (st, [])
  | cnt + 1, j, st =>
    match n[off + j]? with
    | none => none
    | some u =>
      match G.nodes[u]?, G.nodes[u + 1]? with
      | some edgeZero, some edgeLast =>
        match pbfs_proc_edges_log G newdist (edgeLast - edgeZero) edgeZero st with
        | none => none
        | some (st', log) =>
          (pbfs_proc_Node_log G n off newdist cnt (j + 1) st').map
            fun r => (r.1, log ++ r.2)
      | _, _ => none

/-! ## The calls of `pbfs_proc_Node` made by the walkers of `pbfs` -/

/-- The loops `for (int i = 0; i < limit; i += THRESHOLD)
pbfs_proc_Node(n + i, THRESHOLD, ...)` together with the record of the calls
they make, in order. -/
def pbfs_slices_log (G : Graph) (n : List Nat) (newdist : Nat) :
    Nat → Nat → PbfsState → Option (PbfsState × List PbfsCall)
  | 0, _, st => some (st, [])
  | cnt + 1, i, st =>
    match pbfs_proc_Node G n i newdist THRESHOLD 0 st with
    | none => none
    | some st' =>
      (pbfs_slices_log G n newdist cnt (i + THRESHOLD) st').map
        fun r => (r.1, { n := n, off := i, cnt := THRESHOLD } :: r.2)

/-- `Graph::pbfs_walk_Pennant` together with the record of the calls of
`pbfs_proc_Node` it makes, in order. -/
def Graph.pbfs_walk_Pennant_log (G : Graph) (newdist : Nat) :
    Pennant Nat → PbfsState → Option (PbfsState × List PbfsCall)
  | Pennant.null, _ => none
  | Pennant.node els l r, st =>
    match (if l.isNull then some (st, []) else Graph.pbfs_walk_Pennant_log G newdist l st) with
    | none => none
    | some (st1, log1) =>
      match (if r.isNull then some (st1, [])
          else Graph.pbfs_walk_Pennant_log G newdist r st1) with
      | none => none
      | some (st2, log2) =>
        (pbfs_slices_log G els newdist ((BLK_SIZE + THRESHOLD - 1) / THRESHOLD) 0 st2).map
          fun x => (x.1, log1 ++ (log2 ++ x.2))

/-- `Graph::pbfs_walk_Bag` together with the record of the calls of
`pbfs_proc_Node` it makes, in order. -/
def Graph.pbfs_walk_Bag_log (G : Graph) (newdist : Nat) :
    Nat → Bag Nat → PbfsState → Option (Bag Nat × PbfsState × List PbfsCall)
  | 0, _, _ => none
  | fuel + 1, b, st =>
    if b.getFill > 0 then
      match b.split with
      | none => none
      | some (b', p, _) =>
        match Graph.pbfs_walk_Pennant_log G newdist p st with
        | none => none
        | some (st', log) =>
          (Graph.pbfs_walk_Bag_log G newdist fuel b' st').map
            fun r => (r.1, r.2.1, log ++ r.2.2)
    else
      match b.getFilling with
      | none => none
      | some n =>
        match pbfs_proc_Node G n (b.getFillingSize - b.getFillingSize % THRESHOLD) newdist
            (b.getFillingSize % THRESHOLD) 0 st with
        | none => none
        | some st1 =>
          (pbfs_slices_log G n newdist
              ((b.getFillingSize - b.getFillingSize % THRESHOLD + THRESHOLD - 1) / THRESHOLD)
              0 st1).map fun x =>
            (b, x.1,
              { n := n, off := b.getFillingSize - b.getFillingSize % THRESHOLD,
                cnt := b.getFillingSize % THRESHOLD } :: x.2)

/-! ## Pennants: shape lemmas -/

namespace Pennant

variable {T : Type}

theorem flat_zero : flat (0 : Multiset (List T)) = 0 := rfl

theorem flat_add (s t : Multiset (List T)) : flat (s + t) = flat s + flat t := by
  simp [flat]

theorem flat_singleton (e : List T) : flat {e} = (e : Multiset T) := by
  simp [flat]

theorem card_flat (s : Multiset (List T)) (n : Nat) (h : ∀ e ∈ s, e.length = n) :
    Multiset.card (flat s) = Multiset.card s * n := by
  induction s using Multiset.induction_on with
  | empty => simp [flat]
  | cons a s ih =>
    have h1 : Multiset.card (flat s) = Multiset.card s * n :=
      ih (fun e he => h e (Multiset.mem_cons_of_mem he))
    have h2 : a.length = n := h a (Multiset.mem_cons_self a s)
    rw [← Multiset.singleton_add, flat_add, flat_singleton, Multiset.card_add,
      Multiset.card_add, h1, Multiset.coe_card, h2, Multiset.card_singleton]
    ring

theorem numBlocks_null : (null : Pennant T).numBlocks = 0 := rfl

theorem numBlocks_node (e : List T) (l r : Pennant T) :
    (node e l r).numBlocks = 1 + l.numBlocks + r.numBlocks := by
  simp [numBlocks, blocks]; omega

theorem elems_null : (null : Pennant T).elems = 0 := rfl

theorem elems_node (e : List T) (l r : Pennant T) :
    (node e l r).elems = (e : Multiset T) + l.elems + r.elems := by
  simp [elems, blocks, add_assoc]

theorem blockSet_null : (null : Pennant T).blockSet = 0 := rfl

theorem blockSet_node (e : List T) (l r : Pennant T) :
    (node e l r).blockSet = {e} + l.blockSet + r.blockSet := by
  simp only [blockSet, blocks, add_assoc, Multiset.coe_add, ← Multiset.cons_coe,
    ← Multiset.singleton_add]

theorem Complete.numBlocks_succ {h : Nat} {t : Pennant T} (ht : Complete h t) :
    t.numBlocks + 1 = 2 ^ h := by
  induction h generalizing t with
  | zero => simp [Complete] at ht; subst ht; rfl
  | succ n ih =>
    cases t with
    | null => simp [Complete] at ht
    | node e l r =>
      obtain ⟨hl, hr⟩ := ht
      have h1 := ih hl
      have h2 := ih hr
      rw [numBlocks_node, pow_succ]
      omega

theorem IsPennant.numBlocks_eq {k : Nat} {p : Pennant T} (hp : IsPennant k p) :
    p.numBlocks = 2 ^ k := by
  cases p with
  | null => exact hp.elim
  | node e l r =>
    obtain ⟨hr, hl⟩ := hp
    subst hr
    have := hl.numBlocks_succ
    rw [numBlocks_node, numBlocks_null]
    omega

theorem IsPennant.ne_null {k : Nat} {p : Pennant T} (hp : IsPennant k p) : p ≠ null := by
  rintro rfl; exact hp

theorem IsPennant.isNull_eq {k : Nat} {p : Pennant T} (hp : IsPennant k p) :
    p.isNull = false := by
  cases p with
  | null => exact hp.elim
  | node e l r => rfl

/-- Combining two pennants of rank `k` succeeds and gives a pennant of rank
`k + 1` holding the blocks of both. -/
theorem combine_spec {k : Nat} {a b : Pennant T} (ha : IsPennant k a) (hb : IsPennant k b) :
    ∃ c, a.combine b = some c ∧ IsPennant (k + 1) c ∧
      c.blockSet = a.blockSet + b.blockSet ∧ (FullBlocks a → FullBlocks b → FullBlocks c) := by
  cases a with
  | null => exact ha.elim
  | node ea la ra =>
    cases b with
    | null => exact hb.elim
    | node eb lb rb =>
      obtain ⟨hra, hla⟩ := ha
      obtain ⟨hrb, hlb⟩ := hb
      subst hra; subst hrb
      refine ⟨node ea (node eb lb la) null, rfl, ⟨rfl, hlb, hla⟩, ?_, ?_⟩
      · simp only [blockSet_node, blockSet_null, add_zero]
        abel
      · intro fa fb e he
        simp only [blocks, List.mem_cons, List.mem_append, List.append_nil,
          List.not_mem_nil, or_false] at he
        rcases he with rfl | rfl | he | he
        · exact fa _ (by simp [blocks])
        · exact fb _ (by simp [blocks])
        · exact fb _ (by simp [blocks, he])
        · exact fa _ (by simp [blocks, he])

theorem elems_eq_flat (p : Pennant T) : p.elems = flat p.blockSet := by
  induction p with
  | null => rfl
  | node e l r ihl ihr =>
    rw [elems_node, blockSet_node, ihl, ihr, flat_add, flat_add, flat_singleton]

theorem numBlocks_eq_card (p : Pennant T) : p.numBlocks = Multiset.card p.blockSet := by
  simp [numBlocks, blockSet]

end Pennant

/-! ## Pennants: the contracts of `combine` and `split` -/

/-- C9: for two pennants `a`, `b` of equal rank `k`, `a.combine(b)` returns `a`,
which is then a pennant of rank `k + 1` with exactly `2 ^ (k + 1)` blocks, a null
right child at its root, and the elements of `a` and `b` together. -/
theorem Pennant_combine_rank {T : Type} (k : Nat) (a b : Pennant T)
    (ha : Pennant.IsPennant k a) (hb : Pennant.IsPennant k b) :
    ∃ c, a.combine b = some c ∧ Pennant.IsPennant (k + 1) c ∧
      c.numBlocks = 2 ^ (k + 1) ∧ c.getRight = some Pennant.null ∧
      c.getElements = a.getElements ∧
      c.elems = a.elems + b.elems := by
  cases a with
  | null => exact ha.elim
  | node ea la ra =>
    cases b with
    | null => exact hb.elim
    | node eb lb rb =>
      obtain ⟨hra, hla⟩ := ha
      obtain ⟨hrb, hlb⟩ := hb
      subst hra; subst hrb
      have hc : Pennant.IsPennant (k + 1)
          (Pennant.node ea (Pennant.node eb lb la) Pennant.null) := ⟨rfl, hlb, hla⟩
      refine ⟨_, rfl, hc, hc.numBlocks_eq, rfl, rfl, ?_⟩
      simp only [Pennant.elems_node, Pennant.elems_null, add_zero]
      abel

theorem Pennant_combine_rank_witness :
    ∃ c, (Pennant.node [1, 2] Pennant.null Pennant.null).combine
        (Pennant.node [3, 4] Pennant.null Pennant.null) = some c ∧
      Pennant.IsPennant (0 + 1) c ∧ c.numBlocks = 2 ^ (0 + 1) ∧
      c.getRight = some Pennant.null ∧
      c.getElements = (Pennant.node [1, 2] Pennant.null Pennant.null).getElements ∧
      c.elems = (Pennant.node [1, 2] Pennant.null Pennant.null).elems +
        (Pennant.node [3, 4] Pennant.null Pennant.null).elems :=
  Pennant_combine_rank 0 (Pennant.node [1, 2] Pennant.null Pennant.null)
    (Pennant.node [3, 4] Pennant.null Pennant.null) ⟨rfl, rfl⟩ ⟨rfl, rfl⟩

/-- C10: for a pennant `p` of rank `k ≥ 1`, `p.split()` returns a pennant `q`
such that afterwards `p` and `q` are pennants of rank `k - 1` (with
`2 ^ (k - 1)` blocks each and a null right child at the root) whose elements
together are those of `p` before the call. -/
theorem Pennant_split_rank {T : Type} (k : Nat) (p : Pennant T) (hk : 1 ≤ k)
    (hp : Pennant.IsPennant k p) :
    ∃ p' q, p.split = some (p', q) ∧
      Pennant.IsPennant (k - 1) p' ∧ Pennant.IsPennant (k - 1) q ∧
      p'.numBlocks = 2 ^ (k - 1) ∧ q.numBlocks = 2 ^ (k - 1) ∧
      p'.getRight = some Pennant.null ∧ q.getRight = some Pennant.null ∧
      p'.elems + q.elems = p.elems := by
  obtain ⟨j, rfl⟩ : ∃ j, k = j + 1 := ⟨k - 1, by omega⟩
  cases p with
  | null => exact hp.elim
  | node e l r =>
    obtain ⟨hr, hl⟩ := hp
    subst hr
    cases l with
    | null => simp [Pennant.Complete] at hl
    | node e' l' r' =>
      obtain ⟨hl', hr'⟩ := hl
      have h1 : Pennant.IsPennant j (Pennant.node e r' Pennant.null) := ⟨rfl, hr'⟩
      have h2 : Pennant.IsPennant j (Pennant.node e' l' Pennant.null) := ⟨rfl, hl'⟩
      refine ⟨_, _, rfl, h1, h2, h1.numBlocks_eq, h2.numBlocks_eq, rfl, rfl, ?_⟩
      simp only [Pennant.elems_node, Pennant.elems_null, add_zero]
      abel

theorem Pennant_split_rank_witness :
    ∃ p' q, (Pennant.node [1, 2] (Pennant.node [3, 4] Pennant.null Pennant.null)
        Pennant.null).split = some (p', q) ∧
      Pennant.IsPennant (1 - 1) p' ∧ Pennant.IsPennant (1 - 1) q ∧
      p'.numBlocks = 2 ^ (1 - 1) ∧ q.numBlocks = 2 ^ (1 - 1) ∧
      p'.getRight = some Pennant.null ∧ q.getRight = some Pennant.null ∧
      p'.elems + q.elems = (Pennant.node [1, 2]
        (Pennant.node [3, 4] Pennant.null Pennant.null) Pennant.null).elems :=
  Pennant_split_rank 1
    (Pennant.node [1, 2] (Pennant.node [3, 4] Pennant.null Pennant.null) Pennant.null)
    (le_refl 1) ⟨rfl, rfl, rfl⟩

/-- C8: `combine` and `split` are mutually inverse on structure. For a pennant
`p` of rank `k ≥ 1`, `b := p.split()` followed by `p.combine(b)` gives back
exactly the tree `p` (hence the same elements); for pennants `a`, `b` of equal
rank `j`, `a.combine(b)` followed by `a.split()` returns `b` and leaves `a` and
`b` exactly as they were. -/
theorem Pennant_combine_split_inverse {T : Type} (k j : Nat) (p a b : Pennant T)
    (hk : 1 ≤ k) (hp : Pennant.IsPennant k p)
    (ha : Pennant.IsPennant j a) (hb : Pennant.IsPennant j b) :
    (∃ p' q, p.split = some (p', q) ∧ p'.combine q = some p ∧
      ∀ c, p'.combine q = some c → c.elems = p.elems) ∧
    (∃ c, a.combine b = some c ∧ c.split = some (a, b)) := by
  obtain ⟨i, rfl⟩ : ∃ i, k = i + 1 := ⟨k - 1, by omega⟩
  constructor
  · cases p with
    | null => exact hp.elim
    | node e l r =>
      obtain ⟨hr, hl⟩ := hp
      subst hr
      cases l with
      | null => simp [Pennant.Complete] at hl
      | node e' l' r' =>
        refine ⟨_, _, rfl, rfl, ?_⟩
        intro c hc
        simp only [Pennant.combine, Option.some.injEq] at hc
        rw [← hc]
  · cases a with
    | null => exact ha.elim
    | node ea la ra =>
      cases b with
      | null => exact hb.elim
      | node eb lb rb =>
        obtain ⟨hrb, -⟩ := hb
        subst hrb
        exact ⟨_, rfl, rfl⟩

theorem Pennant_combine_split_inverse_witness :
    (∃ p' q, (Pennant.node [1, 2] (Pennant.node [3, 4] Pennant.null Pennant.null)
        Pennant.null).split = some (p', q) ∧
      p'.combine q = some (Pennant.node [1, 2]
        (Pennant.node [3, 4] Pennant.null Pennant.null) Pennant.null) ∧
      ∀ c, p'.combine q = some c → c.elems = (Pennant.node [1, 2]
        (Pennant.node [3, 4] Pennant.null Pennant.null) Pennant.null).elems) ∧
    (∃ c, (Pennant.node [5, 6] Pennant.null Pennant.null).combine
        (Pennant.node [7, 8] Pennant.null Pennant.null) = some c ∧
      c.split = some (Pennant.node [5, 6] Pennant.null Pennant.null,
        Pennant.node [7, 8] Pennant.null Pennant.null)) :=
  Pennant_combine_split_inverse 1 0
    (Pennant.node [1, 2] (Pennant.node [3, 4] Pennant.null Pennant.null) Pennant.null)
    (Pennant.node [5, 6] Pennant.null Pennant.null)
    (Pennant.node [7, 8] Pennant.null Pennant.null)
    (le_refl 1) ⟨rfl, rfl, rfl⟩ ⟨rfl, rfl⟩ ⟨rfl, rfl⟩

/-! ## Arrays and sums over slots -/

section Slots

variable {T : Type} {M : Type} [AddCommMonoid M]

theorem store_eq {α : Type} {a : List α} {i : Nat} (h : i < a.length) (v : α) :
    store a i v = some (a.set i v) := by
  simp [store, h]

theorem getD_of_get? {l : List (Pennant T)} {i : Nat} {p : Pennant T} (h : l[i]? = some p) :
    l.getD i Pennant.null = p := by
  simp [List.getD_eq_getElem?_getD, h]

theorem getD_set_self {l : List (Pennant T)} {i : Nat} (h : i < l.length) (v : Pennant T) :
    (l.set i v).getD i Pennant.null = v := by
  simp [List.getD_eq_getElem?_getD, List.getElem?_set, h]

theorem getD_set_ne {l : List (Pennant T)} {i j : Nat} (h : i ≠ j) (v : Pennant T) :
    (l.set i v).getD j Pennant.null = l.getD j Pennant.null := by
  simp [List.getD_eq_getElem?_getD, List.getElem?_set, h]

theorem wsum_empty (f : Pennant T → M) (l : List (Pennant T)) {i n : Nat} (h : n ≤ i) :
    wsum f l i n = 0 := by
  simp [wsum, Finset.Ico_eq_empty_of_le h]

theorem wsum_succ_top (f : Pennant T → M) (l : List (Pennant T)) {i n : Nat} (h : i ≤ n) :
    wsum f l i (n + 1) = wsum f l i n + f (l.getD n Pennant.null) := by
  simp [wsum, Finset.sum_Ico_succ_top h]

theorem wsum_succ_bot (f : Pennant T → M) (l : List (Pennant T)) {i n : Nat} (h : i < n) :
    wsum f l i n = f (l.getD i Pennant.null) + wsum f l (i + 1) n := by
  simp [wsum, Finset.sum_eq_sum_Ico_succ_bot h]

theorem wsum_split (f : Pennant T → M) (l : List (Pennant T)) {i m n : Nat}
    (h1 : i ≤ m) (h2 : m ≤ n) : wsum f l i n = wsum f l i m + wsum f l m n := by
  simp [wsum, Finset.sum_Ico_consecutive _ h1 h2]

theorem wsum_congr (f : Pennant T → M) (l l' : List (Pennant T)) (i n : Nat)
    (h : ∀ j, i ≤ j → j < n → l'.getD j Pennant.null = l.getD j Pennant.null) :
    wsum f l' i n = wsum f l i n := by
  apply Finset.sum_congr rfl
  intro j hj
  rw [Finset.mem_Ico] at hj
  rw [h j hj.1 hj.2]

theorem wsum_set_out (f : Pennant T → M) (l : List (Pennant T)) {i n j : Nat} (v : Pennant T)
    (h : j < i ∨ n ≤ j) : wsum f (l.set j v) i n = wsum f l i n := by
  apply wsum_congr
  intro k hk1 hk2
  apply getD_set_ne
  omega

theorem wsum_set_in (f : Pennant T → M) (l : List (Pennant T)) {i n j : Nat} (v : Pennant T)
    (h1 : i ≤ j) (h2 : j < n) (h3 : j < l.length) :
    wsum f (l.set j v) i n + f (l.getD j Pennant.null) = wsum f l i n + f v := by
  rw [wsum_split f (l.set j v) h1 (Nat.le_of_lt h2), wsum_split f l h1 (Nat.le_of_lt h2),
    wsum_succ_bot f (l.set j v) h2, wsum_succ_bot f l h2, getD_set_self h3,
    wsum_set_out f l v (Or.inr (le_refl j)), wsum_set_out f l v (Or.inl (Nat.lt_succ_self j))]
  abel

theorem sum_take_eq_wsum (f : Pennant T → M) (l : List (Pennant T)) {n : Nat}
    (h : n ≤ l.length) : ((l.take n).map f).sum = wsum f l 0 n := by
  induction n with
  | zero => simp [wsum]
  | succ k ih =>
    have hk : k < l.length := h
    rw [List.take_succ, List.map_append, List.sum_append, ih (Nat.le_of_lt hk),
      wsum_succ_top f l (Nat.zero_le k), List.getD_eq_getElem?_getD,
      List.getElem?_eq_getElem hk]
    simp

theorem wsum_map_hom {N : Type} [AddCommMonoid N] (g : M →+ N) (f : Pennant T → M)
    (l : List (Pennant T)) (i n : Nat) :
    g (wsum f l i n) = wsum (fun p => g (f p)) l i n := by
  simp [wsum, map_sum]

end Slots

section
variable {T : Type}

theorem SlotOK.null_or {i : Nat} {p : Pennant T} (h : SlotOK i p) :
    p = Pennant.null ∨ (p.isNull = false ∧ Pennant.IsPennant i p ∧ Pennant.FullBlocks p) := by
  rcases h with h | ⟨h1, h2⟩
  · exact Or.inl h
  · exact Or.inr ⟨h1.isNull_eq, h1, h2⟩

theorem card_wsum_blockSet (l : List (Pennant T)) (i n : Nat) :
    Multiset.card (wsum Pennant.blockSet l i n) = wsum Pennant.numBlocks l i n := by
  simp only [wsum, map_sum]
  apply Finset.sum_congr rfl
  intro j _
  exact (Pennant.numBlocks_eq_card _).symm

/-- The carry loop, started at a slot `i ≤ lim` with a carry of rank `i`, on an
array whose slots below `lim` are well ranked and which has room for the
carry. -/
theorem Bag.carry_spec (lim : Nat) (hlim : lim ≤ BAG_SIZE) :
    ∀ (fuel i : Nat) (c : Pennant T) (b : Bag T),
      b.bag.length = BAG_SIZE → i ≤ lim → i < BAG_SIZE → BAG_SIZE ≤ i + fuel →
      (∀ j p, j < lim → b.bag[j]? = some p → SlotOK j p) →
      Pennant.IsPennant i c → Pennant.FullBlocks c →
      wsum Pennant.numBlocks b.bag i lim + c.numBlocks < 2 ^ BAG_SIZE →
      ∃ b', Bag.carry lim fuel i c b = some b' ∧
        b'.filling = b.filling ∧ b'.size = b.size ∧ b'.bag.length = BAG_SIZE ∧
        lim ≤ b'.fill ∧ b'.fill ≤ lim + 1 ∧ b'.fill ≤ BAG_SIZE ∧ i < b'.fill ∧
        (∀ j p, j < b'.fill → b'.bag[j]? = some p → SlotOK j p) ∧
        (∀ j, j < i → b'.bag[j]? = b.bag[j]?) ∧
        (∀ j, b'.fill ≤ j → b'.bag[j]? = b.bag[j]?) ∧
        ((lim ≤ i ∨ ∃ p, b.bag[lim - 1]? = some p ∧ p ≠ Pennant.null) →
          ∃ p, b'.bag[b'.fill - 1]? = some p ∧ p ≠ Pennant.null) ∧
        wsum Pennant.blockSet b'.bag 0 b'.fill =
          wsum Pennant.blockSet b.bag 0 lim + c.blockSet := by
  intro fuel
  induction fuel with
  | zero => intro i c b _ _ h1 h2; omega
  | succ fuel ih =>
    intro i c b hlen hil hiB hfuel hslots hc hcf hsat
    have hilen : i < b.bag.length := by omega
    have hget : b.bag[i]? = some b.bag[i] := List.getElem?_eq_getElem hilen
    have hgetD : b.bag.getD i Pennant.null = b.bag[i] := getD_of_get? hget
    rcases Nat.lt_or_ge i lim with hlt | hge
    · -- slot below `lim`
      rcases (hslots i _ hlt hget).null_or with hnull | ⟨hnn, hrank, hfull⟩
      · -- empty slot: store the carry
        refine ⟨{ b with bag := b.bag.set i c, fill := max lim (i + 1) }, ?_, rfl, rfl, ?_, ?_, ?_,
          ?_, ?_, ?_, ?_, ?_, ?_, ?_⟩
        · simp [Bag.carry, hlt, hget, hnull, Pennant.isNull, store_eq hilen]
        · simpa using hlen
        · exact le_max_left _ _
        · simp only [max_le_iff]; omega
        · simp only [max_le_iff]; omega
        · simp only [lt_max_iff]; omega
        · intro j p hj hp
          have hj' : j < lim := by
            simp only [lt_max_iff] at hj; omega
          simp only [List.getElem?_set] at hp
          split_ifs at hp with h1
          · subst h1
            cases hp
            exact Or.inr ⟨hc, hcf⟩
          · exact hslots j p hj' hp
        · intro j hj
          simp only [List.getElem?_set]
          rw [if_neg (by omega)]
        · intro j hj
          simp only [max_le_iff] at hj
          simp only [List.getElem?_set]
          rw [if_neg (by omega)]
        · intro htop
          have hmax : max lim (i + 1) = lim := max_eq_left hlt
          simp only [hmax]
          rcases Nat.lt_or_ge i (lim - 1) with h1 | h1
          · rcases htop with h | ⟨p, hp, hpn⟩
            · omega
            · refine ⟨p, ?_, hpn⟩
              simp only [List.getElem?_set]
              rw [if_neg (by omega)]
              exact hp
          · have : lim - 1 = i := by omega
            rw [this]
            refine ⟨c, ?_, hc.ne_null⟩
            simp [List.getElem?_set, hilen]
        · have hmax : max lim (i + 1) = lim := max_eq_left hlt
          simp only [hmax]
          have := wsum_set_in Pennant.blockSet b.bag c (Nat.zero_le i) hlt hilen
          rw [hgetD, hnull, Pennant.blockSet_null, add_zero] at this
          exact this
      · -- occupied slot: combine and go on
        obtain ⟨c', hcomb, hrank', hbs', hfull'⟩ := Pennant.combine_spec hrank hc
        have hnb : c'.numBlocks = b.bag[i].numBlocks + c.numBlocks := by
          rw [Pennant.numBlocks_eq_card, hbs', Multiset.card_add,
            ← Pennant.numBlocks_eq_card, ← Pennant.numBlocks_eq_card]
        have hsplit := wsum_succ_bot Pennant.numBlocks b.bag hlt
        rw [hgetD] at hsplit
        have hi1 : i + 1 < BAG_SIZE := by
          by_contra hcon
          have h64 : i + 1 = BAG_SIZE := by omega
          have := hrank'.numBlocks_eq
          rw [h64] at this
          omega
        have hsetlen : (b.bag.set i Pennant.null).length = BAG_SIZE := by simpa using hlen
        obtain ⟨b', hrun, hf, hs, hl, h1, h2, h3, h4, h5, h6, h7, h8, h9⟩ :=
          ih (i + 1) c' { b with bag := b.bag.set i Pennant.null } hsetlen (by omega) hi1
            (by omega)
            (by
              intro j p hj hp
              simp only [List.getElem?_set] at hp
              split_ifs at hp with h1
              · cases hp; exact Or.inl rfl
              · exact hslots j p hj hp)
            hrank' (hfull' hfull hcf)
            (by
              show wsum Pennant.numBlocks (b.bag.set i Pennant.null) (i + 1) lim + _ < _
              rw [wsum_set_out Pennant.numBlocks b.bag Pennant.null (Or.inl (by omega : i < i + 1))]
              omega)
        refine ⟨b', ?_, hf, hs, hl, h1, h2, h3, by omega, h5, ?_, ?_, ?_, ?_⟩
        · simp [Bag.carry, hlt, hget, hnn, hcomb, store_eq hilen, hi1, hrun]
        · intro j hj
          rw [h6 j (by omega)]
          simp only [List.getElem?_set]
          rw [if_neg (by omega)]
        · intro j hj
          rw [h7 j hj]
          simp only [List.getElem?_set]
          rw [if_neg (by omega)]
        · intro htop
          apply h8
          rcases Nat.lt_or_ge (i + 1) lim with h | h
          · right
            rcases htop with h' | ⟨p, hp, hpn⟩
            · omega
            · refine ⟨p, ?_, hpn⟩
              simp only [List.getElem?_set]
              rw [if_neg (by omega)]
              exact hp
          · exact Or.inl h
        · rw [h9]
          show wsum Pennant.blockSet (b.bag.set i Pennant.null) 0 lim + _ = _
          have := wsum_set_in Pennant.blockSet b.bag Pennant.null (Nat.zero_le i) hlt hilen
          rw [hgetD, Pennant.blockSet_null, add_zero] at this
          rw [← this, hbs']
          abel
    · -- first slot at `lim`: store the carry and grow `fill`
      have hil' : i = lim := by omega
      subst hil'
      refine ⟨{ b with bag := b.bag.set i c, fill := max i (i + 1) }, ?_, rfl, rfl, ?_, ?_, ?_,
        ?_, ?_, ?_, ?_, ?_, ?_, ?_⟩
      · simp [Bag.carry, Pennant.isNull, store_eq hilen]
      · simpa using hlen
      · exact le_max_left _ _
      · simp only [max_le_iff]; omega
      · simp only [max_le_iff]; omega
      · simp only [lt_max_iff]; omega
      · intro j p hj hp
        have hmax : max i (i + 1) = i + 1 := max_eq_right (Nat.le_succ i)
        simp only [hmax] at hj
        simp only [List.getElem?_set] at hp
        split_ifs at hp with h1
        · subst h1
          cases hp
          exact Or.inr ⟨hc, hcf⟩
        · exact hslots j p (by omega) hp
      · intro j hj
        simp only [List.getElem?_set]
        rw [if_neg (by omega)]
      · intro j hj
        simp only [max_le_iff] at hj
        simp only [List.getElem?_set]
        rw [if_neg (by omega)]
      · intro _
        have hmax : max i (i + 1) = i + 1 := max_eq_right (Nat.le_succ i)
        simp only [hmax, Nat.add_sub_cancel]
        exact ⟨c, by simp [List.getElem?_set, hilen], hc.ne_null⟩
      · have hmax : max i (i + 1) = i + 1 := max_eq_right (Nat.le_succ i)
        simp only [hmax]
        rw [wsum_succ_top _ _ (Nat.zero_le i), getD_set_self hilen,
          wsum_set_out Pennant.blockSet b.bag c (Or.inr (le_refl i))]
end

section
variable {T : Type}

theorem wsum_flat (l : List (Pennant T)) (i n : Nat) :
    Pennant.flat (wsum Pennant.blockSet l i n) = wsum Pennant.elems l i n := by
  unfold wsum
  induction n with
  | zero => simp [Pennant.flat_zero]
  | succ k ih =>
    rcases Nat.lt_or_ge k i with h | h
    · rw [Finset.Ico_eq_empty_of_le (by omega : k + 1 ≤ i)]
      simp [Pennant.flat_zero]
    · rw [Finset.sum_Ico_succ_top h, Finset.sum_Ico_succ_top h, Pennant.flat_add, ih,
        Pennant.elems_eq_flat]

theorem Bag.blockSet_eq_wsum {b : Bag T} (h : b.fill ≤ b.bag.length) :
    b.blockSet = wsum Pennant.blockSet b.bag 0 b.fill :=
  sum_take_eq_wsum _ _ h

theorem Bag.numBlocks_eq_wsum {b : Bag T} (h : b.fill ≤ b.bag.length) :
    b.numBlocks = wsum Pennant.numBlocks b.bag 0 b.fill :=
  sum_take_eq_wsum _ _ h

theorem Bag.numBlocks_card_blockSet {b : Bag T} (h : b.fill ≤ b.bag.length) :
    b.numBlocks = Multiset.card b.blockSet := by
  rw [Bag.numBlocks_eq_wsum h, Bag.blockSet_eq_wsum h, card_wsum_blockSet]

theorem Bag.pennantElems_eq {b : Bag T} (h : b.fill ≤ b.bag.length) :
    b.pennantElems = Pennant.flat b.blockSet := by
  rw [Bag.blockSet_eq_wsum h, wsum_flat]
  exact sum_take_eq_wsum _ _ h

theorem Bag.WF.fill_le_length {b : Bag T} (h : b.WF) : b.fill ≤ b.bag.length := by
  rw [h.slots]; exact h.fill_le

theorem mem_wsum_blockSet {l : List (Pennant T)} {i n : Nat} {e : List T}
    (h : e ∈ wsum Pennant.blockSet l i n) :
    ∃ j, i ≤ j ∧ j < n ∧ e ∈ (l.getD j Pennant.null).blockSet := by
  unfold wsum at h
  induction n with
  | zero => simp at h
  | succ k ih =>
    rcases Nat.lt_or_ge k i with hk | hk
    · rw [Finset.Ico_eq_empty_of_le (by omega : k + 1 ≤ i)] at h
      simp at h
    · rw [Finset.sum_Ico_succ_top hk, Multiset.mem_add] at h
      rcases h with h | h
      · obtain ⟨j, h1, h2, h3⟩ := ih h
        exact ⟨j, h1, by omega, h3⟩
      · exact ⟨k, hk, by omega, h⟩

theorem Bag.WF.blocks_full {b : Bag T} (h : b.WF) :
    ∀ e ∈ b.blockSet, e.length = BLK_SIZE := by
  intro e he
  rw [Bag.blockSet_eq_wsum h.fill_le_length] at he
  obtain ⟨j, -, hj, hmem⟩ := mem_wsum_blockSet he
  have hjl : j < b.bag.length := by have := h.fill_le_length; omega
  have hget : b.bag[j]? = some b.bag[j] := List.getElem?_eq_getElem hjl
  rw [getD_of_get? hget] at hmem
  rcases h.rank j _ hj hget with h0 | ⟨-, hfull⟩
  · rw [h0] at hmem; simp [Pennant.blockSet, Pennant.blocks] at hmem
  · exact hfull e (by simpa [Pennant.blockSet] using hmem)

theorem Bag.WF.card_elems {b : Bag T} (h : b.WF) :
    Multiset.card b.elems = b.size + b.numBlocks * BLK_SIZE := by
  obtain ⟨f, hf, hlen⟩ := h.block
  have hs := h.size_lt
  rw [Bag.elems, Multiset.card_add, Bag.pennantElems_eq h.fill_le_length,
    Pennant.card_flat _ BLK_SIZE h.blocks_full, Bag.numBlocks_card_blockSet h.fill_le_length]
  simp [Bag.fillingElems, hf, hlen]
  omega
end

section
variable {T : Type}

theorem BLK_SIZE_pos : 0 < BLK_SIZE := by norm_num [BLK_SIZE]

theorem BLK_SIZE_lt : BLK_SIZE < 2 ^ 32 := by norm_num [BLK_SIZE]

theorem BAG_SIZE_pos : 0 < BAG_SIZE := by norm_num [BAG_SIZE]

theorem take_succ_set_coe (f : List T) (n : Nat) (x : T) (h : n < f.length) :
    (((f.set n x).take (n + 1) : List T) : Multiset T) = x ::ₘ ((f.take n : List T) : Multiset T) := by
  have h1 : (f.set n x).take n = f.take n := by
    rw [List.set_take, List.set_eq_of_length_le]
    simp
  rw [List.take_succ, List.getElem?_set_self h, h1]
  simp

theorem Bag.insert_eq [Inhabited T] (b : Bag T) (x : T) {f : List T} (hf : b.filling = some f)
    (hs : b.size < f.length) :
    b.insert x =
      if (b.size + 1) % 2 ^ 32 < BLK_SIZE then
        some { b with filling := some (f.set b.size x), size := (b.size + 1) % 2 ^ 32 }
      else
        Bag.carry b.fill BAG_SIZE 0 (Pennant.ofBlock (f.set b.size x))
          { b with filling := some (List.replicate BLK_SIZE default), size := 0 } := by
  simp only [Bag.insert, hf, store_eq hs]

theorem Bag.insert_spec [Inhabited T] (b : Bag T) (x : T) (h : b.WF)
    (hcap : Multiset.card b.elems + 1 < BLK_SIZE * 2 ^ BAG_SIZE) :
    ∃ b', b.insert x = some b' ∧ b'.WF ∧ (b.Top → b'.Top) ∧ (b.Above → b'.Above) ∧
      b'.elems = x ::ₘ b.elems ∧
      b'.size = (b.size + 1) % BLK_SIZE ∧
      b'.numBlocks = b.numBlocks + (b.size + 1) / BLK_SIZE ∧
      (b.size + 1 < BLK_SIZE → b'.fill = b.fill ∧ b'.bag = b.bag) := by
  obtain ⟨f, hf, hlen⟩ := h.block
  have hs := h.size_lt
  have hB := BLK_SIZE_lt
  have hsl : b.size < f.length := by omega
  have hmod : (b.size + 1) % 2 ^ 32 = b.size + 1 := Nat.mod_eq_of_lt (by omega)
  rcases Nat.lt_or_ge (b.size + 1) BLK_SIZE with hlt | hge
  · refine ⟨{ b with filling := some (f.set b.size x), size := b.size + 1 }, ?_, ?_, ?_, ?_, ?_,
      ?_, ?_, ?_⟩
    · rw [Bag.insert_eq b x hf hsl, hmod, if_pos hlt]
    · exact ⟨h.slots, ⟨_, rfl, by simpa using hlen⟩, hlt, h.fill_le, h.rank⟩
    · exact fun ht => ht
    · exact fun ha => ha
    · simp only [Bag.elems, Bag.fillingElems, Bag.pennantElems, hf, Option.getD_some]
      rw [take_succ_set_coe f b.size x hsl, Multiset.cons_add]
    · exact (Nat.mod_eq_of_lt hlt).symm
    · rw [Nat.div_eq_of_lt hlt]; rfl
    · intro _; exact ⟨rfl, rfl⟩
  · have hsz : b.size + 1 = BLK_SIZE := by omega
    have hcard := h.card_elems
    have hnb : b.numBlocks + 1 < 2 ^ BAG_SIZE := by
      rw [hcard] at hcap
      have : (b.numBlocks + 1) * BLK_SIZE < 2 ^ BAG_SIZE * BLK_SIZE := by
        rw [Nat.mul_comm (2 ^ BAG_SIZE)]
        rw [Nat.add_mul]
        omega
      exact Nat.lt_of_mul_lt_mul_right this
    have hfl := h.fill_le_length
    obtain ⟨b', hrun, hf', hs', hl', h1, h2, h3, h4, h5, h6, h7, h8, h9⟩ :=
      Bag.carry_spec b.fill h.fill_le BAG_SIZE 0 (Pennant.ofBlock (f.set b.size x))
        { b with filling := some (List.replicate BLK_SIZE default), size := 0 }
        h.slots (Nat.zero_le _) BAG_SIZE_pos (by omega) h.rank ⟨rfl, rfl⟩
        (by
          intro e he
          simp only [Pennant.ofBlock, Pennant.blocks, List.append_nil, List.mem_singleton] at he
          subst he
          simpa using hlen)
        (by
          show wsum Pennant.numBlocks b.bag 0 b.fill + _ < _
          rw [← Bag.numBlocks_eq_wsum hfl]
          exact hnb)
    have hbs : b'.blockSet = b.blockSet + {f.set b.size x} := by
      rw [Bag.blockSet_eq_wsum (by rw [hl']; exact h3), h9, Bag.blockSet_eq_wsum hfl]
      simp [Pennant.ofBlock, Pennant.blockSet, Pennant.blocks]
    refine ⟨b', ?_, ?_, ?_, ?_, ?_, ?_, ?_, ?_⟩
    · rw [Bag.insert_eq b x hf hsl, hmod, if_neg (Nat.not_lt.mpr hge), hrun]
    · exact ⟨hl', ⟨_, hf', by simp⟩, by rw [hs']; exact BLK_SIZE_pos, h3, fun i p => h5 i p⟩
    · intro ht
      right
      apply h8
      rcases ht with ht | ht
      · exact Or.inl (by omega)
      · exact Or.inr ht
    · intro ha i hi hiB
      rw [h7 i hi]
      exact ha i (by omega) hiB
    · rw [Bag.elems, Bag.elems, Bag.pennantElems_eq (by rw [hl']; exact h3), hbs,
        Bag.pennantElems_eq hfl, Pennant.flat_add, Pennant.flat_singleton]
      have hfe : b'.fillingElems = 0 := by
        simp [Bag.fillingElems, hs']
      have hfull : (f.set b.size x : List T) = (f.set b.size x).take (b.size + 1) := by
        rw [List.take_of_length_le]
        simp; omega
      rw [hfe, hfull, take_succ_set_coe f b.size x hsl]
      simp only [Bag.fillingElems, hf, Option.getD_some, zero_add, Multiset.cons_add]
      rw [add_comm, Multiset.cons_add]
    · rw [hs', hsz, Nat.mod_self]
    · rw [Bag.numBlocks_card_blockSet (by rw [hl']; exact h3), hbs, Multiset.card_add,
        ← Bag.numBlocks_card_blockSet hfl, hsz, Nat.div_self BLK_SIZE_pos]
      simp
    · intro hcon; omega
end

section
/-! ## Binary representations -/

theorem binsum_lt (g : Nat → Nat) (n : Nat) (h : ∀ j, j < n → g j = 0 ∨ g j = 2 ^ j) :
    ∑ j in Finset.Ico 0 n, g j < 2 ^ n := by
  induction n with
  | zero => simp
  | succ k ih =>
    rw [Finset.sum_Ico_succ_top (Nat.zero_le k), pow_succ]
    have h1 := ih (fun j hj => h j (by omega))
    rcases h k (by omega) with h2 | h2 <;> omega

theorem binsum_testBit (g : Nat → Nat) (n : Nat) (h : ∀ j, j < n → g j = 0 ∨ g j = 2 ^ j)
    (i : Nat) (hi : i < n) :
    (∑ j in Finset.Ico 0 n, g j).testBit i = decide (g i ≠ 0) := by
  induction n with
  | zero => omega
  | succ k ih =>
    rw [Finset.sum_Ico_succ_top (Nat.zero_le k)]
    have hlt := binsum_lt g k (fun j hj => h j (by omega))
    have hk := h k (by omega)
    rcases Nat.lt_or_ge i k with hik | hik
    · have := ih (fun j hj => h j (by omega)) hik
      rw [← this]
      rcases hk with hk | hk
      · rw [hk, add_zero]
      · rw [hk, add_comm, Nat.testBit_two_pow_add_gt hik]
    · have : i = k := by omega
      subst this
      rcases hk with hk | hk
      · rw [hk, add_zero, Nat.testBit_lt_two_pow hlt]
        simp
      · rw [hk, add_comm, Nat.testBit_two_pow_add_eq, Nat.testBit_lt_two_pow hlt]
        simp

theorem binsum_size (g : Nat → Nat) (n : Nat) (h : ∀ j, j < n → g j = 0 ∨ g j = 2 ^ j)
    (htop : n = 0 ∨ g (n - 1) ≠ 0) :
    Nat.size (∑ j in Finset.Ico 0 n, g j) = n := by
  apply le_antisymm
  · exact Nat.size_le.mpr (binsum_lt g n h)
  · cases n with
    | zero => exact Nat.zero_le _
    | succ k =>
      rcases htop with h0 | h0
      · omega
      · apply Nat.lt_size.mpr
        rw [Finset.sum_Ico_succ_top (Nat.zero_le k)]
        simp only [Nat.add_sub_cancel] at h0
        rcases h k (by omega) with hk | hk
        · exact absurd hk h0
        · omega
end

section
variable {T : Type}

/-! ## Bags: invariants and `insert` -/

theorem Bag.Inv.wf {b : Bag T} (h : b.Inv) : b.WF where
  slots := h.slots
  block := h.block
  size_lt := h.size_lt
  fill_le := h.fill_le
  rank := by
    intro i p _ hp
    by_cases hn : p = Pennant.null
    · exact Or.inl hn
    · exact Or.inr (h.rank i p hp hn)

theorem Bag.Inv.of_wf {b : Bag T} (h : b.WF) (ht : b.Top) (ha : b.Above) : b.Inv where
  slots := h.slots
  block := h.block
  size_lt := h.size_lt
  fill_le := h.fill_le
  above := ha
  top := ht
  rank := by
    intro i p hp hn
    rcases Nat.lt_or_ge i b.fill with hi | hi
    · rcases h.rank i p hi hp with h0 | h1
      · exact absurd h0 hn
      · exact h1
    · have hiB : i < BAG_SIZE := by
        rw [← h.slots]
        by_contra hcon
        rw [List.getElem?_eq_none (by omega)] at hp
        cases hp
      have := ha i hi hiB
      rw [hp] at this
      cases this
      exact absurd rfl hn

theorem Bag.new_wf (slots : List (Pennant T)) (blk : List T) (hslots : slots.length = BAG_SIZE)
    (hblk : blk.length = BLK_SIZE) : (Bag.new slots blk).WF where
  slots := hslots
  block := ⟨blk, rfl, hblk⟩
  size_lt := BLK_SIZE_pos
  fill_le := Nat.zero_le _
  rank := by intro i p hi; exact absurd hi (Nat.not_lt_zero i)

theorem Bag.new_elems (slots : List (Pennant T)) (blk : List T) :
    (Bag.new slots blk).elems = 0 := by
  simp [Bag.new, Bag.elems, Bag.fillingElems, Bag.pennantElems]

theorem Bag.fresh_inv : Bag.fresh.Inv :=
  Bag.Inv.of_wf (Bag.new_wf _ _ (by simp) (by simp)) (Or.inl rfl)
    (by
      intro i _ hi
      simp [Bag.fresh, Bag.new, List.getElem?_replicate, hi])

/-- In a well-formed bag with a non-null top slot the occupied slots spell the
number of full blocks in binary. -/
theorem Bag.WF.binary {b : Bag T} (h : b.WF) (ht : b.Top) :
    b.fill = Nat.size b.numBlocks ∧
      ∀ i, i < b.fill → ∃ p, b.bag[i]? = some p ∧
        (p ≠ Pennant.null ↔ b.numBlocks.testBit i = true) := by
  have hfl := h.fill_le_length
  have hg : ∀ j, j < b.fill →
      (b.bag.getD j Pennant.null).numBlocks = 0 ∨
        (b.bag.getD j Pennant.null).numBlocks = 2 ^ j := by
    intro j hj
    have hget : b.bag[j]? = some b.bag[j] := List.getElem?_eq_getElem (by omega)
    rw [getD_of_get? hget]
    rcases h.rank j _ hj hget with h0 | ⟨h1, -⟩
    · rw [h0]; exact Or.inl rfl
    · exact Or.inr h1.numBlocks_eq
  have hnz : ∀ j, j < b.fill → ∀ p, b.bag[j]? = some p → (p ≠ Pennant.null ↔ p.numBlocks ≠ 0) := by
    intro j hj p hp
    rcases h.rank j p hj hp with h0 | ⟨h1, -⟩
    · subst h0; simp [Pennant.numBlocks_null]
    · have := h1.numBlocks_eq
      have h2 : 0 < 2 ^ j := Nat.two_pow_pos j
      constructor
      · intro _; omega
      · intro _; exact h1.ne_null
  rw [Bag.numBlocks_eq_wsum hfl]
  unfold wsum
  constructor
  · symm
    apply binsum_size _ _ hg
    rcases ht with h0 | ⟨p, hp, hpn⟩
    · exact Or.inl h0
    · rcases Nat.eq_zero_or_pos b.fill with h0 | h0
      · exact Or.inl h0
      · right
        rw [getD_of_get? hp]
        exact (hnz (b.fill - 1) (by omega) p hp).mp hpn
  · intro i hi
    have hget : b.bag[i]? = some b.bag[i] := List.getElem?_eq_getElem (by omega)
    refine ⟨_, hget, ?_⟩
    rw [binsum_testBit _ _ hg i hi, getD_of_get? hget, hnz i hi _ hget]
    simp

theorem Bag.insertAll_spec [Inhabited T] (xs : List T) :
    ∀ (b : Bag T), b.WF → b.Top →
      Multiset.card b.elems + xs.length < BLK_SIZE * 2 ^ BAG_SIZE →
      ∃ b', b.insertAll xs = some b' ∧ b'.WF ∧ b'.Top ∧
        b'.elems = b.elems + (xs : Multiset T) := by
  induction xs with
  | nil =>
    intro b h ht _
    exact ⟨b, rfl, h, ht, by simp⟩
  | cons x xs ih =>
    intro b h ht hn
    simp only [List.length_cons] at hn
    obtain ⟨b1, hrun, h1, ht1, -, he1, -⟩ := Bag.insert_spec b x h (by omega)
    obtain ⟨b2, hrun2, h2, ht2, he2⟩ := ih b1 h1 (ht1 ht) (by
      rw [he1, Multiset.card_cons]; omega)
    refine ⟨b2, ?_, h2, ht2, ?_⟩
    · simp only [Bag.insertAll, hrun, hrun2]
    · rw [he2, he1, ← Multiset.cons_coe, Multiset.cons_add, Multiset.add_cons]

end

/-- C2: for a bag that satisfies the bag invariants and is not at capacity
(it holds fewer than `BLK_SIZE * 2 ^ BAG_SIZE - 1` elements), `insert(x)`
succeeds and the multiset of elements afterwards is the one before plus one
occurrence of `x`. -/
theorem Bag_insert_multiset {T : Type} [Inhabited T] (b : Bag T) (x : T) (h : b.Inv)
    (hcap : Multiset.card b.elems + 1 < BLK_SIZE * 2 ^ BAG_SIZE) :
    ∃ b', b.insert x = some b' ∧ b'.elems = x ::ₘ b.elems := by
  obtain ⟨b', hrun, -, -, -, he, -⟩ := Bag.insert_spec b x h.wf hcap
  exact ⟨b', hrun, he⟩

theorem Bag_insert_multiset_witness :
    ∃ b', Bag.fresh.insert 7 = some b' ∧ b'.elems = 7 ::ₘ Bag.fresh.elems :=
  Bag_insert_multiset Bag.fresh 7 Bag.fresh_inv (by
    rw [Bag.fresh, Bag.new_elems]
    norm_num [BLK_SIZE, BAG_SIZE])

/-- C5: inserting `n < BLK_SIZE * 2 ^ BAG_SIZE` elements one by one into a newly
constructed bag (whatever the initial cells of its arrays) succeeds and yields
`size = n mod BLK_SIZE`, `fill` equal to the bit length of `q = n div BLK_SIZE`,
and for every `i < fill` slot `i` non-null iff bit `i` of `q` is set. In
particular `n = BLK_SIZE` gives `size = 0`, `fill = 1` and `bag[0]` non-null, and
`n = 3 * BLK_SIZE` gives `fill = 2` with `bag[0]` and `bag[1]` non-null. -/
theorem Bag_insert_binary {T : Type} [Inhabited T] (slots : List (Pennant T)) (blk xs : List T)
    (hslots : slots.length = BAG_SIZE) (hblk : blk.length = BLK_SIZE)
    (hn : xs.length < BLK_SIZE * 2 ^ BAG_SIZE) :
    ∃ b, (Bag.new slots blk).insertAll xs = some b ∧
      b.size = xs.length % BLK_SIZE ∧
      b.fill = Nat.size (xs.length / BLK_SIZE) ∧
      (∀ i, i < b.fill → ∃ p, b.bag[i]? = some p ∧
        (p ≠ Pennant.null ↔ (xs.length / BLK_SIZE).testBit i = true)) ∧
      (xs.length = BLK_SIZE →
        b.size = 0 ∧ b.fill = 1 ∧ ∃ p, b.bag[0]? = some p ∧ p ≠ Pennant.null) ∧
      (xs.length = 3 * BLK_SIZE →
        b.fill = 2 ∧ (∃ p, b.bag[0]? = some p ∧ p ≠ Pennant.null) ∧
          ∃ p, b.bag[1]? = some p ∧ p ≠ Pennant.null) := by
  obtain ⟨b, hrun, hwf, htop, he⟩ :=
    Bag.insertAll_spec xs (Bag.new slots blk) (Bag.new_wf slots blk hslots hblk) (Or.inl rfl)
      (by rw [Bag.new_elems]; simpa using hn)
  have hcard := hwf.card_elems
  rw [he, Bag.new_elems, zero_add, Multiset.coe_card] at hcard
  have hsz := hwf.size_lt
  have hpos := BLK_SIZE_pos
  have hq : xs.length / BLK_SIZE = b.numBlocks := by
    rw [hcard, Nat.add_mul_div_right _ _ hpos, Nat.div_eq_of_lt hsz, zero_add]
  have hr : xs.length % BLK_SIZE = b.size := by
    rw [hcard, Nat.add_mul_mod_self_right, Nat.mod_eq_of_lt hsz]
  obtain ⟨hfill, hbits⟩ := hwf.binary htop
  rw [← hq] at hfill hbits
  refine ⟨b, hrun, hr.symm, hfill, hbits, ?_, ?_⟩
  · intro h1
    have hq1 : xs.length / BLK_SIZE = 1 := by rw [h1, Nat.div_self hpos]
    have hf1 : b.fill = 1 := by rw [hfill, hq1, Nat.size_one]
    refine ⟨by rw [← hr, h1, Nat.mod_self], hf1, ?_⟩
    obtain ⟨p, hp, hiff⟩ := hbits 0 (by omega)
    exact ⟨p, hp, hiff.mpr (by rw [hq1]; rfl)⟩
  · intro h3
    have hq3 : xs.length / BLK_SIZE = 3 := by rw [h3, Nat.mul_div_cancel _ hpos]
    have hs3 : Nat.size 3 = 2 := by
      apply le_antisymm
      · exact Nat.size_le.mpr (by norm_num)
      · exact Nat.lt_size.mpr (by norm_num)
    have hf2 : b.fill = 2 := by rw [hfill, hq3, hs3]
    refine ⟨hf2, ?_, ?_⟩
    · obtain ⟨p, hp, hiff⟩ := hbits 0 (by omega)
      exact ⟨p, hp, hiff.mpr (by rw [hq3]; rfl)⟩
    · obtain ⟨p, hp, hiff⟩ := hbits 1 (by omega)
      exact ⟨p, hp, hiff.mpr (by rw [hq3]; rfl)⟩

theorem Bag_insert_binary_witness :
    ∃ b, (Bag.new (List.replicate BAG_SIZE Pennant.null)
        (List.replicate BLK_SIZE 0)).insertAll (List.replicate (3 * BLK_SIZE) 1) = some b ∧
      b.size = 0 ∧ b.fill = 2 ∧ (∃ p, b.bag[0]? = some p ∧ p ≠ Pennant.null) ∧
      ∃ p, b.bag[1]? = some p ∧ p ≠ Pennant.null := by
  obtain ⟨b, h1, h2, -, -, -, h3⟩ :=
    Bag_insert_binary (List.replicate BAG_SIZE Pennant.null) (List.replicate BLK_SIZE 0)
      (List.replicate (3 * BLK_SIZE) 1) (by simp) (by simp) (by norm_num [BLK_SIZE, BAG_SIZE])
  have h4 := h3 (by simp)
  refine ⟨b, h1, ?_, h4.1, h4.2.1, h4.2.2⟩
  rw [h2]
  simp

/-! ## Bags: `split` -/

section
variable {T : Type}

theorem Pennant.isNull_iff (p : Pennant T) : p.isNull = true ↔ p = Pennant.null := by
  cases p <;> simp [Pennant.isNull]

theorem Pennant.isNull_false_iff (p : Pennant T) : p.isNull = false ↔ p ≠ Pennant.null := by
  cases p <;> simp [Pennant.isNull]

theorem Bag.split_scan_spec (bag : List (Pennant T)) :
    ∀ f, f ≤ bag.length →
      ∃ g, Bag.split_scan bag f = some g ∧ g ≤ f ∧
        (g = 0 ∨ ∃ p, bag[g - 1]? = some p ∧ p ≠ Pennant.null) ∧
        ∀ i, g ≤ i → i < f → bag[i]? = some Pennant.null := by
  intro f
  induction f with
  | zero =>
    intro _
    exact ⟨0, rfl, le_refl 0, Or.inl rfl, fun i _ hi => absurd hi (Nat.not_lt_zero i)⟩
  | succ f ih =>
    intro hf
    have hget : bag[f]? = some bag[f] := List.getElem?_eq_getElem (by omega)
    by_cases hn : bag[f].isNull = true
    · obtain ⟨g, hrun, hg, htop, hnull⟩ := ih (by omega)
      refine ⟨g, ?_, by omega, htop, ?_⟩
      · simp only [Bag.split_scan, hget, hn, if_true, hrun]
      · intro i hgi hi
        rcases Nat.lt_or_ge i f with h | h
        · exact hnull i hgi h
        · have : i = f := by omega
          subst this
          rw [hget, (Pennant.isNull_iff _).mp hn]
    · refine ⟨f + 1, ?_, le_refl _, Or.inr ⟨bag[f], by simp, ?_⟩, ?_⟩
      · simp only [Bag.split_scan, hget, hn]
        rfl
      · exact fun h => hn ((Pennant.isNull_iff _).mpr h)
      · intro i h1 h2; omega

theorem Bag.split_of_fill_zero (b : Bag T) (h : b.fill = 0) :
    b.split = some (b, Pennant.null, false) := by
  simp [Bag.split, h]

/-- The effect of `split(&out)` on a bag with `fill > 0`. -/
theorem Bag.split_of_fill_pos (b : Bag T) (hpos : 0 < b.fill) (hle : b.fill ≤ b.bag.length) :
    ∃ g out, b.split = some ({ b with fill := g, bag := b.bag.set (b.fill - 1) Pennant.null },
        out, true) ∧
      b.bag[b.fill - 1]? = some out ∧ g < b.fill ∧
      (g = 0 ∨ ∃ p, b.bag[g - 1]? = some p ∧ p ≠ Pennant.null) ∧
      ∀ i, g ≤ i → i < b.fill → (b.bag.set (b.fill - 1) Pennant.null)[i]? = some Pennant.null := by
  have hlt : b.fill - 1 < b.bag.length := by omega
  have hget : b.bag[b.fill - 1]? = some b.bag[b.fill - 1] := List.getElem?_eq_getElem hlt
  obtain ⟨g, hrun, hg, htop, hnull⟩ :=
    Bag.split_scan_spec (b.bag.set (b.fill - 1) Pennant.null) (b.fill - 1) (by simp; omega)
  refine ⟨g, b.bag[b.fill - 1], ?_, hget, by omega, ?_, ?_⟩
  · simp only [Bag.split, Nat.ne_of_gt hpos, if_false, hget, store_eq hlt, hrun, Option.map_some']
  · rcases htop with h0 | ⟨p, hp, hpn⟩
    · exact Or.inl h0
    · right
      refine ⟨p, ?_, hpn⟩
      rw [List.getElem?_set] at hp
      split_ifs at hp with h1
      · cases hp; exact absurd rfl hpn
      · exact hp
  · intro i h1 h2
    rcases Nat.lt_or_ge i (b.fill - 1) with h | h
    · exact hnull i h1 h
    · have : b.fill - 1 = i := by omega
      rw [List.getElem?_set, if_pos this, if_pos hlt]

theorem Bag.split_inv (b b' : Bag T) (out : Pennant T) (ret : Bool) (h : b.Inv)
    (hs : b.split = some (b', out, ret)) : b'.Inv := by
  rcases Nat.eq_zero_or_pos b.fill with h0 | hpos
  · rw [Bag.split_of_fill_zero b h0] at hs
    simp only [Option.some.injEq, Prod.mk.injEq] at hs
    rw [← hs.1]; exact h
  · have hle : b.fill ≤ b.bag.length := by rw [h.slots]; exact h.fill_le
    obtain ⟨g, out', hrun, hget, hg, htop, hnull⟩ := Bag.split_of_fill_pos b hpos hle
    rw [hrun] at hs
    simp only [Option.some.injEq, Prod.mk.injEq] at hs
    rw [← hs.1]
    have hfB := h.fill_le
    refine ⟨by simpa using h.slots, h.block, h.size_lt, ?_, ?_, ?_, ?_⟩
    · show g ≤ BAG_SIZE
      omega
    · intro i hi hiB
      show (b.bag.set (b.fill - 1) Pennant.null)[i]? = some Pennant.null
      rcases Nat.lt_or_ge i b.fill with h1 | h1
      · exact hnull i hi h1
      · rw [List.getElem?_set, if_neg (by omega)]
        exact h.above i h1 hiB
    · rcases htop with h1 | ⟨p, hp, hpn⟩
      · exact Or.inl h1
      · rcases Nat.eq_zero_or_pos g with h1 | h1
        · exact Or.inl h1
        · right
          refine ⟨p, ?_, hpn⟩
          show (b.bag.set (b.fill - 1) Pennant.null)[g - 1]? = some p
          rw [List.getElem?_set, if_neg (by omega)]
          exact hp
    · intro i p hp hpn
      change (b.bag.set (b.fill - 1) Pennant.null)[i]? = some p at hp
      rw [List.getElem?_set] at hp
      split_ifs at hp with h1
      · cases hp; exact absurd rfl hpn
      · exact h.rank i p hp hpn
end

/-- C7: on a bag satisfying the bag invariants, `split(&out)` returns false and
sets `out` to null iff `fill == 0`, and then leaves the bag unchanged; otherwise
it returns true, `out` is the pennant that was at `bag[fill - 1]`, that slot
becomes null, the new `fill` is smaller and is 0 or one past the highest
remaining non-null slot, and every other slot, the filling and `size` are
unchanged. -/
theorem Bag_split_spec {T : Type} (b : Bag T) (h : b.Inv) :
    ∃ b' out ret, b.split = some (b', out, ret) ∧
      (ret = false ↔ b.fill = 0) ∧ (out = Pennant.null ↔ b.fill = 0) ∧
      (b.fill = 0 → b' = b) ∧
      (b.fill ≠ 0 →
        b.bag[b.fill - 1]? = some out ∧ b'.bag[b.fill - 1]? = some Pennant.null ∧
        b'.fill < b.fill ∧ b'.Top ∧ b'.Above) ∧
      (∀ i, i ≠ b.fill - 1 → b'.bag[i]? = b.bag[i]?) ∧
      b'.filling = b.filling ∧ b'.size = b.size := by
  rcases Nat.eq_zero_or_pos b.fill with h0 | hpos
  · refine ⟨b, Pennant.null, false, Bag.split_of_fill_zero b h0, ?_, ?_, ?_, ?_, ?_, rfl, rfl⟩
    · simp [h0]
    · simp [h0]
    · exact fun _ => rfl
    · exact fun hne => absurd h0 hne
    · exact fun _ _ => rfl
  · have hle : b.fill ≤ b.bag.length := by rw [h.slots]; exact h.fill_le
    obtain ⟨g, out, hrun, hget, hg, htop, hnull⟩ := Bag.split_of_fill_pos b hpos hle
    have hinv := Bag.split_inv b _ out true h hrun
    have hne : b.fill ≠ 0 := Nat.ne_of_gt hpos
    have hout : out ≠ Pennant.null := by
      rcases h.top with h0 | ⟨p, hp, hpn⟩
      · exact absurd h0 hne
      · rw [hget] at hp; cases hp; exact hpn
    refine ⟨_, out, true, hrun, ?_, ?_, ?_, ?_, ?_, rfl, rfl⟩
    · simp [hne]
    · simp [hne, hout]
    · exact fun h0 => absurd h0 hne
    · intro _
      refine ⟨hget, ?_, hg, hinv.top, hinv.above⟩
      show (b.bag.set (b.fill - 1) Pennant.null)[b.fill - 1]? = some Pennant.null
      rw [List.getElem?_set_self (by omega)]
    · intro i hi
      show (b.bag.set (b.fill - 1) Pennant.null)[i]? = b.bag[i]?
      rw [List.getElem?_set, if_neg (fun h => hi h.symm)]

section
variable {T : Type}

theorem Bag.oneBlock_inv : Bag.oneBlock.Inv where
  slots := by simp [Bag.oneBlock, BAG_SIZE]
  block := ⟨_, rfl, by simp⟩
  size_lt := BLK_SIZE_pos
  fill_le := by simp [Bag.oneBlock, BAG_SIZE]
  above := by
    intro i hi hiB
    obtain ⟨j, rfl⟩ : ∃ j, i = j + 1 := ⟨i - 1, by simp [Bag.oneBlock] at hi; omega⟩
    simp only [Bag.oneBlock, List.getElem?_cons_succ, List.getElem?_replicate]
    rw [if_pos (by omega)]
  top := Or.inr ⟨Pennant.ofBlock (List.replicate BLK_SIZE 0), rfl, by simp [Pennant.ofBlock]⟩
  rank := by
    intro i p hp hpn
    cases i with
    | zero =>
      simp only [Bag.oneBlock, List.getElem?_cons_zero, Option.some.injEq] at hp
      subst hp
      refine ⟨⟨rfl, rfl⟩, ?_⟩
      intro e he
      simp only [Pennant.ofBlock, Pennant.blocks, List.append_nil, List.mem_singleton] at he
      subst he
      simp
    | succ j =>
      simp only [Bag.oneBlock, List.getElem?_cons_succ, List.getElem?_replicate] at hp
      split_ifs at hp
      cases hp
      exact absurd rfl hpn

theorem filter_take_nulls (l : List (Pennant T)) (g : Nat) :
    ∀ f, g ≤ f → (∀ i, g ≤ i → i < f → l[i]? = some Pennant.null) →
      (l.take f).filter (fun p => !p.isNull) = (l.take g).filter (fun p => !p.isNull) := by
  intro f
  induction f with
  | zero =>
    intro hg _
    have : g = 0 := by omega
    rw [this]
  | succ f ih =>
    intro hg hnull
    rcases Nat.lt_or_ge g (f + 1) with h | h
    · rw [List.take_succ, hnull f (by omega) (by omega), List.filter_append,
        ih (by omega) (fun i h1 h2 => hnull i h1 (by omega))]
      simp [Pennant.isNull]
    · have : g = f + 1 := by omega
      rw [this]

theorem take_set_self (l : List (Pennant T)) (n : Nat) (v : Pennant T) :
    (l.set n v).take n = l.take n := by
  rw [List.set_take, List.set_eq_of_length_le]
  simp

theorem sum_map_filter_nonnull (l : List (Pennant T)) :
    (((l.filter (fun p => !p.isNull)).reverse).map Pennant.elems).sum =
      (l.map Pennant.elems).sum := by
  rw [List.map_reverse, List.sum_reverse]
  induction l with
  | nil => rfl
  | cons p l ih =>
    cases p with
    | null =>
      have h1 : List.filter (fun p => !p.isNull) ((Pennant.null : Pennant T) :: l) =
          List.filter (fun p => !p.isNull) l := by
        rw [List.filter_cons]; rfl
      rw [h1, ih, List.map_cons, List.sum_cons, Pennant.elems_null, zero_add]
    | node e a c =>
      have h1 : List.filter (fun p => !p.isNull) (Pennant.node e a c :: l) =
          Pennant.node e a c :: List.filter (fun p => !p.isNull) l := by
        rw [List.filter_cons]; rfl
      rw [h1, List.map_cons, List.sum_cons, ih, List.map_cons, List.sum_cons]

/-- Draining a bag hands out its non-null slots from the top down. -/
theorem Bag.drain_spec :
    ∀ (n : Nat) (b : Bag T), b.fill = n → b.fill ≤ b.bag.length → b.Top →
      ∃ b', (∀ fuel, ((b.bag.take b.fill).filter (fun p => !p.isNull)).length < fuel →
          b.drain fuel =
            some (((b.bag.take b.fill).filter (fun p => !p.isNull)).reverse, b')) ∧
        b'.fill = 0 ∧ b'.filling = b.filling ∧ b'.size = b.size := by
  intro n
  induction n using Nat.strong_induction_on with
  | _ n ih =>
    intro b hn hle htop
    rcases Nat.eq_zero_or_pos b.fill with h0 | hpos
    · refine ⟨b, ?_, h0, rfl, rfl⟩
      intro fuel hfuel
      obtain ⟨k, rfl⟩ : ∃ k, fuel = k + 1 := ⟨fuel - 1, by omega⟩
      simp [Bag.drain, Bag.split_of_fill_zero b h0, h0]
    · obtain ⟨g, out, hrun, hget, hg, htop', hnull⟩ := Bag.split_of_fill_pos b hpos hle
      have hout : out ≠ Pennant.null := by
        rcases htop with h0 | ⟨p, hp, hpn⟩
        · omega
        · rw [hget] at hp; cases hp; exact hpn
      have htop1 : (({ b with fill := g, bag := b.bag.set (b.fill - 1) Pennant.null } : Bag T)).Top := by
        rcases htop' with h1 | ⟨p, hp, hpn⟩
        · exact Or.inl h1
        · rcases Nat.eq_zero_or_pos g with h1 | h1
          · exact Or.inl h1
          · right
            refine ⟨p, ?_, hpn⟩
            show (b.bag.set (b.fill - 1) Pennant.null)[g - 1]? = some p
            rw [List.getElem?_set, if_neg (by omega)]
            exact hp
      obtain ⟨b', hdrain, hf0, hfil, hsz⟩ :=
        ih g (by omega) { b with fill := g, bag := b.bag.set (b.fill - 1) Pennant.null } rfl
          (by simp; omega) htop1
      dsimp only at hdrain hfil hsz
      have hlist : (b.bag.take b.fill).filter (fun p => !p.isNull) =
          ((b.bag.set (b.fill - 1) Pennant.null).take g).filter (fun p => !p.isNull) ++ [out] := by
        have h1 : b.fill = (b.fill - 1) + 1 := by omega
        rw [← filter_take_nulls _ g (b.fill - 1) (by omega)
          (fun i h1 h2 => hnull i h1 (by omega)), take_set_self]
        conv_lhs => rw [h1, List.take_succ, hget, List.filter_append]
        simp [(Pennant.isNull_false_iff out).mpr hout]
      refine ⟨b', ?_, hf0, hfil, hsz⟩
      intro fuel hfuel
      obtain ⟨k, rfl⟩ : ∃ k, fuel = k + 1 := ⟨fuel - 1, by omega⟩
      rw [hlist] at hfuel ⊢
      simp only [List.length_append, List.length_singleton] at hfuel
      simp only [Bag.drain, hrun]
      rw [hdrain k (by omega)]
      simp
end

theorem Bag_split_spec_witness :
    ∃ b' out ret, Bag.oneBlock.split = some (b', out, ret) ∧
      (ret = false ↔ Bag.oneBlock.fill = 0) ∧ (out = Pennant.null ↔ Bag.oneBlock.fill = 0) ∧
      (Bag.oneBlock.fill = 0 → b' = Bag.oneBlock) ∧
      (Bag.oneBlock.fill ≠ 0 →
        Bag.oneBlock.bag[Bag.oneBlock.fill - 1]? = some out ∧
        b'.bag[Bag.oneBlock.fill - 1]? = some Pennant.null ∧
        b'.fill < Bag.oneBlock.fill ∧ b'.Top ∧ b'.Above) ∧
      (∀ i, i ≠ Bag.oneBlock.fill - 1 → b'.bag[i]? = Bag.oneBlock.bag[i]?) ∧
      b'.filling = Bag.oneBlock.filling ∧ b'.size = Bag.oneBlock.size :=
  Bag_split_spec Bag.oneBlock Bag.oneBlock_inv

/-- C6: on a bag satisfying the bag invariants, calling `split(&out)` until it
returns false terminates; the successful calls are as many as the non-null
slots of `bag[0 .. fill)` and hand out exactly those slots from the highest
index down; the elements of the returned pennants together are the elements of
the bag outside `filling[0 .. size)`; the bag ends with `fill == 0` and with its
filling and `size` unchanged. -/
theorem Bag_split_drain {T : Type} (b : Bag T) (h : b.Inv) :
    ∃ ps b', (∀ fuel, ps.length < fuel → b.drain fuel = some (ps, b')) ∧
      ps = ((b.bag.take b.fill).filter (fun p => !p.isNull)).reverse ∧
      ps.length = (b.bag.take b.fill).countP (fun p => !p.isNull) ∧
      (ps.map Pennant.elems).sum = b.pennantElems ∧
      (ps.map Pennant.elems).sum + b.fillingElems = b.elems ∧
      b'.fill = 0 ∧ b'.filling = b.filling ∧ b'.size = b.size := by
  have hle : b.fill ≤ b.bag.length := by rw [h.slots]; exact h.fill_le
  obtain ⟨b', hdrain, hf0, hfil, hsz⟩ := Bag.drain_spec b.fill b rfl hle h.top
  refine ⟨_, b', ?_, rfl, ?_, ?_, ?_, hf0, hfil, hsz⟩
  · intro fuel hfuel
    exact hdrain fuel (by simpa using hfuel)
  · rw [List.length_reverse, List.countP_eq_length_filter]
  · rw [sum_map_filter_nonnull]; rfl
  · rw [sum_map_filter_nonnull, Bag.elems, add_comm]; rfl

theorem Bag_split_drain_witness :
    ∃ ps b', (∀ fuel, ps.length < fuel → Bag.oneBlock.drain fuel = some (ps, b')) ∧
      ps = ((Bag.oneBlock.bag.take Bag.oneBlock.fill).filter (fun p => !p.isNull)).reverse ∧
      ps.length = (Bag.oneBlock.bag.take Bag.oneBlock.fill).countP (fun p => !p.isNull) ∧
      (ps.map Pennant.elems).sum = Bag.oneBlock.pennantElems ∧
      (ps.map Pennant.elems).sum + Bag.oneBlock.fillingElems = Bag.oneBlock.elems ∧
      b'.fill = 0 ∧ b'.filling = Bag.oneBlock.filling ∧ b'.size = Bag.oneBlock.size :=
  Bag_split_drain Bag.oneBlock Bag.oneBlock_inv

/-! ## Bags: `merge` -/

section
variable {T : Type}

theorem toInt32_eq (x : Int) (h1 : -(2 ^ 31) ≤ x) (h2 : x < 2 ^ 31) : toInt32 x = x := by
  unfold toInt32
  omega

theorem u32_eq (x : Int) (h1 : 0 ≤ x) (h2 : x < 2 ^ 32) : u32 x = x.toNat := by
  unfold u32
  rw [Int.emod_eq_of_lt h1 h2]

theorem Pennant.ofCarry_some_elems (e : List T) :
    (Pennant.ofCarry (some e)).elems = (e : Multiset T) := by
  simp [Pennant.ofCarry, Pennant.ofBlock, Pennant.elems, Pennant.blocks]

theorem Pennant.ofCarry_none_elems : (Pennant.ofCarry (none : Option (List T))).elems = 0 := rfl

theorem memcpy_spec (dst : List T) (d : Nat) (src : List T) (s n : Nat)
    (h1 : d + n ≤ dst.length) (h2 : s + n ≤ src.length) :
    ∃ e, memcpy dst d src s n = some e ∧ e.length = dst.length ∧
      ((e.take (d + n) : List T) : Multiset T) =
        ((dst.take d : List T) : Multiset T) + (((src.drop s).take n : List T) : Multiset T) := by
  refine ⟨dst.take d ++ ((src.drop s).take n ++ dst.drop (d + n)), ?_, ?_, ?_⟩
  · simp [memcpy, h1, h2]
  · simp only [List.length_append, List.length_take, List.length_drop]
    omega
  · have hl : (dst.take d ++ (src.drop s).take n).length = d + n := by
      simp only [List.length_append, List.length_take, List.length_drop]
      omega
    rw [← List.append_assoc, List.take_left' hl, Multiset.coe_add]

theorem take_add_coe (l : List T) (i k : Nat) :
    ((l.take (i + k) : List T) : Multiset T) =
      ((l.take i : List T) : Multiset T) + (((l.drop i).take k : List T) : Multiset T) := by
  rw [List.take_add, Multiset.coe_add]

/-- The filling reconciliation of `merge`: it succeeds, the new filling has
`(a.size + b.size) mod BLK_SIZE` elements, a full block is carried exactly when
`a.size + b.size ≥ BLK_SIZE`, and no element is lost or invented. -/
theorem Bag.merge_filling_spec (a b : Bag T) (ha : a.WF) (hb : b.WF) :
    ∃ fa' sz blk, Bag.merge_filling a b = some (some fa', sz, blk) ∧
      fa'.length = BLK_SIZE ∧ sz < BLK_SIZE ∧
      (a.size + b.size < BLK_SIZE → blk = none ∧ sz = a.size + b.size) ∧
      (BLK_SIZE ≤ a.size + b.size →
        ∃ e, blk = some e ∧ e.length = BLK_SIZE ∧ sz + BLK_SIZE = a.size + b.size) ∧
      ((fa'.take sz : List T) : Multiset T) + (Pennant.ofCarry blk).elems =
        a.fillingElems + b.fillingElems := by
  obtain ⟨fa, hfa, hla⟩ := ha.block
  obtain ⟨fb, hfb, hlb⟩ := hb.block
  have hsa := ha.size_lt
  have hsb := hb.size_lt
  have hB : BLK_SIZE = 2048 := rfl
  have hfe : a.fillingElems + b.fillingElems =
      ((fa.take a.size : List T) : Multiset T) + ((fb.take b.size : List T) : Multiset T) := by
    simp [Bag.fillingElems, hfa, hfb]
  rw [hfe]
  by_cases hlt : a.size < b.size
  · by_cases hcar : BLK_SIZE ≤ a.size + b.size
    · -- `b`'s block is filled up from the tail of `a`'s
      have hi : toInt32 ((a.size : Int) - ((BLK_SIZE : Int) - (b.size : Int))) =
          ((a.size + b.size - BLK_SIZE : Nat) : Int) := by
        rw [toInt32_eq _ (by omega) (by omega)]; omega
      have hn : u32 ((BLK_SIZE : Int) - (b.size : Int)) = BLK_SIZE - b.size := by
        rw [u32_eq _ (by omega) (by omega)]; omega
      have hu : u32 ((a.size + b.size - BLK_SIZE : Nat) : Int) = a.size + b.size - BLK_SIZE := by
        rw [u32_eq _ (by omega) (by omega)]; simp
      obtain ⟨e, hm, hel, h1⟩ := memcpy_spec fb b.size fa (a.size + b.size - BLK_SIZE)
        (BLK_SIZE - b.size) (by omega) (by omega)
      refine ⟨fa, a.size + b.size - BLK_SIZE, some e, ?_, hla, by omega, by omega, ?_, ?_⟩
      · simp only [Bag.merge_filling, hfa, hfb, hlt, if_true, hi, hn, hu, Int.toNat_ofNat,
          Int.ofNat_nonneg, hm]
      · intro _
        exact ⟨e, rfl, by omega, by omega⟩
      · have h2 : b.size + (BLK_SIZE - b.size) = e.length := by omega
        rw [h2, List.take_length] at h1
        have h3 := take_add_coe fa (a.size + b.size - BLK_SIZE) (BLK_SIZE - b.size)
        have h4 : a.size + b.size - BLK_SIZE + (BLK_SIZE - b.size) = a.size := by omega
        rw [h4] at h3
        rw [Pennant.ofCarry_some_elems, h1, h3]
        abel
    · -- everything fits into `b`'s block
      have hi : toInt32 ((a.size : Int) - ((BLK_SIZE : Int) - (b.size : Int))) < 0 := by
        rw [toInt32_eq _ (by omega) (by omega)]; omega
      obtain ⟨e, hm, hel, h1⟩ := memcpy_spec fb b.size fa 0 a.size (by omega) (by omega)
      have hmod : (a.size + b.size) % 2 ^ 32 = a.size + b.size := Nat.mod_eq_of_lt (by omega)
      refine ⟨e, a.size + b.size, none, ?_, by omega, by omega, ?_, ?_, ?_⟩
      · simp only [Bag.merge_filling, hfa, hfb, hlt, if_true, not_le.mpr hi, if_false, hm, hmod]
      · intro _; exact ⟨rfl, rfl⟩
      · intro h; exact absurd h hcar
      · simp only [List.drop_zero] at h1
        rw [Pennant.ofCarry_none_elems, add_zero, Nat.add_comm a.size b.size, h1]
        abel
  · by_cases hcar : BLK_SIZE ≤ a.size + b.size
    · -- `a`'s block is filled up from the tail of `b`'s
      have hi : toInt32 ((b.size : Int) - ((BLK_SIZE : Int) - (a.size : Int))) =
          ((a.size + b.size - BLK_SIZE : Nat) : Int) := by
        rw [toInt32_eq _ (by omega) (by omega)]; omega
      have hn : u32 ((BLK_SIZE : Int) - (a.size : Int)) = BLK_SIZE - a.size := by
        rw [u32_eq _ (by omega) (by omega)]; omega
      have hu : u32 ((a.size + b.size - BLK_SIZE : Nat) : Int) = a.size + b.size - BLK_SIZE := by
        rw [u32_eq _ (by omega) (by omega)]; simp
      obtain ⟨e, hm, hel, h1⟩ := memcpy_spec fa a.size fb (a.size + b.size - BLK_SIZE)
        (BLK_SIZE - a.size) (by omega) (by omega)
      refine ⟨fb, a.size + b.size - BLK_SIZE, some e, ?_, hlb, by omega, by omega, ?_, ?_⟩
      · simp only [Bag.merge_filling, hfa, hfb, hlt, if_false, hi, hn, hu, Int.toNat_ofNat,
          Int.ofNat_nonneg, if_true, hm]
      · intro _
        exact ⟨e, rfl, by omega, by omega⟩
      · have h2 : a.size + (BLK_SIZE - a.size) = e.length := by omega
        rw [h2, List.take_length] at h1
        have h3 := take_add_coe fb (a.size + b.size - BLK_SIZE) (BLK_SIZE - a.size)
        have h4 : a.size + b.size - BLK_SIZE + (BLK_SIZE - a.size) = b.size := by omega
        rw [h4] at h3
        rw [Pennant.ofCarry_some_elems, h1, h3]
        abel
    · -- everything fits into `a`'s block
      have hi : toInt32 ((b.size : Int) - ((BLK_SIZE : Int) - (a.size : Int))) < 0 := by
        rw [toInt32_eq _ (by omega) (by omega)]; omega
      obtain ⟨e, hm, hel, h1⟩ := memcpy_spec fa a.size fb 0 b.size (by omega) (by omega)
      have hmod : (a.size + b.size) % 2 ^ 32 = a.size + b.size := Nat.mod_eq_of_lt (by omega)
      refine ⟨e, a.size + b.size, none, ?_, by omega, by omega, ?_, ?_, ?_⟩
      · simp only [Bag.merge_filling, hfa, hfb, hlt, if_false, not_le.mpr hi, hm, hmod]
      · intro _; exact ⟨rfl, rfl⟩
      · intro h; exact absurd h hcar
      · simp only [List.drop_zero] at h1
        rw [Pennant.ofCarry_none_elems, add_zero, h1]
end

section
variable {T : Type}

theorem set_of_get? {l : List (Pennant T)} {i : Nat} {p : Pennant T} (h : l[i]? = some p) :
    l.set i p = l := by
  apply List.ext_getElem?
  intro j
  rw [List.getElem?_set]
  split_ifs with h1 h2
  · subst h1; exact h.symm
  · subst h1
    rw [List.getElem?_eq_none (by omega)]
  · rfl

theorem Pennant.isNull_null : (Pennant.null : Pennant T).isNull = true := rfl

theorem SlotOK.of_null (i : Nat) : SlotOK i (Pennant.null : Pennant T) := Or.inl rfl

/-- One iteration of the main loop of `merge` is a full adder on slot `i`. -/
theorem Bag.merge_step_spec (thatFill i : Nat) (ta tb : List (Pennant T)) (c p q : Pennant T)
    (hit : i < thatFill) (hgp : ta[i]? = some p) (hgq : tb[i]? = some q)
    (hp : SlotOK i p) (hq : SlotOK i q) (hc : SlotOK i c) :
    ∃ v c', Bag.merge_step thatFill i ta tb c =
        some (ta.set i v, tb.set i Pennant.null, c') ∧
      SlotOK i v ∧ SlotOK (i + 1) c' ∧
      v.blockSet + c'.blockSet = p.blockSet + q.blockSet + c.blockSet := by
  rcases hp.null_or with rfl | ⟨hpn, hpr, hpf⟩ <;>
  rcases hq.null_or with rfl | ⟨hqn, hqr, hqf⟩ <;>
  rcases hc.null_or with rfl | ⟨hcn, hcr, hcf⟩
  · exact ⟨Pennant.null, Pennant.null,
      by simp [Bag.merge_step, hgp, hgq, Pennant.isNull_null], Or.inl rfl, Or.inl rfl, by simp [Pennant.blockSet_null]⟩
  · exact ⟨c, Pennant.null,
      by simp [Bag.merge_step, hgp, hgq, Pennant.isNull_null, hcn], Or.inr ⟨hcr, hcf⟩, Or.inl rfl,
      by simp [Pennant.blockSet_null]⟩
  · exact ⟨q, Pennant.null,
      by simp [Bag.merge_step, hgp, hgq, Pennant.isNull_null, hqn, hit], Or.inr ⟨hqr, hqf⟩,
      Or.inl rfl, by simp [Pennant.blockSet_null]⟩
  · obtain ⟨c', hcomb, hr, hbs, hf⟩ := Pennant.combine_spec hqr hcr
    exact ⟨Pennant.null, c',
      by simp [Bag.merge_step, hgp, hgq, Pennant.isNull_null, hqn, hcn, hit, hcomb], Or.inl rfl,
      Or.inr ⟨hr, hf hqf hcf⟩, by simp [Pennant.blockSet_null, hbs]⟩
  · refine ⟨p, Pennant.null, ?_, Or.inr ⟨hpr, hpf⟩, Or.inl rfl, by simp [Pennant.blockSet_null]⟩
    rw [set_of_get? hgp]
    simp [Bag.merge_step, hgp, hgq, Pennant.isNull_null, hpn]
  · obtain ⟨c', hcomb, hr, hbs, hf⟩ := Pennant.combine_spec hpr hcr
    exact ⟨Pennant.null, c',
      by simp [Bag.merge_step, hgp, hgq, Pennant.isNull_null, hpn, hcn, hcomb], Or.inl rfl,
      Or.inr ⟨hr, hf hpf hcf⟩, by simp [Pennant.blockSet_null, hbs]⟩
  · obtain ⟨c', hcomb, hr, hbs, hf⟩ := Pennant.combine_spec hpr hqr
    exact ⟨Pennant.null, c',
      by simp [Bag.merge_step, hgp, hgq, Pennant.isNull_null, hpn, hqn, hit, hcomb], Or.inl rfl,
      Or.inr ⟨hr, hf hpf hqf⟩, by simp [Pennant.blockSet_null, hbs]⟩
  · obtain ⟨c', hcomb, hr, hbs, hf⟩ := Pennant.combine_spec hqr hcr
    refine ⟨p, c', ?_, Or.inr ⟨hpr, hpf⟩, Or.inr ⟨hr, hf hqf hcf⟩, by rw [hbs, add_assoc]⟩
    rw [set_of_get? hgp]
    simp [Bag.merge_step, hgp, hgq, hpn, hqn, hcn, hit, hcomb]

/-- The main loop of `merge` adds the slots `[i, i + n)` of the two arrays and
the incoming carry. -/
theorem Bag.merge_loop_spec (thatFill : Nat) :
    ∀ (n i : Nat) (ta tb : List (Pennant T)) (c : Pennant T),
      i + n ≤ thatFill → i + n ≤ ta.length → i + n ≤ tb.length →
      (∀ j p, i ≤ j → j < i + n → ta[j]? = some p → SlotOK j p) →
      (∀ j p, i ≤ j → j < i + n → tb[j]? = some p → SlotOK j p) →
      SlotOK i c →
      ∃ ta' tb' c', Bag.merge_loop thatFill n i ta tb c = some (ta', tb', c') ∧
        ta'.length = ta.length ∧ tb'.length = tb.length ∧
        (∀ j, j < i ∨ i + n ≤ j → ta'[j]? = ta[j]? ∧ tb'[j]? = tb[j]?) ∧
        (∀ j p, i ≤ j → j < i + n → ta'[j]? = some p → SlotOK j p) ∧
        (∀ j, i ≤ j → j < i + n → tb'[j]? = some Pennant.null) ∧
        SlotOK (i + n) c' ∧
        wsum Pennant.blockSet ta' i (i + n) + c'.blockSet =
          wsum Pennant.blockSet ta i (i + n) + wsum Pennant.blockSet tb i (i + n) +
            c.blockSet := by
  intro n
  induction n with
  | zero =>
    intro i ta tb c _ _ _ _ _ hc
    refine ⟨ta, tb, c, rfl, rfl, rfl, fun _ _ => ⟨rfl, rfl⟩, ?_, ?_, hc, ?_⟩
    · intro j p h1 h2; omega
    · intro j h1 h2; omega
    · simp [wsum_empty]
  | succ n ih =>
    intro i ta tb c hfill hla hlb hsa hsb hc
    have hia : i < ta.length := by omega
    have hib : i < tb.length := by omega
    have hgp : ta[i]? = some ta[i] := List.getElem?_eq_getElem hia
    have hgq : tb[i]? = some tb[i] := List.getElem?_eq_getElem hib
    obtain ⟨v, c1, hstep, hv, hc1, hsum1⟩ :=
      Bag.merge_step_spec thatFill i ta tb c ta[i] tb[i] (by omega) hgp hgq
        (hsa i _ (le_refl i) (by omega) hgp) (hsb i _ (le_refl i) (by omega) hgq) hc
    obtain ⟨ta', tb', c', hrun, hla', hlb', hout, hok, hnull, hc', hsum⟩ :=
      ih (i + 1) (ta.set i v) (tb.set i Pennant.null) c1 (by omega) (by simp; omega)
        (by simp; omega)
        (by
          intro j p h1 h2 hj
          rw [List.getElem?_set, if_neg (by omega)] at hj
          exact hsa j p (by omega) (by omega) hj)
        (by
          intro j p h1 h2 hj
          rw [List.getElem?_set, if_neg (by omega)] at hj
          exact hsb j p (by omega) (by omega) hj)
        hc1
    have hidx : i + 1 + n = i + (n + 1) := by omega
    rw [hidx] at hout hok hnull hc' hsum
    refine ⟨ta', tb', c', ?_, by simpa using hla', by simpa using hlb', ?_, ?_, ?_, hc', ?_⟩
    · simp only [Bag.merge_loop, hstep, hrun]
    · intro j hj
      have := hout j (by omega)
      rw [List.getElem?_set, if_neg (by omega), List.getElem?_set, if_neg (by omega)] at this
      exact this
    · intro j p h1 h2 hj
      rcases Nat.eq_or_lt_of_le h1 with h | h
      · subst h
        rw [(hout i (Or.inl (Nat.lt_succ_self i))).1, List.getElem?_set_self hia] at hj
        cases hj
        exact hv
      · exact hok j p (by omega) h2 hj
    · intro j h1 h2
      rcases Nat.eq_or_lt_of_le h1 with h | h
      · subst h
        rw [(hout i (Or.inl (Nat.lt_succ_self i))).2, List.getElem?_set_self hib]
      · exact hnull j (by omega) h2
    · have hin : i < i + (n + 1) := by omega
      have e1 : (ta'.getD i Pennant.null) = v := by
        apply getD_of_get?
        rw [(hout i (Or.inl (Nat.lt_succ_self i))).1, List.getElem?_set_self hia]
      rw [wsum_succ_bot _ ta' hin, wsum_succ_bot _ ta hin, wsum_succ_bot _ tb hin, e1,
        getD_of_get? hgp, getD_of_get? hgq]
      rw [wsum_set_out _ ta v (Or.inl (Nat.lt_succ_self i)),
        wsum_set_out _ tb Pennant.null (Or.inl (Nat.lt_succ_self i))] at hsum
      have : v.blockSet + wsum Pennant.blockSet ta' (i + 1) (i + (n + 1)) + c'.blockSet =
          v.blockSet + (wsum Pennant.blockSet ta' (i + 1) (i + (n + 1)) + c'.blockSet) := by
        abel
      rw [this, hsum]
      have h2 : v.blockSet + (wsum Pennant.blockSet ta (i + 1) (i + (n + 1)) +
          wsum Pennant.blockSet tb (i + 1) (i + (n + 1)) + c1.blockSet) =
          (v.blockSet + c1.blockSet) + wsum Pennant.blockSet ta (i + 1) (i + (n + 1)) +
          wsum Pennant.blockSet tb (i + 1) (i + (n + 1)) := by abel
      rw [h2, hsum1]
      abel
end

section
variable {T : Type}

theorem Bag.merge_move_spec :
    ∀ (n j : Nat) (ta tb : List (Pennant T)), j + n ≤ ta.length → j + n ≤ tb.length →
      ∃ ta' tb', Bag.merge_move n j ta tb = some (ta', tb') ∧
        ta'.length = ta.length ∧ tb'.length = tb.length ∧
        (∀ k, j ≤ k → k < j + n → ta'[k]? = tb[k]? ∧ tb'[k]? = some Pennant.null) ∧
        (∀ k, k < j ∨ j + n ≤ k → ta'[k]? = ta[k]? ∧ tb'[k]? = tb[k]?) := by
  intro n
  induction n with
  | zero =>
    intro j ta tb _ _
    exact ⟨ta, tb, rfl, rfl, rfl, fun k h1 h2 => by omega, fun _ _ => ⟨rfl, rfl⟩⟩
  | succ n ih =>
    intro j ta tb hla hlb
    have hja : j < ta.length := by omega
    have hjb : j < tb.length := by omega
    have hgq : tb[j]? = some tb[j] := List.getElem?_eq_getElem hjb
    obtain ⟨ta', tb', hrun, hla', hlb', hin, hout⟩ :=
      ih (j + 1) (ta.set j tb[j]) (tb.set j Pennant.null) (by simp; omega) (by simp; omega)
    have hidx : j + 1 + n = j + (n + 1) := by omega
    rw [hidx] at hin hout
    refine ⟨ta', tb', ?_, by simpa using hla', by simpa using hlb', ?_, ?_⟩
    · simp only [Bag.merge_move, hgq, store_eq hja, store_eq hjb, hrun]
    · intro k h1 h2
      rcases Nat.eq_or_lt_of_le h1 with h | h
      · subst h
        have := hout j (Or.inl (Nat.lt_succ_self j))
        rw [List.getElem?_set_self hja, List.getElem?_set_self hjb] at this
        exact ⟨by rw [this.1, hgq], this.2⟩
      · have := hin k (by omega) h2
        rw [List.getElem?_set, if_neg (by omega)] at this
        exact this
    · intro k hk
      have := hout k (by omega)
      rw [List.getElem?_set, if_neg (by omega), List.getElem?_set, if_neg (by omega)] at this
      exact this

/-- The carry loop of `merge` in the case `that->fill == max`: the carry ripples
through the slots `[i, mx)` of `that`, and the result lands in `this`. -/
theorem Bag.merge_ripple_spec (mx : Nat) (hmx : mx ≤ BAG_SIZE) :
    ∀ (fuel i : Nat) (c : Pennant T) (ta tb : List (Pennant T)),
      ta.length = BAG_SIZE → tb.length = BAG_SIZE → i ≤ mx → i < BAG_SIZE →
      BAG_SIZE ≤ i + fuel →
      (∀ j p, i ≤ j → j < mx → tb[j]? = some p → SlotOK j p) →
      Pennant.IsPennant i c → Pennant.FullBlocks c →
      wsum Pennant.numBlocks tb i mx + c.numBlocks < 2 ^ BAG_SIZE →
      ∃ ta' tb' f, Bag.merge_ripple mx fuel i c ta tb = some (ta', tb', f) ∧
        ta'.length = BAG_SIZE ∧ tb'.length = BAG_SIZE ∧
        mx ≤ f ∧ f ≤ mx + 1 ∧ f ≤ BAG_SIZE ∧ i < f ∧
        (∀ k, k < i ∨ f ≤ k → ta'[k]? = ta[k]?) ∧
        (∀ k p, i ≤ k → k < f → ta'[k]? = some p → SlotOK k p) ∧
        ((mx ≤ i ∨ ∃ p, tb[mx - 1]? = some p ∧ p ≠ Pennant.null) →
          ∃ p, ta'[f - 1]? = some p ∧ p ≠ Pennant.null) ∧
        wsum Pennant.blockSet ta' i f = wsum Pennant.blockSet tb i mx + c.blockSet := by
  intro fuel
  induction fuel with
  | zero => intro i c ta tb _ _ _ h1 h2; omega
  | succ fuel ih =>
    intro i c ta tb hla hlb him hiB hfuel hsb hc hcf hsat
    have hia : i < ta.length := by omega
    have hib : i < tb.length := by omega
    have hgq : tb[i]? = some tb[i] := List.getElem?_eq_getElem hib
    rcases Nat.lt_or_ge i mx with hlt | hge
    · rcases (hsb i _ (le_refl i) hlt hgq).null_or with hnull | ⟨hnn, hrank, hfull⟩
      · -- empty slot: store the carry, then move the rest of `that`
        have hmax : max mx (i + 1) = mx := max_eq_left hlt
        obtain ⟨ta', tb', hrun, hla', hlb', hin, hout⟩ :=
          Bag.merge_move_spec (mx - (i + 1)) (i + 1) (ta.set i c) tb (by simp; omega) (by omega)
        have hidx : i + 1 + (mx - (i + 1)) = mx := by omega
        rw [hidx] at hin hout
        have hti : ta'[i]? = some c := by
          rw [(hout i (Or.inl (Nat.lt_succ_self i))).1, List.getElem?_set_self hia]
        refine ⟨ta', tb', mx, ?_, by rw [hla']; simpa using hla, by omega, le_refl _, by omega, hmx, hlt,
          ?_, ?_, ?_, ?_⟩
        · simp only [Bag.merge_ripple, if_pos hlt, hgq, hnull, Pennant.isNull_null, if_true,
            store_eq hia, hmax, hrun, Option.map_some']
        · intro k hk
          rw [(hout k (by omega)).1, List.getElem?_set, if_neg (by omega)]
        · intro k p h1 h2 hk
          rcases Nat.eq_or_lt_of_le h1 with h | h
          · subst h
            rw [hti] at hk; cases hk
            exact Or.inr ⟨hc, hcf⟩
          · rw [(hin k (by omega) h2).1] at hk
            exact hsb k p h1 h2 hk
        · intro htop
          rcases Nat.lt_or_ge i (mx - 1) with h | h
          · rcases htop with h' | ⟨p, hp, hpn⟩
            · omega
            · refine ⟨p, ?_, hpn⟩
              rw [(hin (mx - 1) (by omega) (by omega)).1]
              exact hp
          · have : mx - 1 = i := by omega
            rw [this]
            exact ⟨c, hti, hc.ne_null⟩
        · rw [wsum_succ_bot _ ta' hlt, wsum_succ_bot _ tb hlt, getD_of_get? hti,
            getD_of_get? hgq, hnull, Pennant.blockSet_null, zero_add, add_comm]
          congr 1
          apply wsum_congr
          intro k h1 h2
          rw [List.getD_eq_getElem?_getD, List.getD_eq_getElem?_getD, (hin k h1 h2).1]
      · -- occupied slot: combine and go on
        obtain ⟨c', hcomb, hrank', hbs', hfull'⟩ := Pennant.combine_spec hrank hc
        have hnb : c'.numBlocks = tb[i].numBlocks + c.numBlocks := by
          rw [Pennant.numBlocks_eq_card, hbs', Multiset.card_add,
            ← Pennant.numBlocks_eq_card, ← Pennant.numBlocks_eq_card]
        have hsplit := wsum_succ_bot Pennant.numBlocks tb hlt
        rw [getD_of_get? hgq] at hsplit
        have hi1 : i + 1 < BAG_SIZE := by
          by_contra hcon
          have h64 : i + 1 = BAG_SIZE := by omega
          have := hrank'.numBlocks_eq
          rw [h64] at this
          omega
        obtain ⟨ta', tb', f, hrun, hla', hlb', h1, h2, h3, h4, h5, h6, h7, h8⟩ :=
          ih (i + 1) c' (ta.set i Pennant.null) (tb.set i Pennant.null) (by simpa using hla)
            (by simpa using hlb) (by omega) hi1 (by omega)
            (by
              intro j p hj1 hj2 hj
              rw [List.getElem?_set, if_neg (by omega)] at hj
              exact hsb j p (by omega) hj2 hj)
            hrank' (hfull' hfull hcf)
            (by
              rw [wsum_set_out Pennant.numBlocks tb Pennant.null (Or.inl (by omega : i < i + 1))]
              omega)
        have hti : ta'[i]? = some Pennant.null := by
          rw [h5 i (Or.inl (Nat.lt_succ_self i)), List.getElem?_set_self hia]
        refine ⟨ta', tb', f, ?_, hla', hlb', h1, h2, h3, by omega, ?_, ?_, ?_, ?_⟩
        · simp only [Bag.merge_ripple, if_pos hlt, hgq, hnn, hcomb, store_eq hia, store_eq hib,
            if_pos hi1, hrun]
          simp
        · intro k hk
          rw [h5 k (by omega), List.getElem?_set, if_neg (by omega)]
        · intro k p hk1 hk2 hk
          rcases Nat.eq_or_lt_of_le hk1 with h | h
          · subst h
            rw [hti] at hk; cases hk
            exact Or.inl rfl
          · exact h6 k p h hk2 hk
        · intro htop
          apply h7
          rcases Nat.lt_or_ge (i + 1) mx with h | h
          · right
            rcases htop with h' | ⟨p, hp, hpn⟩
            · omega
            · refine ⟨p, ?_, hpn⟩
              rw [List.getElem?_set, if_neg (by omega)]
              exact hp
          · exact Or.inl h
        · rw [wsum_succ_bot _ ta' (by omega : i < f), getD_of_get? hti, Pennant.blockSet_null,
            zero_add, h8, wsum_set_out _ tb Pennant.null (Or.inl (by omega : i < i + 1)),
            wsum_succ_bot _ tb hlt, getD_of_get? hgq, hbs']
          abel
    · -- past the last slot of `that`: store the carry and grow `fill`
      have hil : i = mx := by omega
      subst hil
      have hmax : max i (i + 1) = i + 1 := max_eq_right (Nat.le_succ i)
      refine ⟨ta.set i c, tb, i + 1, ?_, by simpa using hla, hlb, by omega, le_refl _, by omega,
        by omega, ?_, ?_, ?_, ?_⟩
      · simp only [Bag.merge_ripple, if_neg (Nat.lt_irrefl i), Pennant.isNull_null, if_true,
          store_eq hia, hmax, Nat.sub_self, Bag.merge_move, Option.map_some']
      · intro k hk
        rw [List.getElem?_set, if_neg (by omega)]
      · intro k p h1 h2 hk
        have : k = i := by omega
        subst this
        rw [List.getElem?_set_self hia] at hk; cases hk
        exact Or.inr ⟨hc, hcf⟩
      · intro _
        simp only [Nat.add_sub_cancel]
        exact ⟨c, List.getElem?_set_self hia, hc.ne_null⟩
      · rw [wsum_succ_top _ _ (le_refl i), wsum_empty _ _ (le_refl i), wsum_empty _ _ (le_refl i),
          getD_set_self hia]
end

section
variable {T : Type}

theorem wsum_numBlocks_lt (l : List (Pennant T)) (n : Nat)
    (h : ∀ j p, j < n → l[j]? = some p → SlotOK j p) (hn : n ≤ l.length) :
    wsum Pennant.numBlocks l 0 n < 2 ^ n := by
  apply binsum_lt
  intro j hj
  have hget : l[j]? = some l[j] := List.getElem?_eq_getElem (by omega)
  rw [getD_of_get? hget]
  rcases h j _ hj hget with h0 | ⟨h1, -⟩
  · rw [h0]; exact Or.inl rfl
  · exact Or.inr h1.numBlocks_eq

theorem wsum_numBlocks_ge_of_top (l : List (Pennant T)) (n : Nat) (hpos : 0 < n)
    (h : ∀ j p, j < n → l[j]? = some p → SlotOK j p)
    (htop : ∃ p, l[n - 1]? = some p ∧ p ≠ Pennant.null) :
    2 ^ (n - 1) ≤ wsum Pennant.numBlocks l 0 n := by
  obtain ⟨p, hp, hpn⟩ := htop
  obtain ⟨k, rfl⟩ : ∃ k, n = k + 1 := ⟨n - 1, by omega⟩
  simp only [Nat.add_sub_cancel] at hp ⊢
  rw [wsum_succ_top _ _ (Nat.zero_le k), getD_of_get? hp]
  rcases h k p (by omega) hp with h0 | ⟨h1, -⟩
  · exact absurd h0 hpn
  · rw [h1.numBlocks_eq]; omega

theorem Pennant.ofBlock_slotOK (e : List T) (h : e.length = BLK_SIZE) :
    Pennant.IsPennant 0 (Pennant.ofBlock e) ∧ Pennant.FullBlocks (Pennant.ofBlock e) := by
  refine ⟨⟨rfl, rfl⟩, ?_⟩
  intro x hx
  simp only [Pennant.ofBlock, Pennant.blocks, List.append_nil, List.mem_singleton] at hx
  subst hx
  exact h

theorem Pennant.ofBlock_blockSet (e : List T) : (Pennant.ofBlock e).blockSet = {e} := by
  simp [Pennant.ofBlock, Pennant.blockSet, Pennant.blocks]

/-- The effect of the pennant part of `merge`, started from the carry `c0` that
the filling reconciliation produced. -/
theorem Bag.merge_slots_spec (a b : Bag T) (ha : a.WF) (hb : b.WF) (c0 : Pennant T)
    (hc0 : SlotOK 0 c0) (fa : Option (List T)) (sz : Nat)
    (hsat : a.numBlocks + b.numBlocks + c0.numBlocks < 2 ^ BAG_SIZE) :
    ∃ ta tb c, Bag.merge_loop b.fill (if a.fill > b.fill then b.fill else a.fill) 0
        a.bag b.bag c0 = some (ta, tb, c) ∧
      ∃ a' b' : Bag T,
        (if a.fill = (if a.fill > b.fill then a.fill else b.fill) then
            if c.isNull then
              some (({ fill := a.fill, bag := ta, filling := fa, size := sz } : Bag T),
                    ({ fill := 0, bag := tb, filling := none, size := b.size } : Bag T))
            else
              (Bag.carry (if a.fill > b.fill then a.fill else b.fill) (BAG_SIZE + 1)
                  (if a.fill > b.fill then b.fill else a.fill) c
                  { fill := a.fill, bag := ta, filling := fa, size := sz }).map
                fun a' => (a', { fill := 0, bag := tb, filling := none, size := b.size })
          else
            if c.isNull then
              (Bag.merge_move ((if a.fill > b.fill then a.fill else b.fill) -
                  (if a.fill > b.fill then b.fill else a.fill))
                  (if a.fill > b.fill then b.fill else a.fill) ta tb).map
                fun r => ({ fill := (if a.fill > b.fill then a.fill else b.fill), bag := r.1,
                            filling := fa, size := sz },
                          { fill := 0, bag := r.2, filling := none, size := b.size })
            else
              (Bag.merge_ripple (if a.fill > b.fill then a.fill else b.fill) (BAG_SIZE + 1)
                  (if a.fill > b.fill then b.fill else a.fill) c ta tb).map
                fun r => ({ fill := r.2.2, bag := r.1, filling := fa, size := sz },
                          { fill := 0, bag := r.2.1, filling := none, size := b.size })) =
          some (a', b') ∧
        a'.filling = fa ∧ a'.size = sz ∧
        b'.fill = 0 ∧ b'.size = b.size ∧ b'.filling = none ∧
        a'.bag.length = BAG_SIZE ∧ a'.fill ≤ BAG_SIZE ∧
        max a.fill b.fill ≤ a'.fill ∧ a'.fill ≤ max a.fill b.fill + 1 ∧
        (∀ j p, j < a'.fill → a'.bag[j]? = some p → SlotOK j p) ∧
        wsum Pennant.blockSet a'.bag 0 a'.fill = a.blockSet + b.blockSet + c0.blockSet ∧
        (a.Top → b.Top → a'.Top) ∧ (a.Above → b.Above → a'.Above) := by
  have hfa := ha.fill_le
  have hfb := hb.fill_le
  have hla := ha.slots
  have hlb := hb.slots
  have hfla := ha.fill_le_length
  have hflb := hb.fill_le_length
  -- the two bounds of the loops
  obtain ⟨mn, mx, hmn, hmx, hmnle, hmxle, hmnmx, hmna, hmnb, hmxeq⟩ :
      ∃ mn mx, (if a.fill > b.fill then b.fill else a.fill) = mn ∧
        (if a.fill > b.fill then a.fill else b.fill) = mx ∧ mn ≤ mx ∧ mx ≤ BAG_SIZE ∧
        ((a.fill = mx ∧ b.fill = mn) ∨ (a.fill = mn ∧ b.fill = mx ∧ mn < mx)) ∧
        mn ≤ a.fill ∧ mn ≤ b.fill ∧ mx = max a.fill b.fill := by
    by_cases h : a.fill > b.fill
    · exact ⟨b.fill, a.fill, if_pos h, if_pos h, by omega, hfa, Or.inl ⟨rfl, rfl⟩, by omega,
        le_refl _, by rw [max_eq_left (by omega)]⟩
    · refine ⟨a.fill, b.fill, if_neg h, if_neg h, by omega, hfb, ?_, le_refl _, by omega,
        by rw [max_eq_right (by omega)]⟩
      rcases Nat.lt_or_ge a.fill b.fill with h1 | h1
      · exact Or.inr ⟨rfl, rfl, h1⟩
      · exact Or.inl ⟨by omega, by omega⟩
  rw [hmn, hmx, ← hmxeq]
  -- the main loop
  obtain ⟨ta, tb, c, hloop, hlta, hltb, hout, hok, hnull, hc, hsum⟩ :=
    Bag.merge_loop_spec b.fill mn 0 a.bag b.bag c0 (by omega) (by omega) (by omega)
      (fun j p _ hj hp => ha.rank j p (by omega) hp)
      (fun j p _ hj hp => hb.rank j p (by omega) hp) hc0
  simp only [Nat.zero_add] at hout hok hnull hc hsum
  rw [hla] at hlta
  rw [hlb] at hltb
  refine ⟨ta, tb, c, hloop, ?_⟩
  have hta_hi : ∀ j, mn ≤ j → ta[j]? = a.bag[j]? := fun j hj => (hout j (Or.inr hj)).1
  have htb_hi : ∀ j, mn ≤ j → tb[j]? = b.bag[j]? := fun j hj => (hout j (Or.inr hj)).2
  have hA : a.blockSet = wsum Pennant.blockSet a.bag 0 a.fill := Bag.blockSet_eq_wsum hfla
  have hB : b.blockSet = wsum Pennant.blockSet b.bag 0 b.fill := Bag.blockSet_eq_wsum hflb
  have hcard : ∀ l : List (Pennant T), ∀ i n, ∀ s : Multiset (List T),
      wsum Pennant.blockSet l i n = s → wsum Pennant.numBlocks l i n = Multiset.card s := by
    intro l i n s h
    rw [← card_wsum_blockSet, h]
  have hsatc : Multiset.card (a.blockSet + b.blockSet + c0.blockSet) < 2 ^ BAG_SIZE := by
    rw [Multiset.card_add, Multiset.card_add, ← Bag.numBlocks_card_blockSet hfla,
      ← Bag.numBlocks_card_blockSet hflb, ← Pennant.numBlocks_eq_card]
    exact hsat
  have hgetD_congr : ∀ (l l' : List (Pennant T)) (j : Nat), l'[j]? = l[j]? →
      l'.getD j Pennant.null = l.getD j Pennant.null := by
    intro l l' j h
    rw [List.getD_eq_getElem?_getD, List.getD_eq_getElem?_getD, h]
  rcases hmnmx with ⟨hamx, hbmn⟩ | ⟨hamn, hbmx, hlt⟩
  · -- `this->fill == max`
    rw [if_pos hamx]
    have hK : wsum Pennant.blockSet ta 0 mx + c.blockSet =
        a.blockSet + b.blockSet + c0.blockSet := by
      rw [wsum_split _ ta (Nat.zero_le mn) hmnle,
        wsum_congr Pennant.blockSet a.bag ta mn mx
          (fun j h1 _ => hgetD_congr _ _ j (hta_hi j h1)),
        hA, hB, hamx, hbmn, wsum_split _ a.bag (Nat.zero_le mn) hmnle]
      rw [add_right_comm, hsum]
      abel
    have hslots : ∀ j p, j < mx → ta[j]? = some p → SlotOK j p := by
      intro j p hj hp
      rcases Nat.lt_or_ge j mn with h | h
      · exact hok j p (Nat.zero_le j) h hp
      · rw [hta_hi j h] at hp
        exact ha.rank j p (by omega) hp
    by_cases hcn : c.isNull = true
    · rw [if_pos hcn]
      have hc0' : c = Pennant.null := (Pennant.isNull_iff c).mp hcn
      rw [hc0', Pennant.blockSet_null, add_zero] at hK
      refine ⟨{ fill := a.fill, bag := ta, filling := fa, size := sz },
        { fill := 0, bag := tb, filling := none, size := b.size },
        rfl, rfl, rfl, rfl, rfl, rfl, hlta, hfa, by show mx ≤ a.fill; omega,
        by show a.fill ≤ mx + 1; omega, ?_, ?_, ?_, ?_⟩
      · intro j p hj hp
        exact hslots j p (by rw [← hamx]; exact hj) hp
      · show wsum Pennant.blockSet ta 0 a.fill = _
        rw [hamx]; exact hK
      · intro hta htb
        rcases Nat.eq_zero_or_pos a.fill with h0 | hpos
        · exact Or.inl h0
        · right
          show ∃ p, ta[a.fill - 1]? = some p ∧ p ≠ Pennant.null
          rcases Nat.lt_or_ge (a.fill - 1) mn with h | h
          · -- equal fills, both tops set: the loop must have left a carry
            exfalso
            have hbmx : b.fill = mx := by omega
            have h1 := wsum_numBlocks_ge_of_top a.bag a.fill hpos ha.rank
              (by rcases hta with h0 | h1; · omega
                  · exact h1)
            have h2 := wsum_numBlocks_ge_of_top b.bag b.fill (by omega) hb.rank
              (by rcases htb with h0 | h1; · omega
                  · exact h1)
            have h3 := wsum_numBlocks_lt ta mx hslots (by omega)
            have h4 := hcard _ _ _ _ hK
            rw [Multiset.card_add, Multiset.card_add, hA, hB, card_wsum_blockSet,
              card_wsum_blockSet] at h4
            rw [hamx] at h1 h4
            rw [hbmx] at h2 h4
            have h5 : 2 ^ mx = 2 ^ (mx - 1) + 2 ^ (mx - 1) := by
              have : mx = (mx - 1) + 1 := by omega
              conv_lhs => rw [this, pow_succ]
              omega
            omega
          · rcases hta with h0 | ⟨p, hp, hpn⟩
            · omega
            · exact ⟨p, by rw [hta_hi _ h]; exact hp, hpn⟩
      · intro haa _ j hj hjB
        show ta[j]? = some Pennant.null
        rw [hta_hi j (by change a.fill ≤ j at hj; omega)]
        exact haa j hj hjB
    · rw [if_neg hcn]
      have hcr : Pennant.IsPennant mn c ∧ Pennant.FullBlocks c := by
        rcases hc with h | h
        · exact absurd ((Pennant.isNull_iff c).mpr h) hcn
        · exact h
      have hKc := hcard _ _ _ _ (show wsum Pennant.blockSet ta 0 mx = wsum Pennant.blockSet ta 0 mx from rfl)
      have hcardK : wsum Pennant.numBlocks ta 0 mx + c.numBlocks < 2 ^ BAG_SIZE := by
        have := congrArg Multiset.card hK
        rw [Multiset.card_add, card_wsum_blockSet, ← Pennant.numBlocks_eq_card] at this
        omega
      have hmnB : mn < BAG_SIZE := by
        by_contra hcon
        have h64 : mn = BAG_SIZE := by omega
        have := hcr.1.numBlocks_eq
        rw [h64] at this
        omega
      have hsplit := wsum_split Pennant.numBlocks ta (Nat.zero_le mn) hmnle
      obtain ⟨a', hrun, hf, hs, hl, h1, h2, h3, h4, h5, h6, h7, h8, h9⟩ :=
        Bag.carry_spec mx hmxle (BAG_SIZE + 1) mn c
          { fill := a.fill, bag := ta, filling := fa, size := sz } hlta hmnle hmnB (by omega)
          hslots hcr.1 hcr.2 (by
            show wsum Pennant.numBlocks ta mn mx + _ < _
            omega)
      refine ⟨a', { fill := 0, bag := tb, filling := none, size := b.size }, by rw [hrun]; rfl,
        hf, hs, rfl, rfl, rfl, hl, h3, h1, h2, h5, ?_, ?_, ?_⟩
      · rw [h9]; exact hK
      · intro hta _
        right
        apply h8
        rcases Nat.lt_or_ge mn mx with h | h
        · right
          rcases hta with h0 | ⟨p, hp, hpn⟩
          · omega
          · refine ⟨p, ?_, hpn⟩
            show ta[mx - 1]? = some p
            rw [hta_hi _ (by omega), ← hamx]
            exact hp
        · exact Or.inl h
      · intro haa _ j hj hjB
        rw [h7 j hj]
        show ta[j]? = some Pennant.null
        rw [hta_hi j (by omega)]
        exact haa j (by omega) hjB
  · -- `that->fill == max`
    rw [if_neg (by omega)]
    have hK : wsum Pennant.blockSet ta 0 mn + wsum Pennant.blockSet tb mn mx + c.blockSet =
        a.blockSet + b.blockSet + c0.blockSet := by
      rw [wsum_congr Pennant.blockSet b.bag tb mn mx
          (fun j h1 _ => hgetD_congr _ _ j (htb_hi j h1)),
        hA, hB, hamn, hbmx, wsum_split _ b.bag (Nat.zero_le mn) hmnle]
      rw [add_right_comm, hsum]
      abel
    have hslotsb : ∀ j p, mn ≤ j → j < mx → tb[j]? = some p → SlotOK j p := by
      intro j p h1 h2 hp
      rw [htb_hi j h1] at hp
      exact hb.rank j p (by omega) hp
    have htopb : b.Top → ∃ p, tb[mx - 1]? = some p ∧ p ≠ Pennant.null := by
      intro htb
      rcases htb with h0 | ⟨p, hp, hpn⟩
      · omega
      · exact ⟨p, by rw [htb_hi _ (by omega), ← hbmx]; exact hp, hpn⟩
    by_cases hcn : c.isNull = true
    · rw [if_pos hcn]
      have hc0' : c = Pennant.null := (Pennant.isNull_iff c).mp hcn
      rw [hc0', Pennant.blockSet_null, add_zero] at hK
      obtain ⟨ta', tb', hrun, hla', hlb', hin, hout'⟩ :=
        Bag.merge_move_spec (mx - mn) mn ta tb (by omega) (by omega)
      have hidx : mn + (mx - mn) = mx := by omega
      rw [hidx] at hin hout'
      refine ⟨{ fill := mx, bag := ta', filling := fa, size := sz },
        { fill := 0, bag := tb', filling := none, size := b.size }, by rw [hrun]; rfl,
        rfl, rfl, rfl, rfl, rfl, by rw [← hlta]; exact hla',
        hmxle, le_refl _, Nat.le_succ _, ?_, ?_, ?_, ?_⟩
      · intro j p hj hp
        change ta'[j]? = some p at hp
        rcases Nat.lt_or_ge j mn with h | h
        · rw [(hout' j (Or.inl h)).1] at hp
          exact hok j p (Nat.zero_le j) h hp
        · rw [(hin j h hj).1] at hp
          exact hslotsb j p h hj hp
      · show wsum Pennant.blockSet ta' 0 mx = _
        rw [wsum_split _ ta' (Nat.zero_le mn) hmnle,
          wsum_congr Pennant.blockSet ta ta' 0 mn
            (fun j _ h2 => hgetD_congr _ _ j (hout' j (Or.inl h2)).1),
          wsum_congr Pennant.blockSet tb ta' mn mx
            (fun j h1 h2 => hgetD_congr _ _ j (hin j h1 h2).1)]
        exact hK
      · intro _ htb
        right
        obtain ⟨p, hp, hpn⟩ := htopb htb
        exact ⟨p, by
          show ta'[mx - 1]? = some p
          rw [(hin (mx - 1) (by omega) (by omega)).1]; exact hp, hpn⟩
      · intro haa _ j hj hjB
        change mx ≤ j at hj
        show ta'[j]? = some Pennant.null
        rw [(hout' j (Or.inr hj)).1, hta_hi j (by omega)]
        exact haa j (by omega) hjB
    · rw [if_neg hcn]
      have hcr : Pennant.IsPennant mn c ∧ Pennant.FullBlocks c := by
        rcases hc with h | h
        · exact absurd ((Pennant.isNull_iff c).mpr h) hcn
        · exact h
      have hcardK : wsum Pennant.numBlocks tb mn mx + c.numBlocks < 2 ^ BAG_SIZE := by
        have := congrArg Multiset.card hK
        rw [Multiset.card_add, Multiset.card_add, card_wsum_blockSet, card_wsum_blockSet,
          ← Pennant.numBlocks_eq_card] at this
        omega
      obtain ⟨ta', tb', f, hrun, hla', hlb', h1, h2, h3, h4, h5, h6, h7, h8⟩ :=
        Bag.merge_ripple_spec mx hmxle (BAG_SIZE + 1) mn c ta tb hlta hltb hmnle (by omega)
          (by omega) hslotsb hcr.1 hcr.2 hcardK
      refine ⟨{ fill := f, bag := ta', filling := fa, size := sz },
        { fill := 0, bag := tb', filling := none, size := b.size }, by rw [hrun]; rfl,
        rfl, rfl, rfl, rfl, rfl, hla', h3, h1, h2, ?_, ?_, ?_, ?_⟩
      · intro j p hj hp
        change ta'[j]? = some p at hp
        rcases Nat.lt_or_ge j mn with h | h
        · rw [h5 j (Or.inl h)] at hp
          exact hok j p (Nat.zero_le j) h hp
        · exact h6 j p h hj hp
      · show wsum Pennant.blockSet ta' 0 f = _
        rw [wsum_split _ ta' (Nat.zero_le mn) (by omega : mn ≤ f),
          wsum_congr Pennant.blockSet ta ta' 0 mn
            (fun j _ h2 => hgetD_congr _ _ j (h5 j (Or.inl h2))), h8, ← add_assoc]
        exact hK
      · intro _ htb
        right
        exact h7 (Or.inr (htopb htb))
      · intro haa _ j hj hjB
        change f ≤ j at hj
        show ta'[j]? = some Pennant.null
        rw [h5 j (Or.inr hj), hta_hi j (by omega)]
        exact haa j (by omega) hjB
end

section
variable {T : Type}

/-- `merge` on two well-formed bags whose blocks fit into one pennant array. -/
theorem Bag.merge_spec (a b : Bag T) (ha : a.WF) (hb : b.WF)
    (hsat : a.numBlocks + b.numBlocks + (a.size + b.size) / BLK_SIZE < 2 ^ BAG_SIZE) :
    ∃ a' b', a.merge b = some (a', b') ∧ a'.WF ∧
      b'.fill = 0 ∧ b'.size = b.size ∧ b'.filling = none ∧
      a'.size = (a.size + b.size) % BLK_SIZE ∧
      a'.numBlocks = a.numBlocks + b.numBlocks + (a.size + b.size) / BLK_SIZE ∧
      a'.elems = a.elems + b.elems ∧
      max a.fill b.fill ≤ a'.fill ∧ a'.fill ≤ max a.fill b.fill + 1 ∧
      (a.Top → b.Top → a'.Top) ∧ (a.Above → b.Above → a'.Above) := by
  obtain ⟨fa', sz, blk, hmf, hlen, hsz, hno, hyes, hfe⟩ := Bag.merge_filling_spec a b ha hb
  have hsa := ha.size_lt
  have hsb := hb.size_lt
  have hpos := BLK_SIZE_pos
  -- the carry out of the fillings
  have hc0ok : SlotOK 0 (Pennant.ofCarry blk) := by
    rcases Nat.lt_or_ge (a.size + b.size) BLK_SIZE with h | h
    · rw [(hno h).1]; exact Or.inl rfl
    · obtain ⟨e, hb0, hel, -⟩ := hyes h
      rw [hb0]; exact Or.inr (Pennant.ofBlock_slotOK e hel)
  have hc0nb : (Pennant.ofCarry blk).numBlocks = (a.size + b.size) / BLK_SIZE := by
    rcases Nat.lt_or_ge (a.size + b.size) BLK_SIZE with h | h
    · rw [(hno h).1, Nat.div_eq_of_lt h]; rfl
    · obtain ⟨e, hb0, -, hs⟩ := hyes h
      have : (a.size + b.size) / BLK_SIZE = 1 := by
        apply Nat.div_eq_of_lt_le <;> omega
      rw [hb0, this]; rfl
  have hszmod : sz = (a.size + b.size) % BLK_SIZE := by
    rcases Nat.lt_or_ge (a.size + b.size) BLK_SIZE with h | h
    · rw [(hno h).2, Nat.mod_eq_of_lt h]
    · obtain ⟨e, -, -, hs⟩ := hyes h
      rw [← hs, Nat.add_mod_right, Nat.mod_eq_of_lt hsz]
  obtain ⟨ta, tb, c, hloop, a', b', hres, hfil, hsize, hb1, hb2, hb3, hl, hfl, hmx1, hmx2, hslots,
      hsum, htop, habove⟩ :=
    Bag.merge_slots_spec a b ha hb (Pennant.ofCarry blk) hc0ok (some fa') sz
      (by rw [hc0nb]; exact hsat)
  have hwf : a'.WF :=
    ⟨hl, ⟨fa', hfil, hlen⟩, by rw [hsize]; exact hsz, hfl, hslots⟩
  refine ⟨a', b', ?_, hwf, hb1, hb2, hb3, by rw [hsize, hszmod], ?_, ?_, hmx1, hmx2, htop,
    habove⟩
  · unfold Bag.merge
    rw [hmf]
    dsimp only
    rw [hloop]
    dsimp only
    exact hres
  · rw [Bag.numBlocks_card_blockSet hwf.fill_le_length, Bag.blockSet_eq_wsum hwf.fill_le_length,
      hsum, Multiset.card_add, Multiset.card_add,
      ← Bag.numBlocks_card_blockSet ha.fill_le_length,
      ← Bag.numBlocks_card_blockSet hb.fill_le_length, ← Pennant.numBlocks_eq_card, hc0nb]
  · rw [Bag.elems, Bag.pennantElems_eq hwf.fill_le_length,
      Bag.blockSet_eq_wsum hwf.fill_le_length, hsum, Pennant.flat_add, Pennant.flat_add,
      ← Pennant.elems_eq_flat, Bag.elems, Bag.elems, Bag.pennantElems_eq ha.fill_le_length,
      Bag.pennantElems_eq hb.fill_le_length]
    have hfe' : a'.fillingElems = ((fa'.take sz : List T) : Multiset T) := by
      simp [Bag.fillingElems, hfil, hsize]
    rw [hfe']
    have hfe2 : a.fillingElems + Pennant.flat a.blockSet + (b.fillingElems + Pennant.flat b.blockSet) =
        (a.fillingElems + b.fillingElems) + (Pennant.flat a.blockSet + Pennant.flat b.blockSet) := by
      abel
    rw [hfe2, ← hfe]
    abel
end

/-- The bag `Bag.twos1500` satisfies the bag invariants. -/
theorem Bag.twos1500_inv : Bag.twos1500.Inv where
  slots := List.length_replicate _ _
  block := ⟨_, rfl, List.length_replicate _ _⟩
  size_lt := by norm_num [Bag.twos1500, BLK_SIZE]
  fill_le := Nat.zero_le _
  above := by
    intro i _ hi
    show (List.replicate BAG_SIZE Pennant.null)[i]? = some Pennant.null
    rw [List.getElem?_replicate, if_pos hi]
  top := Or.inl rfl
  rank := by
    intro i p hp hn
    exfalso
    apply hn
    have h : (List.replicate BAG_SIZE (Pennant.null : Pennant Nat))[i]? = some p := hp
    rw [List.getElem?_replicate] at h
    split_ifs at h
    simp only [Option.some.injEq] at h
    exact h.symm

/-- C1: for two distinct bags `A`, `B` that satisfy the bag invariants and whose
full blocks together (those of the pennants, plus the one the two fillings make
up when `A.size + B.size ≥ BLK_SIZE`) are fewer than `2 ^ BAG_SIZE`,
`A.merge(B)` succeeds and the multiset of elements held by `A` afterwards is
the sum of the multisets held by `A` and by `B` before. -/
theorem Bag_merge_multiset {T : Type} (a b : Bag T) (ha : a.Inv) (hb : b.Inv)
    (hsat : a.numBlocks + b.numBlocks + (a.size + b.size) / BLK_SIZE < 2 ^ BAG_SIZE) :
    ∃ a' b', a.merge b = some (a', b') ∧ a'.elems = a.elems + b.elems := by
  obtain ⟨a', b', hrun, -, -, -, -, -, -, he, -⟩ := Bag.merge_spec a b ha.wf hb.wf hsat
  exact ⟨a', b', hrun, he⟩

theorem Bag_merge_multiset_witness :
    ∃ a' b', Bag.oneBlock.merge Bag.twos1500 = some (a', b') ∧
      a'.elems = Bag.oneBlock.elems + Bag.twos1500.elems :=
  Bag_merge_multiset Bag.oneBlock Bag.twos1500 Bag.oneBlock_inv Bag.twos1500_inv (by
    have h1 : Bag.oneBlock.numBlocks = 1 := by
      simp [Bag.numBlocks, Bag.oneBlock, Pennant.numBlocks, Pennant.ofBlock, Pennant.blocks]
    have h2 : Bag.twos1500.numBlocks = 0 := by
      simp [Bag.numBlocks, Bag.twos1500]
    rw [h1, h2]
    norm_num [Bag.oneBlock, Bag.twos1500, BLK_SIZE, BAG_SIZE])

/-! ## Serial breadth-first search: correctness -/

section

theorem dget_set (ds : List Nat) (e x v : Nat) (he : e < ds.length) :
    (ds.set e x).getD v 0 = if v = e then x else ds.getD v 0 := by
  rw [List.getD_eq_getElem?_getD, List.getD_eq_getElem?_getD, List.getElem?_set]
  by_cases h : e = v
  · subst h; simp [he]
  · rw [if_neg h, if_neg (fun h' => h h'.symm)]

theorem getD_append_left (L : List Nat) (e i : Nat) (h : i < L.length) :
    (L ++ [e]).getD i 0 = L.getD i 0 := by
  rw [List.getD_eq_getElem?_getD, List.getD_eq_getElem?_getD, List.getElem?_append_left h]

theorem getD_append_last (L : List Nat) (e : Nat) : (L ++ [e]).getD L.length 0 = e := by
  rw [List.getD_eq_getElem?_getD, List.getElem?_append_right (le_refl _)]
  simp

theorem getD_mem (L : List Nat) (i : Nat) (h : i < L.length) : L.getD i 0 ∈ L := by
  rw [List.getD_eq_getElem?_getD, List.getElem?_eq_getElem h]
  exact List.getElem_mem h

theorem length_le_of_nodup_range (L : List Nat) (n : Nat) (hn : L.Nodup)
    (hr : ∀ v ∈ L, v < n) : L.length ≤ n := by
  have hsub : L ⊆ List.range n := fun v hv => List.mem_range.mpr (hr v hv)
  have := (List.subperm_of_subset hn hsub).length_le
  simpa using this

theorem BfsInv.length_le {G : Graph} {s : Nat} {ds L : List Nat} {k : Nat}
    (h : BfsInv G s ds L k) : L.length ≤ G.nNodes :=
  length_le_of_nodup_range L G.nNodes h.nodup h.range

theorem ScanInv.nd_le {G : Graph} {s : Nat} {ds L : List Nat} {k nd lo i : Nat}
    (h : ScanInv G s ds L k nd lo i) : nd ≤ G.nNodes := by
  have h1 := h.idx k h.cur
  have h2 := h.toBfsInv.length_le
  have h3 := h.nd_eq
  have h4 := h.cur
  omega

/-- A scanned edge whose head is still undiscovered: the head is appended. -/
theorem ScanInv.push {G : Graph} (hG : G.WellFormed) {s : Nat} {ds L : List Nat}
    {k nd lo i e : Nat} (h : ScanInv G s ds L k nd lo i) (he : G.edges[i]? = some e)
    (hadj : G.Adj (L.getD k 0) e) (hlt : nd < ds.getD e 0) :
    ScanInv G s (ds.set e nd) (L ++ [e]) k nd lo (i + 1) := by
  have heN : e < G.nNodes := hG.edges_lt i e he
  have hel : e < ds.length := by rw [h.len]; exact heN
  have hnot : e ∉ L := fun hm => by have := h.bound e hm; omega
  have hnd := h.nd_le
  have hN := hG.nNodes_lt
  have hU : UINT_MAX = 2 ^ 32 - 1 := rfl
  have hkeep : ∀ v ∈ L, (ds.set e nd).getD v 0 = ds.getD v 0 := by
    intro v hv
    rw [dget_set ds e nd v hel, if_neg (fun hve : v = e => hnot (hve ▸ hv))]
  have hnew : (ds.set e nd).getD e 0 = nd := by
    rw [dget_set ds e nd e hel, if_pos rfl]
  have hle : ∀ v, (ds.set e nd).getD v 0 ≤ ds.getD v 0 := by
    intro v
    rw [dget_set ds e nd v hel]
    split_ifs with hv
    · subst hv; omega
    · exact le_refl _
  have hcur := h.cur
  have hcmem : L.getD k 0 ∈ L := getD_mem L k hcur
  refine
    { len := by simpa using h.len
      head := ?_
      nodup := ?_
      range := ?_
      mem := ?_
      walk := ?_
      idx := ?_
      sorted := ?_
      done := ?_
      front := ?_
      cur := by simp; omega
      nd_eq := ?_
      bound := ?_
      part := ?_ }
  · have := h.head
    cases L with
    | nil => simp at this
    | cons a L => simpa using this
  · rw [List.nodup_append]
    refine ⟨h.nodup, List.nodup_singleton e, ?_⟩
    intro a ha hb
    rw [List.mem_singleton] at hb
    subst hb
    exact hnot ha
  · intro v hv
    rw [List.mem_append, List.mem_singleton] at hv
    rcases hv with hv | hv
    · exact h.range v hv
    · rw [hv]; exact heN
  · intro v hv
    rw [List.mem_append, List.mem_singleton]
    by_cases hve : v = e
    · subst hve
      rw [hnew]
      constructor
      · intro _; exact Or.inr rfl
      · intro _; omega
    · rw [dget_set ds e nd v hel, if_neg hve, h.mem v hv]
      constructor
      · intro hm; exact Or.inl hm
      · intro hm
        rcases hm with hm | hm
        · exact hm
        · exact absurd hm hve
  · intro v hv
    rw [List.mem_append, List.mem_singleton] at hv
    rcases hv with hv | hv
    · rw [hkeep v hv]; exact h.walk v hv
    · rw [hv, hnew, ← h.nd_eq]
      exact Graph.Walk.step (h.walk _ hcmem) hadj
  · intro j hj
    rw [List.length_append, List.length_singleton] at hj
    rcases Nat.lt_or_ge j L.length with h1 | h1
    · rw [getD_append_left L e j h1, hkeep _ (getD_mem L j h1)]
      exact h.idx j h1
    · have : j = L.length := by omega
      rw [this, getD_append_last, hnew, ← h.nd_eq]
      have := h.idx k hcur
      omega
  · intro a b hab hb
    rw [List.length_append, List.length_singleton] at hb
    rcases Nat.lt_or_ge b L.length with h1 | h1
    · rw [getD_append_left L e b h1, getD_append_left L e a (by omega),
        hkeep _ (getD_mem L b h1), hkeep _ (getD_mem L a (by omega))]
      exact h.sorted a b hab h1
    · have hbl : b = L.length := by omega
      rw [hbl, getD_append_last, hnew]
      rcases Nat.lt_or_ge a L.length with h2 | h2
      · rw [getD_append_left L e a h2, hkeep _ (getD_mem L a h2)]
        exact h.bound _ (getD_mem L a h2)
      · have hal : a = L.length := by omega
        rw [hal, getD_append_last, hnew]
  · intro j hjk _ w hw
    have hjl : j < L.length := by omega
    rw [getD_append_left L e j hjl] at hw ⊢
    rw [hkeep _ (getD_mem L j hjl)]
    exact le_trans (hle w) (h.done j hjk hjl w hw)
  · intro _ v hv
    rw [getD_append_left L e k hcur, hkeep _ hcmem, h.nd_eq]
    rw [List.mem_append, List.mem_singleton] at hv
    rcases hv with hv | hv
    · rw [hkeep v hv]; exact h.bound v hv
    · rw [hv, hnew]
  · rw [getD_append_left L e k hcur, hkeep _ hcmem]
    exact h.nd_eq
  · intro v hv
    rw [List.mem_append, List.mem_singleton] at hv
    rcases hv with hv | hv
    · rw [hkeep v hv]; exact h.bound v hv
    · rw [hv, hnew]
  · intro j e' hlo hj he'
    rcases Nat.lt_or_ge j i with h1 | h1
    · exact le_trans (hle e') (h.part j e' hlo h1 he')
    · have : j = i := by omega
      subst this
      rw [he] at he'
      cases he'
      rw [hnew]

/-- A scanned edge whose head is already discovered: nothing changes. -/
theorem ScanInv.skip {G : Graph} {s : Nat} {ds L : List Nat}
    {k nd lo i e : Nat} (h : ScanInv G s ds L k nd lo i) (he : G.edges[i]? = some e)
    (hge : ¬ nd < ds.getD e 0) : ScanInv G s ds L k nd lo (i + 1) :=
  { h with
    part := by
      intro j e' hlo hj he'
      rcases Nat.lt_or_ge j i with h1 | h1
      · exact h.part j e' hlo h1 he'
      · have : j = i := by omega
        subst this
        rw [he] at he'
        cases he'
        omega }
end

section

theorem take_succ_set_self {α : Type} (q : List α) (t : Nat) (e : α) (h : t < q.length) :
    (q.set t e).take (t + 1) = q.take t ++ [e] := by
  have h1 : (q.set t e).take t = q.take t := by
    rw [List.set_take, List.set_eq_of_length_le]
    simp
  rw [List.take_succ, List.getElem?_set_self h, h1]
  rfl

theorem QRel.length_eq {G : Graph} {s : Nat} {st : BfsState} {L : List Nat}
    (h : QRel G s st L) : L.length = st.tail + 1 := by
  obtain ⟨h1, h2, h3⟩ := h
  rw [h3, List.length_cons, List.length_take]
  omega

theorem Graph.WellFormed.range_le {G : Graph} (hG : G.WellFormed) {c lo hi : Nat}
    (hc : c < G.nNodes) (hlo : G.nodes[c]? = some lo) (hhi : G.nodes[c + 1]? = some hi) :
    lo ≤ hi ∧ hi ≤ G.edges.length := by
  refine ⟨hG.nodes_mono c (c + 1) lo hi (Nat.le_succ c) hlo hhi, ?_⟩
  rw [hG.edges_len]
  exact hG.nodes_mono (c + 1) G.nNodes hi G.nEdges hc hhi hG.nodes_last

/-- The inner loop of `Graph::bfs` run over the edges `[i, i + n)` of the node
`c = L[k]`. -/
theorem bfs_scan_spec {G : Graph} (hG : G.WellFormed) (s k nd lo hi c : Nat)
    (hlo : G.nodes[c]? = some lo) (hhi : G.nodes[c + 1]? = some hi)
    (hhil : hi ≤ G.edges.length) :
    ∀ (n i : Nat) (st : BfsState) (L : List Nat), lo ≤ i → i + n = hi →
      ScanInv G s st.distances L k nd lo i → QRel G s st L → L.getD k 0 = c →
      ∃ st' L', bfs_scan G nd n i st = some st' ∧
        ScanInv G s st'.distances L' k nd lo hi ∧ QRel G s st' L' ∧
        L.length ≤ L'.length ∧ st'.head = st.head ∧ L'.getD k 0 = c := by
  intro n
  induction n with
  | zero =>
    intro i st L _ hin hinv hq hcur
    have : i = hi := by omega
    subst this
    exact ⟨st, L, rfl, hinv, hq, le_refl _, rfl, hcur⟩
  | succ n ih =>
    intro i st L hloi hin hinv hq hcur
    have hil : i < G.edges.length := by omega
    have hge : G.edges[i]? = some G.edges[i] := List.getElem?_eq_getElem hil
    have heN : G.edges[i] < G.nNodes := hG.edges_lt i _ hge
    have hel : G.edges[i] < st.distances.length := by rw [hinv.len]; exact heN
    have hgd : st.distances[G.edges[i]]? = some (st.distances.getD G.edges[i] 0) := by
      rw [List.getD_eq_getElem?_getD, List.getElem?_eq_getElem hel]
      rfl
    by_cases hlt : nd < st.distances.getD G.edges[i] 0
    · have hadj : G.Adj (L.getD k 0) G.edges[i] := by
        rw [hcur]
        exact ⟨lo, hi, i, hlo, hhi, hloi, by omega, hge⟩
      have hinv' := hinv.push hG hge hadj hlt
      obtain ⟨hq1, hq2, hq3⟩ := hq
      have hlen := hinv'.toBfsInv.length_le
      have hLlen : L.length = st.tail + 1 := QRel.length_eq ⟨hq1, hq2, hq3⟩
      rw [List.length_append, List.length_singleton, hLlen] at hlen
      have hN := hG.nNodes_lt
      have hmod : (st.tail + 1) % 2 ^ 32 = st.tail + 1 := Nat.mod_eq_of_lt (by omega)
      have htq : st.tail < st.queue.length := by omega
      obtain ⟨st', L', hrun, h1, h2, h3, h4, h5⟩ :=
        ih (i + 1)
          { st with queue := st.queue.set st.tail G.edges[i], tail := st.tail + 1,
                    distances := st.distances.set G.edges[i] nd }
          (L ++ [G.edges[i]]) (by omega) (by omega) hinv'
          ⟨by simpa using hq1, by show st.tail + 1 < G.nNodes; omega, by
            show L ++ [G.edges[i]] = s :: (st.queue.set st.tail G.edges[i]).take (st.tail + 1)
            rw [take_succ_set_self _ _ _ htq, hq3]
            rfl⟩
          (by rw [getD_append_left L _ k hinv.cur]; exact hcur)
      refine ⟨st', L', ?_, h1, h2, ?_, h4, h5⟩
      · simp only [bfs_scan, hge, hgd, if_pos hlt, store_eq htq, store_eq hel, hmod]
        exact hrun
      · rw [List.length_append, List.length_singleton] at h3
        omega
    · obtain ⟨st', L', hrun, h1, h2, h3, h4, h5⟩ :=
        ih (i + 1) st L (by omega) (by omega) (hinv.skip hge hlt) hq hcur
      refine ⟨st', L', ?_, h1, h2, h3, h4, h5⟩
      simp only [bfs_scan, hge, hgd, if_neg hlt]
      exact hrun

/-- One iteration of the outer loop of `Graph::bfs`. -/
theorem bfs_body_spec {G : Graph} (hG : G.WellFormed) (s k : Nat) (st : BfsState)
    (L : List Nat) (hinv : BfsInv G s st.distances L k) (hq : QRel G s st L)
    (hk : k < L.length) (hhead : st.head = k) (hcur : st.current = L.getD k 0) :
    ∃ st' L', bfs_body G st = some st' ∧ BfsInv G s st'.distances L' (k + 1) ∧
      QRel G s st' L' ∧ L.length ≤ L'.length ∧ st'.head = k + 1 ∧
      (k + 1 < L'.length → st'.current = L'.getD (k + 1) 0) := by
  have hcmem : L.getD k 0 ∈ L := getD_mem L k hk
  have hcN : L.getD k 0 < G.nNodes := hinv.range _ hcmem
  have hN := hG.nNodes_lt
  have hLle := hinv.length_le
  have hidx := hinv.idx k hk
  have hcl : st.current < st.distances.length := by rw [hcur, hinv.len]; exact hcN
  have hgd : st.distances[st.current]? = some (st.distances.getD (L.getD k 0) 0) := by
    rw [← hcur, List.getD_eq_getElem?_getD, List.getElem?_eq_getElem hcl]
    rfl
  have hn1 : st.current < G.nodes.length := by rw [hG.nodes_len, hcur]; omega
  have hn2 : st.current + 1 < G.nodes.length := by rw [hG.nodes_len, hcur]; omega
  have hlo : G.nodes[st.current]? = some G.nodes[st.current] := List.getElem?_eq_getElem hn1
  have hhi : G.nodes[st.current + 1]? = some G.nodes[st.current + 1] :=
    List.getElem?_eq_getElem hn2
  obtain ⟨hlohi, hhil⟩ := hG.range_le (by rw [hcur]; exact hcN) hlo hhi
  have hmod : (st.distances.getD (L.getD k 0) 0 + 1) % 2 ^ 32 =
      st.distances.getD (L.getD k 0) 0 + 1 := Nat.mod_eq_of_lt (by omega)
  have hscan0 : ScanInv G s st.distances L k (st.distances.getD (L.getD k 0) 0 + 1)
      G.nodes[st.current] G.nodes[st.current] :=
    { hinv with
      cur := hk
      nd_eq := rfl
      bound := hinv.front hk
      part := by intro j e h1 h2; omega }
  obtain ⟨st1, L1, hrun, hinv1, hq1, hlen1, hhead1, hcur1⟩ :=
    bfs_scan_spec hG s k (st.distances.getD (L.getD k 0) 0 + 1) G.nodes[st.current]
      G.nodes[st.current + 1] st.current hlo hhi hhil
      (G.nodes[st.current + 1] - G.nodes[st.current]) G.nodes[st.current] st L (le_refl _)
      (by omega) hscan0 hq hcur.symm
  have hL1 := QRel.length_eq hq1
  have hL1le := hinv1.toBfsInv.length_le
  obtain ⟨hq11, hq12, hq13⟩ := hq1
  have hkq : st1.head < st1.queue.length := by rw [hhead1, hhead, hq11]; omega
  have hgq : st1.queue[st1.head]? = some st1.queue[st1.head] := List.getElem?_eq_getElem hkq
  have hmod2 : (st1.head + 1) % 2 ^ 32 = k + 1 := by
    rw [hhead1, hhead]; exact Nat.mod_eq_of_lt (by omega)
  have hnd1 := hinv1.nd_eq
  have hinv2 : BfsInv G s st1.distances L1 (k + 1) :=
    { hinv1.toBfsInv with
      done := by
        intro i hi hil w hw
        rcases Nat.lt_or_ge i k with h | h
        · exact hinv1.done i h hil w hw
        · have hik : i = k := by omega
          subst hik
          rw [hnd1]
          rw [hcur1] at hw
          obtain ⟨a, b, j, ha, hb, haj, hjb, hj⟩ := hw
          rw [hlo] at ha
          rw [hhi] at hb
          cases ha
          cases hb
          exact hinv1.part j w haj hjb hj
      front := by
        intro hk1 v hv
        have h1 := hinv1.bound v hv
        have h2 := hinv1.sorted k (k + 1) (Nat.le_succ k) hk1
        omega }
  refine ⟨{ st1 with current := st1.queue[st1.head], head := (st1.head + 1) % 2 ^ 32 }, L1, ?_,
    hinv2, ⟨hq11, hq12, hq13⟩, hlen1, hmod2, ?_⟩
  · simp only [bfs_body, hgd, hlo, hhi, hmod, hrun, hgq]
  · intro hk1
    show st1.queue[st1.head] = L1.getD (k + 1) 0
    have hkt : k < st1.tail := by omega
    rw [hq13, List.getD_eq_getElem?_getD, List.getElem?_cons_succ, List.getElem?_take,
      if_pos hkt]
    have hkq' : k < st1.queue.length := by omega
    rw [List.getElem?_eq_getElem hkq']
    simp only [Option.getD_some]
    congr 1
    rw [hhead1, hhead]
end

section

/-- The outer loop of `Graph::bfs` terminates within `nNodes - k` iterations and
ends with every discovered node scanned. -/
theorem bfs_loop_spec {G : Graph} (hG : G.WellFormed) (s : Nat) :
    ∀ (fuel k : Nat) (st : BfsState) (L : List Nat),
      BfsInv G s st.distances L k → QRel G s st L → k < L.length → st.head = k →
      st.current = L.getD k 0 → G.nNodes ≤ fuel + k →
      ∃ st' L', bfs_loop G fuel st = some st' ∧ BfsInv G s st'.distances L' L'.length ∧
        QRel G s st' L' ∧ st'.head = L'.length := by
  intro fuel
  induction fuel with
  | zero =>
    intro k st L hinv _ hk _ _ hf
    have := hinv.length_le
    omega
  | succ fuel ih =>
    intro k st L hinv hq hk hhead hcur hf
    obtain ⟨st1, L1, hrun, hinv1, hq1, hlen1, hhead1, hcur1⟩ :=
      bfs_body_spec hG s k st L hinv hq hk hhead hcur
    have hL1 := QRel.length_eq hq1
    by_cases hcont : st1.head ≤ st1.tail
    · have hk1 : k + 1 < L1.length := by omega
      obtain ⟨st', L', hrun', h1, h2, h3⟩ :=
        ih (k + 1) st1 L1 hinv1 hq1 hk1 hhead1 (hcur1 hk1) (by omega)
      refine ⟨st', L', ?_, h1, h2, h3⟩
      simp only [bfs_loop, hrun, if_pos hcont]
      exact hrun'
    · have hk1 : k + 1 = L1.length := by omega
      refine ⟨st1, L1, ?_, by rw [← hk1]; exact hinv1, hq1, by rw [hhead1, hk1]⟩
      simp only [bfs_loop, hrun, if_neg hcont]

theorem init_distances_spec :
    ∀ (n i : Nat) (ds : List Nat), i + n ≤ ds.length →
      ∃ ds', init_distances n i ds = some ds' ∧ ds'.length = ds.length ∧
        (∀ j, i ≤ j → j < i + n → ds'[j]? = some UINT_MAX) ∧
        (∀ j, j < i ∨ i + n ≤ j → ds'[j]? = ds[j]?) := by
  intro n
  induction n with
  | zero =>
    intro i ds _
    exact ⟨ds, rfl, rfl, fun j h1 h2 => by omega, fun _ _ => rfl⟩
  | succ n ih =>
    intro i ds h
    have hi : i < ds.length := by omega
    obtain ⟨ds', hrun, hlen, hin, hout⟩ := ih (i + 1) (ds.set i UINT_MAX) (by simp; omega)
    refine ⟨ds', ?_, by simpa using hlen, ?_, ?_⟩
    · simp only [init_distances, store_eq hi, hrun]
    · intro j h1 h2
      rcases Nat.eq_or_lt_of_le h1 with h3 | h3
      · subst h3
        rw [hout i (Or.inl (Nat.lt_succ_self i)), List.getElem?_set_self hi]
      · exact hin j h3 (by omega)
    · intro j hj
      rw [hout j (by omega), List.getElem?_set, if_neg (by omega)]

/-- The invariant holds when the loop of `Graph::bfs` is entered. -/
theorem bfs_init_inv (G : Graph) (s : Nat) (hs : s < G.nNodes) (ds : List Nat)
    (hlen : ds.length = G.nNodes) (hmax : ∀ j, j < G.nNodes → ds[j]? = some UINT_MAX) :
    BfsInv G s (ds.set s 0) [s] 0 := by
  have hsl : s < ds.length := by omega
  have hD : ∀ v, v < G.nNodes → (ds.set s 0).getD v 0 = if v = s then 0 else UINT_MAX := by
    intro v hv
    rw [dget_set ds s 0 v hsl]
    split_ifs
    · rfl
    · rw [List.getD_eq_getElem?_getD, hmax v hv]; rfl
  have hDs : (ds.set s 0).getD s 0 = 0 := by rw [hD s hs, if_pos rfl]
  have hU : UINT_MAX ≠ 0 := by decide
  refine
    { len := by simpa using hlen
      head := rfl
      nodup := List.nodup_singleton s
      range := by intro v hv; rw [List.mem_singleton] at hv; rw [hv]; exact hs
      mem := ?_
      walk := by
        intro v hv
        rw [List.mem_singleton] at hv
        rw [hv, hDs]
        exact Graph.Walk.refl
      idx := ?_
      sorted := ?_
      done := by intro i hi; omega
      front := by
        intro _ v hv
        rw [List.mem_singleton] at hv
        rw [hv]
        simp }
  · intro v hv
    rw [hD v hv, List.mem_singleton]
    split_ifs with h
    · simp [h, hU.symm]
    · simp [h]
  · intro i hi
    simp only [List.length_singleton] at hi
    have : i = 0 := by omega
    subst this
    show (ds.set s 0).getD s 0 ≤ 0
    rw [hDs]
  · intro i j hij hj
    simp only [List.length_singleton] at hj
    have h1 : j = 0 := by omega
    have h2 : i = 0 := by omega
    subst h1; subst h2
    exact le_refl _

/-- When every discovered node has been scanned, the array holds the
shortest-path distances. -/
theorem BfsInv.final {G : Graph} (hG : G.WellFormed) {s : Nat} {ds L : List Nat}
    (h : BfsInv G s ds L L.length) :
    ∀ n v, G.Walk s n v → v ∈ L ∧ ds.getD v 0 ≤ n := by
  intro n v hw
  induction hw with
  | refl =>
    have hne : L ≠ [] := by
      intro h0
      have := h.head
      rw [h0] at this
      cases this
    have hpos : 0 < L.length := List.length_pos.mpr hne
    have h0 : L.getD 0 0 = s := by
      have := h.head
      cases L with
      | nil => exact absurd rfl hne
      | cons a L =>
        simp only [List.head?_cons, Option.some.injEq] at this
        simp [this]
    have := h.idx 0 hpos
    rw [h0] at this
    have hm := getD_mem L 0 hpos
    rw [h0] at hm
    exact ⟨hm, this⟩
  | @step n v w _ hadj ih =>
    obtain ⟨hv, hd⟩ := ih
    obtain ⟨i, hi, hiv⟩ : ∃ i, i < L.length ∧ L.getD i 0 = v := by
      obtain ⟨i, hi, hiv⟩ := List.mem_iff_getElem.mp hv
      refine ⟨i, hi, ?_⟩
      rw [List.getD_eq_getElem?_getD, List.getElem?_eq_getElem hi]
      exact hiv
    have hdone := h.done i hi hi w (by rw [hiv]; exact hadj)
    rw [hiv] at hdone
    have hidx := h.idx i hi
    rw [hiv] at hidx
    have hlen := h.length_le
    have hN := hG.nNodes_lt
    obtain ⟨a, b, j, -, -, -, -, hj⟩ := hadj
    have hwN : w < G.nNodes := hG.edges_lt j w hj
    refine ⟨(h.mem w hwN).mp ?_, by omega⟩
    have hU : UINT_MAX = 2 ^ 32 - 1 := rfl
    omega
end

/-- C3: on a well-formed CSR graph, for a source `0 ≤ s < nNodes` and a
caller's array of `nNodes` cells, `bfs(s, distances)` terminates and returns 0,
and afterwards for every node `v` the cell `distances[v]` is `UINT_MAX` exactly
when there is no directed path from `s` to `v`, and otherwise is the length of a
shortest directed path from `s` to `v`. -/
theorem Graph_bfs_shortest (G : Graph) (hG : G.WellFormed) (queue0 distances : List Nat)
    (s : Int) (hs0 : 0 ≤ s) (hs1 : s < (G.nNodes : Int))
    (hq : queue0.length = G.nNodes) (hd : distances.length = G.nNodes) :
    ∃ ds, G.bfs queue0 s distances = some (0, ds) ∧ ds.length = G.nNodes ∧
      ∀ v, v < G.nNodes → ∃ x, ds[v]? = some x ∧
        (x = UINT_MAX ↔ ∀ n, ¬ G.Walk s.toNat n v) ∧
        ((∃ n, G.Walk s.toNat n v) →
          G.Walk s.toNat x v ∧ ∀ n, G.Walk s.toNat n v → x ≤ n) := by
  obtain ⟨t, rfl⟩ : ∃ t : Nat, s = (t : Int) := ⟨s.toNat, by omega⟩
  have ht : t < G.nNodes := by omega
  simp only [Int.toNat_ofNat]
  obtain ⟨ds1, hinit, hlen1, hmax, -⟩ := init_distances_spec G.nNodes 0 distances (by omega)
  have hmax' : ∀ j, j < G.nNodes → ds1[j]? = some UINT_MAX :=
    fun j hj => hmax j (Nat.zero_le j) (by omega)
  have hinv0 := bfs_init_inv G t ht ds1 (by omega) hmax'
  obtain ⟨st, L, hrun, hinv, -, -⟩ :=
    bfs_loop_spec hG t G.nNodes 0
      { distances := ds1.set t 0, queue := queue0, head := 0, tail := 0, current := t } [t]
      hinv0 ⟨hq, by show 0 < G.nNodes; omega, rfl⟩ (by simp) rfl rfl (by omega)
  have hfinal := hinv.final hG
  refine ⟨st.distances, ?_, hinv.len, ?_⟩
  · have hguard : ¬ ((t : Int) < 0 ∨ (t : Int) > (G.nNodes : Int)) := by omega
    have htl : t < ds1.length := by omega
    simp only [Graph.bfs, if_neg hguard, hinit, Int.toNat_ofNat, store_eq htl, hrun]
  · intro v hv
    have hvl : v < st.distances.length := by rw [hinv.len]; exact hv
    refine ⟨st.distances.getD v 0, ?_, ?_, ?_⟩
    · rw [List.getD_eq_getElem?_getD, List.getElem?_eq_getElem hvl]; rfl
    · constructor
      · intro hx n hw
        have := (hfinal n v hw).1
        exact ((hinv.mem v hv).mpr this) hx
      · intro hno
        by_contra hx
        have hm := (hinv.mem v hv).mp hx
        exact hno _ (hinv.walk v hm)
    · rintro ⟨n, hw⟩
      have hm := (hfinal n v hw).1
      exact ⟨hinv.walk v hm, fun m hw' => (hfinal m v hw').2⟩

theorem pathGraph_wf : pathGraph.WellFormed where
  nodes_len := rfl
  edges_len := rfl
  nodes_zero := rfl
  nodes_last := rfl
  nodes_mono := by
    intro i j a b hij ha hb
    have hj : j < 4 := by
      by_contra hcon
      have : pathGraph.nodes[j]? = none := List.getElem?_eq_none (by simp [pathGraph]; omega)
      rw [this] at hb
      cases hb
    have hi : i < 4 := by omega
    interval_cases j <;> interval_cases i <;> simp [pathGraph] at ha hb <;> omega
  edges_lt := by
    intro i e he
    have hi : i < 4 := by
      by_contra hcon
      have : pathGraph.edges[i]? = none := List.getElem?_eq_none (by simp [pathGraph]; omega)
      rw [this] at he
      cases he
    interval_cases i <;> simp [pathGraph] at he <;> simp [pathGraph] <;> omega
  nNodes_lt := by simp [pathGraph]

theorem Graph_bfs_shortest_witness :
    ∃ ds, pathGraph.bfs [0, 0, 0] 0 [7, 7, 7] = some (0, ds) ∧ ds.length = pathGraph.nNodes ∧
      ∀ v, v < pathGraph.nNodes → ∃ x, ds[v]? = some x ∧
        (x = UINT_MAX ↔ ∀ n, ¬ pathGraph.Walk (0 : Int).toNat n v) ∧
        ((∃ n, pathGraph.Walk (0 : Int).toNat n v) →
          pathGraph.Walk (0 : Int).toNat x v ∧
            ∀ n, pathGraph.Walk (0 : Int).toNat n v → x ≤ n) :=
  Graph_bfs_shortest pathGraph pathGraph_wf [0, 0, 0] [7, 7, 7] 0 (le_refl 0) (by decide)
    rfl rfl

/-! ## The parallel breadth-first search: one level -/

section

theorem DStep.refl (d : Nat) (ds : List Nat) : DStep d ds ds := fun _ => Or.inl rfl

theorem DStep.trans {d : Nat} {a b c : List Nat} (h1 : DStep d a b) (h2 : DStep d b c) :
    DStep d a c := by
  intro v
  rcases h1 v with h | ⟨h, h'⟩ <;> rcases h2 v with g | ⟨g, g'⟩
  · exact Or.inl (g.trans h)
  · exact Or.inr ⟨h ▸ g, g'⟩
  · exact Or.inr ⟨h, g.trans h'⟩
  · omega

theorem DStep.le {d : Nat} {a b : List Nat} (h : DStep d a b) (v : Nat) :
    b.getD v 0 ≤ a.getD v 0 := by
  rcases h v with h | ⟨h, h'⟩ <;> omega

theorem DStep.le_of_le {d : Nat} {a b : List Nat} (h : DStep d a b) (v : Nat)
    (hv : a.getD v 0 ≤ d) : b.getD v 0 = a.getD v 0 := by
  rcases h v with h | ⟨h, h'⟩
  · exact h
  · omega

theorem Closed.mono {G : Graph} {d : Nat} {a b : List Nat} {u : Nat} (h : Closed G d a u)
    (hs : DStep d a b) : Closed G d b u :=
  fun w hw => le_trans (hs.le w) (h w hw)

theorem DStep.set {d : Nat} (ds : List Nat) (e : Nat) (he : e < ds.length)
    (hlt : d < ds.getD e 0) : DStep d ds (ds.set e d) := by
  intro v
  rw [dget_set ds e d v he]
  split_ifs with h
  · subst h; exact Or.inr ⟨hlt, rfl⟩
  · exact Or.inl rfl

theorem LevelRel.start {G : Graph} (d : Nat) (Fr : Nat → Prop) (st : PbfsState)
    (hlen : st.distances.length = G.nNodes) (hwf : st.next.WF) (htop : st.next.Top) :
    LevelRel G d Fr st st :=
  { len := hlen
    wf := hwf
    top := htop
    step := DStep.refl d _
    added := ⟨[], List.nodup_nil, by simp, by simp, fun v h => absurd rfl h⟩ }

/-- One edge of a frontier node `u` is examined: either its head `e` is still
above `d`, and then `e` is inserted into `next` and its cell set to `d`, or
nothing happens. -/
theorem pbfs_edge_step {G : Graph} (hG : G.WellFormed) (d : Nat) (Fr : Nat → Prop)
    (st0 st : PbfsState) (hrel : LevelRel G d Fr st0 st)
    (hcap : Multiset.card st0.next.elems + G.nNodes < BLK_SIZE * 2 ^ BAG_SIZE)
    (u e i : Nat) (hu : Fr u) (hadj : G.Adj u e) (he : G.edges[i]? = some e) :
    st.distances[e]? = some (st.distances.getD e 0) ∧
      (d < st.distances.getD e 0 →
        ∃ nx, st.next.insert e = some nx ∧
          store st.distances e d = some (st.distances.set e d) ∧
          LevelRel G d Fr st0 { next := nx, distances := st.distances.set e d } ∧
          DStep d st.distances (st.distances.set e d) ∧
          (st.distances.set e d).getD e 0 ≤ d) := by
  have heN : e < G.nNodes := hG.edges_lt i e he
  have hel : e < st.distances.length := by rw [hrel.len]; exact heN
  have hgd : st.distances[e]? = some (st.distances.getD e 0) := by
    rw [List.getD_eq_getElem?_getD, List.getElem?_eq_getElem hel]; rfl
  refine ⟨hgd, ?_⟩
  intro hlt
  obtain ⟨A, hnd, hA, helems, hchg⟩ := hrel.added
  have hD0 : st.distances.getD e 0 = st0.distances.getD e 0 := by
    rcases hrel.step e with h | ⟨_, h⟩
    · exact h
    · omega
  have hnot : e ∉ A := by
    intro hm
    have := (hA e hm).2.2.1
    omega
  have hnd' : (A ++ [e]).Nodup := by
    rw [List.nodup_append]
    refine ⟨hnd, List.nodup_singleton e, ?_⟩
    intro a ha hb
    rw [List.mem_singleton] at hb
    subst hb
    exact hnot ha
  have hlenA : (A ++ [e]).length ≤ G.nNodes := by
    apply length_le_of_nodup_range _ _ hnd'
    intro v hv
    rw [List.mem_append, List.mem_singleton] at hv
    rcases hv with hv | hv
    · exact (hA v hv).1
    · rw [hv]; exact heN
  rw [List.length_append, List.length_singleton] at hlenA
  obtain ⟨nx, hins, hwf', htop', -, hel', -⟩ :=
    Bag.insert_spec st.next e hrel.wf (by
      rw [helems, Multiset.card_add, Multiset.coe_card]
      omega)
  have hstep := DStep.set st.distances e hel hlt
  refine ⟨nx, hins, store_eq hel d, ?_, hstep, ?_⟩
  · refine
      { len := by simpa using hrel.len
        wf := hwf'
        top := htop' hrel.top
        step := hrel.step.trans hstep
        added := ⟨A ++ [e], hnd', ?_, ?_, ?_⟩ }
    · intro v hv
      rw [List.mem_append, List.mem_singleton] at hv
      rcases hv with hv | hv
      · obtain ⟨h1, h2, h3, h4⟩ := hA v hv
        refine ⟨h1, h2, ?_, h4⟩
        show (st.distances.set e d).getD v 0 = d
        rw [dget_set _ _ _ _ hel, if_neg (fun h : v = e => hnot (h ▸ hv))]
        exact h3
      · subst hv
        refine ⟨heN, by omega, ?_, u, hu, hadj⟩
        show (st.distances.set v d).getD v 0 = d
        rw [dget_set _ _ _ _ hel, if_pos rfl]
    · show nx.elems = _
      rw [hel', helems, ← Multiset.singleton_add, ← Multiset.coe_add, add_comm,
        add_assoc]
      congr 1
    · intro v hv
      change (st.distances.set e d).getD v 0 ≠ _ at hv
      rw [List.mem_append, List.mem_singleton]
      by_cases hve : v = e
      · exact Or.inr hve
      · rw [dget_set _ _ _ _ hel, if_neg hve] at hv
        exact Or.inl (hchg v hv)
  · rw [dget_set _ _ _ _ hel, if_pos rfl]

/-- The edge loop of `pbfs_proc_Node` on the edges `[i, hi)` of a frontier node
`u`. -/
theorem pbfs_proc_edges_spec {G : Graph} (hG : G.WellFormed) (d : Nat) (Fr : Nat → Prop)
    (st0 : PbfsState)
    (hcap : Multiset.card st0.next.elems + G.nNodes < BLK_SIZE * 2 ^ BAG_SIZE)
    (u lo hi : Nat) (hu : Fr u) (hlo : G.nodes[u]? = some lo) (hhi : G.nodes[u + 1]? = some hi)
    (hhil : hi ≤ G.edges.length) :
    ∀ (n i : Nat) (st : PbfsState), lo ≤ i → i + n = hi → LevelRel G d Fr st0 st →
      (∀ j e, lo ≤ j → j < i → G.edges[j]? = some e → st.distances.getD e 0 ≤ d) →
      ∃ st', pbfs_proc_edges G d n i st = some st' ∧ LevelRel G d Fr st0 st' ∧
        DStep d st.distances st'.distances ∧
        (∀ j e, lo ≤ j → j < hi → G.edges[j]? = some e → st'.distances.getD e 0 ≤ d) := by
  intro n
  induction n with
  | zero =>
    intro i st _ hin hrel hpart
    have : i = hi := by omega
    subst this
    exact ⟨st, rfl, hrel, DStep.refl d _, hpart⟩
  | succ n ih =>
    intro i st hloi hin hrel hpart
    have hil : i < G.edges.length := by omega
    have hge : G.edges[i]? = some G.edges[i] := List.getElem?_eq_getElem hil
    have hadj : G.Adj u G.edges[i] := ⟨lo, hi, i, hlo, hhi, hloi, by omega, hge⟩
    obtain ⟨hgd, hpush⟩ := pbfs_edge_step hG d Fr st0 st hrel hcap u _ i hu hadj hge
    by_cases hlt : d < st.distances.getD G.edges[i] 0
    · obtain ⟨nx, hins, hst, hrel', hstep, hnew⟩ := hpush hlt
      obtain ⟨st', hrun, h1, h2, h3⟩ :=
        ih (i + 1) { next := nx, distances := st.distances.set G.edges[i] d } (by omega)
          (by omega) hrel'
          (by
            intro j e h1 h2 hje
            rcases Nat.lt_or_ge j i with h | h
            · exact le_trans (hstep.le e) (hpart j e h1 h hje)
            · have : j = i := by omega
              subst this
              rw [hge] at hje
              cases hje
              exact hnew)
      refine ⟨st', ?_, h1, hstep.trans h2, h3⟩
      simp only [pbfs_proc_edges, hge, hgd, if_pos hlt, hins, hst]
      exact hrun
    · obtain ⟨st', hrun, h1, h2, h3⟩ :=
        ih (i + 1) st (by omega) (by omega) hrel
          (by
            intro j e h1 h2 hje
            rcases Nat.lt_or_ge j i with h | h
            · exact hpart j e h1 h hje
            · have : j = i := by omega
              subst this
              rw [hge] at hje
              cases hje
              omega)
      refine ⟨st', ?_, h1, h2, h3⟩
      simp only [pbfs_proc_edges, hge, hgd, if_neg hlt]
      exact hrun

/-- The node loop of `pbfs_proc_Node` on the cells `n[off + j .. off + j + cnt)`,
all of them frontier nodes. -/
theorem pbfs_proc_Node_spec {G : Graph} (hG : G.WellFormed) (d : Nat) (Fr : Nat → Prop)
    (hFr : ∀ u, Fr u → u < G.nNodes) (st0 : PbfsState)
    (hcap : Multiset.card st0.next.elems + G.nNodes < BLK_SIZE * 2 ^ BAG_SIZE)
    (n : List Nat) (off : Nat) :
    ∀ (cnt j : Nat) (st : PbfsState), LevelRel G d Fr st0 st →
      (∀ k, j ≤ k → k < j + cnt → ∃ u, n[off + k]? = some u ∧ Fr u) →
      ∃ st', pbfs_proc_Node G n off d cnt j st = some st' ∧ LevelRel G d Fr st0 st' ∧
        DStep d st.distances st'.distances ∧
        (∀ k u, j ≤ k → k < j + cnt → n[off + k]? = some u → Closed G d st'.distances u) := by
  intro cnt
  induction cnt with
  | zero =>
    intro j st hrel _
    exact ⟨st, rfl, hrel, DStep.refl d _, fun k u h1 h2 => by omega⟩
  | succ cnt ih =>
    intro j st hrel hcells
    obtain ⟨u, hgu, hu⟩ := hcells j (le_refl j) (by omega)
    have huN := hFr u hu
    have hn1 : u < G.nodes.length := by rw [hG.nodes_len]; omega
    have hn2 : u + 1 < G.nodes.length := by rw [hG.nodes_len]; omega
    have hlo : G.nodes[u]? = some G.nodes[u] := List.getElem?_eq_getElem hn1
    have hhi : G.nodes[u + 1]? = some G.nodes[u + 1] := List.getElem?_eq_getElem hn2
    obtain ⟨hlohi, hhil⟩ := hG.range_le huN hlo hhi
    obtain ⟨st1, hrun1, hrel1, hstep1, hall⟩ :=
      pbfs_proc_edges_spec hG d Fr st0 hcap u G.nodes[u] G.nodes[u + 1] hu hlo hhi hhil
        (G.nodes[u + 1] - G.nodes[u]) G.nodes[u] st (le_refl _) (by omega) hrel
        (fun j e h1 h2 => by omega)
    have hclosed : Closed G d st1.distances u := by
      intro w hw
      obtain ⟨a, b, i, ha, hb, hai, hib, hi⟩ := hw
      rw [hlo] at ha
      rw [hhi] at hb
      cases ha
      cases hb
      exact hall i w hai hib hi
    obtain ⟨st', hrun, h1, h2, h3⟩ :=
      ih (j + 1) st1 hrel1 (fun k hk1 hk2 => hcells k (by omega) (by omega))
    refine ⟨st', ?_, h1, hstep1.trans h2, ?_⟩
    · simp only [pbfs_proc_Node, hgu, hlo, hhi, hrun1]
      exact hrun
    · intro k v hk1 hk2 hkv
      rcases Nat.eq_or_lt_of_le hk1 with h | h
      · subst h
        rw [hgu] at hkv
        cases hkv
        exact hclosed.mono h2
      · exact h3 k v h (by omega) hkv

end

section

theorem THRESHOLD_pos : 0 < THRESHOLD := by norm_num [THRESHOLD]

theorem block_slices : (BLK_SIZE + THRESHOLD - 1) / THRESHOLD * THRESHOLD = BLK_SIZE := by
  norm_num [BLK_SIZE, THRESHOLD]

/-- The loop over the slices `n[i .. i + THRESHOLD)`, `n[i + THRESHOLD .. )`, ... -/
theorem pbfs_slices_spec {G : Graph} (hG : G.WellFormed) (d : Nat) (Fr : Nat → Prop)
    (hFr : ∀ u, Fr u → u < G.nNodes) (st0 : PbfsState)
    (hcap : Multiset.card st0.next.elems + G.nNodes < BLK_SIZE * 2 ^ BAG_SIZE)
    (n : List Nat) :
    ∀ (cnt i : Nat) (st : PbfsState), LevelRel G d Fr st0 st →
      (∀ k, i ≤ k → k < i + cnt * THRESHOLD → ∃ u, n[k]? = some u ∧ Fr u) →
      ∃ st', pbfs_slices G n d cnt i st = some st' ∧ LevelRel G d Fr st0 st' ∧
        DStep d st.distances st'.distances ∧
        (∀ k u, i ≤ k → k < i + cnt * THRESHOLD → n[k]? = some u →
          Closed G d st'.distances u) := by
  intro cnt
  induction cnt with
  | zero =>
    intro i st hrel _
    exact ⟨st, rfl, hrel, DStep.refl d _, fun k u h1 h2 => by omega⟩
  | succ cnt ih =>
    intro i st hrel hcells
    have hmul : (cnt + 1) * THRESHOLD = cnt * THRESHOLD + THRESHOLD := Nat.succ_mul _ _
    rw [hmul] at hcells ⊢
    obtain ⟨st1, hrun1, hrel1, hstep1, hcl1⟩ :=
      pbfs_proc_Node_spec hG d Fr hFr st0 hcap n i THRESHOLD 0 st hrel
        (fun k _ hk => hcells (i + k) (by omega) (by omega))
    obtain ⟨st', hrun, h1, h2, h3⟩ :=
      ih (i + THRESHOLD) st1 hrel1 (fun k hk1 hk2 => hcells k (by omega) (by omega))
    refine ⟨st', ?_, h1, hstep1.trans h2, ?_⟩
    · simp only [pbfs_slices, hrun1]
      exact hrun
    · intro k u hk1 hk2 hku
      rcases Nat.lt_or_ge k (i + THRESHOLD) with h | h
      · obtain ⟨j, rfl⟩ : ∃ j, k = i + j := ⟨k - i, by omega⟩
        exact (hcl1 j u (Nat.zero_le j) (by omega) hku).mono h2
      · exact h3 k u h (by omega) hku

theorem Pennant.FullBlocks.node_iff {T : Type} (e : List T) (l r : Pennant T) :
    (Pennant.node e l r).FullBlocks ↔ e.length = BLK_SIZE ∧ l.FullBlocks ∧ r.FullBlocks := by
  simp only [Pennant.FullBlocks, Pennant.blocks, List.mem_cons, List.mem_append]
  constructor
  · intro h
    exact ⟨h e (Or.inl rfl), fun x hx => h x (Or.inr (Or.inl hx)),
      fun x hx => h x (Or.inr (Or.inr hx))⟩
  · rintro ⟨h1, h2, h3⟩ x hx
    rcases hx with rfl | hx | hx
    · exact h1
    · exact h2 x hx
    · exact h3 x hx

/-- `pbfs_walk_Pennant` on a tree of full blocks of frontier nodes. -/
theorem pbfs_walk_Pennant_spec {G : Graph} (hG : G.WellFormed) (d : Nat) (Fr : Nat → Prop)
    (hFr : ∀ u, Fr u → u < G.nNodes) (st0 : PbfsState)
    (hcap : Multiset.card st0.next.elems + G.nNodes < BLK_SIZE * 2 ^ BAG_SIZE) :
    ∀ (p : Pennant Nat), p ≠ Pennant.null → p.FullBlocks →
      (∀ e ∈ p.blocks, ∀ u ∈ e, Fr u) →
      ∀ st, LevelRel G d Fr st0 st →
      ∃ st', G.pbfs_walk_Pennant d p st = some st' ∧ LevelRel G d Fr st0 st' ∧
        DStep d st.distances st'.distances ∧
        (∀ e ∈ p.blocks, ∀ u ∈ e, Closed G d st'.distances u) := by
  intro p
  induction p with
  | null => intro h; exact absurd rfl h
  | node els l r ihl ihr =>
    intro _ hfull hfr st hrel
    obtain ⟨hlen, hfl, hfr'⟩ := (Pennant.FullBlocks.node_iff els l r).mp hfull
    -- the left subtree
    obtain ⟨st1, hrun1, hrel1, hstep1, hcl1⟩ :
        ∃ st1, (if l.isNull then some st else G.pbfs_walk_Pennant d l st) = some st1 ∧
          LevelRel G d Fr st0 st1 ∧ DStep d st.distances st1.distances ∧
          (∀ e ∈ l.blocks, ∀ u ∈ e, Closed G d st1.distances u) := by
      by_cases hn : l.isNull = true
      · have hl0 := (Pennant.isNull_iff l).mp hn
        refine ⟨st, by rw [if_pos hn], hrel, DStep.refl d _, ?_⟩
        rw [hl0]
        intro e he
        simp [Pennant.blocks] at he
      · have hl0 : l ≠ Pennant.null := fun h => hn ((Pennant.isNull_iff l).mpr h)
        obtain ⟨st1, h1, h2, h3, h4⟩ :=
          ihl hl0 hfl (fun e he => hfr e (by simp [Pennant.blocks, he])) st hrel
        exact ⟨st1, by rw [if_neg hn]; exact h1, h2, h3, h4⟩
    -- the right subtree
    obtain ⟨st2, hrun2, hrel2, hstep2, hcl2⟩ :
        ∃ st2, (if r.isNull then some st1 else G.pbfs_walk_Pennant d r st1) = some st2 ∧
          LevelRel G d Fr st0 st2 ∧ DStep d st1.distances st2.distances ∧
          (∀ e ∈ r.blocks, ∀ u ∈ e, Closed G d st2.distances u) := by
      by_cases hn : r.isNull = true
      · have hr0 := (Pennant.isNull_iff r).mp hn
        refine ⟨st1, by rw [if_pos hn], hrel1, DStep.refl d _, ?_⟩
        rw [hr0]
        intro e he
        simp [Pennant.blocks] at he
      · have hr0 : r ≠ Pennant.null := fun h => hn ((Pennant.isNull_iff r).mpr h)
        obtain ⟨st2, h1, h2, h3, h4⟩ :=
          ihr hr0 hfr' (fun e he => hfr e (by simp [Pennant.blocks, he])) st1 hrel1
        exact ⟨st2, by rw [if_neg hn]; exact h1, h2, h3, h4⟩
    -- the block of the root
    have hcells : ∀ k, 0 ≤ k → k < 0 + (BLK_SIZE + THRESHOLD - 1) / THRESHOLD * THRESHOLD →
        ∃ u, els[k]? = some u ∧ Fr u := by
      intro k _ hk
      rw [block_slices, Nat.zero_add, ← hlen] at hk
      exact ⟨els[k], List.getElem?_eq_getElem hk,
        hfr els (by simp [Pennant.blocks]) _ (List.getElem_mem hk)⟩
    obtain ⟨st3, hrun3, hrel3, hstep3, hcl3⟩ :=
      pbfs_slices_spec hG d Fr hFr st0 hcap els ((BLK_SIZE + THRESHOLD - 1) / THRESHOLD) 0 st2
        hrel2 hcells
    refine ⟨st3, ?_, hrel3, (hstep1.trans hstep2).trans hstep3, ?_⟩
    · simp only [Graph.pbfs_walk_Pennant, hrun1, hrun2]
      exact hrun3
    · intro e he u hu
      simp only [Pennant.blocks, List.mem_cons, List.mem_append] at he
      rcases he with rfl | he | he
      · obtain ⟨k, hk, hku⟩ := List.mem_iff_getElem.mp hu
        apply hcl3 k u (Nat.zero_le k)
        · rw [block_slices, Nat.zero_add, ← hlen]; exact hk
        · rw [List.getElem?_eq_getElem hk, hku]
      · exact (hcl1 e he u hu).mono (hstep2.trans hstep3)
      · exact (hcl2 e he u hu).mono hstep3
end

section

theorem filling_slices (sz : Nat) :
    (sz - sz % THRESHOLD + THRESHOLD - 1) / THRESHOLD * THRESHOLD = sz - sz % THRESHOLD := by
  unfold THRESHOLD
  omega

theorem BagClosed.weaken {G : Graph} {d : Nat} {a c : List Nat} {b : Bag Nat}
    (h : BagClosed G d a b) (hs : DStep d a c) : BagClosed G d c b :=
  ⟨fun i p hi hp e he u hu => (h.1 i p hi hp e he u hu).mono hs,
    fun f hf k u hk hu => (h.2 f hf k u hk hu).mono hs⟩

/-- `pbfs_walk_Bag` on a bag of frontier nodes: every element gets its edges
scanned, and the bag is left with `fill == 0`. -/
theorem pbfs_walk_Bag_spec {G : Graph} (hG : G.WellFormed) (d : Nat) (Fr : Nat → Prop)
    (hFr : ∀ u, Fr u → u < G.nNodes) (st0 : PbfsState)
    (hcap : Multiset.card st0.next.elems + G.nNodes < BLK_SIZE * 2 ^ BAG_SIZE) :
    ∀ (fuel : Nat) (b : Bag Nat) (st : PbfsState), b.fill < fuel → BagOK Fr b →
      LevelRel G d Fr st0 st →
      ∃ b' st', G.pbfs_walk_Bag d fuel b st = some (b', st') ∧ LevelRel G d Fr st0 st' ∧
        DStep d st.distances st'.distances ∧ BagClosed G d st'.distances b ∧
        b'.fill = 0 ∧ b'.size = b.size ∧ b'.filling = b.filling ∧
        b'.bag.length = b.bag.length := by
  intro fuel
  induction fuel with
  | zero => intro b st h; omega
  | succ fuel ih =>
    intro b st hfuel hok hrel
    obtain ⟨hle, htop, hslots, f, hf, hsz, hcells⟩ := hok
    rcases Nat.eq_zero_or_pos b.fill with h0 | hpos
    · -- the filling
      have hnot : ¬ b.getFill > 0 := by simp [Bag.getFill, h0]
      obtain ⟨st1, hrun1, hrel1, hstep1, hcl1⟩ :=
        pbfs_proc_Node_spec hG d Fr hFr st0 hcap f (b.size - b.size % THRESHOLD)
          (b.size % THRESHOLD) 0 st hrel
          (fun k _ hk => hcells (b.size - b.size % THRESHOLD + k) (by
            have := Nat.mod_le b.size THRESHOLD
            omega))
      obtain ⟨st2, hrun2, hrel2, hstep2, hcl2⟩ :=
        pbfs_slices_spec hG d Fr hFr st0 hcap f
          ((b.size - b.size % THRESHOLD + THRESHOLD - 1) / THRESHOLD) 0 st1 hrel1
          (fun k _ hk => hcells k (by
            rw [filling_slices] at hk
            omega))
      refine ⟨b, st2, ?_, hrel2, hstep1.trans hstep2, ⟨?_, ?_⟩, h0, rfl, rfl, rfl⟩
      · simp only [Graph.pbfs_walk_Bag, if_neg hnot, Bag.getFilling, hf, Bag.getFillingSize,
          hrun1, hrun2, Option.map_some']
      · intro i p hi; omega
      · intro f' hf' k u hk hku
        rw [hf] at hf'
        cases hf'
        rcases Nat.lt_or_ge k (b.size - b.size % THRESHOLD) with h | h
        · apply hcl2 k u (Nat.zero_le k) _ hku
          rw [filling_slices]
          omega
        · obtain ⟨j, rfl⟩ : ∃ j, k = b.size - b.size % THRESHOLD + j := ⟨k - (b.size - b.size % THRESHOLD), by omega⟩
          exact (hcl1 j u (Nat.zero_le j) (by omega) hku).mono hstep2
    · -- the top pennant, then the rest of the bag
      have hyes : b.getFill > 0 := hpos
      obtain ⟨g, out, hsplit, hget, hg, htop', hnull⟩ := Bag.split_of_fill_pos b hpos hle
      have hout : out ≠ Pennant.null := by
        rcases htop with h0 | ⟨p, hp, hpn⟩
        · omega
        · rw [hget] at hp; cases hp; exact hpn
      obtain ⟨hfull, hfr⟩ := hslots (b.fill - 1) out (by omega) hget hout
      obtain ⟨st1, hrun1, hrel1, hstep1, hcl1⟩ :=
        pbfs_walk_Pennant_spec hG d Fr hFr st0 hcap out hout hfull hfr st hrel
      have hkeep : ∀ i, i < g → (b.bag.set (b.fill - 1) Pennant.null)[i]? = b.bag[i]? := by
        intro i hi
        rw [List.getElem?_set, if_neg (by omega)]
      have hok' : BagOK Fr { b with fill := g, bag := b.bag.set (b.fill - 1) Pennant.null } := by
        refine ⟨by simp; omega, ?_, ?_, f, hf, hsz, hcells⟩
        · rcases htop' with h1 | ⟨p, hp, hpn⟩
          · exact Or.inl h1
          · rcases Nat.eq_zero_or_pos g with h1 | h1
            · exact Or.inl h1
            · right
              refine ⟨p, ?_, hpn⟩
              show (b.bag.set (b.fill - 1) Pennant.null)[g - 1]? = some p
              rw [hkeep _ (by omega)]
              exact hp
        · intro i p hi hp hpn
          change i < g at hi
          change (b.bag.set (b.fill - 1) Pennant.null)[i]? = some p at hp
          rw [hkeep i hi] at hp
          exact hslots i p (by omega) hp hpn
      obtain ⟨b', st', hrun, hrel', hstep', hcl', hb1, hb2, hb3, hb4⟩ :=
        ih { b with fill := g, bag := b.bag.set (b.fill - 1) Pennant.null } st1
          (by show g < fuel; omega) hok' hrel1
      refine ⟨b', st', ?_, hrel', hstep1.trans hstep', ⟨?_, ?_⟩, hb1, hb2, hb3,
        by rw [hb4]; simp⟩
      · simp only [Graph.pbfs_walk_Bag, if_pos hyes, hsplit, hrun1]
        exact hrun
      · intro i p hi hp e he u hu
        rcases Nat.lt_or_ge i g with h | h
        · exact hcl'.1 i p h (by
            show (b.bag.set (b.fill - 1) Pennant.null)[i]? = some p
            rw [hkeep i h]; exact hp) e he u hu
        · rcases Nat.lt_or_ge i (b.fill - 1) with h1 | h1
          · have := hnull i h (by omega)
            rw [List.getElem?_set, if_neg (by omega), hp] at this
            cases this
            simp [Pennant.blocks] at he
          · have : i = b.fill - 1 := by omega
            subst this
            rw [hget] at hp
            cases hp
            exact (hcl1 e he u hu).mono hstep'
      · intro f' hf' k u hk hku
        exact hcl'.2 f' hf' k u hk hku
end

section

theorem mem_sum_map_elems (l : List (Pennant Nat)) (u : Nat) :
    u ∈ (l.map Pennant.elems).sum ↔ ∃ p ∈ l, u ∈ p.elems := by
  induction l with
  | nil => simp
  | cons a l ih =>
    rw [List.map_cons, List.sum_cons, Multiset.mem_add, ih]
    simp

theorem Pennant.mem_elems_blocks (p : Pennant Nat) (u : Nat) :
    u ∈ p.elems ↔ ∃ e ∈ p.blocks, u ∈ e := by
  simp [Pennant.elems, List.mem_flatten]

theorem mem_take_iff {α : Type} (l : List α) (n : Nat) (x : α) :
    x ∈ l.take n ↔ ∃ k, k < n ∧ l[k]? = some x := by
  constructor
  · intro h
    obtain ⟨k, hk, hkx⟩ := List.mem_iff_getElem.mp h
    rw [List.length_take] at hk
    refine ⟨k, by omega, ?_⟩
    rw [← hkx, List.getElem_take, List.getElem?_eq_getElem]
  · rintro ⟨k, hk, hkx⟩
    obtain ⟨hkl, hx⟩ := List.getElem?_eq_some.mp hkx
    apply List.mem_iff_getElem.mpr
    refine ⟨k, by rw [List.length_take]; omega, ?_⟩
    rw [List.getElem_take]
    exact hx

/-- Membership in the multiset of a bag, cell by cell. -/
theorem Bag.mem_elems_iff (b : Bag Nat) (u : Nat) :
    u ∈ b.elems ↔
      (∃ f, b.filling = some f ∧ ∃ k, k < b.size ∧ f[k]? = some u) ∨
        ∃ i p, i < b.fill ∧ b.bag[i]? = some p ∧ ∃ e ∈ p.blocks, u ∈ e := by
  rw [Bag.elems, Multiset.mem_add]
  apply or_congr
  · rw [Bag.fillingElems, Multiset.mem_coe, mem_take_iff]
    cases hf : b.filling with
    | none => simp
    | some f => simp
  · rw [Bag.pennantElems, mem_sum_map_elems]
    constructor
    · rintro ⟨p, hp, hu⟩
      obtain ⟨i, hi, hip⟩ := (mem_take_iff _ _ _).mp hp
      exact ⟨i, p, hi, hip, (Pennant.mem_elems_blocks p u).mp hu⟩
    · rintro ⟨i, p, hi, hip, hu⟩
      exact ⟨p, (mem_take_iff _ _ _).mpr ⟨i, hi, hip⟩, (Pennant.mem_elems_blocks p u).mpr hu⟩

theorem BagOK.of_frontier {Fr : Nat → Prop} {b : Bag Nat} (hwf : b.WF) (htop : b.Top)
    (hfr : ∀ u ∈ b.elems, Fr u) : BagOK Fr b := by
  obtain ⟨f, hf, hlen⟩ := hwf.block
  refine ⟨hwf.fill_le_length, htop, ?_, f, hf, by have := hwf.size_lt; omega, ?_⟩
  · intro i p hi hp hpn
    rcases hwf.rank i p hi hp with h | ⟨-, h⟩
    · exact absurd h hpn
    · exact ⟨h, fun e he u hu =>
        hfr u ((Bag.mem_elems_iff b u).mpr (Or.inr ⟨i, p, hi, hp, e, he, hu⟩))⟩
  · intro k hk
    have hkl : k < f.length := by have := hwf.size_lt; omega
    exact ⟨f[k], List.getElem?_eq_getElem hkl,
      hfr _ ((Bag.mem_elems_iff b _).mpr (Or.inl ⟨f, hf, k, hk, List.getElem?_eq_getElem hkl⟩))⟩

theorem BagClosed.closed {G : Graph} {d : Nat} {ds : List Nat} {b : Bag Nat}
    (h : BagClosed G d ds b) (u : Nat) (hu : u ∈ b.elems) : Closed G d ds u := by
  rcases (Bag.mem_elems_iff b u).mp hu with ⟨f, hf, k, hk, hku⟩ | ⟨i, p, hi, hp, e, he, hue⟩
  · exact h.2 f hf k u hk hku
  · exact h.1 i p hi hp e he u hue

/-- A bag that is not empty holds an element. -/
theorem Bag.exists_mem_of_not_isEmpty {b : Bag Nat} (hwf : b.WF) (htop : b.Top)
    (hne : b.isEmpty = false) : ∃ u, u ∈ b.elems := by
  obtain ⟨f, hf, hlen⟩ := hwf.block
  have hpos := BLK_SIZE_pos
  by_cases hs : b.size = 0
  · have hfill : b.fill ≠ 0 := by
      intro h0
      simp [Bag.isEmpty, h0, hs] at hne
    rcases htop with h0 | ⟨p, hp, hpn⟩
    · exact absurd h0 hfill
    · rcases hwf.rank (b.fill - 1) p (by omega) hp with h | ⟨hr, hfull⟩
      · exact absurd h hpn
      · cases p with
        | null => exact absurd rfl hpn
        | node e l r =>
          have hel : e.length = BLK_SIZE := hfull e (by simp [Pennant.blocks])
          have h0 : 0 < e.length := by omega
          exact ⟨e[0], (Bag.mem_elems_iff b _).mpr (Or.inr ⟨b.fill - 1, _, by omega, hp, e,
            by simp [Pennant.blocks], List.getElem_mem h0⟩)⟩
  · have h0 : 0 < f.length := by omega
    exact ⟨f[0], (Bag.mem_elems_iff b _).mpr
      (Or.inl ⟨f, hf, 0, by omega, List.getElem?_eq_getElem h0⟩)⟩

theorem Bag.elems_of_isEmpty {b : Bag Nat} (he : b.isEmpty = true) : b.elems = 0 := by
  simp only [Bag.isEmpty, Bool.and_eq_true, beq_iff_eq] at he
  simp [Bag.elems, Bag.fillingElems, Bag.pennantElems, he.1, he.2]
end

/-! ## The parallel breadth-first search: the levels -/

section

theorem cap_large : 2 ^ 32 ≤ BLK_SIZE * 2 ^ BAG_SIZE := by norm_num [BLK_SIZE, BAG_SIZE]

theorem Graph.Walk.lt {G : Graph} (hG : G.WellFormed) {s n v : Nat} (hs : s < G.nNodes)
    (h : G.Walk s n v) : v < G.nNodes := by
  cases h with
  | refl => exact hs
  | step _ hadj =>
    obtain ⟨a, b, j, -, -, -, -, hj⟩ := hadj
    exact hG.edges_lt j _ hj

theorem Graph.Walk.inv_succ {G : Graph} {s n w : Nat} (h : G.Walk s (n + 1) w) :
    ∃ v, G.Walk s n v ∧ G.Adj v w := by
  cases h with
  | step hw hadj => exact ⟨_, hw, hadj⟩

theorem Graph.Walk.inv_zero {G : Graph} {s w : Nat} (h : G.Walk s 0 w) : w = s := by
  cases h with
  | refl => rfl

theorem Bag.Alloc.clear_wf {b : Bag Nat} (h : b.Alloc) : b.clear.WF :=
  { slots := h.1
    block := h.2
    size_lt := BLK_SIZE_pos
    fill_le := Nat.zero_le _
    rank := by intro i p hi; exact absurd hi (Nat.not_lt_zero i) }

theorem Bag.clear_elems (b : Bag Nat) : b.clear.elems = 0 := by
  simp [Bag.clear, Bag.elems, Bag.fillingElems, Bag.pennantElems]

theorem Bag.WF.alloc {b : Bag Nat} (h : b.WF) : b.Alloc := ⟨h.slots, h.block⟩

/-- One level of `pbfs`: walking the frontier `cur` at distance `d - 1` with an
empty `next` settles exactly the nodes at distance `d`. -/
theorem pbfs_level_spec {G : Graph} (hG : G.WellFormed) (s : Nat) (hs : s < G.nNodes)
    (d : Nat) (cur other : Bag Nat) (ds : List Nat) (hinv : PbfsInv G s d cur ds)
    (halloc : other.Alloc) (hd : d ≤ G.nNodes) :
    ∃ b st', G.pbfs_walk_Bag d (cur.getFill + 1) cur
        { next := other.clear, distances := ds } = some (b, st') ∧
      PbfsInv G s (d + 1) st'.next st'.distances ∧ b.Alloc := by
  have hN := hG.nNodes_lt
  have hU : UINT_MAX = 2 ^ 32 - 1 := rfl
  have hd2 := hinv.d_ge
  have hrel0 : LevelRel G d (fun u => u < G.nNodes ∧ ds.getD u 0 = d - 1)
      { next := other.clear, distances := ds } { next := other.clear, distances := ds } :=
    LevelRel.start d _ _ hinv.len halloc.clear_wf (Or.inl rfl)
  obtain ⟨b, st', hrun, hrel, hstep, hclosed, hb1, hb2, hb3, hb4⟩ :=
    pbfs_walk_Bag_spec hG d (fun u => u < G.nNodes ∧ ds.getD u 0 = d - 1) (fun u hu => hu.1)
      { next := other.clear, distances := ds }
      (by
        show Multiset.card other.clear.elems + G.nNodes < _
        rw [Bag.clear_elems]
        have := cap_large
        simp only [Multiset.card_zero, Nat.zero_add]
        omega)
      (cur.getFill + 1) cur { next := other.clear, distances := ds }
      (by show cur.fill < cur.fill + 1; omega)
      (BagOK.of_frontier hinv.wf hinv.top (fun u hu => (hinv.frontier u).mp hu)) hrel0
  refine ⟨b, st', hrun, ?_, ⟨by rw [hb4]; exact hinv.wf.slots, by rw [hb3]; exact hinv.wf.block⟩⟩
  have hstep' : DStep d ds st'.distances := hstep
  obtain ⟨A, hnd, hA, helems, hchg⟩ := hrel.added
  have helems' : st'.next.elems = (A : Multiset Nat) := by
    rw [helems]
    show other.clear.elems + _ = _
    rw [Bag.clear_elems, zero_add]
  have hfin : ∀ v, v < G.nNodes → ds.getD v 0 < d → st'.distances.getD v 0 = ds.getD v 0 :=
    fun v _ hv => hstep'.le_of_le v (by omega)
  refine
    { len := hrel.len
      d_ge := by omega
      d_le := by omega
      wf := hrel.wf
      top := hrel.top
      sound := ?_
      complete := ?_
      frontier := ?_
      closed := ?_ }
  · intro v hv hfinite
    rcases hstep' v with h | ⟨h1, h2⟩
    · rw [h] at hfinite ⊢
      obtain ⟨h3, h4⟩ := hinv.sound v hv hfinite
      exact ⟨by omega, h4⟩
    · have hvA : v ∈ A := hchg v (by
        show st'.distances.getD v 0 ≠ ds.getD v 0
        omega)
      obtain ⟨-, -, -, u, ⟨huN, hud⟩, hadj⟩ := hA v hvA
      have hu := hinv.sound u huN (by omega)
      rw [h2]
      refine ⟨by omega, ?_⟩
      have : d = ds.getD u 0 + 1 := by omega
      rw [this]
      exact Graph.Walk.step hu.2 hadj
  · intro n v hw hn
    rcases Nat.lt_or_ge n d with h | h
    · exact le_trans (hstep'.le v) (hinv.complete n v hw h)
    · have hnd' : n = (d - 1) + 1 := by omega
      rw [hnd'] at hw
      obtain ⟨u, hwu, hadj⟩ := hw.inv_succ
      have huN := hwu.lt hG hs
      have hu := hinv.complete (d - 1) u hwu (by omega)
      rcases Nat.lt_or_ge (ds.getD u 0) (d - 1) with h1 | h1
      · have := hinv.closed u huN (by omega) v hadj
        have := hstep'.le v
        omega
      · have hmem : u ∈ cur.elems := (hinv.frontier u).mpr ⟨huN, by omega⟩
        have := hclosed.closed u hmem v hadj
        omega
  · intro v
    rw [helems', Multiset.mem_coe]
    constructor
    · intro hv
      obtain ⟨h1, -, h3, -⟩ := hA v hv
      exact ⟨h1, by rw [h3]; omega⟩
    · rintro ⟨hv, hvd⟩
      apply hchg v
      show st'.distances.getD v 0 ≠ ds.getD v 0
      intro heq
      have := hinv.sound v hv (by rw [← heq]; omega)
      omega
  · intro u hu hud w hadj
    have hlt : st'.distances.getD u 0 < d := by omega
    have hsame : st'.distances.getD u 0 = ds.getD u 0 := by
      rcases hstep' u with h | ⟨-, h⟩
      · exact h
      · omega
    rw [hsame]
    rcases Nat.lt_or_ge (ds.getD u 0 + 1) d with h | h
    · exact le_trans (hstep'.le w) (hinv.closed u hu h w hadj)
    · have hmem : u ∈ cur.elems := (hinv.frontier u).mpr ⟨hu, by omega⟩
      have := hclosed.closed u hmem w hadj
      omega
end

section

/-- The seeding loop of `pbfs` on the edges `[i, hi)` of the source. -/
theorem pbfs_seed_spec {G : Graph} (hG : G.WellFormed) (hE : G.nEdges < 2 ^ 31)
    (s lo hi : Nat) (hhi : hi ≤ G.edges.length) :
    ∀ (n i : Nat) (st : PbfsState), lo ≤ i → i + n = hi → SeedInv G s lo i st →
      ∃ st', pbfs_seed G s n i st = some st' ∧ SeedInv G s lo hi st' := by
  intro n
  induction n with
  | zero =>
    intro i st _ hin hinv
    have : i = hi := by omega
    subst this
    exact ⟨st, rfl, hinv⟩
  | succ n ih =>
    intro i st hloi hin hinv
    have hEl := hG.edges_len
    have hil : i < G.edges.length := by omega
    have hge : G.edges[i]? = some G.edges[i] := List.getElem?_eq_getElem hil
    have heN : G.edges[i] < G.nNodes := hG.edges_lt i _ hge
    have hel : G.edges[i] < st.distances.length := by rw [hinv.len]; exact heN
    by_cases hes : G.edges[i] = s
    · obtain ⟨st', hrun, hinv'⟩ := ih (i + 1) st (by omega) (by omega)
        { hinv with
          card := le_trans hinv.card (by omega)
          mem := by
            intro v
            rw [hinv.mem v]
            constructor
            · rintro ⟨h1, j, h2, h3, h4⟩
              exact ⟨h1, j, h2, by omega, h4⟩
            · rintro ⟨h1, j, h2, h3, h4⟩
              refine ⟨h1, j, h2, ?_, h4⟩
              rcases Nat.lt_or_ge j i with h | h
              · exact h
              · have hji : j = i := by omega
                subst hji
                rw [hge] at h4
                simp only [Option.some.injEq] at h4
                exact absurd (h4.symm.trans hes) h1 }
      refine ⟨st', ?_, hinv'⟩
      simp only [pbfs_seed, hge, hes, ne_eq, not_true_eq_false, if_false]
      exact hrun
    · obtain ⟨nx, hins, hwf', htop', -, helems, -⟩ :=
        Bag.insert_spec st.next G.edges[i] hinv.wf (by
          have := hinv.card
          have := cap_large
          omega)
      have hse : s ≠ G.edges[i] := fun h => hes h.symm
      obtain ⟨st', hrun, hinv'⟩ := ih (i + 1)
        { next := nx, distances := st.distances.set G.edges[i] 1 } (by omega) (by omega)
        { len := by simpa using hinv.len
          wf := hwf'
          top := htop' hinv.top
          card := by
            show Multiset.card nx.elems ≤ _
            rw [helems, Multiset.card_cons]
            have := hinv.card
            omega
          mem := by
            intro v
            show v ∈ nx.elems ↔ _
            rw [helems, Multiset.mem_cons, hinv.mem v]
            constructor
            · rintro (h | ⟨h1, j, h2, h3, h4⟩)
              · subst h
                exact ⟨hes, i, hloi, by omega, hge⟩
              · exact ⟨h1, j, h2, by omega, h4⟩
            · rintro ⟨h1, j, h2, h3, h4⟩
              rcases Nat.lt_or_ge j i with h | h
              · exact Or.inr ⟨h1, j, h2, h, h4⟩
              · have hji : j = i := by omega
                subst hji
                rw [hge] at h4
                simp only [Option.some.injEq] at h4
                exact Or.inl h4.symm
          src := by
            show (st.distances.set G.edges[i] 1).getD s 0 = 0
            rw [dget_set _ _ _ _ hel, if_neg hse]
            exact hinv.src
          one := by
            intro v hv
            show (st.distances.set G.edges[i] 1).getD v 0 = 1
            change v ∈ nx.elems at hv
            rw [helems, Multiset.mem_cons] at hv
            rw [dget_set _ _ _ _ hel]
            split_ifs with h
            · rfl
            · rcases hv with hv | hv
              · exact absurd hv h
              · exact hinv.one v hv
          rest := by
            intro v hv hvs hnot
            show (st.distances.set G.edges[i] 1).getD v 0 = UINT_MAX
            change v ∉ nx.elems at hnot
            rw [helems, Multiset.mem_cons, not_or] at hnot
            rw [dget_set _ _ _ _ hel, if_neg hnot.1]
            exact hinv.rest v hv hvs hnot.2 }
      refine ⟨st', ?_, hinv'⟩
      simp only [pbfs_seed, hge, ne_eq, hes, not_false_eq_true, if_true, hins, store_eq hel]
      exact hrun

/-- The invariant of the seeding loop holds when the loop is entered. -/
theorem pbfs_seed_init (G : Graph) (s lo : Nat) (hs : s < G.nNodes) (b : Bag Nat)
    (halloc : b.Alloc) (hfill : b.fill = 0) (hsize : b.size = 0) (ds : List Nat)
    (hlen : ds.length = G.nNodes) (hmax : ∀ j, j < G.nNodes → ds[j]? = some UINT_MAX) :
    SeedInv G s lo lo { next := b, distances := ds.set s 0 } := by
  have hsl : s < ds.length := by omega
  have helems : b.elems = 0 := by
    apply Bag.elems_of_isEmpty
    simp [Bag.isEmpty, hfill, hsize]
  exact
    { len := by simpa using hlen
      wf :=
        { slots := halloc.1
          block := halloc.2
          size_lt := by rw [hsize]; exact BLK_SIZE_pos
          fill_le := by rw [hfill]; exact Nat.zero_le _
          rank := by intro i p hi; rw [hfill] at hi; exact absurd hi (Nat.not_lt_zero i) }
      top := Or.inl hfill
      card := by
        show Multiset.card b.elems ≤ _
        rw [helems]; simp
      mem := by
        intro v
        show v ∈ b.elems ↔ _
        rw [helems]
        constructor
        · intro h; exact absurd h (Multiset.not_mem_zero v)
        · rintro ⟨-, j, h1, h2, -⟩; omega
      src := by
        show (ds.set s 0).getD s 0 = 0
        rw [dget_set _ _ _ _ hsl, if_pos rfl]
      one := by
        intro v hv
        change v ∈ b.elems at hv
        rw [helems] at hv
        exact absurd hv (Multiset.not_mem_zero v)
      rest := by
        intro v hv hvs _
        show (ds.set s 0).getD v 0 = UINT_MAX
        rw [dget_set _ _ _ _ hsl, if_neg hvs, List.getD_eq_getElem?_getD, hmax v hv]
        rfl }

/-- After the seeding loop the level invariant holds with `newdist = 2`. -/
theorem pbfs_seed_inv {G : Graph} (hG : G.WellFormed) (s lo hi : Nat) (hs : s < G.nNodes)
    (hlo : G.nodes[s]? = some lo) (hhi : G.nodes[s + 1]? = some hi) (st : PbfsState)
    (h : SeedInv G s lo hi st) : PbfsInv G s 2 st.next st.distances := by
  have hU : UINT_MAX = 2 ^ 32 - 1 := rfl
  have hadj_mem : ∀ w, G.Adj s w → w ≠ s → w ∈ st.next.elems := by
    rintro w ⟨a, b, j, ha, hb, h1, h2, h3⟩ hws
    rw [hlo] at ha
    rw [hhi] at hb
    simp only [Option.some.injEq] at ha hb
    subst ha; subst hb
    exact (h.mem w).mpr ⟨hws, j, h1, h2, h3⟩
  have hmem_adj : ∀ w, w ∈ st.next.elems → w ≠ s ∧ w < G.nNodes ∧ G.Adj s w := by
    intro w hw
    obtain ⟨h1, j, h2, h3, h4⟩ := (h.mem w).mp hw
    exact ⟨h1, hG.edges_lt j w h4, lo, hi, j, hlo, hhi, h2, h3, h4⟩
  have hle1 : ∀ w, G.Adj s w → st.distances.getD w 0 ≤ 1 := by
    intro w hadj
    by_cases hws : w = s
    · rw [hws, h.src]; omega
    · rw [h.one w (hadj_mem w hadj hws)]
  refine
    { len := h.len
      d_ge := le_refl 2
      d_le := by omega
      wf := h.wf
      top := h.top
      sound := ?_
      complete := ?_
      frontier := ?_
      closed := ?_ }
  · intro v hv hfin
    by_cases hvs : v = s
    · subst hvs
      rw [h.src]
      exact ⟨by omega, Graph.Walk.refl⟩
    · by_cases hm : v ∈ st.next.elems
      · rw [h.one v hm]
        exact ⟨by omega, Graph.Walk.step Graph.Walk.refl (hmem_adj v hm).2.2⟩
      · exact absurd (h.rest v hv hvs hm) hfin
  · intro n v hw hn
    rcases Nat.eq_zero_or_pos n with h0 | h0
    · subst h0
      rw [hw.inv_zero, h.src]
    · have h1 : n = 0 + 1 := by omega
      subst h1
      obtain ⟨u, hwu, hadj⟩ := hw.inv_succ
      rw [hwu.inv_zero] at hadj
      exact hle1 v hadj
  · intro v
    constructor
    · intro hv
      exact ⟨(hmem_adj v hv).2.1, h.one v hv⟩
    · rintro ⟨hv, hvd⟩
      by_contra hm
      by_cases hvs : v = s
      · rw [hvs, h.src] at hvd
        omega
      · rw [h.rest v hv hvs hm] at hvd
        omega
  · intro u hu hud w hadj
    have hus : u = s := by
      by_contra hus
      by_cases hm : u ∈ st.next.elems
      · rw [h.one u hm] at hud; omega
      · rw [h.rest u hu hus hm] at hud; omega
    subst hus
    rw [h.src]
    exact hle1 w hadj
end

section

/-- The serial search returns 0 and leaves, in every finite cell, the length of
a path from the source, and, in the cell of every node reached by a path, a
value that is at most the length of that path and less than `nNodes`. -/
theorem Graph.bfs_spec (G : Graph) (hG : G.WellFormed) (queue0 distances : List Nat)
    (t : Nat) (ht : t < G.nNodes) (hq : queue0.length = G.nNodes)
    (hd : distances.length = G.nNodes) :
    ∃ ds, G.bfs queue0 (t : Int) distances = some (0, ds) ∧ ds.length = G.nNodes ∧
      (∀ v, v < G.nNodes → ds.getD v 0 ≠ UINT_MAX → G.Walk t (ds.getD v 0) v) ∧
      (∀ n v, G.Walk t n v → ds.getD v 0 ≤ n ∧ ds.getD v 0 < G.nNodes) := by
  obtain ⟨ds1, hinit, hlen1, hmax, -⟩ := init_distances_spec G.nNodes 0 distances (by omega)
  have hmax' : ∀ j, j < G.nNodes → ds1[j]? = some UINT_MAX :=
    fun j hj => hmax j (Nat.zero_le j) (by omega)
  have hinv0 := bfs_init_inv G t ht ds1 (by omega) hmax'
  obtain ⟨st, L, hrun, hinv, -, -⟩ :=
    bfs_loop_spec hG t G.nNodes 0
      { distances := ds1.set t 0, queue := queue0, head := 0, tail := 0, current := t } [t]
      hinv0 ⟨hq, by show 0 < G.nNodes; omega, rfl⟩ (by simp) rfl rfl (by omega)
  have hfinal := hinv.final hG
  refine ⟨st.distances, ?_, hinv.len, ?_, ?_⟩
  · have hguard : ¬ ((t : Int) < 0 ∨ (t : Int) > (G.nNodes : Int)) := by omega
    have htl : t < ds1.length := by omega
    simp only [Graph.bfs, if_neg hguard, hinit, Int.toNat_ofNat, store_eq htl, hrun]
  · intro v hv hfin
    exact hinv.walk v ((hinv.mem v hv).mp hfin)
  · intro n v hw
    obtain ⟨hm, hle⟩ := hfinal n v hw
    refine ⟨hle, ?_⟩
    obtain ⟨i, hi, hiv⟩ := List.mem_iff_getElem.mp hm
    have hidx := hinv.idx i hi
    rw [List.getD_eq_getElem?_getD L, List.getElem?_eq_getElem hi, Option.getD_some, hiv]
      at hidx
    have := hinv.length_le
    omega

/-- A node reached by a path is reached by a path of fewer than `nNodes` edges. -/
theorem Graph.Walk.short {G : Graph} (hG : G.WellFormed) {s n v : Nat} (hs : s < G.nNodes)
    (h : G.Walk s n v) : ∃ x, x < G.nNodes ∧ G.Walk s x v := by
  obtain ⟨ds, -, -, hwalk, hle⟩ :=
    G.bfs_spec hG (List.replicate G.nNodes 0) (List.replicate G.nNodes 0) s hs
      (List.length_replicate _ _) (List.length_replicate _ _)
  have hN := hG.nNodes_lt
  have hU : UINT_MAX = 2 ^ 32 - 1 := rfl
  have h1 := (hle n v h).2
  exact ⟨ds.getD v 0, h1, hwalk v (h.lt hG hs) (by omega)⟩

/-- While the frontier is not empty, `newdist` is at most `nNodes`. -/
theorem PbfsInv.le_of_mem {G : Graph} (hG : G.WellFormed) {s d : Nat} {cur : Bag Nat}
    {ds : List Nat} (hs : s < G.nNodes) (h : PbfsInv G s d cur ds) {u : Nat}
    (hu : u ∈ cur.elems) : d ≤ G.nNodes := by
  have hN := hG.nNodes_lt
  have hU : UINT_MAX = 2 ^ 32 - 1 := rfl
  have hd := h.d_ge
  have hdl := h.d_le
  obtain ⟨huN, hud⟩ := (h.frontier u).mp hu
  obtain ⟨-, hw⟩ := h.sound u huN (by omega)
  obtain ⟨x, hx, hwx⟩ := hw.short hG hs
  rcases Nat.lt_or_ge x d with hlt | hge
  · have := h.complete x u hwx hlt
    omega
  · omega

/-- When the frontier is empty, every node reached by a path is settled. -/
theorem PbfsInv.settled {G : Graph} (hG : G.WellFormed) {s d : Nat} {cur : Bag Nat}
    {ds : List Nat} (hs : s < G.nNodes) (h : PbfsInv G s d cur ds) (he : cur.elems = 0) :
    ∀ n v, G.Walk s n v → ds.getD v 0 ≤ n ∧ ds.getD v 0 + 1 < d := by
  have hd := h.d_ge
  intro n v hw
  induction hw with
  | refl =>
    have := h.complete 0 s Graph.Walk.refl (by omega)
    omega
  | @step n v w hwv hadj ih =>
    have hvN := hwv.lt hG hs
    have hc := h.closed v hvN ih.2 w hadj
    have hwN := (Graph.Walk.step hwv hadj).lt hG hs
    have hne : ds.getD w 0 ≠ d - 1 := by
      intro heq
      have := (h.frontier w).mpr ⟨hwN, heq⟩
      rw [he] at this
      exact Multiset.not_mem_zero w this
    omega

/-- The loop of `Graph::pbfs` terminates within `nNodes + 1 - newdist`
iterations and ends with the shortest-path distances in the array. -/
theorem pbfs_loop_spec {G : Graph} (hG : G.WellFormed) (s : Nat) (hs : s < G.nNodes) :
    ∀ (fuel d : Nat) (cur other : Bag Nat) (ds : List Nat), PbfsInv G s d cur ds →
      other.Alloc → G.nNodes + 1 ≤ fuel + d →
      ∃ fin, pbfs_loop G fuel { cur := cur, other := other, distances := ds, newdist := d } =
          some fin ∧ fin.distances.length = G.nNodes ∧
        (∀ v, v < G.nNodes → fin.distances.getD v 0 ≠ UINT_MAX →
          G.Walk s (fin.distances.getD v 0) v) ∧
        (∀ n v, G.Walk s n v → fin.distances.getD v 0 ≤ n ∧ fin.distances.getD v 0 < G.nNodes) := by
  have hN := hG.nNodes_lt
  have hdone : ∀ (d : Nat) (cur other : Bag Nat) (ds : List Nat), PbfsInv G s d cur ds →
      cur.isEmpty = true →
      ds.length = G.nNodes ∧
        (∀ v, v < G.nNodes → ds.getD v 0 ≠ UINT_MAX → G.Walk s (ds.getD v 0) v) ∧
        (∀ n v, G.Walk s n v → ds.getD v 0 ≤ n ∧ ds.getD v 0 < G.nNodes) := by
    intro d cur other ds hinv he
    refine ⟨hinv.len, fun v hv hfin => (hinv.sound v hv hfin).2, ?_⟩
    intro n v hw
    have := hinv.settled hG hs (Bag.elems_of_isEmpty he) n v hw
    have := hinv.d_le
    omega
  intro fuel
  induction fuel with
  | zero =>
    intro d cur other ds hinv _ hf
    cases he : cur.isEmpty with
    | true =>
      refine ⟨{ cur := cur, other := other, distances := ds, newdist := d }, ?_,
        hdone d cur other ds hinv he⟩
      simp only [pbfs_loop, he, if_true]
    | false =>
      obtain ⟨u, hu⟩ := Bag.exists_mem_of_not_isEmpty hinv.wf hinv.top he
      have := hinv.le_of_mem hG hs hu
      omega
  | succ fuel ih =>
    intro d cur other ds hinv halloc hf
    cases he : cur.isEmpty with
    | true =>
      refine ⟨{ cur := cur, other := other, distances := ds, newdist := d }, ?_,
        hdone d cur other ds hinv he⟩
      simp only [pbfs_loop, he, if_true]
    | false =>
      obtain ⟨u, hu⟩ := Bag.exists_mem_of_not_isEmpty hinv.wf hinv.top he
      have hdN := hinv.le_of_mem hG hs hu
      obtain ⟨b, st', hrun, hinv', hb⟩ := pbfs_level_spec hG s hs d cur other ds hinv halloc hdN
      obtain ⟨fin, hfin, hres⟩ := ih (d + 1) st'.next b st'.distances hinv' hb (by omega)
      refine ⟨fin, ?_, hres⟩
      have hmod : (d + 1) % 2 ^ 32 = d + 1 := Nat.mod_eq_of_lt (by omega)
      simp only [pbfs_loop, he, Bool.false_eq_true, if_false, hrun, hmod]
      exact hfin
end

section

/-- The serial elision of `Graph::pbfs` returns 0 and leaves, in every finite
cell, the length of a path from the source, and, in the cell of every node
reached by a path, a value that is at most the length of that path and less than
`nNodes`. -/
theorem Graph.pbfs_spec (G : Graph) (hG : G.WellFormed) (hE : G.nEdges < 2 ^ 31)
    (slots1 slots2 : List (Pennant Nat)) (blk1 blk2 distances : List Nat)
    (t : Nat) (ht : t < G.nNodes)
    (hs1 : slots1.length = BAG_SIZE) (hb1 : blk1.length = BLK_SIZE)
    (hs2 : slots2.length = BAG_SIZE) (hb2 : blk2.length = BLK_SIZE)
    (hd : distances.length = G.nNodes) :
    ∃ ds, G.pbfs (Bag.new slots1 blk1) (Bag.new slots2 blk2) (t : Int) distances =
        some (0, ds) ∧ ds.length = G.nNodes ∧
      (∀ v, v < G.nNodes → ds.getD v 0 ≠ UINT_MAX → G.Walk t (ds.getD v 0) v) ∧
      (∀ n v, G.Walk t n v → ds.getD v 0 ≤ n ∧ ds.getD v 0 < G.nNodes) := by
  obtain ⟨ds1, hinit, hlen1, hmax, -⟩ := init_distances_spec G.nNodes 0 distances (by omega)
  have hmax' : ∀ j, j < G.nNodes → ds1[j]? = some UINT_MAX :=
    fun j hj => hmax j (Nat.zero_le j) (by omega)
  have hnl := hG.nodes_len
  have ht0 : t < G.nodes.length := by omega
  have ht1 : t + 1 < G.nodes.length := by omega
  have hlo : G.nodes[t]? = some G.nodes[t] := List.getElem?_eq_getElem ht0
  have hhi : G.nodes[t + 1]? = some G.nodes[t + 1] := List.getElem?_eq_getElem ht1
  have hle : G.nodes[t] ≤ G.nodes[t + 1] := hG.nodes_mono t (t + 1) _ _ (by omega) hlo hhi
  have hhiE : G.nodes[t + 1] ≤ G.edges.length := by
    rw [hG.edges_len]
    exact hG.nodes_mono (t + 1) G.nNodes _ _ (by omega) hhi hG.nodes_last
  have hseed0 := pbfs_seed_init G t G.nodes[t] ht (Bag.new slots2 blk2) ⟨hs2, blk2, rfl, hb2⟩
    rfl rfl ds1 (by omega) hmax'
  obtain ⟨st, hseed, hsinv⟩ :=
    pbfs_seed_spec hG hE t G.nodes[t] G.nodes[t + 1] hhiE (G.nodes[t + 1] - G.nodes[t])
      G.nodes[t] { next := Bag.new slots2 blk2, distances := ds1.set t 0 } (le_refl _)
      (by omega) hseed0
  have hinv := pbfs_seed_inv hG t G.nodes[t] G.nodes[t + 1] ht hlo hhi st hsinv
  obtain ⟨fin, hloop, hres⟩ :=
    pbfs_loop_spec hG t ht G.nNodes 2 st.next (Bag.new slots1 blk1) st.distances hinv
      ⟨hs1, blk1, rfl, hb1⟩ (by omega)
  refine ⟨fin.distances, ?_, hres⟩
  have hguard : ¬ ((t : Int) < 0 ∨ (t : Int) > (G.nNodes : Int)) := by omega
  have htl : t < ds1.length := by omega
  simp only [Graph.pbfs, if_neg hguard, hinit, Int.toNat_ofNat, store_eq htl, hlo, hhi, hseed,
    hloop]
end

/-- C4: on a well-formed CSR graph (with `nEdges` within the range of `int`),
for a source `0 ≤ s < nNodes` and two arrays of `nNodes` cells, the serial
elision of `pbfs(s, d1)` and `bfs(s, d2)` both return 0 and end with
`d1[v] == d2[v]` for every node `v`. -/
theorem Graph_pbfs_eq_bfs (G : Graph) (hG : G.WellFormed) (hE : G.nEdges < 2 ^ 31)
    (slots1 slots2 : List (Pennant Nat)) (blk1 blk2 queue0 d1 d2 : List Nat) (s : Int)
    (hs0 : 0 ≤ s) (hs1 : s < (G.nNodes : Int))
    (hl1 : slots1.length = BAG_SIZE) (hb1 : blk1.length = BLK_SIZE)
    (hl2 : slots2.length = BAG_SIZE) (hb2 : blk2.length = BLK_SIZE)
    (hq : queue0.length = G.nNodes) (hd1 : d1.length = G.nNodes)
    (hd2 : d2.length = G.nNodes) :
    ∃ r1 r2, G.pbfs (Bag.new slots1 blk1) (Bag.new slots2 blk2) s d1 = some (0, r1) ∧
      G.bfs queue0 s d2 = some (0, r2) ∧
      ∀ v, v < G.nNodes → ∃ x, r1[v]? = some x ∧ r2[v]? = some x := by
  obtain ⟨t, rfl⟩ : ∃ t : Nat, s = (t : Int) := ⟨s.toNat, by omega⟩
  have ht : t < G.nNodes := by omega
  obtain ⟨r1, hrun1, hlen1, hwalk1, hle1⟩ :=
    G.pbfs_spec hG hE slots1 slots2 blk1 blk2 d1 t ht hl1 hb1 hl2 hb2 hd1
  obtain ⟨r2, hrun2, hlen2, hwalk2, hle2⟩ := G.bfs_spec hG queue0 d2 t ht hq hd2
  refine ⟨r1, r2, hrun1, hrun2, ?_⟩
  intro v hv
  have hN := hG.nNodes_lt
  have hU : UINT_MAX = 2 ^ 32 - 1 := rfl
  have hv1 : v < r1.length := by omega
  have hv2 : v < r2.length := by omega
  have hg1 : r1[v]? = some (r1.getD v 0) := by
    rw [List.getD_eq_getElem?_getD, List.getElem?_eq_getElem hv1]; rfl
  have hg2 : r2[v]? = some (r2.getD v 0) := by
    rw [List.getD_eq_getElem?_getD, List.getElem?_eq_getElem hv2]; rfl
  refine ⟨r1.getD v 0, hg1, ?_⟩
  rw [hg2]
  congr 1
  by_cases hfin1 : r1.getD v 0 = UINT_MAX
  · by_cases hfin2 : r2.getD v 0 = UINT_MAX
    · rw [hfin1, hfin2]
    · have := (hle1 _ v (hwalk2 v hv hfin2)).2
      omega
  · have hw1 := hwalk1 v hv hfin1
    have h21 := hle2 _ v hw1
    have hw2 := hwalk2 v hv (by omega)
    have h12 := hle1 _ v hw2
    omega

theorem Graph_pbfs_eq_bfs_witness :
    ∃ r1 r2,
      pathGraph.pbfs (Bag.new (List.replicate BAG_SIZE Pennant.null) (List.replicate BLK_SIZE 0))
          (Bag.new (List.replicate BAG_SIZE Pennant.null) (List.replicate BLK_SIZE 0))
          0 [7, 7, 7] = some (0, r1) ∧
        pathGraph.bfs [0, 0, 0] 0 [9, 9, 9] = some (0, r2) ∧
        ∀ v, v < pathGraph.nNodes → ∃ x, r1[v]? = some x ∧ r2[v]? = some x :=
  Graph_pbfs_eq_bfs pathGraph pathGraph_wf (by norm_num [pathGraph])
    (List.replicate BAG_SIZE Pennant.null) (List.replicate BAG_SIZE Pennant.null)
    (List.replicate BLK_SIZE 0) (List.replicate BLK_SIZE 0) [0, 0, 0] [7, 7, 7] [9, 9, 9] 0
    (le_refl 0) (by decide) (List.length_replicate _ _) (List.length_replicate _ _)
    (List.length_replicate _ _) (List.length_replicate _ _) rfl rfl rfl

/-! ## The source check of `bfs` and `pbfs` -/

/-- C18 (the code at the failing input): on the path graph with `nNodes = 3`,
the source `s = 3` passes the check `s < 0 || s > nNodes` of both `bfs` and
`pbfs`; neither returns -1, and both go on to the store `distances[3] = 0`
outside the array of 3 cells. -/
theorem Graph_source_check_at_nNodes :
    pathGraph.bfs [0, 0, 0] 3 [7, 7, 7] = none ∧
      pathGraph.pbfs (Bag.new [] []) (Bag.new [] []) 3 [7, 7, 7] = none ∧
      pathGraph.bfs [0, 0, 0] 3 [7, 7, 7] ≠ some (-1, [7, 7, 7]) ∧
      pathGraph.pbfs (Bag.new [] []) (Bag.new [] []) 3 [7, 7, 7] ≠ some (-1, [7, 7, 7]) := by
  have h1 : pathGraph.bfs [0, 0, 0] 3 [7, 7, 7] = none := by
    simp [Graph.bfs, pathGraph, init_distances, store]
  have h2 : pathGraph.pbfs (Bag.new [] []) (Bag.new [] []) 3 [7, 7, 7] = none := by
    simp [Graph.pbfs, pathGraph, init_distances, store]
  refine ⟨h1, h2, ?_, ?_⟩
  · rw [h1]; exact fun h => Option.noConfusion h
  · rw [h2]; exact fun h => Option.noConfusion h

/-- C19: whenever `bfs` or `pbfs` returns -1, the caller's array `distances` is
exactly as it was before the call. -/
theorem Graph_reject_keeps_distances (G : Graph) (queue0 distances r : List Nat)
    (b1 b2 : Bag Nat) (s : Int)
    (h : G.bfs queue0 s distances = some (-1, r) ∨
      G.pbfs b1 b2 s distances = some (-1, r)) : r = distances := by
  rcases h with h | h
  · unfold Graph.bfs at h
    split_ifs at h with hg
    · simp only [Option.some.injEq, Prod.mk.injEq, true_and] at h
      exact h.symm
    · split at h
      · cases h
      · split at h
        · cases h
        · split at h
          · cases h
          · simp at h
  · unfold Graph.pbfs at h
    split_ifs at h with hg
    · simp only [Option.some.injEq, Prod.mk.injEq, true_and] at h
      exact h.symm
    · split at h
      · cases h
      · split at h
        · split at h
          · cases h
          · split at h
            · cases h
            · simp at h
        · cases h

theorem Graph_reject_keeps_distances_witness :
    pathGraph.bfs [0, 0, 0] (-1) [7, 7, 7] = some (-1, [7, 7, 7]) ∧
      ([7, 7, 7] : List Nat) = [7, 7, 7] :=
  ⟨by simp [Graph.bfs],
    Graph_reject_keeps_distances pathGraph [0, 0, 0] [7, 7, 7] [7, 7, 7] (Bag.new [] [])
      (Bag.new [] []) (-1) (Or.inl (by simp [Graph.bfs]))⟩

/-! ## Bags: what the operations leave of the fields -/

section

variable {T : Type}

/-- The carry loop writes neither `size` nor `filling`, and keeps the number of
slots. -/
theorem Bag.carry_frame (lim : Nat) :
    ∀ (fuel i : Nat) (c : Pennant T) (b b' : Bag T), Bag.carry lim fuel i c b = some b' →
      b'.size = b.size ∧ b'.filling = b.filling ∧ b'.bag.length = b.bag.length := by
  intro fuel
  induction fuel with
  | zero => intro i c b b' h; simp [Bag.carry] at h
  | succ fuel ih =>
    intro i c b b' h
    unfold Bag.carry at h
    split at h
    · cases h
    · rename_i p hp
      split_ifs at h with hn hi
      · split at h
        · cases h
        · rename_i bag' hst
          simp only [Option.some.injEq] at h
          subst h
          simp only [store] at hst
          split_ifs at hst
          simp only [Option.some.injEq] at hst
          subst hst
          simp
      · split at h
        · rename_i c' bag' hc hst
          have hlen : bag'.length = b.bag.length := by
            simp only [store] at hst
            split_ifs at hst
            simp only [Option.some.injEq] at hst
            subst hst
            simp
          obtain ⟨h1, h2, h3⟩ := ih (i + 1) c' { b with bag := bag' } b' h
          exact ⟨h1, h2, by rw [h3]; exact hlen⟩
        · cases h
      · split at h
        · rename_i c' bag' hc hst
          simp only [Option.some.injEq] at h
          subst h
          simp only [store] at hst
          split_ifs at hst
          simp only [Option.some.injEq] at hst
          subst hst
          simp
        · cases h

/-- After `insert`, `size` is below `BLK_SIZE` whatever the bag was. -/
theorem Bag.insert_size_lt [Inhabited T] (b b' : Bag T) (el : T) (h : b.insert el = some b') :
    b'.size < BLK_SIZE := by
  unfold Bag.insert at h
  split at h
  · cases h
  · split at h
    · cases h
    · simp only at h
      split_ifs at h with hlt
      · simp only [Option.some.injEq] at h
        subst h
        exact hlt
      · rw [(Bag.carry_frame _ _ _ _ _ _ h).1]
        exact BLK_SIZE_pos
end

section

variable {T : Type}

/-- The size that the reconciliation of the two fillings leaves is below
`BLK_SIZE` when both sizes were. -/
theorem Bag.merge_filling_size_lt (a b : Bag T) (fa : Option (List T)) (sz : Nat)
    (blk : Option (List T)) (h : Bag.merge_filling a b = some (fa, sz, blk))
    (ha : a.size < BLK_SIZE) (hb : b.size < BLK_SIZE) : sz < BLK_SIZE := by
  have hB : BLK_SIZE = 2048 := rfl
  have hcase : ∀ x y : Nat, x < BLK_SIZE → y < BLK_SIZE →
      (0 ≤ toInt32 ((x : Int) - ((BLK_SIZE : Int) - (y : Int))) →
        u32 (toInt32 ((x : Int) - ((BLK_SIZE : Int) - (y : Int)))) < BLK_SIZE) ∧
      (¬ 0 ≤ toInt32 ((x : Int) - ((BLK_SIZE : Int) - (y : Int))) →
        (x + y) % 2 ^ 32 < BLK_SIZE) := by
    intro x y hx hy
    rw [toInt32_eq _ (by omega) (by omega)]
    constructor
    · intro hi
      rw [u32_eq _ hi (by omega)]
      omega
    · intro hi
      have : x + y < 2 ^ 32 := by omega
      rw [Nat.mod_eq_of_lt this]
      omega
  unfold Bag.merge_filling at h
  split at h
  · rename_i fa0 fb0 hfa hfb
    simp only at h
    by_cases hlt : a.size < b.size
    · simp only [if_pos hlt] at h
      by_cases hi : 0 ≤ toInt32 ((a.size : Int) - ((BLK_SIZE : Int) - (b.size : Int)))
      · simp only [if_pos hi] at h
        split at h
        · simp only [Option.some.injEq, Prod.mk.injEq] at h
          rw [← h.2.1]
          exact (hcase a.size b.size ha hb).1 hi
        · cases h
      · simp only [if_neg hi] at h
        split at h
        · simp only [Option.some.injEq, Prod.mk.injEq] at h
          rw [← h.2.1]
          exact (hcase a.size b.size ha hb).2 hi
        · cases h
    · simp only [if_neg hlt] at h
      by_cases hi : 0 ≤ toInt32 ((b.size : Int) - ((BLK_SIZE : Int) - (a.size : Int)))
      · simp only [if_pos hi] at h
        split at h
        · simp only [Option.some.injEq, Prod.mk.injEq] at h
          rw [← h.2.1]
          exact (hcase b.size a.size hb ha).1 hi
        · cases h
      · simp only [if_neg hi] at h
        split at h
        · simp only [Option.some.injEq, Prod.mk.injEq] at h
          rw [← h.2.1, Nat.add_comm]
          exact (hcase b.size a.size hb ha).2 hi
        · cases h
  · cases h

/-- What `merge` leaves in the fields `size` and `filling` of `this`, and in the
fields of `that`. -/
theorem Bag.merge_fields (a b a' b' : Bag T) (h : a.merge b = some (a', b')) :
    ∃ fa sz blk, Bag.merge_filling a b = some (fa, sz, blk) ∧ a'.size = sz ∧
      a'.filling = fa ∧ b'.fill = 0 ∧ b'.size = b.size ∧ b'.filling = none := by
  unfold Bag.merge at h
  split at h
  · cases h
  · rename_i fa sz blk hmf
    refine ⟨fa, sz, blk, hmf, ?_⟩
    simp only at h
    split at h
    · cases h
    · rename_i ta tb c hloop
      by_cases h1 : a.fill = (if a.fill > b.fill then a.fill else b.fill)
      · simp only [if_pos h1] at h
        by_cases h2 : c.isNull = true
        · simp only [if_pos h2, Option.some.injEq, Prod.mk.injEq] at h
          obtain ⟨rfl, rfl⟩ := h
          exact ⟨rfl, rfl, rfl, rfl, rfl⟩
        · simp only [if_neg h2] at h
          rw [Option.map_eq_some'] at h
          obtain ⟨x, hx, hxe⟩ := h
          simp only [Prod.mk.injEq] at hxe
          obtain ⟨rfl, rfl⟩ := hxe
          obtain ⟨h3, h4, -⟩ := Bag.carry_frame _ _ _ _ _ _ hx
          exact ⟨h3, h4, rfl, rfl, rfl⟩
      · simp only [if_neg h1] at h
        by_cases h2 : c.isNull = true
        · simp only [if_pos h2] at h
          rw [Option.map_eq_some'] at h
          obtain ⟨x, hx, hxe⟩ := h
          simp only [Prod.mk.injEq] at hxe
          obtain ⟨rfl, rfl⟩ := hxe
          exact ⟨rfl, rfl, rfl, rfl, rfl⟩
        · simp only [if_neg h2] at h
          rw [Option.map_eq_some'] at h
          obtain ⟨x, hx, hxe⟩ := h
          simp only [Prod.mk.injEq] at hxe
          obtain ⟨rfl, rfl⟩ := hxe
          exact ⟨rfl, rfl, rfl, rfl, rfl⟩

/-- What `split(&out)` leaves in the fields `size` and `filling`. -/
theorem Bag.split_fields (b b' : Bag T) (p : Pennant T) (ret : Bool)
    (h : b.split = some (b', p, ret)) : b'.size = b.size ∧ b'.filling = b.filling := by
  unfold Bag.split at h
  split_ifs at h
  · simp only [Option.some.injEq, Prod.mk.injEq] at h
    rw [← h.1]
    exact ⟨rfl, rfl⟩
  · split at h
    · rw [Option.map_eq_some'] at h
      obtain ⟨x, -, hxe⟩ := h
      simp only [Prod.mk.injEq] at hxe
      rw [← hxe.1]
      exact ⟨rfl, rfl⟩
    · cases h
end

/-- C11: in every state of a bag reachable from a newly constructed bag by any
sequence of `insert`, `merge` (with another reachable bag), `split` and `clear`,
`0 ≤ size < BLK_SIZE`. -/
theorem Bag_reach_size_lt {T : Type} [Inhabited T] (b : Bag T) (h : b.Reach) :
    0 ≤ b.size ∧ b.size < BLK_SIZE := by
  refine ⟨Nat.zero_le _, ?_⟩
  induction h with
  | new slots blk _ _ => exact BLK_SIZE_pos
  | insert el _ hrun _ => exact Bag.insert_size_lt _ _ el hrun
  | merge _ _ hrun iha ihb =>
    obtain ⟨fa, sz, blk, hmf, hsz, -⟩ := Bag.merge_fields _ _ _ _ hrun
    rw [hsz]
    exact Bag.merge_filling_size_lt _ _ fa sz blk hmf iha ihb
  | split _ hrun ih =>
    rw [(Bag.split_fields _ _ _ _ hrun).1]
    exact ih
  | clear _ _ => exact BLK_SIZE_pos

section

variable {T : Type}

/-- `split(&out)` keeps a well-formed bag well-formed and leaves the top slot
non-null. -/
theorem Bag.split_wf_top (b b' : Bag T) (out : Pennant T) (ret : Bool) (h : b.WF)
    (ht : b.Top) (hs : b.split = some (b', out, ret)) : b'.WF ∧ b'.Top := by
  rcases Nat.eq_zero_or_pos b.fill with h0 | hpos
  · rw [Bag.split_of_fill_zero b h0] at hs
    simp only [Option.some.injEq, Prod.mk.injEq] at hs
    rw [← hs.1]
    exact ⟨h, ht⟩
  · have hle := h.fill_le_length
    obtain ⟨g, out', hrun, hget, hg, htop, hnull⟩ := Bag.split_of_fill_pos b hpos hle
    rw [hrun] at hs
    simp only [Option.some.injEq, Prod.mk.injEq] at hs
    rw [← hs.1]
    have hfB := h.fill_le
    refine ⟨⟨by simpa using h.slots, h.block, h.size_lt, ?_, ?_⟩, ?_⟩
    · show g ≤ BAG_SIZE
      omega
    · intro i p hi hp
      change i < g at hi
      change (b.bag.set (b.fill - 1) Pennant.null)[i]? = some p at hp
      rw [List.getElem?_set_ne (by omega)] at hp
      exact h.rank i p (by omega) hp
    · by_cases hg0 : g = 0
      · exact Or.inl hg0
      · rcases htop with h1 | ⟨p, hp, hpn⟩
        · exact Or.inl h1
        · refine Or.inr ⟨p, ?_, hpn⟩
          show (b.bag.set (b.fill - 1) Pennant.null)[g - 1]? = some p
          rw [List.getElem?_set_ne (by omega)]
          exact hp

/-- Every state reachable without saturation is well-formed and has a non-null
top slot. -/
theorem Bag.ReachUnsat.wf_top [Inhabited T] {b : Bag T} (h : b.ReachUnsat) : b.WF ∧ b.Top := by
  induction h with
  | new slots blk hs hb => exact ⟨Bag.new_wf slots blk hs hb, Or.inl rfl⟩
  | insert el _ hcap hrun ih =>
    obtain ⟨b'', hrun', hwf, htop, -⟩ := Bag.insert_spec _ el ih.1 hcap
    rw [hrun] at hrun'
    simp only [Option.some.injEq] at hrun'
    rw [hrun']
    exact ⟨hwf, htop ih.2⟩
  | merge _ _ hcap hrun iha ihb =>
    obtain ⟨a'', b'', hrun', hwf, -, -, -, -, -, -, -, -, htop, -⟩ :=
      Bag.merge_spec _ _ iha.1 ihb.1 hcap
    rw [hrun] at hrun'
    simp only [Option.some.injEq, Prod.mk.injEq] at hrun'
    rw [hrun'.1]
    exact ⟨hwf, htop iha.2 ihb.2⟩
  | split _ hrun ih => exact Bag.split_wf_top _ _ _ _ ih.1 ih.2 hrun
  | @clear b _ ih =>
    exact ⟨{ slots := ih.1.slots
             block := ih.1.block
             size_lt := BLK_SIZE_pos
             fill_le := Nat.zero_le _
             rank := by intro i p hi; exact absurd hi (Nat.not_lt_zero i) }, Or.inl rfl⟩
end

/-! ## A reachable bag holding one block -/

section

theorem set_replicate_same {α : Type} (n j : Nat) (x : α) :
    (List.replicate n x).set j x = List.replicate n x := by
  apply List.ext_getElem?
  intro i
  rw [List.getElem?_set]
  split_ifs with h1 h2
  · subst h1
    simp only [List.length_replicate] at h2
    rw [List.getElem?_replicate, if_pos h2]
  · subst h1
    simp only [List.length_replicate] at h2
    rw [List.getElem?_replicate, if_neg h2]
  · rfl

theorem Bag.insertAll_append {T : Type} [Inhabited T] (xs ys : List T) :
    ∀ b : Bag T, b.insertAll (xs ++ ys) = (b.insertAll xs).bind fun b' => b'.insertAll ys := by
  induction xs with
  | nil => intro b; rfl
  | cons x xs ih =>
    intro b
    simp only [List.cons_append, Bag.insertAll]
    cases b.insert x with
    | none => rfl
    | some b1 => exact ih b1

/-- Inserting zeros into an empty filling of zeros only moves `size`. -/
theorem Bag.insertAll_zeros (slots : List (Pennant Nat)) :
    ∀ k j : Nat, j + k < BLK_SIZE →
      Bag.insertAll
          { fill := 0, bag := slots, filling := some (List.replicate BLK_SIZE 0), size := j }
          (List.replicate k 0) =
        some { fill := 0, bag := slots, filling := some (List.replicate BLK_SIZE 0),
               size := j + k } := by
  intro k
  induction k with
  | zero => intro j _; rfl
  | succ k ih =>
    intro j hj
    have hB := BLK_SIZE_lt
    have hmod : (j + 1) % 2 ^ 32 = j + 1 := Nat.mod_eq_of_lt (by omega)
    have hstep : Bag.insert
        { fill := 0, bag := slots, filling := some (List.replicate BLK_SIZE 0), size := j } 0 =
        some { fill := 0, bag := slots, filling := some (List.replicate BLK_SIZE 0),
               size := j + 1 } := by
      rw [Bag.insert_eq _ _ rfl (by simp only [List.length_replicate]; omega)]
      simp only [hmod]
      rw [if_pos (by omega), set_replicate_same]
    simp only [List.replicate_succ, Bag.insertAll, hstep]
    rw [ih (j + 1) (by omega), Nat.add_assoc j 1 k, Nat.add_comm 1 k]

/-- Inserting `BLK_SIZE` zeros into a newly constructed bag with null slots
gives the bag with one block in slot 0. -/
theorem Bag.fresh_insertAll_block :
    Bag.fresh.insertAll (List.replicate BLK_SIZE 0) = some Bag.oneBlock := by
  have hsplit : List.replicate BLK_SIZE (0 : Nat) = List.replicate (BLK_SIZE - 1) 0 ++ [0] := by
    rw [← List.replicate_succ']
    rfl
  have h1 := Bag.insertAll_zeros (List.replicate BAG_SIZE Pennant.null) (BLK_SIZE - 1) 0
    (by norm_num [BLK_SIZE])
  have hB := BLK_SIZE_lt
  have hmod : (0 + (BLK_SIZE - 1) + 1) % 2 ^ 32 = BLK_SIZE := by
    rw [Nat.mod_eq_of_lt] <;> norm_num [BLK_SIZE]
  rw [hsplit, Bag.insertAll_append]
  change (Bag.insertAll
      { fill := 0, bag := List.replicate BAG_SIZE Pennant.null,
        filling := some (List.replicate BLK_SIZE 0), size := 0 }
      (List.replicate (BLK_SIZE - 1) 0)).bind _ = _
  rw [h1]
  simp only [Option.some_bind, Bag.insertAll]
  rw [Bag.insert_eq _ _ rfl (by simp only [List.length_replicate]; norm_num [BLK_SIZE])]
  simp only [hmod, lt_irrefl, if_false, set_replicate_same]
  rfl
end

section

variable {T : Type}

theorem Bag.ReachUnsat.of_insertAll [Inhabited T] (xs : List T) :
    ∀ (b b' : Bag T), b.ReachUnsat →
      Multiset.card b.elems + xs.length < BLK_SIZE * 2 ^ BAG_SIZE →
      b.insertAll xs = some b' → b'.ReachUnsat := by
  induction xs with
  | nil =>
    intro b b' h _ hrun
    simp only [Bag.insertAll, Option.some.injEq] at hrun
    rw [← hrun]
    exact h
  | cons x xs ih =>
    intro b b' h hn hrun
    simp only [List.length_cons] at hn
    obtain ⟨b1, hrun1, -, -, -, he1, -⟩ := Bag.insert_spec b x h.wf_top.1 (by omega)
    simp only [Bag.insertAll, hrun1] at hrun
    refine ih b1 b' (Bag.ReachUnsat.insert x h (by omega) hrun1) ?_ hrun
    rw [he1, Multiset.card_cons]
    omega

theorem Bag.oneBlock_reachUnsat : Bag.oneBlock.ReachUnsat :=
  Bag.ReachUnsat.of_insertAll (List.replicate BLK_SIZE 0) Bag.fresh Bag.oneBlock
    (Bag.ReachUnsat.new _ _ (List.length_replicate _ _) (List.length_replicate _ _))
    (by
      rw [Bag.fresh, Bag.new_elems]
      norm_num [BLK_SIZE, BAG_SIZE])
    Bag.fresh_insertAll_block

theorem flatten_length_of_full (L : List (List T)) (n : Nat) (h : ∀ e ∈ L, e.length = n) :
    L.flatten.length = L.length * n := by
  induction L with
  | nil => simp
  | cons a L ih =>
    rw [List.flatten_cons, List.length_append, List.length_cons,
      ih (fun e he => h e (List.mem_cons_of_mem a he)), h a (List.mem_cons_self a L)]
    ring
end

/-- C12: in every state of a bag reachable from a newly constructed bag by
`insert`, `merge`, `split` and `clear` without saturating the pennant array,
either `fill == 0` or `bag[fill - 1]` is non-null, and `0 ≤ fill ≤ BAG_SIZE`. -/
theorem Bag_reach_top {T : Type} [Inhabited T] (b : Bag T) (h : b.ReachUnsat) :
    (b.fill = 0 ∨ ∃ p, b.bag[b.fill - 1]? = some p ∧ p ≠ Pennant.null) ∧
      0 ≤ b.fill ∧ b.fill ≤ BAG_SIZE :=
  ⟨h.wf_top.2, Nat.zero_le _, h.wf_top.1.fill_le⟩

theorem Bag_reach_top_witness :
    (Bag.oneBlock.fill = 0 ∨
        ∃ p, Bag.oneBlock.bag[Bag.oneBlock.fill - 1]? = some p ∧ p ≠ Pennant.null) ∧
      0 ≤ Bag.oneBlock.fill ∧ Bag.oneBlock.fill ≤ BAG_SIZE :=
  Bag_reach_top Bag.oneBlock Bag.oneBlock_reachUnsat

/-- C13: in every state of a bag reachable from a newly constructed bag by
`insert`, `merge`, `split` and `clear` without saturation, every non-null slot
`bag[i]` with `i < fill` is a pennant of rank exactly `i`: its traversal (root
block, then the left and the right subtree) yields exactly `2 ^ i` blocks, of
`BLK_SIZE` cells each, that is `2 ^ i * BLK_SIZE` elements. -/
theorem Bag_reach_rank {T : Type} [Inhabited T] (b : Bag T) (h : b.ReachUnsat) (i : Nat)
    (p : Pennant T) (hi : i < b.fill) (hp : b.bag[i]? = some p) (hn : p ≠ Pennant.null) :
    Pennant.IsPennant i p ∧ p.blocks.length = 2 ^ i ∧
      (∀ e ∈ p.blocks, e.length = BLK_SIZE) ∧
      p.blocks.flatten.length = 2 ^ i * BLK_SIZE := by
  rcases h.wf_top.1.rank i p hi hp with h0 | ⟨hr, hfull⟩
  · exact absurd h0 hn
  · have hnb : p.blocks.length = 2 ^ i := hr.numBlocks_eq
    refine ⟨hr, hnb, hfull, ?_⟩
    rw [flatten_length_of_full p.blocks BLK_SIZE hfull, hnb]

theorem Bag_reach_rank_witness :
    Pennant.IsPennant 0 (Pennant.ofBlock (List.replicate BLK_SIZE 0)) ∧
      (Pennant.ofBlock (List.replicate BLK_SIZE 0)).blocks.length = 2 ^ 0 ∧
      (∀ e ∈ (Pennant.ofBlock (List.replicate BLK_SIZE 0)).blocks, e.length = BLK_SIZE) ∧
      (Pennant.ofBlock (List.replicate BLK_SIZE 0)).blocks.flatten.length = 2 ^ 0 * BLK_SIZE :=
  Bag_reach_rank Bag.oneBlock Bag.oneBlock_reachUnsat 0
    (Pennant.ofBlock (List.replicate BLK_SIZE 0)) (by decide) rfl
    (by simp [Pennant.ofBlock])

/-! ## Bags: the slots at and above `fill` -/

section

variable {T : Type}

theorem store_some {α : Type} {a a' : List α} {i : Nat} {v : α} (h : store a i v = some a') :
    i < a.length ∧ a' = a.set i v := by
  simp only [store] at h
  split_ifs at h with hi
  simp only [Option.some.injEq] at h
  exact ⟨hi, h.symm⟩

/-- The carry loop leaves the slots at and above the new `fill` null when the
slots at and above `lim` were. -/
theorem Bag.carry_above (lim : Nat) (hlim : lim ≤ BAG_SIZE) :
    ∀ (fuel i : Nat) (c : Pennant T) (b b' : Bag T), Bag.carry lim fuel i c b = some b' →
      b.bag.length = BAG_SIZE → i ≤ lim →
      (∀ k, lim ≤ k → k < BAG_SIZE → b.bag[k]? = some Pennant.null) →
      b'.fill ≤ BAG_SIZE ∧ ∀ k, b'.fill ≤ k → k < BAG_SIZE → b'.bag[k]? = some Pennant.null := by
  intro fuel
  induction fuel with
  | zero => intro i c b b' h; simp [Bag.carry] at h
  | succ fuel ih =>
    intro i c b b' h hlen hi habove
    unfold Bag.carry at h
    split at h
    · cases h
    · rename_i p hp
      by_cases hn : p.isNull = true
      · simp only [if_pos hn] at h
        split at h
        · cases h
        · rename_i bag' hst
          obtain ⟨hil, rfl⟩ := store_some hst
          simp only [Option.some.injEq] at h
          subst h
          refine ⟨?_, ?_⟩
          · show max lim (i + 1) ≤ BAG_SIZE
            omega
          · intro k hk hkB
            change max lim (i + 1) ≤ k at hk
            show (b.bag.set i c)[k]? = some Pennant.null
            rw [List.getElem?_set_ne (by omega)]
            exact habove k (by omega) hkB
      · simp only [if_neg hn] at h
        have hilim : i < lim := by
          by_contra hcon
          rw [if_neg hcon] at hp
          simp only [Option.some.injEq] at hp
          rw [← hp] at hn
          exact hn rfl
        split at h
        · rename_i c' bag' hc hst
          obtain ⟨hil, rfl⟩ := store_some hst
          by_cases hnext : i + 1 < BAG_SIZE
          · simp only [if_pos hnext] at h
            refine ih (i + 1) c' _ b' h (by simpa using hlen) (by omega) ?_
            intro k hk hkB
            show (b.bag.set i Pennant.null)[k]? = some Pennant.null
            rw [List.getElem?_set_ne (by omega)]
            exact habove k hk hkB
          · simp only [if_neg hnext, Option.some.injEq] at h
            subst h
            exact ⟨le_refl _, fun k hk hkB => absurd hkB (by
              change BAG_SIZE ≤ k at hk
              omega)⟩
        · cases h

/-- `insert` keeps the slots at and above `fill` null. -/
theorem Bag.insert_above [Inhabited T] (b b' : Bag T) (el : T) (h : b.insert el = some b')
    (hlen : b.bag.length = BAG_SIZE) (hfill : b.fill ≤ BAG_SIZE) (ha : b.Above) :
    b'.bag.length = BAG_SIZE ∧ b'.fill ≤ BAG_SIZE ∧ b'.Above := by
  unfold Bag.insert at h
  split at h
  · cases h
  · split at h
    · cases h
    · simp only at h
      split_ifs at h with hlt
      · simp only [Option.some.injEq] at h
        subst h
        exact ⟨hlen, hfill, ha⟩
      · obtain ⟨h1, h2⟩ := Bag.carry_above b.fill hfill _ _ _ _ _ h hlen (Nat.zero_le _) ha
        exact ⟨by rw [(Bag.carry_frame _ _ _ _ _ _ h).2.2]; exact hlen, h1, h2⟩

/-- `split(&out)` keeps the slots at and above `fill` null. -/
theorem Bag.split_above (b b' : Bag T) (p : Pennant T) (ret : Bool)
    (h : b.split = some (b', p, ret))
    (hlen : b.bag.length = BAG_SIZE) (hfill : b.fill ≤ BAG_SIZE) (ha : b.Above) :
    b'.bag.length = BAG_SIZE ∧ b'.fill ≤ BAG_SIZE ∧ b'.Above := by
  rcases Nat.eq_zero_or_pos b.fill with h0 | hpos
  · rw [Bag.split_of_fill_zero b h0] at h
    simp only [Option.some.injEq, Prod.mk.injEq] at h
    rw [← h.1]
    exact ⟨hlen, hfill, ha⟩
  · obtain ⟨g, out, hrun, -, hg, -, hnull⟩ := Bag.split_of_fill_pos b hpos (by omega)
    rw [hrun] at h
    simp only [Option.some.injEq, Prod.mk.injEq] at h
    rw [← h.1]
    refine ⟨by simpa using hlen, ?_, ?_⟩
    · show g ≤ BAG_SIZE
      omega
    · intro k hk hkB
      change g ≤ k at hk
      show (b.bag.set (b.fill - 1) Pennant.null)[k]? = some Pennant.null
      rcases Nat.lt_or_ge k b.fill with hlt | hge
      · exact hnull k hk hlt
      · rw [List.getElem?_set_ne (by omega)]
        exact ha k hge hkB
end

section

variable {T : Type}

/-- One iteration of the first loop of `merge` writes slot `i` of `this->bag`
only. -/
theorem Bag.merge_step_frame (thatFill i : Nat) (ta tb ta' tb' : List (Pennant T))
    (c c' : Pennant T) (h : Bag.merge_step thatFill i ta tb c = some (ta', tb', c')) :
    ta'.length = ta.length ∧ ∀ k, k ≠ i → ta'[k]? = ta[k]? := by
  have hset : ∀ v : Pennant T, (ta.set i v).length = ta.length ∧
      ∀ k, k ≠ i → (ta.set i v)[k]? = ta[k]? :=
    fun v => ⟨List.length_set _ _ _, fun k hk => List.getElem?_set_ne (Ne.symm hk)⟩
  unfold Bag.merge_step at h
  split at h
  · split at h
    all_goals
      first
      | (simp only [Option.some.injEq, Prod.mk.injEq] at h
         obtain ⟨rfl, -, -⟩ := h
         first
         | exact hset _
         | exact ⟨rfl, fun _ _ => rfl⟩)
      | (rw [Option.map_eq_some'] at h
         obtain ⟨x, -, hx⟩ := h
         simp only [Prod.mk.injEq] at hx
         obtain ⟨rfl, -, -⟩ := hx
         first
         | exact hset _
         | exact ⟨rfl, fun _ _ => rfl⟩)
  · cases h

/-- The first loop of `merge` writes the slots `[i, i + n)` of `this->bag`
only. -/
theorem Bag.merge_loop_frame (thatFill : Nat) :
    ∀ (n i : Nat) (ta tb ta' tb' : List (Pennant T)) (c c' : Pennant T),
      Bag.merge_loop thatFill n i ta tb c = some (ta', tb', c') →
      ta'.length = ta.length ∧ ∀ k, i + n ≤ k → ta'[k]? = ta[k]? := by
  intro n
  induction n with
  | zero =>
    intro i ta tb ta' tb' c c' h
    simp only [Bag.merge_loop, Option.some.injEq, Prod.mk.injEq] at h
    obtain ⟨rfl, -, -⟩ := h
    exact ⟨rfl, fun _ _ => rfl⟩
  | succ n ih =>
    intro i ta tb ta' tb' c c' h
    unfold Bag.merge_loop at h
    split at h
    · cases h
    · rename_i ta1 tb1 c1 hstep
      obtain ⟨h1, h2⟩ := Bag.merge_step_frame _ _ _ _ _ _ _ _ hstep
      obtain ⟨h3, h4⟩ := ih (i + 1) ta1 tb1 ta' tb' c1 c' h
      exact ⟨h3.trans h1, fun k hk => (h4 k (by omega)).trans (h2 k (by omega))⟩

/-- The copying loops of `merge` write the slots `[j, j + n)` of `this->bag`
only. -/
theorem Bag.merge_move_frame :
    ∀ (n j : Nat) (ta tb ta' tb' : List (Pennant T)),
      Bag.merge_move n j ta tb = some (ta', tb') →
      ta'.length = ta.length ∧ ∀ k, j + n ≤ k → ta'[k]? = ta[k]? := by
  intro n
  induction n with
  | zero =>
    intro j ta tb ta' tb' h
    simp only [Bag.merge_move, Option.some.injEq, Prod.mk.injEq] at h
    obtain ⟨rfl, -⟩ := h
    exact ⟨rfl, fun _ _ => rfl⟩
  | succ n ih =>
    intro j ta tb ta' tb' h
    unfold Bag.merge_move at h
    split at h
    · cases h
    · split at h
      · rename_i ta1 tb1 hs1 hs2
        obtain ⟨-, rfl⟩ := store_some hs1
        obtain ⟨h3, h4⟩ := ih (j + 1) _ _ ta' tb' h
        refine ⟨by rw [h3]; simp, fun k hk => ?_⟩
        rw [h4 k (by omega), List.getElem?_set_ne (by omega)]
      · cases h
end

section

variable {T : Type}

/-- The second carry loop of `merge` leaves the slots of `this->bag` at and
above the new `fill` null when the slots at and above `max` were. -/
theorem Bag.merge_ripple_above (mx : Nat) (hmx : mx ≤ BAG_SIZE) :
    ∀ (fuel i : Nat) (c : Pennant T) (ta tb ta' tb' : List (Pennant T)) (f : Nat),
      Bag.merge_ripple mx fuel i c ta tb = some (ta', tb', f) →
      ta.length = BAG_SIZE → i ≤ mx →
      (∀ k, mx ≤ k → k < BAG_SIZE → ta[k]? = some Pennant.null) →
      ta'.length = BAG_SIZE ∧ f ≤ BAG_SIZE ∧
        ∀ k, f ≤ k → k < BAG_SIZE → ta'[k]? = some Pennant.null := by
  intro fuel
  induction fuel with
  | zero => intro i c ta tb ta' tb' f h; simp [Bag.merge_ripple] at h
  | succ fuel ih =>
    intro i c ta tb ta' tb' f h hlen hi habove
    unfold Bag.merge_ripple at h
    split at h
    · cases h
    · rename_i q hq
      by_cases hn : q.isNull = true
      · simp only [if_pos hn] at h
        split at h
        · cases h
        · rename_i ta1 hst
          obtain ⟨hil, rfl⟩ := store_some hst
          rw [Option.map_eq_some'] at h
          obtain ⟨r, hr, hre⟩ := h
          simp only [Prod.mk.injEq] at hre
          obtain ⟨rfl, -, rfl⟩ := hre
          obtain ⟨h1, h2⟩ := Bag.merge_move_frame _ _ _ _ r.1 r.2 hr
          refine ⟨by rw [h1]; simpa using hlen, by omega, ?_⟩
          intro k hk hkB
          rw [h2 k (by omega), List.getElem?_set_ne (by omega)]
          exact habove k (by omega) hkB
      · simp only [if_neg hn] at h
        have hilim : i < mx := by
          by_contra hcon
          rw [if_neg hcon] at hq
          simp only [Option.some.injEq] at hq
          rw [← hq] at hn
          exact hn rfl
        split at h
        · rename_i c1 ta1 tb1 hc hs1 hs2
          obtain ⟨hil, rfl⟩ := store_some hs1
          by_cases hnext : i + 1 < BAG_SIZE
          · simp only [if_pos hnext] at h
            refine ih (i + 1) c1 _ tb1 ta' tb' f h (by simpa using hlen) (by omega) ?_
            intro k hk hkB
            rw [List.getElem?_set_ne (by omega)]
            exact habove k hk hkB
          · simp only [if_neg hnext, Option.some.injEq, Prod.mk.injEq] at h
            obtain ⟨rfl, -, rfl⟩ := h
            exact ⟨by simpa using hlen, le_refl _, fun k hk hkB => absurd hkB (by omega)⟩
        · cases h

/-- `merge` keeps the slots of `this` at and above `fill` null. -/
theorem Bag.merge_above (a b a' b' : Bag T) (h : a.merge b = some (a', b'))
    (hlen : a.bag.length = BAG_SIZE) (hfa : a.fill ≤ BAG_SIZE) (hfb : b.fill ≤ BAG_SIZE)
    (ha : a.Above) :
    a'.bag.length = BAG_SIZE ∧ a'.fill ≤ BAG_SIZE ∧ a'.Above := by
  unfold Bag.merge at h
  split at h
  · cases h
  · rename_i fa sz blk hmf
    simp only at h
    split at h
    · cases h
    · rename_i ta tb c hloop
      obtain ⟨hl1, hfr⟩ := Bag.merge_loop_frame _ _ _ _ _ _ _ _ _ hloop
      have hta : ∀ k, a.fill ≤ k → k < BAG_SIZE → ta[k]? = some Pennant.null := by
        intro k hk hkB
        rw [hfr k (by split_ifs <;> omega)]
        exact ha k hk hkB
      by_cases h1 : a.fill = (if a.fill > b.fill then a.fill else b.fill)
      · simp only [if_pos h1] at h
        by_cases h2 : c.isNull = true
        · simp only [if_pos h2, Option.some.injEq, Prod.mk.injEq] at h
          obtain ⟨rfl, -⟩ := h
          exact ⟨by rw [hl1]; exact hlen, hfa, hta⟩
        · simp only [if_neg h2] at h
          rw [Option.map_eq_some'] at h
          obtain ⟨x, hx, hxe⟩ := h
          simp only [Prod.mk.injEq] at hxe
          obtain ⟨rfl, -⟩ := hxe
          obtain ⟨h3, h4⟩ :=
            Bag.carry_above _ (by split_ifs <;> omega) _ _ _ _ _ hx (by rw [hl1]; exact hlen)
              (by split_ifs <;> omega)
              (fun k hk hkB => hta k (by rw [h1]; exact hk) hkB)
          exact ⟨by rw [(Bag.carry_frame _ _ _ _ _ _ hx).2.2, hl1]; exact hlen, h3, h4⟩
      · simp only [if_neg h1] at h
        have hlt : a.fill < b.fill := by
          by_contra hcon
          apply h1
          split_ifs <;> omega
        have hmx : (if a.fill > b.fill then a.fill else b.fill) = b.fill := by
          rw [if_neg (by omega)]
        have hmn : (if a.fill > b.fill then b.fill else a.fill) = a.fill := by
          rw [if_neg (by omega)]
        rw [hmx, hmn] at h
        by_cases h2 : c.isNull = true
        · simp only [if_pos h2] at h
          rw [Option.map_eq_some'] at h
          obtain ⟨r, hr, hre⟩ := h
          simp only [Prod.mk.injEq] at hre
          obtain ⟨rfl, -⟩ := hre
          obtain ⟨h3, h4⟩ := Bag.merge_move_frame _ _ _ _ r.1 r.2 hr
          refine ⟨by rw [h3, hl1]; exact hlen, hfb, ?_⟩
          intro k hk hkB
          change b.fill ≤ k at hk
          show r.1[k]? = some Pennant.null
          rw [h4 k (by omega)]
          exact hta k (by omega) hkB
        · simp only [if_neg h2] at h
          rw [Option.map_eq_some'] at h
          obtain ⟨r, hr, hre⟩ := h
          simp only [Prod.mk.injEq] at hre
          obtain ⟨rfl, -⟩ := hre
          obtain ⟨h3, h4, h5⟩ :=
            Bag.merge_ripple_above b.fill hfb _ _ _ _ _ r.1 r.2.1 r.2.2 hr
              (by rw [hl1]; exact hlen) (by omega)
              (fun k hk hkB => hta k (by omega) hkB)
          exact ⟨h3, h4, h5⟩
end

section

variable {T : Type}

theorem Bag.ReachUnsat.reach [Inhabited T] {b : Bag T} (h : b.ReachUnsat) : b.Reach := by
  induction h with
  | new slots blk hs hb => exact Bag.Reach.new slots blk hs hb
  | insert el _ _ hrun ih => exact Bag.Reach.insert el ih hrun
  | merge _ _ _ hrun iha ihb => exact Bag.Reach.merge iha ihb hrun
  | split _ hrun ih => exact Bag.Reach.split ih hrun
  | clear _ ih => exact Bag.Reach.clear ih

theorem Bag.ReachNull.after_insertAll [Inhabited T] (xs : List T) :
    ∀ (b b' : Bag T), b.ReachNull → b.insertAll xs = some b' → b'.ReachNull := by
  induction xs with
  | nil =>
    intro b b' h hrun
    simp only [Bag.insertAll, Option.some.injEq] at hrun
    rw [← hrun]
    exact h
  | cons x xs ih =>
    intro b b' h hrun
    simp only [Bag.insertAll] at hrun
    split at hrun
    · cases hrun
    · rename_i b1 hb1
      exact ih b1 b' (Bag.ReachNull.insert x h hb1) hrun

theorem Bag.oneBlock_reachNull : Bag.oneBlock.ReachNull :=
  Bag.ReachNull.after_insertAll (List.replicate BLK_SIZE 0) Bag.fresh Bag.oneBlock
    (Bag.ReachNull.new _ (List.length_replicate _ _)) Bag.fresh_insertAll_block

/-- The loop that moves slots of `that` stores to every index it visits, so it
stays inside the array of `this`. -/
theorem Bag.merge_move_bound :
    ∀ (n j : Nat) (ta tb ta' tb' : List (Pennant T)),
      Bag.merge_move n j ta tb = some (ta', tb') → j ≤ ta.length → j + n ≤ ta.length := by
  intro n
  induction n with
  | zero => intro j ta tb ta' tb' _ hj; exact hj
  | succ n ih =>
    intro j ta tb ta' tb' h hj
    unfold Bag.merge_move at h
    split at h
    · cases h
    · rename_i q hq
      split at h
      · rename_i ta1 tb1 hs1 hs2
        obtain ⟨hil, rfl⟩ := store_some hs1
        have := ih (j + 1) _ tb1 ta' tb' h (by simp; omega)
        simp only [List.length_set] at this
        omega
      · cases h

/-- The second carry loop of `merge` keeps the slots of `this` at and above the
new `fill` null, whatever the `fill` and the slots of `that`. -/
theorem Bag.merge_ripple_above_any (mx : Nat) :
    ∀ (fuel i : Nat) (c : Pennant T) (ta tb ta' tb' : List (Pennant T)) (f : Nat),
      Bag.merge_ripple mx fuel i c ta tb = some (ta', tb', f) →
      ta.length = BAG_SIZE → i ≤ mx →
      (∀ k, mx ≤ k → k < BAG_SIZE → ta[k]? = some Pennant.null) →
      ta'.length = BAG_SIZE ∧ f ≤ BAG_SIZE ∧
        ∀ k, f ≤ k → k < BAG_SIZE → ta'[k]? = some Pennant.null := by
  intro fuel
  induction fuel with
  | zero => intro i c ta tb ta' tb' f h; simp [Bag.merge_ripple] at h
  | succ fuel ih =>
    intro i c ta tb ta' tb' f h hlen hi habove
    unfold Bag.merge_ripple at h
    split at h
    · cases h
    · rename_i q hq
      by_cases hn : q.isNull = true
      · simp only [if_pos hn] at h
        split at h
        · cases h
        · rename_i ta1 hst
          obtain ⟨hil, rfl⟩ := store_some hst
          rw [Option.map_eq_some'] at h
          obtain ⟨r, hr, hre⟩ := h
          simp only [Prod.mk.injEq] at hre
          obtain ⟨rfl, -, rfl⟩ := hre
          obtain ⟨h1, h2⟩ := Bag.merge_move_frame _ _ _ _ r.1 r.2 hr
          have hb := Bag.merge_move_bound _ _ _ _ r.1 r.2 hr (by simp; omega)
          simp only [List.length_set] at hb
          have hmaxle : max mx (i + 1) ≤ BAG_SIZE := by
            have : i + 1 ≤ max mx (i + 1) := le_max_right _ _
            omega
          refine ⟨by rw [h1]; simpa using hlen, hmaxle, ?_⟩
          intro k hk hkB
          have hk1 : mx ≤ k := le_trans (le_max_left _ _) hk
          have hk2 : i + 1 ≤ k := le_trans (le_max_right _ _) hk
          rw [h2 k (by omega), List.getElem?_set_ne (by omega)]
          exact habove k hk1 hkB
      · simp only [if_neg hn] at h
        have hilim : i < mx := by
          by_contra hcon
          rw [if_neg hcon] at hq
          simp only [Option.some.injEq] at hq
          rw [← hq] at hn
          exact hn rfl
        split at h
        · rename_i c1 ta1 tb1 hc hs1 hs2
          obtain ⟨hil, rfl⟩ := store_some hs1
          by_cases hnext : i + 1 < BAG_SIZE
          · simp only [if_pos hnext] at h
            refine ih (i + 1) c1 _ tb1 ta' tb' f h (by simpa using hlen) (by omega) ?_
            intro k hk hkB
            rw [List.getElem?_set_ne (by omega)]
            exact habove k hk hkB
          · simp only [if_neg hnext, Option.some.injEq, Prod.mk.injEq] at h
            obtain ⟨rfl, -, rfl⟩ := h
            exact ⟨by simpa using hlen, le_refl _, fun k hk hkB => absurd hkB (by omega)⟩
        · cases h

/-- `merge` keeps the slots of `this` at and above `fill` null, whatever the
bag `that` is. -/
theorem Bag.merge_above_any (a b a' b' : Bag T) (h : a.merge b = some (a', b'))
    (hlen : a.bag.length = BAG_SIZE) (hfa : a.fill ≤ BAG_SIZE) (ha : a.Above) :
    a'.bag.length = BAG_SIZE ∧ a'.fill ≤ BAG_SIZE ∧ a'.Above := by
  unfold Bag.merge at h
  split at h
  · cases h
  · rename_i fa sz blk hmf
    simp only at h
    split at h
    · cases h
    · rename_i ta tb c hloop
      obtain ⟨hl1, hfr⟩ := Bag.merge_loop_frame _ _ _ _ _ _ _ _ _ hloop
      have hta : ∀ k, a.fill ≤ k → k < BAG_SIZE → ta[k]? = some Pennant.null := by
        intro k hk hkB
        rw [hfr k (by split_ifs <;> omega)]
        exact ha k hk hkB
      by_cases h1 : a.fill = (if a.fill > b.fill then a.fill else b.fill)
      · simp only [if_pos h1] at h
        by_cases h2 : c.isNull = true
        · simp only [if_pos h2, Option.some.injEq, Prod.mk.injEq] at h
          obtain ⟨rfl, -⟩ := h
          exact ⟨by rw [hl1]; exact hlen, hfa, hta⟩
        · simp only [if_neg h2] at h
          rw [Option.map_eq_some'] at h
          obtain ⟨x, hx, hxe⟩ := h
          simp only [Prod.mk.injEq] at hxe
          obtain ⟨rfl, -⟩ := hxe
          obtain ⟨h3, h4⟩ :=
            Bag.carry_above _ (by rw [← h1]; exact hfa) _ _ _ _ _ hx (by rw [hl1]; exact hlen)
              (by split_ifs <;> omega)
              (fun k hk hkB => hta k (by rw [h1]; exact hk) hkB)
          exact ⟨by rw [(Bag.carry_frame _ _ _ _ _ _ hx).2.2, hl1]; exact hlen, h3, h4⟩
      · simp only [if_neg h1] at h
        have hlt : a.fill < b.fill := by
          by_contra hcon
          apply h1
          split_ifs <;> omega
        have hmx : (if a.fill > b.fill then a.fill else b.fill) = b.fill := by
          rw [if_neg (by omega)]
        have hmn : (if a.fill > b.fill then b.fill else a.fill) = a.fill := by
          rw [if_neg (by omega)]
        rw [hmx, hmn] at h
        by_cases h2 : c.isNull = true
        · simp only [if_pos h2] at h
          rw [Option.map_eq_some'] at h
          obtain ⟨r, hr, hre⟩ := h
          simp only [Prod.mk.injEq] at hre
          obtain ⟨rfl, -⟩ := hre
          obtain ⟨h3, h4⟩ := Bag.merge_move_frame _ _ _ _ r.1 r.2 hr
          have hb := Bag.merge_move_bound _ _ _ _ r.1 r.2 hr (by rw [hl1, hlen]; exact hfa)
          rw [hl1, hlen] at hb
          refine ⟨by rw [h3, hl1]; exact hlen, by show b.fill ≤ BAG_SIZE; omega, ?_⟩
          intro k hk hkB
          change b.fill ≤ k at hk
          show r.1[k]? = some Pennant.null
          rw [h4 k (by omega)]
          exact hta k (by omega) hkB
        · simp only [if_neg h2] at h
          rw [Option.map_eq_some'] at h
          obtain ⟨r, hr, hre⟩ := h
          simp only [Prod.mk.injEq] at hre
          obtain ⟨rfl, -⟩ := hre
          obtain ⟨h3, h4, h5⟩ :=
            Bag.merge_ripple_above_any b.fill _ _ _ _ _ r.1 r.2.1 r.2.2 hr
              (by rw [hl1]; exact hlen) (by omega)
              (fun k hk hkB => hta k (by omega) hkB)
          exact ⟨h3, h4, h5⟩

/-- From null slots, and without a `clear` of a bag that holds pennants, the
slots at and above `fill` stay null. -/
theorem Bag.ReachNull.above [Inhabited T] {b : Bag T} (h : b.ReachNull) :
    b.bag.length = BAG_SIZE ∧ b.fill ≤ BAG_SIZE ∧ b.Above := by
  induction h with
  | new blk _ =>
    refine ⟨List.length_replicate _ _, Nat.zero_le _, ?_⟩
    intro i _ hi
    show (List.replicate BAG_SIZE Pennant.null)[i]? = some Pennant.null
    rw [List.getElem?_replicate, if_pos hi]
  | insert el _ hrun ih => exact Bag.insert_above _ _ el hrun ih.1 ih.2.1 ih.2.2
  | merge _ hrun iha => exact Bag.merge_above_any _ _ _ _ hrun iha.1 iha.2.1 iha.2.2
  | split _ hrun ih => exact Bag.split_above _ _ _ _ hrun ih.1 ih.2.1 ih.2.2
  | @clear b _ h0 ih =>
    refine ⟨ih.1, Nat.zero_le _, ?_⟩
    intro i _ hi
    show b.bag[i]? = some Pennant.null
    rcases Nat.lt_or_ge i b.fill with hlt | hge
    · have hil : i < b.bag.length := by rw [ih.1]; exact hi
      rw [List.getElem?_eq_getElem hil, h0 i _ hlt (List.getElem?_eq_getElem hil)]
    · exact ih.2.2 i hge hi
end

/-- The bag `Bag.halfFull` is reached from a newly constructed bag by
`BLK_SIZE / 2 + 1` calls of `insert`. -/
theorem Bag.halfFull_reach : Bag.halfFull.Reach := by
  have h := Bag.insertAll_zeros (List.replicate BAG_SIZE Pennant.null) (BLK_SIZE / 2 + 1) 0
    (by norm_num [BLK_SIZE])
  refine (Bag.ReachUnsat.of_insertAll (List.replicate (BLK_SIZE / 2 + 1) 0) Bag.fresh
    Bag.halfFull
    (Bag.ReachUnsat.new _ _ (List.length_replicate _ _) (List.length_replicate _ _))
    ?_ ?_).reach
  · rw [Bag.fresh, Bag.new_elems]
    norm_num [BLK_SIZE, BAG_SIZE]
  · rw [Bag.fresh, Bag.new, h, Nat.zero_add]
    rfl

theorem Bag_reach_size_lt_witness :
    0 ≤ Bag.halfFull.size ∧ Bag.halfFull.size < BLK_SIZE :=
  Bag_reach_size_lt Bag.halfFull Bag.halfFull_reach

/-- C14 (as stated, refuted): the bag obtained from a newly constructed bag with
null slots by `BLK_SIZE` inserts and then `clear()` has `fill == 0` while
`bag[0]` still points to the pennant; and a newly constructed bag whose slot
array was allocated with non-null cells has `fill == 0` and `bag[0]` non-null. -/
theorem Bag_clear_leaves_slots :
    (Bag.oneBlock.clear.Reach ∧ Bag.oneBlock.clear.fill = 0 ∧
      Bag.oneBlock.clear.bag[0]? = some (Pennant.ofBlock (List.replicate BLK_SIZE 0)) ∧
      ¬ ∀ i, Bag.oneBlock.clear.fill ≤ i → i < BAG_SIZE →
        Bag.oneBlock.clear.bag[i]? = some Pennant.null) ∧
    ((Bag.new (List.replicate BAG_SIZE (Pennant.ofBlock [7])) (List.replicate BLK_SIZE 0)).Reach ∧
      ¬ ∀ i, (Bag.new (List.replicate BAG_SIZE (Pennant.ofBlock [7]))
            (List.replicate BLK_SIZE 0)).fill ≤ i → i < BAG_SIZE →
        (Bag.new (List.replicate BAG_SIZE (Pennant.ofBlock [7]))
            (List.replicate BLK_SIZE 0)).bag[i]? = some Pennant.null) := by
  refine ⟨⟨Bag.Reach.clear Bag.oneBlock_reachUnsat.reach, rfl, rfl, ?_⟩,
    Bag.Reach.new _ _ (List.length_replicate _ _) (List.length_replicate _ _), ?_⟩
  · intro h
    have h0 := h 0 (Nat.zero_le 0) BAG_SIZE_pos
    change some (Pennant.ofBlock (List.replicate BLK_SIZE 0)) = some Pennant.null at h0
    simp [Pennant.ofBlock] at h0
  · intro h
    have h0 := h 0 (Nat.zero_le 0) BAG_SIZE_pos
    change some (Pennant.ofBlock [7]) = some Pennant.null at h0
    simp [Pennant.ofBlock] at h0

/-- C14 (amended): in every state of a bag reachable from a newly constructed
bag whose slot array is all null, by `insert`, `merge` (with any other bag,
whatever its state), `split`, and `clear` applied only to a bag whose slots
below `fill` are all null (as when `fill == 0`), every slot `bag[i]` with
`fill ≤ i < BAG_SIZE` is null. -/
theorem Bag_reach_above_null {T : Type} [Inhabited T] (b : Bag T) (h : b.ReachNull) (i : Nat)
    (hi : b.fill ≤ i) (hiB : i < BAG_SIZE) : b.bag[i]? = some Pennant.null :=
  h.above.2.2 i hi hiB

theorem Bag_reach_above_null_witness : Bag.oneBlock.bag[1]? = some Pennant.null :=
  Bag_reach_above_null Bag.oneBlock Bag.oneBlock_reachNull 1 (by decide) (by decide)

/-! ## Bags: `numElements` -/

section

variable {T : Type}

/-- The loop of `numElements` adds, modulo `2 ^ 32`, the weight `2 ^ j * BLK_SIZE`
of every non-null slot `j` it visits. -/
theorem Bag.numElements_loop_spec (bag : List (Pennant T)) :
    ∀ (n i k count : Nat), i + n ≤ bag.length → k % 2 ^ 32 = 2 ^ i % 2 ^ 32 →
      count < 2 ^ 32 →
      Bag.numElements_loop bag n i k count =
        some ((count + ∑ j in Finset.Ico i (i + n),
          if (bag.getD j Pennant.null).isNull then 0 else 2 ^ j * BLK_SIZE) % 2 ^ 32) := by
  intro n
  induction n with
  | zero =>
    intro i k count _ _ hc
    simp only [Bag.numElements_loop, Nat.add_zero, Finset.Ico_self, Finset.sum_empty]
    rw [Nat.mod_eq_of_lt hc]
  | succ n ih =>
    intro i k count hlen hk hc
    have hil : i < bag.length := by omega
    have hget : bag[i]? = some bag[i] := List.getElem?_eq_getElem hil
    have hgetD : bag.getD i Pennant.null = bag[i] := by
      rw [List.getD_eq_getElem?_getD, hget]; rfl
    have hk' : (k * 2 % 2 ^ 32) % 2 ^ 32 = 2 ^ (i + 1) % 2 ^ 32 := by
      rw [Nat.mod_mod, pow_succ 2 i, Nat.mul_mod k, hk, ← Nat.mul_mod]
    have hidx : i + (n + 1) = i + 1 + n := by omega
    have hsum : ∑ j in Finset.Ico i (i + (n + 1)),
          (if (bag.getD j Pennant.null).isNull then 0 else 2 ^ j * BLK_SIZE) =
        (if bag[i].isNull then 0 else 2 ^ i * BLK_SIZE) +
          ∑ j in Finset.Ico (i + 1) (i + 1 + n),
            if (bag.getD j Pennant.null).isNull then 0 else 2 ^ j * BLK_SIZE := by
      rw [Finset.sum_eq_sum_Ico_succ_bot (by omega), hgetD, hidx]
    simp only [Bag.numElements_loop, hget]
    rw [hsum]
    by_cases hn : bag[i].isNull = true
    · rw [if_pos hn, if_pos hn, Nat.zero_add]
      exact ih (i + 1) _ count (by omega) hk' hc
    · rw [if_neg hn, if_neg hn]
      rw [ih (i + 1) _ _ (by omega) hk' (Nat.mod_lt _ (Nat.two_pow_pos 32))]
      congr 1
      have h1 : (k * BLK_SIZE) % 2 ^ 32 = (2 ^ i * BLK_SIZE) % 2 ^ 32 := by
        rw [Nat.mul_mod k, hk, ← Nat.mul_mod]
      rw [Nat.add_mod, Nat.mod_mod, Nat.add_mod count, Nat.mod_mod, h1, ← Nat.add_mod count,
        ← Nat.add_mod, Nat.add_assoc]

/-- `numElements` returns the element count of the data model modulo `2 ^ 32`. -/
theorem Bag.numElements_eq (b : Bag T) (hlen : b.fill ≤ b.bag.length)
    (hs : b.size < BLK_SIZE) : b.numElements = some (b.countSpec % 2 ^ 32) := by
  have hB := BLK_SIZE_lt
  unfold Bag.numElements Bag.countSpec
  rw [Bag.numElements_loop_spec b.bag b.fill 0 1 b.size (by omega) (by simp) (by omega),
    Nat.zero_add, Finset.range_eq_Ico]
end

section

variable {T : Type}

theorem getElem?_pad {α : Type} (a c : Nat) (x y : α) (i : Nat) :
    (List.replicate a x ++ y :: List.replicate c x)[i]? =
      if i = a then some y else if i < a + 1 + c then some x else none := by
  rcases Nat.lt_trichotomy i a with h | h | h
  · rw [List.getElem?_append_left (by simpa using h), List.getElem?_replicate, if_pos h,
      if_neg (by omega), if_pos (by omega)]
  · subst h
    rw [List.getElem?_append_right (by simp), if_pos rfl]
    simp
  · rw [List.getElem?_append_right (by simp; omega), if_neg (by omega)]
    simp only [List.length_replicate]
    obtain ⟨j, hj⟩ : ∃ j, i - a = j + 1 := ⟨i - a - 1, by omega⟩
    rw [hj, List.getElem?_cons_succ, List.getElem?_replicate]
    by_cases hc : j < c
    · rw [if_pos hc, if_pos (by omega)]
    · rw [if_neg hc, if_neg (by omega)]

theorem Pennant.completeOf_complete (e : List T) :
    ∀ h, Pennant.Complete h (Pennant.completeOf e h) := by
  intro h
  induction h with
  | zero => rfl
  | succ h ih => exact ⟨ih, ih⟩

theorem Pennant.mem_blocks_completeOf (e : List T) :
    ∀ h x, x ∈ (Pennant.completeOf e h).blocks → x = e := by
  intro h
  induction h with
  | zero => intro x hx; simp [Pennant.completeOf, Pennant.blocks] at hx
  | succ h ih =>
    intro x hx
    simp only [Pennant.completeOf, Pennant.blocks, List.mem_cons, List.mem_append] at hx
    rcases hx with hx | hx | hx
    · exact hx
    · exact ih x hx
    · exact ih x hx

theorem Pennant.fullOf_slotOK (e : List T) (k : Nat) (he : e.length = BLK_SIZE) :
    Pennant.IsPennant k (Pennant.fullOf e k) ∧ Pennant.FullBlocks (Pennant.fullOf e k) := by
  refine ⟨⟨rfl, Pennant.completeOf_complete e k⟩, ?_⟩
  intro x hx
  simp only [Pennant.fullOf, Pennant.blocks, List.append_nil, List.mem_cons] at hx
  rcases hx with hx | hx
  · rw [hx]; exact he
  · rw [Pennant.mem_blocks_completeOf e k x hx]; exact he

theorem Bag.rank21_get (i : Nat) :
    Bag.rank21.bag[i]? =
      if i = 21 then some (Pennant.fullOf (List.replicate BLK_SIZE 0) 21)
      else if i < 64 then some Pennant.null else none :=
  getElem?_pad 21 42 Pennant.null _ i

theorem Bag.rank21_inv : Bag.rank21.Inv where
  slots := by simp [Bag.rank21, BAG_SIZE]
  block := ⟨_, rfl, List.length_replicate _ _⟩
  size_lt := BLK_SIZE_pos
  fill_le := by simp [Bag.rank21, BAG_SIZE]
  above := by
    intro i hi hiB
    change 22 ≤ i at hi
    change i < 64 at hiB
    rw [Bag.rank21_get, if_neg (by omega), if_pos hiB]
  top := Or.inr ⟨Pennant.fullOf (List.replicate BLK_SIZE 0) 21, by
    show Bag.rank21.bag[21]? = _
    rw [Bag.rank21_get, if_pos rfl], by simp [Pennant.fullOf]⟩
  rank := by
    intro i p hp hpn
    rw [Bag.rank21_get] at hp
    split_ifs at hp with h1 h2
    · simp only [Option.some.injEq] at hp
      subst hp
      subst h1
      exact Pennant.fullOf_slotOK _ 21 (List.length_replicate _ _)
    · simp only [Option.some.injEq] at hp
      exact absurd hp.symm hpn

theorem Bag.rank21_countSpec : Bag.rank21.countSpec = 2 ^ 32 := by
  unfold Bag.countSpec
  have hterm : ∀ i ∈ Finset.range Bag.rank21.fill,
      (if (Bag.rank21.bag.getD i Pennant.null).isNull then 0 else 2 ^ i * BLK_SIZE) =
        if i = 21 then 2 ^ 21 * BLK_SIZE else 0 := by
    intro i _
    rw [List.getD_eq_getElem?_getD, Bag.rank21_get]
    by_cases h1 : i = 21
    · rw [if_pos h1, if_pos h1, h1]
      simp [Pennant.fullOf, Pennant.isNull]
    · rw [if_neg h1, if_neg h1]
      by_cases h2 : i < 64
      · rw [if_pos h2, if_pos]
        rfl
      · rw [if_neg h2, if_pos]
        rfl
  rw [Finset.sum_congr rfl hterm, Finset.sum_ite_eq']
  have hmem : 21 ∈ Finset.range Bag.rank21.fill := by
    rw [Finset.mem_range]
    show 21 < 22
    omega
  rw [if_pos hmem]
  norm_num [Bag.rank21, BLK_SIZE]
end

/-- C15 (as stated, refuted): the bag `Bag.rank21` satisfies the bag invariants
and holds `2 ^ 32` elements by the formula of the data model, while
`numElements()` returns 0. -/
theorem Bag_numElements_wraps :
    Bag.rank21.Inv ∧ Bag.rank21.countSpec = 2 ^ 32 ∧ Bag.rank21.numElements = some 0 ∧
      Bag.rank21.numElements ≠ some Bag.rank21.countSpec := by
  have h := Bag.numElements_eq Bag.rank21 Bag.rank21_inv.wf.fill_le_length
    Bag.rank21_inv.size_lt
  rw [Bag.rank21_countSpec, Nat.mod_self] at h
  refine ⟨Bag.rank21_inv, Bag.rank21_countSpec, h, ?_⟩
  rw [h, Bag.rank21_countSpec]
  simp

/-- C15 (amended): for every bag `B` satisfying the bag invariants (any `fill`
up to `BAG_SIZE`), `B.numElements()` returns
`size + Σ over i < fill with bag[i] non-null of 2^i * BLK_SIZE` reduced modulo
`2 ^ 32` (the range of its `uint32_t` result), hence that sum itself whenever
it is below `2 ^ 32`. -/
theorem Bag_numElements_mod {T : Type} (b : Bag T) (h : b.Inv) :
    b.numElements = some (b.countSpec % 2 ^ 32) ∧
      (b.countSpec < 2 ^ 32 → b.numElements = some b.countSpec) := by
  have h1 := Bag.numElements_eq b h.wf.fill_le_length h.size_lt
  refine ⟨h1, fun hlt => ?_⟩
  rw [h1, Nat.mod_eq_of_lt hlt]

theorem Bag_numElements_mod_witness :
    Bag.rank21.numElements = some (Bag.rank21.countSpec % 2 ^ 32) ∧
      (Bag.rank21.countSpec < 2 ^ 32 → Bag.rank21.numElements = some Bag.rank21.countSpec) :=
  Bag_numElements_mod Bag.rank21 Bag.rank21_inv

/-! ## Bags: what `merge` leaves of `that` -/

/-- C17 (the code at the failing input): `B` is a newly constructed bag after
one `insert`, `A` a newly constructed bag. After `A.merge(B)` the bag `B` has
`fill == 0` but still `size == 1`, so `B.isEmpty()` returns false and
`B.numElements()` returns 1. -/
theorem Bag_merge_keeps_that_size :
    ∃ b a' b', Bag.fresh.insert 0 = some b ∧ Bag.fresh.merge b = some (a', b') ∧
      b'.fill = 0 ∧ b'.size = 1 ∧ b'.isEmpty = false ∧ b'.numElements = some 1 := by
  have hwf : Bag.fresh.WF := Bag.fresh_inv.wf
  have hnb0 : Bag.fresh.numBlocks = 0 := by simp [Bag.numBlocks, Bag.fresh, Bag.new]
  have hs0 : Bag.fresh.size = 0 := rfl
  obtain ⟨b, hins, hbwf, -, -, -, hbs, hbn, -⟩ :=
    Bag.insert_spec Bag.fresh 0 hwf (by
      rw [Bag.fresh, Bag.new_elems]
      norm_num [BLK_SIZE, BAG_SIZE])
  have hB : BLK_SIZE = 2048 := rfl
  rw [hs0] at hbs hbn
  have hbs1 : b.size = 1 := by rw [hbs, hB]
  have hbn0 : b.numBlocks = 0 := by rw [hbn, hnb0, hB]
  obtain ⟨a', b', hrun, -, hf, hsz, -⟩ :=
    Bag.merge_spec Bag.fresh b hwf hbwf (by
      rw [hnb0, hbn0, hs0, hbs1, hB]
      norm_num [BAG_SIZE])
  refine ⟨b, a', b', hins, hrun, hf, by rw [hsz, hbs1], ?_, ?_⟩
  · simp [Bag.isEmpty, hf, hsz, hbs1]
  · simp [Bag.numElements, hf, hsz, hbs1, Bag.numElements_loop]

/-! ## Bags: the reconciliation of the fillings in `merge` -/

section

variable {T : Type}

/-- When neither bag has pennants and the fillings produce a carry block, the
carry is stored in slot 0 and `fill` becomes 1. -/
theorem Bag.merge_no_pennants (a b a' b' : Bag T) (fa : Option (List T)) (sz : Nat)
    (e : List T) (hmf : Bag.merge_filling a b = some (fa, sz, some e))
    (h0a : a.fill = 0) (h0b : b.fill = 0) (h : a.merge b = some (a', b')) :
    a'.fill = 1 ∧ a'.bag[0]? = some (Pennant.ofBlock e) := by
  unfold Bag.merge at h
  rw [hmf] at h
  simp only [h0a, h0b, gt_iff_lt, lt_irrefl, if_false, Bag.merge_loop, Pennant.ofCarry,
    if_true] at h
  have hnn : (Pennant.ofBlock e).isNull = false := rfl
  simp only [hnn, Bool.false_eq_true, if_false] at h
  rw [Option.map_eq_some'] at h
  obtain ⟨x, hx, hxe⟩ := h
  simp only [Prod.mk.injEq] at hxe
  obtain ⟨rfl, -⟩ := hxe
  unfold Bag.carry at hx
  simp only [lt_irrefl, if_false, Pennant.isNull_null, if_true] at hx
  split at hx
  · cases hx
  · rename_i bag' hst
    obtain ⟨hil, rfl⟩ := store_some hst
    simp only [Option.some.injEq] at hx
    subst hx
    exact ⟨rfl, List.getElem?_set_self hil⟩
end

/-- C16: for two distinct well-formed bags `A`, `B` (sizes `a, b < BLK_SIZE`)
whose full blocks fit in the pennant array, `A.merge(B)` succeeds, and with
`blk` the carry block that the reconciliation of the fillings produces: if
`a + b < BLK_SIZE` then `A.size == a + b`, the filling of `A` holds exactly the
`a + b` filling elements of both bags, and no carry is created (`blk` is null,
the pennants of `A` hold the blocks of both bags and no more); otherwise
`A.size == a + b - BLK_SIZE`, `blk` is a full block of `BLK_SIZE` elements that
becomes a rank-0 carry pennant (one more block among the pennants of `A`), and
`blk` together with the new `filling[0 .. A.size)` holds exactly the `a + b`
original filling elements. With no pennants on either side the carry ends in
slot 0 and `fill` is 1. -/
theorem Bag_merge_filling {T : Type} (a b : Bag T) (ha : a.WF) (hb : b.WF)
    (hsat : a.numBlocks + b.numBlocks + (a.size + b.size) / BLK_SIZE < 2 ^ BAG_SIZE) :
    ∃ a' b' sz blk, a.merge b = some (a', b') ∧
      Bag.merge_filling a b = some (a'.filling, sz, blk) ∧ a'.size = sz ∧
      (a.size + b.size < BLK_SIZE →
        a'.size = a.size + b.size ∧ blk = none ∧
        a'.fillingElems = a.fillingElems + b.fillingElems ∧
        a'.numBlocks = a.numBlocks + b.numBlocks) ∧
      (BLK_SIZE ≤ a.size + b.size →
        a'.size = a.size + b.size - BLK_SIZE ∧
        ∃ e, blk = some e ∧ e.length = BLK_SIZE ∧
          Pennant.IsPennant 0 (Pennant.ofCarry blk) ∧
          (e : Multiset T) + a'.fillingElems = a.fillingElems + b.fillingElems ∧
          a'.numBlocks = a.numBlocks + b.numBlocks + 1 ∧
          (a.fill = 0 → b.fill = 0 →
            a'.fill = 1 ∧ a'.bag[0]? = some (Pennant.ofBlock e))) := by
  obtain ⟨a', b', hrun, -, -, -, -, -, hnb, -⟩ := Bag.merge_spec a b ha hb hsat
  obtain ⟨fa, sz, blk, hmf, hsz, hfil, -⟩ := Bag.merge_fields a b a' b' hrun
  obtain ⟨fa', sz', blk', hmf', -, -, hno, hyes, hfe⟩ := Bag.merge_filling_spec a b ha hb
  rw [hmf] at hmf'
  simp only [Option.some.injEq, Prod.mk.injEq] at hmf'
  obtain ⟨rfl, rfl, rfl⟩ := hmf'
  have hfe' : a'.fillingElems = ((fa'.take sz : List T) : Multiset T) := by
    simp [Bag.fillingElems, hfil, hsz]
  refine ⟨a', b', sz, blk, hrun, by rw [hfil]; exact hmf, hsz, ?_, ?_⟩
  · intro hlt
    obtain ⟨hb0, hs0⟩ := hno hlt
    refine ⟨by rw [hsz, hs0], hb0, ?_, ?_⟩
    · rw [hfe', ← hfe, hb0]
      simp [Pennant.ofCarry, Pennant.elems, Pennant.blocks]
    · rw [hnb, Nat.div_eq_of_lt hlt, Nat.add_zero]
  · intro hge
    obtain ⟨e, hb0, hel, hs0⟩ := hyes hge
    have hdiv : (a.size + b.size) / BLK_SIZE = 1 := by
      have h1 := ha.size_lt
      have h2 := hb.size_lt
      have hB : BLK_SIZE = 2048 := rfl
      rw [hB] at h1 h2 hge ⊢
      omega
    refine ⟨by rw [hsz]; omega, e, hb0, hel, ?_, ?_, by rw [hnb, hdiv], ?_⟩
    · rw [hb0]
      exact ⟨rfl, rfl⟩
    · rw [hfe', ← hfe, hb0, Pennant.ofCarry_some_elems, add_comm]
    · intro h0a h0b
      rw [hb0] at hmf
      exact Bag.merge_no_pennants a b a' b' _ sz e hmf h0a h0b hrun

theorem Bag_merge_filling_witness :
    ∃ a' b', Bag.halfFull.merge Bag.halfFull = some (a', b') ∧ a'.size = 2 ∧ a'.fill = 1 ∧
      (∃ e, a'.bag[0]? = some (Pennant.ofBlock e) ∧ e.length = BLK_SIZE) ∧
      a'.numBlocks = 1 := by
  have hwf : Bag.halfFull.WF :=
    { slots := List.length_replicate _ _
      block := ⟨_, rfl, List.length_replicate _ _⟩
      size_lt := by norm_num [Bag.halfFull, BLK_SIZE]
      fill_le := Nat.zero_le _
      rank := by intro i p hi; exact absurd hi (Nat.not_lt_zero i) }
  have hnb : Bag.halfFull.numBlocks = 0 := by simp [Bag.numBlocks, Bag.halfFull]
  have hsz : Bag.halfFull.size = 1025 := by norm_num [Bag.halfFull, BLK_SIZE]
  have hB : BLK_SIZE = 2048 := rfl
  obtain ⟨a', b', sz, blk, hrun, -, -, -, hyes⟩ :=
    Bag_merge_filling Bag.halfFull Bag.halfFull hwf hwf (by
      rw [hnb, hsz, hB]
      norm_num [BAG_SIZE])
  obtain ⟨h1, e, -, hel, -, -, h2, h3⟩ := hyes (by rw [hsz, hB]; omega)
  obtain ⟨h4, h5⟩ := h3 rfl rfl
  exact ⟨a', b', hrun, by rw [h1, hsz, hB], h4, ⟨e, h5, hel⟩, by rw [h2, hnb]⟩

/-! ## The construction of a graph: counting and offsets -/

section

theorem Graph.new_zero_spec :
    ∀ (k i : Nat) (w : List Nat), i + k ≤ w.length →
      ∃ w', Graph.new_zero k i w = some w' ∧ w'.length = w.length ∧
        (∀ j, i ≤ j → j < i + k → w'[j]? = some 0) ∧
        (∀ j, j < i → w'[j]? = w[j]?) := by
  intro k
  induction k with
  | zero =>
    intro i w _
    exact ⟨w, rfl, rfl, fun j h1 h2 => by omega, fun _ _ => rfl⟩
  | succ k ih =>
    intro i w h
    have hi : i < w.length := by omega
    obtain ⟨w', hrun, hlen, hin, hout⟩ := ih (i + 1) (w.set i 0) (by simp; omega)
    refine ⟨w', ?_, by simpa using hlen, ?_, ?_⟩
    · simp only [Graph.new_zero, store_eq hi, hrun]
    · intro j h1 h2
      rcases Nat.eq_or_lt_of_le h1 with h3 | h3
      · subst h3
        rw [hout i (by omega), List.getElem?_set_self hi]
      · exact hin j h3 (by omega)
    · intro j hj
      rw [hout j (by omega), List.getElem?_set_ne (by omega)]

theorem take_succ_count (ir : List Int) (i : Nat) (x : Int) (h : ir[i]? = some x) (v : Int) :
    (ir.take (i + 1)).count v = (ir.take i).count v + if x = v then 1 else 0 := by
  rw [List.take_succ, h, List.count_append]
  simp only [Option.toList, List.count_cons, List.count_nil, Nat.zero_add, beq_iff_eq]

/-- The counting loop: afterwards `w[v]` is the number of `t < i + k` with
`ir[t] == v`. -/
theorem Graph.new_count_spec (ir : List Int) (m N : Nat)
    (hir : ∀ t, t < N → ∃ r : Nat, ir[t]? = some (r : Int) ∧ r < m) :
    ∀ (k i : Nat) (w : List Nat), i + k ≤ N → w.length = m →
      (∀ v, v < m → w[v]? = some ((ir.take i).count (v : Int))) →
      ∃ w', Graph.new_count ir k i w = some w' ∧ w'.length = m ∧
        ∀ v, v < m → w'[v]? = some ((ir.take (i + k)).count (v : Int)) := by
  intro k
  induction k with
  | zero =>
    intro i w _ hlen hw
    exact ⟨w, rfl, hlen, hw⟩
  | succ k ih =>
    intro i w hik hlen hw
    obtain ⟨r, hr, hrm⟩ := hir i (by omega)
    have hneg : ¬ ((r : Int) < 0) := by omega
    obtain ⟨w', hrun, hlen', hw'⟩ := ih (i + 1)
      (w.set r ((ir.take i).count (r : Int) + 1)) (by omega) (by simpa using hlen) (by
        intro v hv
        rw [take_succ_count ir i r hr, List.getElem?_set]
        by_cases hrv : r = v
        · subst hrv
          rw [if_pos rfl, if_pos (by omega), if_pos rfl]
        · rw [if_neg hrv, if_neg (by omega), hw v hv, Nat.add_zero])
    refine ⟨w', ?_, hlen', ?_⟩
    · simp only [Graph.new_count, hr, if_neg hneg, Int.toNat_ofNat, hw r hrm]
      exact hrun
    · intro v hv
      rw [hw' v hv]
      congr 3
      omega

/-- The prefix-sum loop: afterwards `w[v]` is the sum of the first `v` counts
and `tempnz` is the sum of all that were visited. -/
theorem Graph.new_prefix_spec (c : Nat → Nat) (m : Nat) :
    ∀ (k i : Nat) (w : List Nat), i + k ≤ m → w.length = m →
      (∀ v, v < i → w[v]? = some (∑ j in Finset.range v, c j)) →
      (∀ v, i ≤ v → v < m → w[v]? = some (c v)) →
      ∃ w', Graph.new_prefix k i w (∑ j in Finset.range i, c j) =
          some (w', ∑ j in Finset.range (i + k), c j) ∧ w'.length = m ∧
        (∀ v, v < i + k → w'[v]? = some (∑ j in Finset.range v, c j)) ∧
        (∀ v, i + k ≤ v → v < m → w'[v]? = some (c v)) := by
  intro k
  induction k with
  | zero =>
    intro i w _ hlen h1 h2
    exact ⟨w, rfl, hlen, h1, h2⟩
  | succ k ih =>
    intro i w hik hlen h1 h2
    have hil : i < w.length := by omega
    obtain ⟨w', hrun, hlen', h3, h4⟩ := ih (i + 1)
      (w.set i (∑ j in Finset.range i, c j)) (by omega) (by simpa using hlen) (by
        intro v hv
        rcases Nat.lt_or_ge v i with hlt | hge
        · rw [List.getElem?_set_ne (by omega)]
          exact h1 v hlt
        · have : v = i := by omega
          subst this
          rw [List.getElem?_set_self hil]) (by
        intro v hv hvm
        rw [List.getElem?_set_ne (by omega)]
        exact h2 v (by omega) hvm)
    have hidx : i + (k + 1) = i + 1 + k := by omega
    refine ⟨w', ?_, hlen', ?_, ?_⟩
    · simp only [Graph.new_prefix, h2 i (le_refl i) (by omega)]
      rw [← Finset.sum_range_succ, hidx]
      exact hrun
    · intro v hv
      exact h3 v (by omega)
    · intro v hv hvm
      exact h4 v (by omega) hvm

/-- The copying loop: `nodes[v] = w[v]` for the slots visited, the others are
untouched. -/
theorem Graph.new_copy_spec (w : List Nat) :
    ∀ (k i : Nat) (nodes : List Nat), i + k ≤ w.length → i + k ≤ nodes.length →
      ∃ nodes', Graph.new_copy w k i nodes = some nodes' ∧ nodes'.length = nodes.length ∧
        (∀ v, i ≤ v → v < i + k → nodes'[v]? = w[v]?) ∧
        (∀ v, v < i ∨ i + k ≤ v → nodes'[v]? = nodes[v]?) := by
  intro k
  induction k with
  | zero =>
    intro i nodes _ _
    exact ⟨nodes, rfl, rfl, fun v h1 h2 => by omega, fun _ _ => rfl⟩
  | succ k ih =>
    intro i nodes hw hn
    have hiw : i < w.length := by omega
    have hin : i < nodes.length := by omega
    have hget : w[i]? = some w[i] := List.getElem?_eq_getElem hiw
    obtain ⟨nodes', hrun, hlen, h1, h2⟩ := ih (i + 1) (nodes.set i w[i]) (by omega)
      (by simp; omega)
    refine ⟨nodes', ?_, by simpa using hlen, ?_, ?_⟩
    · simp only [Graph.new_copy, hget, store_eq hin, hrun]
    · intro v hv1 hv2
      rcases Nat.eq_or_lt_of_le hv1 with h3 | h3
      · subst h3
        rw [h2 i (Or.inl (by omega)), List.getElem?_set_self hin, hget]
      · exact h1 v h3 (by omega)
    · intro v hv
      rw [h2 v (by omega), List.getElem?_set_ne (by omega)]
end

section

/-- The counts of the values `0 .. m - 1` add up to the length of a list all of
whose entries are among these values. -/
theorem sum_count_eq_length (m : Nat) (L : List Int)
    (h : ∀ x ∈ L, ∃ r : Nat, x = (r : Int) ∧ r < m) :
    ∑ v in Finset.range m, L.count (v : Int) = L.length := by
  induction L with
  | nil => simp
  | cons x L ih =>
    obtain ⟨r, rfl, hr⟩ := h _ (List.mem_cons_self _ _)
    have hterm : ∀ v ∈ Finset.range m,
        List.count (v : Int) ((r : Int) :: L) = L.count (v : Int) + if r = v then 1 else 0 := by
      intro v _
      rw [List.count_cons]
      congr 1
      by_cases hrv : r = v
      · subst hrv; simp
      · rw [if_neg hrv, if_neg]
        intro hc
        apply hrv
        have := beq_iff_eq.mp hc
        omega
    rw [Finset.sum_congr rfl hterm, Finset.sum_add_distrib,
      ih (fun x hx => h x (List.mem_cons_of_mem _ hx)), Finset.sum_ite_eq,
      if_pos (Finset.mem_range.mpr hr), List.length_cons]

theorem count_take_le (ir : List Int) (j N : Nat) (h : j ≤ N) (v : Int) :
    (ir.take j).count v ≤ (ir.take N).count v := by
  have hsub : (ir.take j).Sublist (ir.take N) := by
    have : ir.take j = (ir.take N).take j := by
      rw [List.take_take, Nat.min_eq_left h]
    rw [this]
    exact List.take_sublist _ _
  exact hsub.count_le v

/-- The scatter loop of one column: every store into `edges` is within the
array, and `w[v]` advances by the number of entries `ir[t] == v` visited. -/
theorem Graph.new_scatter_col_spec (ir : List Int) (m N col : Nat)
    (hir : ∀ t, t < N → ∃ r : Nat, ir[t]? = some (r : Int) ∧ r < m) :
    ∀ (k j : Nat) (w edges : List Nat), j + k ≤ N → w.length = m → edges.length = N →
      (∀ v, v < m → w[v]? = some ((∑ u in Finset.range v, (ir.take N).count (u : Int)) +
        (ir.take j).count (v : Int))) →
      ∃ w' edges', Graph.new_scatter_col ir col k (j : Int) w edges = some (w', edges') ∧
        w'.length = m ∧ edges'.length = N ∧
        ∀ v, v < m → w'[v]? = some ((∑ u in Finset.range v, (ir.take N).count (u : Int)) +
          (ir.take (j + k)).count (v : Int)) := by
  have htot : ∑ u in Finset.range m, (ir.take N).count (u : Int) = (ir.take N).length := by
    apply sum_count_eq_length
    intro x hx
    obtain ⟨t, ht, hxt⟩ := List.mem_iff_getElem.mp hx
    have htN : t < N := by
      rw [List.length_take] at ht
      omega
    obtain ⟨r, hr, hrm⟩ := hir t htN
    refine ⟨r, ?_, hrm⟩
    have h1 : (ir.take N)[t]? = some x := by
      rw [List.getElem?_eq_getElem ht, hxt]
    rw [List.getElem?_take_of_lt htN, hr] at h1
    simp only [Option.some.injEq] at h1
    exact h1.symm
  have hlenN : (ir.take N).length ≤ N := by
    rw [List.length_take]
    omega
  intro k
  induction k with
  | zero =>
    intro j w edges _ hlen hel hw
    exact ⟨w, edges, rfl, hlen, hel, hw⟩
  | succ k ih =>
    intro j w edges hjk hlen hel hw
    obtain ⟨r, hr, hrm⟩ := hir j (by omega)
    have hneg : ¬ ((r : Int) < 0) := by omega
    have hjneg : ¬ ((j : Int) < 0) := by omega
    have hstep := take_succ_count ir j r hr (r : Int)
    rw [if_pos rfl] at hstep
    have hle := count_take_le ir (j + 1) N (by omega) (r : Int)
    have hmono : ∑ u in Finset.range (r + 1), (ir.take N).count (u : Int) ≤
        ∑ u in Finset.range m, (ir.take N).count (u : Int) :=
      Finset.sum_le_sum_of_subset (Finset.range_mono (by omega))
    rw [Finset.sum_range_succ] at hmono
    have hpos : (∑ u in Finset.range r, (ir.take N).count (u : Int)) +
        (ir.take j).count (r : Int) < edges.length := by omega
    obtain ⟨w', edges', hrun, hlen', hel', hw'⟩ := ih (j + 1)
      (w.set r ((∑ u in Finset.range r, (ir.take N).count (u : Int)) +
        (ir.take j).count (r : Int) + 1))
      (edges.set ((∑ u in Finset.range r, (ir.take N).count (u : Int)) +
        (ir.take j).count (r : Int)) col)
      (by omega) (by simpa using hlen) (by simpa using hel) (by
        intro v hv
        rw [take_succ_count ir j r hr, List.getElem?_set]
        by_cases hrv : r = v
        · subst hrv
          rw [if_pos rfl, if_pos (by omega), if_pos rfl, Nat.add_assoc]
        · rw [if_neg hrv, if_neg (by omega), hw v hv, Nat.add_zero])
    refine ⟨w', edges', ?_, hlen', hel', ?_⟩
    · simp only [Graph.new_scatter_col, if_neg hjneg, Int.toNat_ofNat, hr, if_neg hneg,
        hw r hrm, store_eq hpos]
      have hcast : ((j : Int) + 1) = ((j + 1 : Nat) : Int) := by push_cast; rfl
      rw [hcast]
      exact hrun
    · intro v hv
      have hidx : j + 1 + k = j + (k + 1) := by omega
      rw [hw' v hv, hidx]
end

section

theorem sum_count_take (ir : List Int) (m N : Nat)
    (hir : ∀ t, t < N → ∃ r : Nat, ir[t]? = some (r : Int) ∧ r < m) :
    ∑ u in Finset.range m, (ir.take N).count (u : Int) = N := by
  have hlen : N ≤ ir.length := by
    by_contra hcon
    obtain ⟨r, hr, -⟩ := hir ir.length (by omega)
    rw [List.getElem?_eq_none (le_refl _)] at hr
    cases hr
  have htl : (ir.take N).length = N := by
    rw [List.length_take]
    omega
  rw [sum_count_eq_length m (ir.take N), htl]
  intro x hx
  obtain ⟨t, ht, hxt⟩ := List.mem_iff_getElem.mp hx
  have htN : t < N := by omega
  obtain ⟨r, hr, hrm⟩ := hir t htN
  refine ⟨r, ?_, hrm⟩
  have h1 : (ir.take N)[t]? = some x := by
    rw [List.getElem?_eq_getElem ht, hxt]
  rw [List.getElem?_take_of_lt htN, hr] at h1
  simp only [Option.some.injEq] at h1
  exact h1.symm

/-- The scatter loop over the columns runs to its end: every store into `edges`
is within the array. -/
theorem Graph.new_scatter_spec (ir jc : List Int) (m n N : Nat)
    (hir : ∀ t, t < N → ∃ r : Nat, ir[t]? = some (r : Int) ∧ r < m)
    (hjc : ∀ i, i ≤ n → ∃ a : Nat, jc[i]? = some (a : Int) ∧ a ≤ N)
    (hmono : ∀ i (a b : Nat), i < n → jc[i]? = some (a : Int) →
      jc[i + 1]? = some (b : Int) → a ≤ b) :
    ∀ (k i a : Nat) (w edges : List Nat), i + k = n → jc[i]? = some (a : Int) →
      w.length = m → edges.length = N →
      (∀ v, v < m → w[v]? = some ((∑ u in Finset.range v, (ir.take N).count (u : Int)) +
        (ir.take a).count (v : Int))) →
      ∃ w' edges', Graph.new_scatter ir jc k i w edges = some (w', edges') ∧
        edges'.length = N := by
  intro k
  induction k with
  | zero =>
    intro i a w edges _ _ _ hel _
    exact ⟨w, edges, rfl, hel⟩
  | succ k ih =>
    intro i a w edges hik ha hlen hel hw
    obtain ⟨b, hb, hbN⟩ := hjc (i + 1) (by omega)
    have hab : a ≤ b := hmono i a b (by omega) ha hb
    have hsub : ((b : Int) - (a : Int)).toNat = b - a := by omega
    obtain ⟨w1, e1, hrun1, hlen1, hel1, hw1⟩ :=
      Graph.new_scatter_col_spec ir m N i hir (b - a) a w edges (by omega) hlen hel hw
    have hidx : a + (b - a) = b := by omega
    rw [hidx] at hw1
    obtain ⟨w2, e2, hrun2, hel2⟩ := ih (i + 1) b w1 e1 (by omega) hb hlen1 hel1 hw1
    refine ⟨w2, e2, ?_, hel2⟩
    simp only [Graph.new_scatter, ha, hb, hsub, hrun1]
    exact hrun2
end

/-- C20: for every coordinate input `(ir, jc, m, n, nnz)` with `jc`
non-decreasing on `[0, n]`, `jc[0] = 0`, `jc[n] = nnz` and every `ir[t]` in
`[0, m)` for `t < nnz`, the constructor runs to its end, and the constructed
graph has `nNodes == m`, `nEdges == nnz`, `nodes[0] == 0` when `m > 0`,
`nodes[m] == nnz`, and for every `k` in `[0, m)` the difference
`nodes[k + 1] - nodes[k]` is the number of `t` in `[0, nnz)` with `ir[t] == k`
(so `nodes` is non-decreasing). -/
theorem Graph_new_offsets (ir jc : List Int) (m n nnz : Nat) (nodes0 edges0 w0 : List Nat)
    (h0 : jc[0]? = some 0) (hn : jc[n]? = some (nnz : Int))
    (hmono : ∀ (i j : Nat) (a b : Int), i ≤ j → j ≤ n → jc[i]? = some a → jc[j]? = some b →
      a ≤ b)
    (hir : ∀ t, t < nnz → ∃ r : Nat, ir[t]? = some (r : Int) ∧ r < m)
    (hnodes0 : nodes0.length = m + 1) (hedges0 : edges0.length = nnz)
    (hw0 : w0.length = m) :
    ∃ G, Graph.new ir jc m n nnz nodes0 edges0 w0 = some G ∧
      G.nNodes = m ∧ G.nEdges = nnz ∧ G.nodes.length = m + 1 ∧ G.edges.length = nnz ∧
      (0 < m → G.nodes[0]? = some 0) ∧ G.nodes[m]? = some nnz ∧
      ∀ k : Nat, k < m → ∃ a b, G.nodes[k]? = some a ∧ G.nodes[k + 1]? = some b ∧ a ≤ b ∧
        b - a = (ir.take nnz).count (k : Int) := by
  -- the entries of `jc` up to `n` are natural numbers bounded by `nnz`
  have hnl : n < jc.length := by
    by_contra hcon
    rw [List.getElem?_eq_none (by omega)] at hn
    cases hn
  have hjc : ∀ i, i ≤ n → ∃ a : Nat, jc[i]? = some (a : Int) ∧ a ≤ nnz := by
    intro i hi
    have hil : i < jc.length := by omega
    have hget : jc[i]? = some jc[i] := List.getElem?_eq_getElem hil
    have h1 := hmono 0 i 0 jc[i] (Nat.zero_le i) hi h0 hget
    have h2 := hmono i n jc[i] nnz hi (le_refl n) hget hn
    refine ⟨jc[i].toNat, ?_, by omega⟩
    rw [hget]
    congr 1
    omega
  have hmono' : ∀ i (a b : Nat), i < n → jc[i]? = some (a : Int) →
      jc[i + 1]? = some (b : Int) → a ≤ b := by
    intro i a b hi ha hb
    have := hmono i (i + 1) a b (by omega) (by omega) ha hb
    omega
  -- the loops
  obtain ⟨w1, hrun1, hlen1, hz, -⟩ := Graph.new_zero_spec m 0 w0 (by omega)
  obtain ⟨w2, hrun2, hlen2, hc⟩ := Graph.new_count_spec ir m nnz hir nnz 0 w1 (by omega)
    (by omega) (by
      intro v hv
      rw [hz v (Nat.zero_le v) (by omega)]
      simp)
  rw [Nat.zero_add] at hc
  obtain ⟨w3, hrun3, hlen3, hp, -⟩ :=
    Graph.new_prefix_spec (fun u => (ir.take nnz).count (u : Int)) m m 0 w2 (by omega) hlen2
      (fun v hv => absurd hv (Nat.not_lt_zero v)) (fun v _ hv => hc v hv)
  simp only [Finset.range_zero, Finset.sum_empty, Nat.zero_add] at hrun3 hp
  have htot := sum_count_take ir m nnz hir
  rw [htot] at hrun3
  have hml : m < nodes0.length := by omega
  obtain ⟨nodes2, hrun4, hlen4, hcp1, hcp2⟩ :=
    Graph.new_copy_spec w3 m 0 (nodes0.set m nnz) (by omega) (by simp; omega)
  obtain ⟨a0, ha0, -⟩ := hjc 0 (Nat.zero_le n)
  have ha00 : a0 = 0 := by
    rw [h0] at ha0
    simp only [Option.some.injEq] at ha0
    omega
  subst ha00
  obtain ⟨w4, edges1, hrun5, hel⟩ :=
    Graph.new_scatter_spec ir jc m n nnz hir hjc hmono' n 0 0 w3 edges0 (by omega) ha0 hlen3
      hedges0 (by
        intro v hv
        rw [hp v hv]
        simp)
  -- the offsets
  have hnodes : ∀ k, k ≤ m →
      nodes2[k]? = some (∑ u in Finset.range k, (ir.take nnz).count (u : Int)) := by
    intro k hk
    rcases Nat.lt_or_ge k m with hlt | hge
    · rw [hcp1 k (Nat.zero_le k) (by omega)]
      exact hp k hlt
    · have hkm : k = m := by omega
      subst hkm
      rw [hcp2 k (Or.inr (by omega)), List.getElem?_set_self hml, htot]
  refine ⟨{ nNodes := m, nEdges := nnz, nodes := nodes2, edges := edges1 }, ?_, rfl, rfl,
    by simpa [hnodes0] using hlen4, hel, ?_, ?_, ?_⟩
  · simp only [Graph.new, hrun1, hn, Int.toNat_ofNat, hrun2, hrun3, store_eq hml, hrun4, hrun5]
  · intro _
    show nodes2[0]? = some 0
    rw [hnodes 0 (Nat.zero_le m)]
    simp
  · show nodes2[m]? = some nnz
    rw [hnodes m (le_refl m), htot]
  · intro k hk
    refine ⟨_, _, hnodes k (by omega), hnodes (k + 1) (by omega), ?_, ?_⟩
    · rw [Finset.sum_range_succ]
      omega
    · rw [Finset.sum_range_succ]
      omega

theorem Graph_new_offsets_witness :
    ∃ G, Graph.new [1, 0, 2, 1] [0, 1, 3, 4] 3 3 4 [9, 9, 9, 9] [8, 8, 8, 8] [7, 7, 7] = some G ∧
      G.nNodes = 3 ∧ G.nEdges = 4 ∧ G.nodes.length = 3 + 1 ∧ G.edges.length = 4 ∧
      (0 < 3 → G.nodes[0]? = some 0) ∧ G.nodes[3]? = some 4 ∧
      ∀ k : Nat, k < 3 → ∃ a b, G.nodes[k]? = some a ∧ G.nodes[k + 1]? = some b ∧ a ≤ b ∧
        b - a = (([1, 0, 2, 1] : List Int).take 4).count (k : Int) :=
  Graph_new_offsets [1, 0, 2, 1] [0, 1, 3, 4] 3 3 4 [9, 9, 9, 9] [8, 8, 8, 8] [7, 7, 7] rfl rfl
    (by
      intro i j a b hij hj ha hb
      have hi : i ≤ 3 := by omega
      interval_cases j <;> interval_cases i <;> simp at ha hb <;> omega)
    (by
      intro t ht
      interval_cases t
      · exact ⟨1, rfl, by decide⟩
      · exact ⟨0, rfl, by decide⟩
      · exact ⟨2, rfl, by decide⟩
      · exact ⟨1, rfl, by decide⟩)
    rfl rfl rfl

/-! ## Empty bags -/

/-- C23: for every bag satisfying the bag invariants, `isEmpty()` returns true
iff the multiset of the elements of the bag is empty, that is iff `fill == 0`
and `size == 0`; and a newly constructed bag has `isEmpty() == true`,
`numElements() == 0`, and `split(&p)` returns false with `p` null. -/
theorem Bag_isEmpty_iff {T : Type} (b : Bag T) (h : b.Inv) (slots : List (Pennant T))
    (blk : List T) :
    (b.isEmpty = true ↔ b.elems = 0) ∧ (b.isEmpty = true ↔ (b.fill = 0 ∧ b.size = 0)) ∧
      (Bag.new slots blk).isEmpty = true ∧ (Bag.new slots blk).numElements = some 0 ∧
      (Bag.new slots blk).split = some (Bag.new slots blk, Pennant.null, false) := by
  have hiff : b.isEmpty = true ↔ (b.fill = 0 ∧ b.size = 0) := by
    simp only [Bag.isEmpty, Bool.and_eq_true, beq_iff_eq]
  refine ⟨?_, hiff, rfl, rfl, rfl⟩
  rw [hiff]
  constructor
  · rintro ⟨h1, h2⟩
    simp [Bag.elems, Bag.fillingElems, Bag.pennantElems, h1, h2]
  · intro he
    have hcard := h.wf.card_elems
    rw [he, Multiset.card_zero] at hcard
    have hpos := BLK_SIZE_pos
    have hs : b.size = 0 := by omega
    have hnb : b.numBlocks = 0 := by
      rcases Nat.eq_zero_or_pos b.numBlocks with h0 | h0
      · exact h0
      · have : 0 < b.numBlocks * BLK_SIZE := Nat.mul_pos h0 hpos
        omega
    have hfill := (h.wf.binary h.top).1
    rw [hnb, Nat.size_zero] at hfill
    exact ⟨hfill, hs⟩

theorem Bag_isEmpty_iff_witness :
    (Bag.oneBlock.isEmpty = true ↔ Bag.oneBlock.elems = 0) ∧
      (Bag.oneBlock.isEmpty = true ↔ (Bag.oneBlock.fill = 0 ∧ Bag.oneBlock.size = 0)) ∧
      (Bag.new (List.replicate BAG_SIZE (Pennant.ofBlock [3])) [1, 2]).isEmpty = true ∧
      (Bag.new (List.replicate BAG_SIZE (Pennant.ofBlock [3])) [1, 2]).numElements = some 0 ∧
      (Bag.new (List.replicate BAG_SIZE (Pennant.ofBlock [3])) [1, 2]).split =
        some (Bag.new (List.replicate BAG_SIZE (Pennant.ofBlock [3])) [1, 2], Pennant.null,
          false) :=
  Bag_isEmpty_iff Bag.oneBlock Bag.oneBlock_inv (List.replicate BAG_SIZE (Pennant.ofBlock [3]))
    [1, 2]

/-! ## The distances do not depend on the prior contents of the array -/

section

/-- Two arrays of `nNodes` cells that both hold, in every finite cell, the length
of a path from `t`, and in the cell of every node reached by a path a value that
is at most its length and below `nNodes`, are equal. -/
theorem dist_unique {G : Graph} (hG : G.WellFormed) (t : Nat) (r1 r2 : List Nat)
    (hl1 : r1.length = G.nNodes) (hl2 : r2.length = G.nNodes)
    (hw1 : ∀ v, v < G.nNodes → r1.getD v 0 ≠ UINT_MAX → G.Walk t (r1.getD v 0) v)
    (hle1 : ∀ n v, G.Walk t n v → r1.getD v 0 ≤ n ∧ r1.getD v 0 < G.nNodes)
    (hw2 : ∀ v, v < G.nNodes → r2.getD v 0 ≠ UINT_MAX → G.Walk t (r2.getD v 0) v)
    (hle2 : ∀ n v, G.Walk t n v → r2.getD v 0 ≤ n ∧ r2.getD v 0 < G.nNodes) : r1 = r2 := by
  have hN := hG.nNodes_lt
  have hU : UINT_MAX = 2 ^ 32 - 1 := rfl
  apply List.ext_getElem?
  intro v
  rcases Nat.lt_or_ge v G.nNodes with hv | hv
  · have hv1 : v < r1.length := by omega
    have hv2 : v < r2.length := by omega
    have hg1 : r1[v]? = some (r1.getD v 0) := by
      rw [List.getD_eq_getElem?_getD, List.getElem?_eq_getElem hv1]; rfl
    have hg2 : r2[v]? = some (r2.getD v 0) := by
      rw [List.getD_eq_getElem?_getD, List.getElem?_eq_getElem hv2]; rfl
    rw [hg1, hg2]
    congr 1
    by_cases hfin1 : r1.getD v 0 = UINT_MAX
    · by_cases hfin2 : r2.getD v 0 = UINT_MAX
      · rw [hfin1, hfin2]
      · have := (hle1 _ v (hw2 v hv hfin2)).2
        omega
    · have hwa := hw1 v hv hfin1
      have h21 := hle2 _ v hwa
      have hwb := hw2 v hv (by omega)
      have h12 := hle1 _ v hwb
      omega
  · rw [List.getElem?_eq_none (by omega), List.getElem?_eq_none (by omega)]
end

/-- C26: on a well-formed graph (with `nEdges` within the range of `int`) and
for a source `0 ≤ s < nNodes`, the final array of `bfs`, and of the serial
elision of `pbfs`, does not depend on the prior contents of `distances` (nor on
the indeterminate cells of the queue and of the bags): two runs from arbitrary
initial arrays end with identical arrays, and a run of `pbfs` on the array left
by a previous run leaves it as it is. -/
theorem Graph_distances_overwritten (G : Graph) (hG : G.WellFormed) (hE : G.nEdges < 2 ^ 31)
    (sl1 sl2 sl3 sl4 : List (Pennant Nat)) (bk1 bk2 bk3 bk4 q1 q2 d1 d2 : List Nat) (s : Int)
    (hs0 : 0 ≤ s) (hs1 : s < (G.nNodes : Int))
    (hsl1 : sl1.length = BAG_SIZE) (hbk1 : bk1.length = BLK_SIZE)
    (hsl2 : sl2.length = BAG_SIZE) (hbk2 : bk2.length = BLK_SIZE)
    (hsl3 : sl3.length = BAG_SIZE) (hbk3 : bk3.length = BLK_SIZE)
    (hsl4 : sl4.length = BAG_SIZE) (hbk4 : bk4.length = BLK_SIZE)
    (hq1 : q1.length = G.nNodes) (hq2 : q2.length = G.nNodes)
    (hd1 : d1.length = G.nNodes) (hd2 : d2.length = G.nNodes) :
    ∃ r p, G.bfs q1 s d1 = some (0, r) ∧ G.bfs q2 s d2 = some (0, r) ∧
      G.pbfs (Bag.new sl1 bk1) (Bag.new sl2 bk2) s d1 = some (0, p) ∧
      G.pbfs (Bag.new sl3 bk3) (Bag.new sl4 bk4) s d2 = some (0, p) ∧
      G.pbfs (Bag.new sl3 bk3) (Bag.new sl4 bk4) s p = some (0, p) := by
  obtain ⟨t, rfl⟩ : ∃ t : Nat, s = (t : Int) := ⟨s.toNat, by omega⟩
  have ht : t < G.nNodes := by omega
  obtain ⟨r1, hr1, hl1, hw1, hle1⟩ := G.bfs_spec hG q1 d1 t ht hq1 hd1
  obtain ⟨r2, hr2, hl2, hw2, hle2⟩ := G.bfs_spec hG q2 d2 t ht hq2 hd2
  obtain ⟨p1, hp1, hm1, hv1, hx1⟩ :=
    G.pbfs_spec hG hE sl1 sl2 bk1 bk2 d1 t ht hsl1 hbk1 hsl2 hbk2 hd1
  obtain ⟨p2, hp2, hm2, hv2, hx2⟩ :=
    G.pbfs_spec hG hE sl3 sl4 bk3 bk4 d2 t ht hsl3 hbk3 hsl4 hbk4 hd2
  obtain ⟨p3, hp3, hm3, hv3, hx3⟩ :=
    G.pbfs_spec hG hE sl3 sl4 bk3 bk4 p1 t ht hsl3 hbk3 hsl4 hbk4 hm1
  have e1 : r2 = r1 := dist_unique hG t r2 r1 hl2 hl1 hw2 hle2 hw1 hle1
  have e2 : p2 = p1 := dist_unique hG t p2 p1 hm2 hm1 hv2 hx2 hv1 hx1
  have e3 : p3 = p1 := dist_unique hG t p3 p1 hm3 hm1 hv3 hx3 hv1 hx1
  exact ⟨r1, p1, hr1, e1 ▸ hr2, hp1, e2 ▸ hp2, e3 ▸ hp3⟩

theorem Graph_distances_overwritten_witness :
    ∃ r p, pathGraph.bfs [0, 0, 0] 0 [7, 7, 7] = some (0, r) ∧
      pathGraph.bfs [5, 5, 5] 0 [1, 2, 3] = some (0, r) ∧
      pathGraph.pbfs (Bag.new (List.replicate BAG_SIZE Pennant.null) (List.replicate BLK_SIZE 0))
        (Bag.new (List.replicate BAG_SIZE Pennant.null) (List.replicate BLK_SIZE 0)) 0
        [7, 7, 7] = some (0, p) ∧
      pathGraph.pbfs (Bag.new (List.replicate BAG_SIZE Pennant.null) (List.replicate BLK_SIZE 1))
        (Bag.new (List.replicate BAG_SIZE Pennant.null) (List.replicate BLK_SIZE 1)) 0
        [1, 2, 3] = some (0, p) ∧
      pathGraph.pbfs (Bag.new (List.replicate BAG_SIZE Pennant.null) (List.replicate BLK_SIZE 1))
        (Bag.new (List.replicate BAG_SIZE Pennant.null) (List.replicate BLK_SIZE 1)) 0
        p = some (0, p) :=
  Graph_distances_overwritten pathGraph pathGraph_wf (by norm_num [pathGraph])
    (List.replicate BAG_SIZE Pennant.null) (List.replicate BAG_SIZE Pennant.null)
    (List.replicate BAG_SIZE Pennant.null) (List.replicate BAG_SIZE Pennant.null)
    (List.replicate BLK_SIZE 0) (List.replicate BLK_SIZE 0)
    (List.replicate BLK_SIZE 1) (List.replicate BLK_SIZE 1)
    [0, 0, 0] [5, 5, 5] [7, 7, 7] [1, 2, 3] 0 (le_refl 0) (by decide)
    (List.length_replicate _ _) (List.length_replicate _ _)
    (List.length_replicate _ _) (List.length_replicate _ _)
    (List.length_replicate _ _) (List.length_replicate _ _)
    (List.length_replicate _ _) (List.length_replicate _ _) rfl rfl rfl rfl

/-! ## Bags: saturation of `insert` -/

section

variable {T : Type}

/-- The carry loop on slots that are all non-null from `i` on: every slot is
emptied into the carry, the loop ends at `BAG_SIZE` and the carry is dropped. -/
theorem Bag.carry_saturate :
    ∀ (fuel i : Nat) (c : Pennant T) (b : Bag T), i < BAG_SIZE → BAG_SIZE ≤ i + fuel →
      b.bag.length = BAG_SIZE → c ≠ Pennant.null →
      (∀ j, i ≤ j → j < BAG_SIZE → ∃ p, b.bag[j]? = some p ∧ p ≠ Pennant.null) →
      ∃ b', Bag.carry BAG_SIZE fuel i c b = some b' ∧ b'.fill = BAG_SIZE ∧
        b'.size = b.size ∧ b'.filling = b.filling ∧ b'.bag.length = BAG_SIZE ∧
        (∀ j, i ≤ j → j < BAG_SIZE → b'.bag[j]? = some Pennant.null) ∧
        (∀ j, j < i → b'.bag[j]? = b.bag[j]?) := by
  intro fuel
  induction fuel with
  | zero => intro i c b hi hf; omega
  | succ fuel ih =>
    intro i c b hi hf hlen hc hfull
    obtain ⟨p, hp, hpn⟩ := hfull i (le_refl i) hi
    have hil : i < b.bag.length := by omega
    obtain ⟨e, l, r, rfl⟩ : ∃ e l r, p = Pennant.node e l r := by
      cases p with
      | null => exact absurd rfl hpn
      | node e l r => exact ⟨e, l, r, rfl⟩
    obtain ⟨e', l', r', rfl⟩ : ∃ e l r, c = Pennant.node e l r := by
      cases c with
      | null => exact absurd rfl hc
      | node e l r => exact ⟨e, l, r, rfl⟩
    have hnn : (Pennant.node e l r).isNull = false := rfl
    by_cases hnext : i + 1 < BAG_SIZE
    · obtain ⟨b', hrun, h1, h2, h3, h4, h5, h6⟩ :=
        ih (i + 1) (Pennant.node e (Pennant.node e' l' l) r)
          { b with bag := b.bag.set i Pennant.null } hnext (by omega) (by simpa using hlen)
          (by simp) (by
            intro j hj hjB
            obtain ⟨q, hq, hqn⟩ := hfull j (by omega) hjB
            refine ⟨q, ?_, hqn⟩
            show (b.bag.set i Pennant.null)[j]? = some q
            rw [List.getElem?_set_ne (by omega)]
            exact hq)
      refine ⟨b', ?_, h1, h2, h3, h4, ?_, ?_⟩
      · unfold Bag.carry
        simp only [if_pos hi, hp, hnn, Bool.false_eq_true, if_false, Pennant.combine,
          store_eq hil, if_pos hnext]
        exact hrun
      · intro j hj hjB
        rcases Nat.eq_or_lt_of_le hj with h7 | h7
        · subst h7
          rw [h6 i (by omega)]
          show (b.bag.set i Pennant.null)[i]? = some Pennant.null
          exact List.getElem?_set_self hil
        · exact h5 j h7 hjB
      · intro j hj
        rw [h6 j (by omega)]
        show (b.bag.set i Pennant.null)[j]? = b.bag[j]?
        exact List.getElem?_set_ne (by omega)
    · refine ⟨{ b with bag := b.bag.set i Pennant.null, fill := BAG_SIZE }, ?_, rfl, rfl, rfl,
        by simpa using hlen, ?_, ?_⟩
      · unfold Bag.carry
        simp only [if_pos hi, hp, hnn, Bool.false_eq_true, if_false, Pennant.combine,
          store_eq hil, if_neg hnext]
      · intro j hj hjB
        have : j = i := by omega
        subst this
        exact List.getElem?_set_self hil
      · intro j hj
        exact List.getElem?_set_ne (by omega)
end

/-- `insert` of the latest `bag.h` on a bag whose slots are all non-null and
whose filling holds `BLK_SIZE - 1` elements: the slots are emptied, the carry is
dropped and the bag holds no element any more. -/
theorem Bag.insert_saturate_spec {T : Type} [Inhabited T] (b : Bag T) (x : T) (f : List T)
    (hlen : b.bag.length = BAG_SIZE) (hfill : b.fill = BAG_SIZE)
    (hfull : ∀ j, j < BAG_SIZE → ∃ p, b.bag[j]? = some p ∧ p ≠ Pennant.null)
    (hf : b.filling = some f) (hfl : f.length = BLK_SIZE) (hsz : b.size = BLK_SIZE - 1) :
    ∃ b', b.insert x = some b' ∧ b'.fill = BAG_SIZE ∧ b'.size = 0 ∧
      (∀ j, j < BAG_SIZE → b'.bag[j]? = some Pennant.null) ∧ b'.elems = 0 := by
  have hB : BLK_SIZE = 2048 := rfl
  have hmod : (b.size + 1) % 2 ^ 32 = BLK_SIZE := by
    rw [hsz, hB]
    norm_num
  obtain ⟨b', hrun, h1, h2, h3, h4, h5, -⟩ :=
    Bag.carry_saturate BAG_SIZE 0 (Pennant.ofBlock (f.set b.size x))
      { b with filling := some (List.replicate BLK_SIZE default), size := 0 } BAG_SIZE_pos
      (by omega) hlen (by simp [Pennant.ofBlock]) (fun j _ hj => hfull j hj)
  have hnull : ∀ j, j < BAG_SIZE → b'.bag[j]? = some Pennant.null :=
    fun j hj => h5 j (Nat.zero_le j) hj
  have hbag : b'.bag = List.replicate BAG_SIZE Pennant.null := by
    apply List.ext_getElem?
    intro j
    rcases Nat.lt_or_ge j BAG_SIZE with hj | hj
    · rw [hnull j hj, List.getElem?_replicate, if_pos hj]
    · rw [List.getElem?_eq_none (by omega), List.getElem?_eq_none (by simpa using hj)]
  refine ⟨b', ?_, h1, h2, hnull, ?_⟩
  · rw [Bag.insert_eq b x hf (by rw [hsz, hfl, hB]; omega), hmod, if_neg (lt_irrefl _), hfill]
    exact hrun
  · have hsz0 : b'.size = 0 := h2
    simp [Bag.elems, Bag.fillingElems, Bag.pennantElems, hsz0, hbag, Pennant.elems,
      Pennant.blocks]

/-! ## Bags: the copy direction of `merge` -/

section

variable {T : Type}

theorem memcpy_full (dst : List T) (d : Nat) (src : List T) (s n : Nat)
    (h1 : d + n = dst.length) (h2 : s + n ≤ src.length) :
    memcpy dst d src s n = some (dst.take d ++ (src.drop s).take n) := by
  have h3 : dst.drop (d + n) = [] := List.drop_eq_nil_of_le (by omega)
  simp only [memcpy, h3, List.append_nil]
  rw [if_pos ⟨by omega, h2⟩]

/-- When the two fillings hold at least `BLK_SIZE` elements together, the block
of the larger size (that of `this` when the sizes are equal) is filled up with
the tail of the other and becomes the carry. -/
theorem Bag.merge_filling_direction (a b : Bag T) (fa fb : List T)
    (hfa : a.filling = some fa) (hla : fa.length = BLK_SIZE)
    (hfb : b.filling = some fb) (hlb : fb.length = BLK_SIZE)
    (hsa : a.size < BLK_SIZE) (hsb : b.size < BLK_SIZE)
    (hge : BLK_SIZE ≤ a.size + b.size) :
    (a.size < b.size →
      Bag.merge_filling a b = some (some fa, a.size + b.size - BLK_SIZE,
        some (fb.take b.size ++ (fa.drop (a.size + b.size - BLK_SIZE)).take
          (BLK_SIZE - b.size)))) ∧
    (¬ a.size < b.size →
      Bag.merge_filling a b = some (some fb, a.size + b.size - BLK_SIZE,
        some (fa.take a.size ++ (fb.drop (a.size + b.size - BLK_SIZE)).take
          (BLK_SIZE - a.size)))) := by
  have hB : BLK_SIZE = 2048 := rfl
  have hcase : ∀ x y : Nat, x < BLK_SIZE → y < BLK_SIZE → BLK_SIZE ≤ x + y →
      toInt32 ((x : Int) - ((BLK_SIZE : Int) - (y : Int))) = ((x + y - BLK_SIZE : Nat) : Int) ∧
      u32 ((BLK_SIZE : Int) - (y : Int)) = BLK_SIZE - y ∧
      u32 ((x + y - BLK_SIZE : Nat) : Int) = x + y - BLK_SIZE := by
    intro x y hx hy hxy
    refine ⟨?_, ?_, ?_⟩
    · rw [toInt32_eq _ (by omega) (by omega)]; omega
    · rw [u32_eq _ (by omega) (by omega)]; omega
    · rw [u32_eq _ (by omega) (by omega)]; omega
  constructor
  · intro hlt
    obtain ⟨h1, h2, h3⟩ := hcase a.size b.size hsa hsb hge
    have hnn : (0 : Int) ≤ ((a.size + b.size - BLK_SIZE : Nat) : Int) := Int.ofNat_nonneg _
    simp only [Bag.merge_filling, hfa, hfb, if_pos hlt, h1, if_pos hnn, h2, h3,
      Int.toNat_ofNat]
    rw [memcpy_full fb b.size fa _ _ (by omega) (by omega)]
  · intro hlt
    obtain ⟨h1, h2, h3⟩ := hcase b.size a.size hsb hsa (by omega)
    have hnn : (0 : Int) ≤ ((b.size + a.size - BLK_SIZE : Nat) : Int) := Int.ofNat_nonneg _
    simp only [Bag.merge_filling, hfa, hfb, if_neg hlt, h1, if_pos hnn, h2, h3,
      Int.toNat_ofNat]
    rw [memcpy_full fa a.size fb _ _ (by omega) (by omega), Nat.add_comm b.size a.size]
end

/-- C30 (as stated, refuted): `A` holds 1000 ones and `B` holds 1500 twos in
their fillings. In `A.merge(B)` the block that receives the tail of the other is
that of `B`, the one with the larger size and less free space: the carry block
is `B`'s block (1500 twos followed by the last 548 ones of `A`), not `A`'s, and
the new filling of `A` is `A`'s own block with its first 452 elements, not
`B`'s. -/
theorem Bag_merge_direction_refuted :
    Bag.merge_filling Bag.ones1000 Bag.twos1500 =
        some (some (List.replicate BLK_SIZE 1), 452,
          some (List.replicate 1500 2 ++ List.replicate 548 1)) ∧
      (List.replicate 1500 2 ++ List.replicate 548 1 : List Nat).take 1000 ≠
        (List.replicate BLK_SIZE 1).take 1000 ∧
      (List.replicate BLK_SIZE 1 : List Nat).take 452 ≠ (List.replicate BLK_SIZE 2).take 452 := by
  have h := (Bag.merge_filling_direction Bag.ones1000 Bag.twos1500 (List.replicate BLK_SIZE 1)
    (List.replicate BLK_SIZE 2) rfl (List.length_replicate _ _) rfl (List.length_replicate _ _)
    (by norm_num [Bag.ones1000, BLK_SIZE]) (by norm_num [Bag.twos1500, BLK_SIZE])
    (by norm_num [Bag.ones1000, Bag.twos1500, BLK_SIZE])).1
    (by norm_num [Bag.ones1000, Bag.twos1500])
  have hsz : Bag.ones1000.size + Bag.twos1500.size - BLK_SIZE = 452 := by
    norm_num [Bag.ones1000, Bag.twos1500, BLK_SIZE]
  have hn : BLK_SIZE - Bag.twos1500.size = 548 := by norm_num [Bag.twos1500, BLK_SIZE]
  have ht : Bag.twos1500.size = 1500 := rfl
  have e1 : (List.replicate BLK_SIZE 2).take 1500 = List.replicate 1500 2 := by
    rw [List.take_replicate]
    congr 1
  have e2 : ((List.replicate BLK_SIZE 1).drop 452).take 548 = List.replicate 548 1 := by
    rw [List.drop_replicate, List.take_replicate]
    congr 1
  have g1 : ∀ (n : Nat) (l : List Nat), 0 < n → (l.take n)[0]? = l[0]? :=
    fun n l hn => List.getElem?_take_of_lt hn
  refine ⟨?_, ?_, ?_⟩
  · rw [h, hsz, hn, ht, e1, e2]
  · intro hc
    have h0 := congrArg (fun l : List Nat => l[0]?) hc
    simp only at h0
    rw [g1 1000 _ (by omega), g1 1000 _ (by omega),
      List.getElem?_append_left (by rw [List.length_replicate]; omega),
      List.getElem?_replicate, List.getElem?_replicate, if_pos (by omega),
      if_pos BLK_SIZE_pos] at h0
    cases h0
  · intro hc
    have h0 := congrArg (fun l : List Nat => l[0]?) hc
    simp only at h0
    rw [g1 452 _ (by omega), g1 452 _ (by omega), List.getElem?_replicate,
      List.getElem?_replicate, if_pos BLK_SIZE_pos] at h0
    cases h0

/-- C30 (amended): for two bags `A`, `B` (sizes below `BLK_SIZE`) with
`A.size + B.size ≥ BLK_SIZE`, in `A.merge(B)` the filling with the larger size,
hence with less free space (that of `A` when the sizes are equal), is the block
that receives the tail of the other filling, is thereby filled to `BLK_SIZE` and
becomes the rank-0 carry, while the other block, the one with the smaller size,
keeps its first `A.size + B.size - BLK_SIZE` elements as `A`'s new filling. -/
theorem Bag_merge_direction {T : Type} (a b : Bag T) (fa fb : List T)
    (hfa : a.filling = some fa) (hla : fa.length = BLK_SIZE)
    (hfb : b.filling = some fb) (hlb : fb.length = BLK_SIZE)
    (hsa : a.size < BLK_SIZE) (hsb : b.size < BLK_SIZE)
    (hge : BLK_SIZE ≤ a.size + b.size) :
    (a.size < b.size →
      Bag.merge_filling a b = some (some fa, a.size + b.size - BLK_SIZE,
        some (fb.take b.size ++ (fa.drop (a.size + b.size - BLK_SIZE)).take
          (BLK_SIZE - b.size)))) ∧
    (b.size ≤ a.size →
      Bag.merge_filling a b = some (some fb, a.size + b.size - BLK_SIZE,
        some (fa.take a.size ++ (fb.drop (a.size + b.size - BLK_SIZE)).take
          (BLK_SIZE - a.size)))) ∧
    ∀ a' b', a.merge b = some (a', b') →
      a'.size = a.size + b.size - BLK_SIZE ∧
      (a.size < b.size → a'.filling = some fa) ∧ (b.size ≤ a.size → a'.filling = some fb) := by
  obtain ⟨h1, h2⟩ := Bag.merge_filling_direction a b fa fb hfa hla hfb hlb hsa hsb hge
  refine ⟨h1, fun h => h2 (by omega), ?_⟩
  intro a' b' hrun
  obtain ⟨f', sz, blk, hmf, hsz, hfil, -⟩ := Bag.merge_fields a b a' b' hrun
  by_cases hlt : a.size < b.size
  · rw [h1 hlt] at hmf
    simp only [Option.some.injEq, Prod.mk.injEq] at hmf
    obtain ⟨rfl, rfl, -⟩ := hmf
    exact ⟨hsz, fun _ => hfil, fun h => absurd hlt (by omega)⟩
  · rw [h2 hlt] at hmf
    simp only [Option.some.injEq, Prod.mk.injEq] at hmf
    obtain ⟨rfl, rfl, -⟩ := hmf
    exact ⟨hsz, fun h => absurd h hlt, fun _ => hfil⟩

theorem Bag_merge_direction_witness :
    Bag.merge_filling Bag.ones1000 Bag.twos1500 =
      some (some (List.replicate BLK_SIZE 1),
        Bag.ones1000.size + Bag.twos1500.size - BLK_SIZE,
        some ((List.replicate BLK_SIZE 2).take Bag.twos1500.size ++
          ((List.replicate BLK_SIZE 1).drop
            (Bag.ones1000.size + Bag.twos1500.size - BLK_SIZE)).take
            (BLK_SIZE - Bag.twos1500.size))) :=
  (Bag_merge_direction Bag.ones1000 Bag.twos1500 (List.replicate BLK_SIZE 1)
    (List.replicate BLK_SIZE 2) rfl (List.length_replicate _ _) rfl (List.length_replicate _ _)
    (by norm_num [Bag.ones1000, BLK_SIZE]) (by norm_num [Bag.twos1500, BLK_SIZE])
    (by norm_num [Bag.ones1000, Bag.twos1500, BLK_SIZE])).1
    (by norm_num [Bag.ones1000, Bag.twos1500])

/-! ## Bags: the indexed `split` -/

section

variable {T : Type}

theorem Bag.split_pos_scan_spec (bag : List (Pennant T)) :
    ∀ n, n ≤ bag.length →
      ∃ ret, Bag.split_pos_scan bag n = some ret ∧
        ((ret = -1 ∧ ∀ i, i < n → bag[i]? = some Pennant.null) ∨
          ∃ i : Nat, ret = (i : Int) ∧ i < n ∧ (∃ p, bag[i]? = some p ∧ p ≠ Pennant.null) ∧
            ∀ j, i < j → j < n → bag[j]? = some Pennant.null) := by
  intro n
  induction n with
  | zero =>
    intro _
    exact ⟨-1, rfl, Or.inl ⟨rfl, fun i hi => absurd hi (Nat.not_lt_zero i)⟩⟩
  | succ n ih =>
    intro hn
    have hget : bag[n]? = some bag[n] := List.getElem?_eq_getElem (by omega)
    by_cases hnull : bag[n].isNull = true
    · have hp : bag[n] = Pennant.null := (Pennant.isNull_iff _).mp hnull
      obtain ⟨ret, hrun, hres⟩ := ih (by omega)
      refine ⟨ret, by simp only [Bag.split_pos_scan, hget, hnull, if_true]; exact hrun, ?_⟩
      rcases hres with ⟨h1, h2⟩ | ⟨i, h1, h2, h3, h4⟩
      · refine Or.inl ⟨h1, fun i hi => ?_⟩
        rcases Nat.lt_or_ge i n with h | h
        · exact h2 i h
        · have : i = n := by omega
          subst this
          rw [hget, hp]
      · refine Or.inr ⟨i, h1, by omega, h3, fun j hj hjn => ?_⟩
        rcases Nat.lt_or_ge j n with h | h
        · exact h4 j hj h
        · have : j = n := by omega
          subst this
          rw [hget, hp]
    · refine ⟨(n : Int), by
        simp only [Bag.split_pos_scan, hget]
        rw [if_neg hnull], ?_⟩
      refine Or.inr ⟨n, rfl, by omega, ⟨bag[n], hget, ?_⟩, fun j hj hjn => by omega⟩
      intro hp
      rw [hp] at hnull
      exact hnull rfl
end

/-- C22: for every bag (with its `BAG_SIZE` slots and `fill ≤ BAG_SIZE`) and
every `int pos`: if `pos < 0` or `pos ≥ fill`, `split(&out, pos)` sets `out` to
null and returns `fill - 1` as a signed `int` (so -1 when `fill == 0`);
otherwise it sets `out` to `bag[pos]` and returns the largest index `i < pos`
with `bag[i]` non-null, or -1 if there is none. In both cases the bag is left
as it was. -/
theorem Bag_split_pos_spec {T : Type} (b : Bag T) (pos : Int)
    (hlen : b.bag.length = BAG_SIZE) (hfill : b.fill ≤ BAG_SIZE) :
    ((pos < 0 ∨ (b.fill : Int) ≤ pos) →
      b.split_pos pos = some (b, Pennant.null, (b.fill : Int) - 1) ∧
        (b.fill = 0 → b.split_pos pos = some (b, Pennant.null, -1))) ∧
    (0 ≤ pos → pos < (b.fill : Int) →
      ∃ out ret, b.split_pos pos = some (b, out, ret) ∧ b.bag[pos.toNat]? = some out ∧
        ((ret = -1 ∧ ∀ i, i < pos.toNat → b.bag[i]? = some Pennant.null) ∨
          ∃ i : Nat, ret = (i : Int) ∧ i < pos.toNat ∧
            (∃ p, b.bag[i]? = some p ∧ p ≠ Pennant.null) ∧
            ∀ j, i < j → j < pos.toNat → b.bag[j]? = some Pennant.null)) := by
  have hB : BAG_SIZE = 64 := rfl
  constructor
  · intro hout
    have hret : toInt32 (u32 ((b.fill : Int) - 1)) = (b.fill : Int) - 1 := by
      unfold toInt32 u32
      omega
    have h1 : b.split_pos pos = some (b, Pennant.null, (b.fill : Int) - 1) := by
      simp only [Bag.split_pos, if_pos hout, hret]
    refine ⟨h1, fun h0 => ?_⟩
    rw [h1, h0]
    rfl
  · intro h0 h1
    have hin : ¬ (pos < 0 ∨ (b.fill : Int) ≤ pos) := by omega
    have hpl : pos.toNat < b.bag.length := by omega
    have hget : b.bag[pos.toNat]? = some b.bag[pos.toNat] := List.getElem?_eq_getElem hpl
    obtain ⟨ret, hrun, hres⟩ := Bag.split_pos_scan_spec b.bag pos.toNat (by omega)
    refine ⟨b.bag[pos.toNat], ret, ?_, hget, hres⟩
    simp only [Bag.split_pos, if_neg hin, hget, hrun, Option.map_some']

theorem Bag_split_pos_spec_witness :
    ((((5 : Int) < 0 ∨ (Bag.oneBlock.fill : Int) ≤ 5) →
      Bag.oneBlock.split_pos 5 = some (Bag.oneBlock, Pennant.null, (Bag.oneBlock.fill : Int) - 1) ∧
        (Bag.oneBlock.fill = 0 → Bag.oneBlock.split_pos 5 = some (Bag.oneBlock, Pennant.null, -1))) ∧
    ((0 : Int) ≤ 5 → (5 : Int) < (Bag.oneBlock.fill : Int) →
      ∃ out ret, Bag.oneBlock.split_pos 5 = some (Bag.oneBlock, out, ret) ∧
        Bag.oneBlock.bag[(5 : Int).toNat]? = some out ∧
        ((ret = -1 ∧ ∀ i, i < (5 : Int).toNat → Bag.oneBlock.bag[i]? = some Pennant.null) ∨
          ∃ i : Nat, ret = (i : Int) ∧ i < (5 : Int).toNat ∧
            (∃ p, Bag.oneBlock.bag[i]? = some p ∧ p ≠ Pennant.null) ∧
            ∀ j, i < j → j < (5 : Int).toNat → Bag.oneBlock.bag[j]? = some Pennant.null))) :=
  Bag_split_pos_spec Bag.oneBlock 5 Bag.oneBlock_inv.slots Bag.oneBlock_inv.fill_le

/-! ## The parallel breadth-first search: what one call and one level store -/

section

/-- The cells that differ between two arrays of `n` cells. -/
theorem changed_card (n : Nat) (ds ds' A : List Nat) (hnd : A.Nodup)
    (hA : ∀ v ∈ A, v < n ∧ ds'.getD v 0 ≠ ds.getD v 0)
    (hchg : ∀ v, ds'.getD v 0 ≠ ds.getD v 0 → v ∈ A) :
    ((Finset.range n).filter (fun v => ds'.getD v 0 ≠ ds.getD v 0)).card = A.length := by
  rw [← List.toFinset_card_of_nodup hnd]
  congr 1
  ext v
  rw [Finset.mem_filter, Finset.mem_range, List.mem_toFinset]
  constructor
  · rintro ⟨-, h⟩
    exact hchg v h
  · intro h
    exact hA v h
end

/-- C24: for every well-formed graph, every level `newdist` and every frontier
bag `b` (satisfying the bag invariants, holding node ids), in the serial elision
of `pbfs_walk_Bag(b, next, newdist, distances)` with `next` initially empty, the
nodes inserted into `next` are exactly the `e` for which there is `u` in `b` with
`e` in `edges[nodes[u] .. nodes[u+1])` and `distances[e] > newdist` on entry,
each inserted exactly once; on exit `distances[e] == newdist` for those `e` and
every other cell is unchanged. -/
theorem Graph_pbfs_walk_Bag_level (G : Graph) (hG : G.WellFormed) (newdist : Nat)
    (b next : Bag Nat) (ds : List Nat) (hb : b.WF) (hbt : b.Top)
    (hnodes : ∀ u ∈ b.elems, u < G.nNodes) (hnext : next.WF)
    (hempty : next.isEmpty = true) (hlen : ds.length = G.nNodes) :
    ∃ b' st' A, G.pbfs_walk_Bag newdist (b.getFill + 1) b { next := next, distances := ds } =
        some (b', st') ∧
      A.Nodup ∧ st'.next.elems = (A : Multiset Nat) ∧
      (∀ e, e ∈ A ↔ ((∃ u, u ∈ b.elems ∧ G.Adj u e) ∧ newdist < ds.getD e 0)) ∧
      (∀ e, e ∈ A → st'.distances.getD e 0 = newdist) ∧
      (∀ e, e ∉ A → st'.distances.getD e 0 = ds.getD e 0) ∧
      st'.distances.length = G.nNodes := by
  have hN := hG.nNodes_lt
  have he0 : next.elems = 0 := Bag.elems_of_isEmpty hempty
  have hfill0 : next.fill = 0 := by
    simp only [Bag.isEmpty, Bool.and_eq_true, beq_iff_eq] at hempty
    exact hempty.1
  obtain ⟨b', st', hrun, hrel, hstep, hclosed, -⟩ :=
    pbfs_walk_Bag_spec hG newdist (fun u => u ∈ b.elems) hnodes
      { next := next, distances := ds }
      (by
        show Multiset.card next.elems + G.nNodes < _
        rw [he0]
        have := cap_large
        simp only [Multiset.card_zero, Nat.zero_add]
        omega)
      (b.getFill + 1) b { next := next, distances := ds }
      (by show b.fill < b.fill + 1; omega)
      (BagOK.of_frontier hb hbt (fun u hu => hu))
      (LevelRel.start newdist _ _ hlen hnext (Or.inl hfill0))
  obtain ⟨A, hnd, hA, helems, hchg⟩ := hrel.added
  have hstep' : DStep newdist ds st'.distances := hstep
  refine ⟨b', st', A, hrun, hnd, ?_, ?_, fun e he => (hA e he).2.2.1, ?_, hrel.len⟩
  · rw [helems]
    show next.elems + _ = _
    rw [he0, zero_add]
  · intro e
    constructor
    · intro he
      obtain ⟨-, h2, -, u, hu, hadj⟩ := hA e he
      exact ⟨⟨u, hu, hadj⟩, h2⟩
    · rintro ⟨⟨u, hu, hadj⟩, hgt⟩
      apply hchg e
      show st'.distances.getD e 0 ≠ ds.getD e 0
      have := hclosed.closed u hu e hadj
      omega
  · intro e he
    by_contra hne
    exact he (hchg e hne)

section

theorem Bag.halfFull_wf : Bag.halfFull.WF :=
  { slots := List.length_replicate _ _
    block := ⟨_, rfl, List.length_replicate _ _⟩
    size_lt := by norm_num [Bag.halfFull, BLK_SIZE]
    fill_le := Nat.zero_le _
    rank := by intro i p hi; exact absurd hi (Nat.not_lt_zero i) }

theorem Bag.halfFull_mem (u : Nat) (h : u ∈ Bag.halfFull.elems) : u = 0 := by
  rcases (Bag.mem_elems_iff Bag.halfFull u).mp h with ⟨f, hf, k, -, hk⟩ | ⟨i, p, hi, -⟩
  · have hf' : f = List.replicate BLK_SIZE 0 := by
      have : some (List.replicate BLK_SIZE 0) = some f := hf
      simp only [Option.some.injEq] at this
      exact this.symm
    rw [hf', List.getElem?_replicate] at hk
    split_ifs at hk
    simp only [Option.some.injEq] at hk
    exact hk.symm
  · exact absurd hi (Nat.not_lt_zero i)
end

theorem Graph_pbfs_walk_Bag_level_witness :
    ∃ b' st' A, pathGraph.pbfs_walk_Bag 5 (Bag.halfFull.getFill + 1) Bag.halfFull
        { next := Bag.fresh, distances := [0, 9, 3] } = some (b', st') ∧
      A.Nodup ∧ st'.next.elems = (A : Multiset Nat) ∧
      (∀ e, e ∈ A ↔ ((∃ u, u ∈ Bag.halfFull.elems ∧ pathGraph.Adj u e) ∧
        5 < ([0, 9, 3] : List Nat).getD e 0)) ∧
      (∀ e, e ∈ A → st'.distances.getD e 0 = 5) ∧
      (∀ e, e ∉ A → st'.distances.getD e 0 = ([0, 9, 3] : List Nat).getD e 0) ∧
      st'.distances.length = pathGraph.nNodes :=
  Graph_pbfs_walk_Bag_level pathGraph pathGraph_wf 5 Bag.halfFull Bag.fresh [0, 9, 3]
    Bag.halfFull_wf (Or.inl rfl)
    (fun u hu => by
      rw [Bag.halfFull_mem u hu]
      decide)
    Bag.fresh_inv.wf rfl rfl

/-! ## The construction of a graph: the adjacency slices -/

section

theorem slice_set_out (l : List Nat) (p a c x : Nat) (h : p < a ∨ a + c ≤ p) :
    ((l.set p x).drop a).take c = (l.drop a).take c := by
  apply List.ext_getElem?
  intro i
  rw [List.getElem?_take, List.getElem?_take]
  by_cases hi : i < c
  · rw [if_pos hi, if_pos hi, List.getElem?_drop, List.getElem?_drop,
      List.getElem?_set_ne (by omega)]
  · rw [if_neg hi, if_neg hi]

theorem slice_set_end (l : List Nat) (a c x : Nat) (h : a + c < l.length) :
    ((l.set (a + c) x).drop a).take (c + 1) = (l.drop a).take c ++ [x] := by
  rw [List.take_succ, slice_set_out l (a + c) a c x (Or.inr (le_refl _)), List.getElem?_drop,
    List.getElem?_set_self h]
  rfl

theorem sum_count_mono (ir : List Int) (N a b : Nat) (h : a ≤ b) :
    ∑ u in Finset.range a, (ir.take N).count (u : Int) ≤
      ∑ u in Finset.range b, (ir.take N).count (u : Int) :=
  Finset.sum_le_sum_of_subset (Finset.range_mono h)

/-- The scatter loop of one column, with the cells of `edges` it writes: the
slice of each node grows by one copy of the column for every entry visited. -/
theorem Graph.new_scatter_col_edges (ir : List Int) (m N col : Nat)
    (hir : ∀ t, t < N → ∃ r : Nat, ir[t]? = some (r : Int) ∧ r < m) :
    ∀ (k j : Nat) (w edges : List Nat), j + k ≤ N → w.length = m → edges.length = N →
      (∀ v, v < m → w[v]? = some ((∑ u in Finset.range v, (ir.take N).count (u : Int)) +
        (ir.take j).count (v : Int))) →
      ∃ w' edges', Graph.new_scatter_col ir col k (j : Int) w edges = some (w', edges') ∧
        w'.length = m ∧ edges'.length = N ∧
        (∀ v, v < m → w'[v]? = some ((∑ u in Finset.range v, (ir.take N).count (u : Int)) +
          (ir.take (j + k)).count (v : Int))) ∧
        ∀ v, v < m →
          (edges'.drop (∑ u in Finset.range v, (ir.take N).count (u : Int))).take
              ((ir.take (j + k)).count (v : Int)) =
            (edges.drop (∑ u in Finset.range v, (ir.take N).count (u : Int))).take
                ((ir.take j).count (v : Int)) ++
              List.replicate ((ir.take (j + k)).count (v : Int) - (ir.take j).count (v : Int))
                col := by
  have htot := sum_count_take ir m N hir
  intro k
  induction k with
  | zero =>
    intro j w edges _ hlen hel hw
    refine ⟨w, edges, rfl, hlen, hel, hw, fun v _ => ?_⟩
    simp
  | succ k ih =>
    intro j w edges hjk hlen hel hw
    obtain ⟨r, hr, hrm⟩ := hir j (by omega)
    have hneg : ¬ ((r : Int) < 0) := by omega
    have hjneg : ¬ ((j : Int) < 0) := by omega
    have hstep := take_succ_count ir j r hr (r : Int)
    rw [if_pos rfl] at hstep
    have hle := count_take_le ir (j + 1) N (by omega) (r : Int)
    have hmono := sum_count_mono ir N (r + 1) m (by omega)
    rw [Finset.sum_range_succ, htot] at hmono
    have hpos : (∑ u in Finset.range r, (ir.take N).count (u : Int)) +
        (ir.take j).count (r : Int) < edges.length := by omega
    obtain ⟨w', edges', hrun, hlen', hel', hw', hsl⟩ := ih (j + 1)
      (w.set r ((∑ u in Finset.range r, (ir.take N).count (u : Int)) +
        (ir.take j).count (r : Int) + 1))
      (edges.set ((∑ u in Finset.range r, (ir.take N).count (u : Int)) +
        (ir.take j).count (r : Int)) col)
      (by omega) (by simpa using hlen) (by simpa using hel) (by
        intro v hv
        rw [take_succ_count ir j r hr, List.getElem?_set]
        by_cases hrv : r = v
        · subst hrv
          rw [if_pos rfl, if_pos (by omega), if_pos rfl, Nat.add_assoc]
        · rw [if_neg hrv, if_neg (by omega), hw v hv, Nat.add_zero])
    have hidx : j + 1 + k = j + (k + 1) := by omega
    rw [hidx] at hw' hsl
    refine ⟨w', edges', ?_, hlen', hel', hw', ?_⟩
    · simp only [Graph.new_scatter_col, if_neg hjneg, Int.toNat_ofNat, hr, if_neg hneg,
        hw r hrm, store_eq hpos]
      have hcast : ((j : Int) + 1) = ((j + 1 : Nat) : Int) := by push_cast; rfl
      rw [hcast]
      exact hrun
    · intro v hv
      rw [hsl v hv]
      have hge := count_take_le ir (j + 1) (j + (k + 1)) (by omega) (v : Int)
      by_cases hrv : r = v
      · subst hrv
        rw [hstep, slice_set_end _ _ _ _ hpos, List.append_assoc]
        congr 1
        rw [hstep] at hge
        have hd : (ir.take (j + (k + 1))).count (r : Int) - (ir.take j).count (r : Int) =
            ((ir.take (j + (k + 1))).count (r : Int) -
              ((ir.take j).count (r : Int) + 1)) + 1 := by omega
        rw [hd, List.replicate_succ]
        rfl
      · have hcv : (ir.take (j + 1)).count (v : Int) = (ir.take j).count (v : Int) := by
          rw [take_succ_count ir j r hr, if_neg (by omega), Nat.add_zero]
        rw [hcv]
        congr 1
        apply slice_set_out
        have hlev := count_take_le ir j N (by omega) (v : Int)
        rcases Nat.lt_or_ge r v with h | h
        · left
          have := sum_count_mono ir N (r + 1) v (by omega)
          rw [Finset.sum_range_succ] at this
          omega
        · right
          have := sum_count_mono ir N (v + 1) r (by omega)
          rw [Finset.sum_range_succ] at this
          omega
end

section

theorem count_take_diff (ir : List Int) (a b : Nat) (h : a ≤ b) (v : Int) :
    (ir.take b).count v - (ir.take a).count v = ((ir.drop a).take (b - a)).count v := by
  have hb : b = a + (b - a) := by omega
  have h1 : (ir.take b).count v = (ir.take a).count v + ((ir.drop a).take (b - a)).count v := by
    conv_lhs => rw [hb]
    rw [List.take_add, List.count_append]
  omega

theorem pairwise_flatMap_replicate (f : Nat → Nat) :
    ∀ n, ((List.range n).flatMap (fun c => List.replicate (f c) c)).Pairwise (· ≤ ·) := by
  intro n
  induction n with
  | zero => simp
  | succ n ih =>
    rw [List.range_succ, List.flatMap_append, List.flatMap_singleton, List.pairwise_append]
    refine ⟨ih, List.pairwise_replicate.mpr (Or.inr (le_refl n)), ?_⟩
    intro a ha b hb
    obtain ⟨c, hc, hac⟩ := List.mem_flatMap.mp ha
    rw [List.mem_range] at hc
    rw [List.mem_replicate] at hac hb
    omega

/-- The scatter loop over the columns `[i, i + k)`: the slice of each node ends
as what it was, followed by the columns in increasing order, each repeated once
for every entry of the column in the row of the node. -/
theorem Graph.new_scatter_edges (ir jc : List Int) (m n N : Nat)
    (hir : ∀ t, t < N → ∃ r : Nat, ir[t]? = some (r : Int) ∧ r < m)
    (hjc : ∀ i, i ≤ n → ∃ a : Nat, jc[i]? = some (a : Int) ∧ a ≤ N)
    (hjcn : jc[n]? = some (N : Int))
    (hmono : ∀ i (a b : Nat), i < n → jc[i]? = some (a : Int) →
      jc[i + 1]? = some (b : Int) → a ≤ b) :
    ∀ (k i a : Nat) (w edges : List Nat), i + k = n → jc[i]? = some (a : Int) →
      w.length = m → edges.length = N →
      (∀ v, v < m → w[v]? = some ((∑ u in Finset.range v, (ir.take N).count (u : Int)) +
        (ir.take a).count (v : Int))) →
      ∃ w' edges', Graph.new_scatter ir jc k i w edges = some (w', edges') ∧
        edges'.length = N ∧
        ∀ v, v < m →
          (edges'.drop (∑ u in Finset.range v, (ir.take N).count (u : Int))).take
              ((ir.take N).count (v : Int)) =
            (edges.drop (∑ u in Finset.range v, (ir.take N).count (u : Int))).take
                ((ir.take a).count (v : Int)) ++
              (List.range' i k).flatMap (fun c =>
                List.replicate
                  (((ir.drop (jc.getD c 0).toNat).take
                    ((jc.getD (c + 1) 0).toNat - (jc.getD c 0).toNat)).count (v : Int)) c) := by
  intro k
  induction k with
  | zero =>
    intro i a w edges hik ha _ hel _
    have hin : i = n := by omega
    subst hin
    rw [hjcn] at ha
    simp only [Option.some.injEq] at ha
    have haN : a = N := by omega
    subst haN
    refine ⟨w, edges, rfl, hel, fun v _ => ?_⟩
    simp
  | succ k ih =>
    intro i a w edges hik ha hlen hel hw
    obtain ⟨b, hb, hbN⟩ := hjc (i + 1) (by omega)
    have hab : a ≤ b := hmono i a b (by omega) ha hb
    have hsub : ((b : Int) - (a : Int)).toNat = b - a := by omega
    obtain ⟨w1, e1, hrun1, hlen1, hel1, hw1, hsl1⟩ :=
      Graph.new_scatter_col_edges ir m N i hir (b - a) a w edges (by omega) hlen hel hw
    have hidx : a + (b - a) = b := by omega
    rw [hidx] at hw1 hsl1
    obtain ⟨w2, e2, hrun2, hel2, hsl2⟩ := ih (i + 1) b w1 e1 (by omega) hb hlen1 hel1 hw1
    refine ⟨w2, e2, ?_, hel2, ?_⟩
    · simp only [Graph.new_scatter, ha, hb, hsub, hrun1]
      exact hrun2
    · intro v hv
      have hga : (jc.getD i 0).toNat = a := by
        rw [List.getD_eq_getElem?_getD, ha]
        simp
      have hgb : (jc.getD (i + 1) 0).toNat = b := by
        rw [List.getD_eq_getElem?_getD, hb]
        simp
      rw [hsl2 v hv, hsl1 v hv, List.range'_succ, List.flatMap_cons, hga, hgb,
        count_take_diff ir a b hab, List.append_assoc]
end

/-- C21: for every coordinate input `(ir, jc, m, n, nnz)` with `jc`
non-decreasing on `[0, n]`, `jc[0] = 0`, `jc[n] = nnz` and every `ir[t]` in
`[0, m)` for `t < nnz`, and for every node `k` in `[0, m)`, the adjacency slice
`edges[nodes[k] .. nodes[k+1])` of the constructed graph is exactly the list of
the column indices `i` in `[0, n)`, in non-decreasing order, with `i` repeated
once for each `t` in `[jc[i], jc[i+1])` such that `ir[t] == k`. -/
theorem Graph_new_adjacency (ir jc : List Int) (m n nnz : Nat) (nodes0 edges0 w0 : List Nat)
    (h0 : jc[0]? = some 0) (hn : jc[n]? = some (nnz : Int))
    (hmono : ∀ (i j : Nat) (a b : Int), i ≤ j → j ≤ n → jc[i]? = some a → jc[j]? = some b →
      a ≤ b)
    (hir : ∀ t, t < nnz → ∃ r : Nat, ir[t]? = some (r : Int) ∧ r < m)
    (hnodes0 : nodes0.length = m + 1) (hedges0 : edges0.length = nnz)
    (hw0 : w0.length = m) :
    ∃ G, Graph.new ir jc m n nnz nodes0 edges0 w0 = some G ∧
      ∀ k : Nat, k < m → ∃ a b, G.nodes[k]? = some a ∧ G.nodes[k + 1]? = some b ∧ a ≤ b ∧
        (G.edges.drop a).take (b - a) =
          (List.range n).flatMap (fun i =>
            List.replicate
              (((ir.drop (jc.getD i 0).toNat).take
                ((jc.getD (i + 1) 0).toNat - (jc.getD i 0).toNat)).count (k : Int)) i) ∧
        ((G.edges.drop a).take (b - a)).Pairwise (· ≤ ·) := by
  have hnl : n < jc.length := by
    by_contra hcon
    rw [List.getElem?_eq_none (by omega)] at hn
    cases hn
  have hjc : ∀ i, i ≤ n → ∃ a : Nat, jc[i]? = some (a : Int) ∧ a ≤ nnz := by
    intro i hi
    have hil : i < jc.length := by omega
    have hget : jc[i]? = some jc[i] := List.getElem?_eq_getElem hil
    have h1 := hmono 0 i 0 jc[i] (Nat.zero_le i) hi h0 hget
    have h2 := hmono i n jc[i] nnz hi (le_refl n) hget hn
    refine ⟨jc[i].toNat, ?_, by omega⟩
    rw [hget]
    congr 1
    omega
  have hmono' : ∀ i (a b : Nat), i < n → jc[i]? = some (a : Int) →
      jc[i + 1]? = some (b : Int) → a ≤ b := by
    intro i a b hi ha hb
    have := hmono i (i + 1) a b (by omega) (by omega) ha hb
    omega
  obtain ⟨w1, hrun1, hlen1, hz, -⟩ := Graph.new_zero_spec m 0 w0 (by omega)
  obtain ⟨w2, hrun2, hlen2, hc⟩ := Graph.new_count_spec ir m nnz hir nnz 0 w1 (by omega)
    (by omega) (by
      intro v hv
      rw [hz v (Nat.zero_le v) (by omega)]
      simp)
  rw [Nat.zero_add] at hc
  obtain ⟨w3, hrun3, hlen3, hp, -⟩ :=
    Graph.new_prefix_spec (fun u => (ir.take nnz).count (u : Int)) m m 0 w2 (by omega) hlen2
      (fun v hv => absurd hv (Nat.not_lt_zero v)) (fun v _ hv => hc v hv)
  simp only [Finset.range_zero, Finset.sum_empty, Nat.zero_add] at hrun3 hp
  have htot := sum_count_take ir m nnz hir
  rw [htot] at hrun3
  have hml : m < nodes0.length := by omega
  obtain ⟨nodes2, hrun4, hlen4, hcp1, hcp2⟩ :=
    Graph.new_copy_spec w3 m 0 (nodes0.set m nnz) (by omega) (by simp; omega)
  obtain ⟨a0, ha0, -⟩ := hjc 0 (Nat.zero_le n)
  have ha00 : a0 = 0 := by
    rw [h0] at ha0
    simp only [Option.some.injEq] at ha0
    omega
  subst ha00
  obtain ⟨w4, edges1, hrun5, hel, hsl⟩ :=
    Graph.new_scatter_edges ir jc m n nnz hir hjc hn hmono' n 0 0 w3 edges0 (by omega) ha0
      hlen3 hedges0 (by
        intro v hv
        rw [hp v hv]
        simp)
  have hnodes : ∀ k, k ≤ m →
      nodes2[k]? = some (∑ u in Finset.range k, (ir.take nnz).count (u : Int)) := by
    intro k hk
    rcases Nat.lt_or_ge k m with hlt | hge
    · rw [hcp1 k (Nat.zero_le k) (by omega)]
      exact hp k hlt
    · have hkm : k = m := by omega
      subst hkm
      rw [hcp2 k (Or.inr (by omega)), List.getElem?_set_self hml, htot]
  refine ⟨{ nNodes := m, nEdges := nnz, nodes := nodes2, edges := edges1 }, ?_, ?_⟩
  · simp only [Graph.new, hrun1, hn, Int.toNat_ofNat, hrun2, hrun3, store_eq hml, hrun4, hrun5]
  · intro k hk
    have hslice : (edges1.drop (∑ u in Finset.range k, (ir.take nnz).count (u : Int))).take
        ((∑ u in Finset.range (k + 1), (ir.take nnz).count (u : Int)) -
          ∑ u in Finset.range k, (ir.take nnz).count (u : Int)) =
        (List.range n).flatMap (fun i =>
          List.replicate
            (((ir.drop (jc.getD i 0).toNat).take
              ((jc.getD (i + 1) 0).toNat - (jc.getD i 0).toNat)).count (k : Int)) i) := by
      rw [Finset.sum_range_succ, Nat.add_sub_cancel_left, hsl k hk, List.range_eq_range']
      simp
    refine ⟨_, _, hnodes k (by omega), hnodes (k + 1) (by omega), ?_, hslice, ?_⟩
    · rw [Finset.sum_range_succ]
      omega
    · show ((edges1.drop _).take _).Pairwise (· ≤ ·)
      rw [hslice]
      exact pairwise_flatMap_replicate _ n

theorem Graph_new_adjacency_witness :
    ∃ G, Graph.new [1, 0, 2, 1] [0, 1, 3, 4] 3 3 4 [9, 9, 9, 9] [8, 8, 8, 8] [7, 7, 7] = some G ∧
      ∀ k : Nat, k < 3 → ∃ a b, G.nodes[k]? = some a ∧ G.nodes[k + 1]? = some b ∧ a ≤ b ∧
        (G.edges.drop a).take (b - a) =
          (List.range 3).flatMap (fun i =>
            List.replicate
              (((([1, 0, 2, 1] : List Int).drop (([0, 1, 3, 4] : List Int).getD i 0).toNat).take
                ((([0, 1, 3, 4] : List Int).getD (i + 1) 0).toNat -
                  (([0, 1, 3, 4] : List Int).getD i 0).toNat)).count (k : Int)) i) ∧
        ((G.edges.drop a).take (b - a)).Pairwise (· ≤ ·) :=
  Graph_new_adjacency [1, 0, 2, 1] [0, 1, 3, 4] 3 3 4 [9, 9, 9, 9] [8, 8, 8, 8] [7, 7, 7] rfl rfl
    (by
      intro i j a b hij hj ha hb
      have hi : i ≤ 3 := by omega
      interval_cases j <;> interval_cases i <;> simp at ha hb <;> omega)
    (by
      intro t ht
      interval_cases t
      · exact ⟨1, rfl, by decide⟩
      · exact ⟨0, rfl, by decide⟩
      · exact ⟨2, rfl, by decide⟩
      · exact ⟨1, rfl, by decide⟩)
    rfl rfl rfl

/-! ## The parallel breadth-first search: the slices handed to `pbfs_proc_Node` -/

section

theorem Graph.pbfs_run_calls_append (G : Graph) (d : Nat) (xs ys : List PbfsCall) :
    ∀ st, G.pbfs_run_calls d (xs ++ ys) st =
      (G.pbfs_run_calls d xs st).bind (G.pbfs_run_calls d ys) := by
  induction xs with
  | nil => intro st; rfl
  | cons c xs ih =>
    intro st
    simp only [List.cons_append, Graph.pbfs_run_calls]
    cases pbfs_proc_Node G c.n c.off d c.cnt 0 st with
    | none => rfl
    | some st' => exact ih st'

/-- The slice loops make exactly the calls of `sliceCallsSpec`. -/
theorem pbfs_slices_calls (G : Graph) (d : Nat) (n : List Nat) :
    ∀ (cnt i : Nat) (st : PbfsState),
      pbfs_slices G n d cnt i st = G.pbfs_run_calls d (sliceCallsSpec n cnt i) st := by
  intro cnt
  induction cnt with
  | zero => intro i st; rfl
  | succ cnt ih =>
    intro i st
    simp only [pbfs_slices, sliceCallsSpec, Graph.pbfs_run_calls]
    cases pbfs_proc_Node G n i d THRESHOLD 0 st with
    | none => rfl
    | some st' => exact ih (i + THRESHOLD) st'

theorem block_slice_count : (BLK_SIZE + THRESHOLD - 1) / THRESHOLD = BLK_SIZE / THRESHOLD := by
  norm_num [BLK_SIZE, THRESHOLD]

theorem filling_slice_count (sz : Nat) :
    (sz - sz % THRESHOLD + THRESHOLD - 1) / THRESHOLD = sz / THRESHOLD := by
  unfold THRESHOLD
  omega

/-- `pbfs_walk_Pennant` makes exactly the calls of `Pennant.callsSpec`. -/
theorem pbfs_walk_Pennant_calls (G : Graph) (d : Nat) :
    ∀ (p : Pennant Nat), p ≠ Pennant.null → ∀ st,
      G.pbfs_walk_Pennant d p st = G.pbfs_run_calls d p.callsSpec st := by
  intro p
  induction p with
  | null => intro h; exact absurd rfl h
  | node e l r ihl ihr =>
    intro _ st
    have hl : ∀ s, (if l.isNull then some s else G.pbfs_walk_Pennant d l s) =
        G.pbfs_run_calls d l.callsSpec s := by
      intro s
      cases l with
      | null => rfl
      | node e1 l1 r1 => exact ihl (by simp) s
    have hr : ∀ s, (if r.isNull then some s else G.pbfs_walk_Pennant d r s) =
        G.pbfs_run_calls d r.callsSpec s := by
      intro s
      cases r with
      | null => rfl
      | node e1 l1 r1 => exact ihr (by simp) s
    simp only [Graph.pbfs_walk_Pennant, Pennant.callsSpec, hl, hr,
      Graph.pbfs_run_calls_append, block_slice_count, pbfs_slices_calls]
    cases G.pbfs_run_calls d l.callsSpec st with
    | none => rfl
    | some st1 =>
      simp only [Option.some_bind]
      cases G.pbfs_run_calls d r.callsSpec st1 with
      | none => rfl
      | some st2 => rfl
end

section

/-- `pbfs_walk_Bag` makes exactly the calls of `Bag.callsSpec`, and leaves the
bag with `fill == 0`. -/
theorem pbfs_walk_Bag_calls (G : Graph) (d : Nat) :
    ∀ (n : Nat) (b : Bag Nat) (f : List Nat), b.fill = n → b.fill ≤ b.bag.length → b.Top →
      b.filling = some f →
      ∃ b', b'.fill = 0 ∧ b'.size = b.size ∧ b'.filling = b.filling ∧
        ∀ fuel st, b.fill < fuel →
          G.pbfs_walk_Bag d fuel b st =
            (G.pbfs_run_calls d b.callsSpec st).map (fun s => (b', s)) := by
  intro n
  induction n using Nat.strong_induction_on with
  | _ n ih =>
    intro b f hn hle htop hf
    rcases Nat.eq_zero_or_pos b.fill with h0 | hpos
    · refine ⟨b, h0, rfl, rfl, ?_⟩
      intro fuel st hfuel
      obtain ⟨k, rfl⟩ : ∃ k, fuel = k + 1 := ⟨fuel - 1, by omega⟩
      have hg : ¬ (b.getFill > 0) := by
        show ¬ (b.fill > 0)
        omega
      have hcalls : b.callsSpec =
          { n := f, off := b.size - b.size % THRESHOLD, cnt := b.size % THRESHOLD } ::
            sliceCallsSpec f (b.size / THRESHOLD) 0 := by
        simp [Bag.callsSpec, h0, hf]
      rw [hcalls]
      simp only [Graph.pbfs_walk_Bag, if_neg hg, Bag.getFilling, hf, Bag.getFillingSize,
        Graph.pbfs_run_calls, filling_slice_count, pbfs_slices_calls]
      cases pbfs_proc_Node G f (b.size - b.size % THRESHOLD) d (b.size % THRESHOLD) 0 st with
      | none => rfl
      | some st1 => rfl
    · obtain ⟨g, out, hrun, hget, hg, htop', hnull⟩ := Bag.split_of_fill_pos b hpos hle
      have hout : out ≠ Pennant.null := by
        rcases htop with h0 | ⟨p, hp, hpn⟩
        · omega
        · rw [hget] at hp; cases hp; exact hpn
      have htop1 :
          (({ b with fill := g, bag := b.bag.set (b.fill - 1) Pennant.null } : Bag Nat)).Top := by
        rcases htop' with h1 | ⟨p, hp, hpn⟩
        · exact Or.inl h1
        · rcases Nat.eq_zero_or_pos g with h1 | h1
          · exact Or.inl h1
          · right
            refine ⟨p, ?_, hpn⟩
            show (b.bag.set (b.fill - 1) Pennant.null)[g - 1]? = some p
            rw [List.getElem?_set, if_neg (by omega)]
            exact hp
      obtain ⟨b', hb1, hb2, hb3, hwalk⟩ :=
        ih g (by omega) { b with fill := g, bag := b.bag.set (b.fill - 1) Pennant.null } f rfl
          (by simp; omega) htop1 hf
      have hlist : (b.bag.take b.fill).filter (fun p => !p.isNull) =
          ((b.bag.set (b.fill - 1) Pennant.null).take g).filter (fun p => !p.isNull) ++
            [out] := by
        have h1 : b.fill = (b.fill - 1) + 1 := by omega
        rw [← filter_take_nulls _ g (b.fill - 1) (by omega)
          (fun i h1 h2 => hnull i h1 (by omega)), take_set_self]
        conv_lhs => rw [h1, List.take_succ, hget, List.filter_append]
        simp [(Pennant.isNull_false_iff out).mpr hout]
      have hcalls : b.callsSpec = out.callsSpec ++
          Bag.callsSpec { b with fill := g, bag := b.bag.set (b.fill - 1) Pennant.null } := by
        simp only [Bag.callsSpec, hlist, List.reverse_append, List.reverse_singleton,
          List.singleton_append, List.flatMap_cons, List.append_assoc]
      refine ⟨b', hb1, hb2, hb3, ?_⟩
      intro fuel st hfuel
      obtain ⟨k, rfl⟩ : ∃ k, fuel = k + 1 := ⟨fuel - 1, by omega⟩
      have hgt : b.getFill > 0 := hpos
      rw [hcalls, Graph.pbfs_run_calls_append]
      simp only [Graph.pbfs_walk_Bag, if_pos hgt, hrun, pbfs_walk_Pennant_calls G d out hout]
      cases G.pbfs_run_calls d out.callsSpec st with
      | none => rfl
      | some st1 =>
        simp only [Option.some_bind]
        exact hwalk k st1 (by show g < k; omega)
end

section

theorem cells_append (xs ys : List PbfsCall) :
    (((xs ++ ys).flatMap PbfsCall.cells : List Nat) : Multiset Nat) =
      ((xs.flatMap PbfsCall.cells : List Nat) : Multiset Nat) +
        ((ys.flatMap PbfsCall.cells : List Nat) : Multiset Nat) := by
  rw [List.flatMap_append, Multiset.coe_add]

theorem cells_flatMap {α : Type} (g : α → List PbfsCall) (L : List α) :
    (((L.flatMap g).flatMap PbfsCall.cells : List Nat) : Multiset Nat) =
      (L.map (fun x => (((g x).flatMap PbfsCall.cells : List Nat) : Multiset Nat))).sum := by
  induction L with
  | nil => rfl
  | cons a L ih =>
    rw [List.flatMap_cons, cells_append, ih, List.map_cons, List.sum_cons]

/-- The slices of `sliceCallsSpec` are the consecutive cells
`n[i .. i + cnt * THRESHOLD)`. -/
theorem cells_sliceCalls (n : List Nat) :
    ∀ cnt i, (sliceCallsSpec n cnt i).flatMap PbfsCall.cells =
      (n.drop i).take (cnt * THRESHOLD) := by
  intro cnt
  induction cnt with
  | zero => intro i; simp [sliceCallsSpec]
  | succ cnt ih =>
    intro i
    have h1 : (cnt + 1) * THRESHOLD = THRESHOLD + cnt * THRESHOLD := by ring
    rw [sliceCallsSpec, List.flatMap_cons, ih, h1, List.take_add, List.drop_drop]
    rfl

theorem mem_sliceCalls (n : List Nat) (c : PbfsCall) :
    ∀ cnt i, c ∈ sliceCallsSpec n cnt i →
      c.n = n ∧ c.cnt = THRESHOLD ∧ ∃ j, j < cnt ∧ c.off = i + j * THRESHOLD := by
  intro cnt
  induction cnt with
  | zero => intro i h; simp [sliceCallsSpec] at h
  | succ cnt ih =>
    intro i h
    rw [sliceCallsSpec, List.mem_cons] at h
    rcases h with h | h
    · subst h
      exact ⟨rfl, rfl, 0, by omega, by simp⟩
    · obtain ⟨h1, h2, j, hj, h3⟩ := ih (i + THRESHOLD) h
      exact ⟨h1, h2, j + 1, by omega, by rw [h3]; ring⟩

/-- The slices of a tree of full blocks hold its elements, each once. -/
theorem Pennant.callsSpec_cells :
    ∀ p : Pennant Nat, p.FullBlocks →
      ((p.callsSpec.flatMap PbfsCall.cells : List Nat) : Multiset Nat) = p.elems := by
  intro p
  induction p with
  | null => intro _; rfl
  | node e l r ihl ihr =>
    intro hfull
    obtain ⟨hlen, hfl, hfr⟩ := (Pennant.FullBlocks.node_iff e l r).mp hfull
    have hT : BLK_SIZE / THRESHOLD * THRESHOLD = BLK_SIZE := by norm_num [BLK_SIZE, THRESHOLD]
    rw [Pennant.callsSpec, cells_append, cells_append, ihl hfl, ihr hfr, cells_sliceCalls, hT,
      List.drop_zero, List.take_of_length_le (by omega), Pennant.elems_node]
    abel

theorem Pennant.callsSpec_mem (c : PbfsCall) :
    ∀ p : Pennant Nat, c ∈ p.callsSpec → c.n ∈ p.blocks ∧ c.off + c.cnt ≤ BLK_SIZE := by
  intro p
  induction p with
  | null => intro h; simp [Pennant.callsSpec] at h
  | node e l r ihl ihr =>
    intro h
    simp only [Pennant.callsSpec, List.mem_append] at h
    simp only [Pennant.blocks, List.mem_cons, List.mem_append]
    rcases h with h | h | h
    · exact ⟨Or.inr (Or.inl (ihl h).1), (ihl h).2⟩
    · exact ⟨Or.inr (Or.inr (ihr h).1), (ihr h).2⟩
    · obtain ⟨h1, h2, j, hj, h3⟩ := mem_sliceCalls e c _ _ h
      refine ⟨Or.inl h1, ?_⟩
      have h8 : BLK_SIZE / THRESHOLD = 8 := by norm_num [BLK_SIZE, THRESHOLD]
      have hj8 : j < 8 := by omega
      have hB : BLK_SIZE = 2048 := rfl
      have hT : THRESHOLD = 256 := rfl
      rw [h2, h3, hT, hB]
      omega

/-- The slices of a well-formed bag hold its elements, each once. -/
theorem Bag.cells_callsSpec (b : Bag Nat) (h : b.WF) :
    ((b.callsSpec.flatMap PbfsCall.cells : List Nat) : Multiset Nat) = b.elems := by
  obtain ⟨f, hf, hfl⟩ := h.block
  have hs := h.size_lt
  have hfull : ∀ p ∈ ((b.bag.take b.fill).filter (fun p => !p.isNull)).reverse,
      ((p.callsSpec.flatMap PbfsCall.cells : List Nat) : Multiset Nat) = p.elems := by
    intro p hp
    rw [List.mem_reverse, List.mem_filter] at hp
    obtain ⟨k, hk, hkp⟩ := (mem_take_iff _ _ _).mp hp.1
    rcases h.rank k p hk hkp with h0 | ⟨-, h1⟩
    · rw [h0]; rfl
    · exact Pennant.callsSpec_cells p h1
  have hpen : ((((b.bag.take b.fill).filter (fun p => !p.isNull)).reverse.flatMap
      Pennant.callsSpec).flatMap PbfsCall.cells : List Nat) = b.pennantElems := by
    rw [cells_flatMap, List.map_congr_left hfull, sum_map_filter_nonnull]
    rfl
  have hdiv := Nat.div_add_mod b.size THRESHOLD
  have hq : b.size / THRESHOLD * THRESHOLD = b.size - b.size % THRESHOLD := by
    rw [Nat.mul_comm]
    omega
  have hfil : ((({ n := f, off := b.size - b.size % THRESHOLD, cnt := b.size % THRESHOLD } ::
      sliceCallsSpec f (b.size / THRESHOLD) 0 : List PbfsCall).flatMap PbfsCall.cells :
        List Nat) : Multiset Nat) = b.fillingElems := by
    have hsz : b.size = (b.size - b.size % THRESHOLD) + b.size % THRESHOLD := by
      have := Nat.mod_le b.size THRESHOLD
      omega
    have htake : f.take b.size = f.take (b.size - b.size % THRESHOLD) ++
        (f.drop (b.size - b.size % THRESHOLD)).take (b.size % THRESHOLD) := by
      conv_lhs => rw [hsz]
      rw [List.take_add]
    rw [List.flatMap_cons, cells_sliceCalls, hq, List.drop_zero, ← Multiset.coe_add, add_comm,
      Multiset.coe_add]
    simp only [Bag.fillingElems, hf, Option.getD_some, htake, PbfsCall.cells]
  rw [Bag.callsSpec, cells_append, hpen, hf, Option.getD_some, hfil, Bag.elems, add_comm]
end

section

/-- Every slice of `Bag.callsSpec` lies within `filling[0 .. size)` or within a
block of a pennant of the bag. -/
theorem Bag.mem_callsSpec (b : Bag Nat) (h : b.WF) (c : PbfsCall) (hc : c ∈ b.callsSpec) :
    (b.filling = some c.n ∧ c.off + c.cnt ≤ b.size) ∨
      ∃ i p, i < b.fill ∧ b.bag[i]? = some p ∧ c.n ∈ p.blocks ∧ c.n.length = BLK_SIZE ∧
        c.off + c.cnt ≤ BLK_SIZE := by
  obtain ⟨f, hf, hfl⟩ := h.block
  rw [Bag.callsSpec, List.mem_append, List.mem_flatMap, hf, Option.getD_some,
    List.mem_cons] at hc
  rcases hc with ⟨p, hp, hcp⟩ | hc | hc
  · right
    rw [List.mem_reverse, List.mem_filter] at hp
    obtain ⟨k, hk, hkp⟩ := (mem_take_iff _ _ _).mp hp.1
    obtain ⟨h1, h2⟩ := Pennant.callsSpec_mem c p hcp
    rcases h.rank k p hk hkp with h0 | ⟨-, h3⟩
    · rw [h0] at h1
      simp [Pennant.blocks] at h1
    · exact ⟨k, p, hk, hkp, h1, h3 c.n h1, h2⟩
  · left
    subst hc
    refine ⟨hf, ?_⟩
    show b.size - b.size % THRESHOLD + b.size % THRESHOLD ≤ b.size
    have := Nat.mod_le b.size THRESHOLD
    omega
  · left
    obtain ⟨h1, h2, j, hj, h3⟩ := mem_sliceCalls f c _ _ hc
    refine ⟨by rw [hf, h1], ?_⟩
    have hT : THRESHOLD = 256 := rfl
    rw [hT] at hj h3 h2
    rw [h2, h3]
    have := Nat.div_mul_le_self b.size 256
    have : (j + 1) * 256 ≤ b.size / 256 * 256 := Nat.mul_le_mul_right 256 hj
    omega
end

/-! ## The iterations of the loop of `bfs` -/

theorem bfs_loop_eq_trace (G : Graph) :
    ∀ (fuel : Nat) (st : BfsState),
      bfs_loop G fuel st = (bfs_loop_trace G fuel st).map Prod.snd := by
  intro fuel
  induction fuel with
  | zero => intro st; rfl
  | succ fuel ih =>
    intro st
    simp only [bfs_loop, bfs_loop_trace]
    cases hb : bfs_body G st with
    | none => rfl
    | some st' =>
      simp only []
      by_cases hc : st'.head ≤ st'.tail
      · simp only [if_pos hc, ih st', Option.map_map]
        rfl
      · simp only [if_neg hc, Option.map_some']

/-- The inner loop of `bfs` leaves `head` alone, appends to the queue at `tail`
and leaves the cells at and after the final `tail` unwritten. -/
theorem bfs_scan_frame (G : Graph) (nd : Nat) :
    ∀ (n i : Nat) (st st' : BfsState), bfs_scan G nd n i st = some st' →
      st.queue.length < 2 ^ 32 →
      st'.head = st.head ∧ st'.queue.length = st.queue.length ∧ st.tail ≤ st'.tail ∧
        (∀ j, st'.tail ≤ j → st'.queue[j]? = st.queue[j]?) ∧
        (∀ j, j < st.tail → st'.queue[j]? = st.queue[j]?) := by
  intro n
  induction n with
  | zero =>
    intro i st st' h _
    simp only [bfs_scan, Option.some.injEq] at h
    subst h
    exact ⟨rfl, rfl, le_refl _, fun _ _ => rfl, fun _ _ => rfl⟩
  | succ n ih =>
    intro i st st' h hlen
    simp only [bfs_scan] at h
    cases he : G.edges[i]? with
    | none => simp [he] at h
    | some edge =>
      simp only [he] at h
      cases hd : st.distances[edge]? with
      | none => simp [hd] at h
      | some d =>
        simp only [hd] at h
        by_cases hlt : nd < d
        · simp only [if_pos hlt] at h
          by_cases ht : st.tail < st.queue.length
          · by_cases hel : edge < st.distances.length
            · simp only [store_eq ht, store_eq hel] at h
              have hmod : (st.tail + 1) % 2 ^ 32 = st.tail + 1 := Nat.mod_eq_of_lt (by omega)
              rw [hmod] at h
              obtain ⟨h1, h2, h3, h4, h5⟩ := ih (i + 1) _ st' h (by simpa using hlen)
              simp only [List.length_set] at h2
              refine ⟨h1, h2, ?_, ?_, ?_⟩
              · exact le_trans (Nat.le_succ _) h3
              · intro j hj
                rw [h4 j hj, List.getElem?_set, if_neg]
                have : st.tail + 1 ≤ st'.tail := h3
                omega
              · intro j hj
                rw [h5 j (Nat.lt_succ_of_lt hj), List.getElem?_set, if_neg]
                omega
            · simp [store, ht, hel] at h
          · simp [store, ht] at h
        · simp only [if_neg hlt] at h
          exact ih (i + 1) st st' h hlen

/-- The body of the loop of `bfs` advances `head` by one, sets `current` to the
cell it read at the old `head`, and writes the queue only from the old `tail`
up to the new one. -/
theorem bfs_body_frame (G : Graph) (st st' : BfsState) (h : bfs_body G st = some st')
    (hlen : st.queue.length < 2 ^ 32) :
    st'.head = st.head + 1 ∧ st'.queue[st.head]? = some st'.current ∧
      st'.queue.length = st.queue.length ∧ st.tail ≤ st'.tail ∧
      (∀ j, st'.tail ≤ j → st'.queue[j]? = st.queue[j]?) ∧
      (∀ j, j < st.tail → st'.queue[j]? = st.queue[j]?) := by
  simp only [bfs_body] at h
  cases h1 : st.distances[st.current]? with
  | none => simp [h1] at h
  | some d =>
    cases h2 : G.nodes[st.current]? with
    | none => simp [h1, h2] at h
    | some lo =>
      cases h3 : G.nodes[st.current + 1]? with
      | none => simp [h1, h2, h3] at h
      | some hi =>
        simp only [h1, h2, h3] at h
        cases h4 : bfs_scan G ((d + 1) % 2 ^ 32) (hi - lo) lo st with
        | none => rw [h4] at h; cases h
        | some st1 =>
          simp only [h4] at h
          obtain ⟨f1, f2, f3, f4, f5⟩ := bfs_scan_frame G _ _ _ st st1 h4 hlen
          cases h5 : st1.queue[st1.head]? with
          | none => rw [h5] at h; cases h
          | some cur =>
            simp only [h5, Option.some.injEq] at h
            subst h
            have hlt : st1.head < st1.queue.length := by
              by_contra hcon
              rw [List.getElem?_eq_none (by omega)] at h5
              cases h5
            have hmod : (st1.head + 1) % 2 ^ 32 = st1.head + 1 :=
              Nat.mod_eq_of_lt (by omega)
            refine ⟨?_, ?_, f2, f3, f4, f5⟩
            · show (st1.head + 1) % 2 ^ 32 = st.head + 1
              rw [hmod, f1]
            · show st1.queue[st.head]? = some cur
              rw [← f1]
              exact h5

/-- The loop of `bfs` writes the queue only between the initial and the final
`tail`; when it is left, `current` holds the cell read at the last `head`. -/
theorem bfs_loop_trace_frame (G : Graph) :
    ∀ (fuel : Nat) (st : BfsState) (tr : List BfsState) (st' : BfsState),
      bfs_loop_trace G fuel st = some (tr, st') → st.queue.length < 2 ^ 32 →
      st'.queue.length = st.queue.length ∧ st.tail ≤ st'.tail ∧
        (∀ j, st'.tail ≤ j → st'.queue[j]? = st.queue[j]?) ∧
        (∀ j, j < st.tail → st'.queue[j]? = st.queue[j]?) ∧
        (∃ h0, st'.head = h0 + 1 ∧ st'.queue[h0]? = some st'.current) ∧
        (∀ x ∈ tr, x.tail ≤ st'.tail ∧ ∀ j, j < x.tail → st'.queue[j]? = x.queue[j]?) := by
  intro fuel
  induction fuel with
  | zero =>
    intro st tr st' h _
    simp [bfs_loop_trace] at h
  | succ fuel ih =>
    intro st tr st' h hlen
    simp only [bfs_loop_trace] at h
    cases hb : bfs_body G st with
    | none => rw [hb] at h; cases h
    | some st1 =>
      simp only [hb] at h
      obtain ⟨b1, b2, b3, b4, b5, b6⟩ := bfs_body_frame G st st1 hb hlen
      by_cases hc : st1.head ≤ st1.tail
      · simp only [if_pos hc] at h
        cases hr : bfs_loop_trace G fuel st1 with
        | none => rw [hr] at h; cases h
        | some r =>
          obtain ⟨tr1, st2⟩ := r
          rw [hr] at h
          simp only [Option.map_some', Option.some.injEq, Prod.mk.injEq] at h
          obtain ⟨rfl, rfl⟩ := h
          obtain ⟨i1, i2, i3, i4, i5, i6⟩ := ih st1 tr1 st2 hr (by omega)
          refine ⟨by omega, by omega, ?_, ?_, i5, ?_⟩
          · intro j hj
            rw [i3 j hj, b5 j (by omega)]
          · intro j hj
            rw [i4 j (by omega), b6 j hj]
          · intro x hx
            rcases List.mem_cons.mp hx with rfl | hx
            · exact ⟨by omega, fun j hj => by rw [i4 j (by omega), b6 j hj]⟩
            · exact i6 x hx
      · simp only [if_neg hc, Option.some.injEq, Prod.mk.injEq] at h
        obtain ⟨rfl, rfl⟩ := h
        refine ⟨b3, b4, b5, b6, ⟨st.head, b1, b2⟩, ?_⟩
        intro x hx
        rw [List.mem_singleton] at hx
        subst hx
        exact ⟨b4, b6⟩

/-- The discovered nodes of an earlier state are an initial part of those of a
later one. -/
theorem QRel.getD_eq {G : Graph} {s : Nat} {st st' : BfsState} {L L' : List Nat}
    (h : QRel G s st L) (h' : QRel G s st' L') (ht : st.tail ≤ st'.tail)
    (hq : ∀ j, j < st.tail → st'.queue[j]? = st.queue[j]?) :
    ∀ k, k < L.length → L'.getD k 0 = L.getD k 0 := by
  intro k hk
  obtain ⟨h1, h2, rfl⟩ := h
  obtain ⟨h1', h2', rfl⟩ := h'
  cases k with
  | zero => rfl
  | succ k =>
    simp only [List.length_cons, List.length_take] at hk
    have hk1 : k < st.tail := by omega
    simp only [List.getD_eq_getElem?_getD, List.getElem?_cons_succ]
    rw [List.getElem?_take_of_lt hk1, List.getElem?_take_of_lt (by omega), hq k hk1]

/-- The iterations of the loop of `bfs`: the body is entered once for every
discovered node from position `k` on, in the order of discovery, with `head`
advancing by one each time. -/
theorem bfs_loop_trace_spec {G : Graph} (hG : G.WellFormed) (s : Nat) :
    ∀ (fuel k : Nat) (st : BfsState) (L : List Nat),
      BfsInv G s st.distances L k → QRel G s st L → k < L.length → st.head = k →
      st.current = L.getD k 0 → G.nNodes ≤ fuel + k →
      ∃ tr st' L', bfs_loop_trace G fuel st = some (tr, st') ∧
        BfsInv G s st'.distances L' L'.length ∧ QRel G s st' L' ∧ st'.head = L'.length ∧
        tr.map BfsState.current = L'.drop k ∧
        ∀ i x, tr[i]? = some x → x.head = k + i ∧
          ∃ Lx, BfsInv G s x.distances Lx (k + i) ∧ QRel G s x Lx ∧ k + i < Lx.length := by
  intro fuel
  induction fuel with
  | zero =>
    intro k st L hinv _ hk _ _ hf
    have := hinv.length_le
    omega
  | succ fuel ih =>
    intro k st L hinv hq hk hhead hcur hf
    obtain ⟨st1, L1, hrun, hinv1, hq1, hlen1, hhead1, hcur1⟩ :=
      bfs_body_spec hG s k st L hinv hq hk hhead hcur
    have hL1 := QRel.length_eq hq1
    have hN := hG.nNodes_lt
    have hql : st.queue.length < 2 ^ 32 := by rw [hq.1]; omega
    obtain ⟨b1, b2, b3, b4, b5, b6⟩ := bfs_body_frame G st st1 hrun hql
    by_cases hcont : st1.head ≤ st1.tail
    · have hk1 : k + 1 < L1.length := by omega
      obtain ⟨tr, st', L', hrun', h1, h2, h3, h4, h5⟩ :=
        ih (k + 1) st1 L1 hinv1 hq1 hk1 hhead1 (hcur1 hk1) (by omega)
      obtain ⟨f1, f2, f3, f4, -, -⟩ :=
        bfs_loop_trace_frame G fuel st1 tr st' hrun' (by omega)
      have hpre := QRel.getD_eq hq h2 (by omega)
        (fun j hj => by rw [f4 j (by omega), b6 j hj]) k hk
      have hL' := QRel.length_eq h2
      have hkL' : k < L'.length := by
        have := QRel.length_eq hq
        omega
      refine ⟨st :: tr, st', L', ?_, h1, h2, h3, ?_, ?_⟩
      · simp only [bfs_loop_trace, hrun, if_pos hcont, hrun', Option.map_some']
      · rw [List.map_cons, h4, hcur, ← hpre, List.drop_eq_getElem_cons hkL',
          List.getD_eq_getElem?_getD, List.getElem?_eq_getElem hkL']
        rfl
      · intro i x hx
        cases i with
        | zero =>
          simp only [List.getElem?_cons_zero, Option.some.injEq] at hx
          subst hx
          exact ⟨hhead, L, hinv, hq, hk⟩
        | succ i =>
          simp only [List.getElem?_cons_succ] at hx
          obtain ⟨g1, Lx, g2, g3, g4⟩ := h5 i x hx
          have : k + (i + 1) = k + 1 + i := by omega
          rw [this]
          exact ⟨g1, Lx, g2, g3, g4⟩
    · have hk1 : k + 1 = L1.length := by omega
      have hpre := QRel.getD_eq hq hq1 b4 b6 k hk
      have hkL1 : k < L1.length := by omega
      refine ⟨[st], st1, L1, ?_, by rw [← hk1]; exact hinv1, hq1, by rw [hhead1, hk1],
        ?_, ?_⟩
      · simp only [bfs_loop_trace, hrun, if_neg hcont]
      · rw [List.map_cons, List.map_nil, hcur, ← hpre, List.drop_eq_getElem_cons hkL1,
          List.getD_eq_getElem?_getD, List.getElem?_eq_getElem hkL1,
          List.drop_eq_nil_of_le (by omega)]
        rfl
      · intro i x hx
        cases i with
        | zero =>
          simp only [List.getElem?_cons_zero, Option.some.injEq] at hx
          subst hx
          exact ⟨hhead, L, hinv, hq, hk⟩
        | succ i => simp at hx

/-- The run of `bfs` from a valid source on a well-formed graph, with its
iterations: the loop is left within `nNodes` iterations, the body is entered
once for every discovered node, and the value left in `current` is the cell
`queue[tail]`, which the call never wrote. -/
theorem Graph.bfs_trace_spec (G : Graph) (hG : G.WellFormed) (queue0 distances : List Nat)
    (s : Nat) (hs : s < G.nNodes) (hq : queue0.length = G.nNodes)
    (hd : distances.length = G.nNodes) :
    ∃ st0 tr st L, G.bfs_start queue0 s distances = some st0 ∧
      bfs_loop_trace G G.nNodes st0 = some (tr, st) ∧
      G.bfs queue0 (s : Int) distances = some (0, st.distances) ∧
      BfsInv G s st.distances L L.length ∧ QRel G s st L ∧ st.head = L.length ∧
      tr.map BfsState.current = L ∧
      (∀ i x, tr[i]? = some x → x.head = i ∧
        ∃ Lx, BfsInv G s x.distances Lx i ∧ QRel G s x Lx ∧ i < Lx.length) ∧
      st.queue[st.tail]? = some st.current ∧ queue0[st.tail]? = some st.current := by
  obtain ⟨ds1, hinit, hlen1, hmax, -⟩ := init_distances_spec G.nNodes 0 distances (by omega)
  have hmax' : ∀ j, j < G.nNodes → ds1[j]? = some UINT_MAX :=
    fun j hj => hmax j (Nat.zero_le j) (by omega)
  have hinv0 := bfs_init_inv G s hs ds1 (by omega) hmax'
  have hN := hG.nNodes_lt
  obtain ⟨tr, st, L, hrun, hinv, hqr, hhead, hcur, hall⟩ :=
    bfs_loop_trace_spec hG s G.nNodes 0
      { distances := ds1.set s 0, queue := queue0, head := 0, tail := 0, current := s } [s]
      hinv0 ⟨hq, by show 0 < G.nNodes; omega, rfl⟩ (by simp) rfl rfl (by omega)
  obtain ⟨f1, f2, f3, f4, ⟨h0, f5, f6⟩, -⟩ :=
    bfs_loop_trace_frame G G.nNodes _ tr st hrun (by show queue0.length < 2 ^ 32; omega)
  have hsl : s < ds1.length := by omega
  have hLlen := QRel.length_eq hqr
  have hh0 : h0 = st.tail := by omega
  subst hh0
  refine ⟨_, tr, st, L, ?_, hrun, ?_, hinv, hqr, hhead, ?_, ?_, f6, ?_⟩
  · simp only [Graph.bfs_start, hinit, store_eq hsl]
  · have hguard : ¬ (((s : Nat) : Int) < 0 ∨ ((s : Nat) : Int) > (G.nNodes : Int)) := by omega
    have hloop := bfs_loop_eq_trace G G.nNodes
      { distances := ds1.set s 0, queue := queue0, head := 0, tail := 0, current := s }
    rw [hrun] at hloop
    simp only [Graph.bfs, if_neg hguard, hinit, Int.toNat_ofNat, store_eq hsl, hloop,
      Option.map_some']
  · rw [hcur, List.drop_zero]
  · intro i x hx
    have := hall i x hx
    simpa using this
  · rw [← f6]
    exact (f3 st.tail (le_refl _)).symm

/-- C32 (refuted as stated): on the path `0 — 1 — 2` with source 0 and a queue
whose cells initially hold 9, the body of the loop of `bfs` is entered three
times, with `current` equal to 0, 1 and 2: once for the source and once for each
of the two nodes written to the queue (`tail` ends at 2). There is no further
iteration: the stale value 9 read from `queue[2]` by the last `queue[head++]` is
left in `current` when the loop exits on `head = 3 > tail = 2`. -/
theorem Graph_bfs_no_extra_iteration :
    ∃ st0 tr st, pathGraph.bfs_start [9, 9, 9] 0 [7, 7, 7] = some st0 ∧
      bfs_loop_trace pathGraph pathGraph.nNodes st0 = some (tr, st) ∧
      tr.map BfsState.current = [0, 1, 2] ∧ st.tail = 2 ∧ st.head = 3 ∧
      tr.length ≠ 1 + st.tail + 1 ∧ st.current = 9 ∧ st.queue = [1, 2, 9] :=
  ⟨_, _, _, rfl, rfl, rfl, rfl, rfl, by decide, rfl, rfl⟩

/-- C32 (amended): for every well-formed graph and valid source `s`, the
`do ... while (head <= tail)` loop of `bfs` executes its body once for the
source and once for each node written to `queue`, in that order, and no further
time: `1 + tail` executions in all. The loop is left with `head = tail + 1`; the
last `current = queue[head++]` read the cell `queue[tail]`, which still holds
the value it had before the call, and that value is never used as a node. -/
theorem Graph_bfs_iterations (G : Graph) (hG : G.WellFormed) (queue0 distances : List Nat)
    (s : Nat) (hs : s < G.nNodes) (hq : queue0.length = G.nNodes)
    (hd : distances.length = G.nNodes) :
    ∃ st0 tr st, G.bfs_start queue0 s distances = some st0 ∧
      bfs_loop_trace G G.nNodes st0 = some (tr, st) ∧
      G.bfs queue0 (s : Int) distances = some (0, st.distances) ∧
      tr.map BfsState.current = s :: st.queue.take st.tail ∧
      tr.length = 1 + st.tail ∧ st.head = st.tail + 1 ∧
      st.queue[st.tail]? = some st.current ∧ queue0[st.tail]? = some st.current := by
  obtain ⟨st0, tr, st, L, h1, h2, h3, -, hqr, hhead, hcur, -, h4, h5⟩ :=
    G.bfs_trace_spec hG queue0 distances s hs hq hd
  have hL := QRel.length_eq hqr
  refine ⟨st0, tr, st, h1, h2, h3, ?_, ?_, by omega, h4, h5⟩
  · rw [hcur]
    exact hqr.2.2
  · have := congrArg List.length hcur
    rw [List.length_map] at this
    omega

theorem Graph_bfs_iterations_witness :
    ∃ st0 tr st, pathGraph.bfs_start [9, 9, 9] 0 [7, 7, 7] = some st0 ∧
      bfs_loop_trace pathGraph pathGraph.nNodes st0 = some (tr, st) ∧
      pathGraph.bfs [9, 9, 9] ((0 : Nat) : Int) [7, 7, 7] = some (0, st.distances) ∧
      tr.map BfsState.current = 0 :: st.queue.take st.tail ∧
      tr.length = 1 + st.tail ∧ st.head = st.tail + 1 ∧
      st.queue[st.tail]? = some st.current ∧ [9, 9, 9][st.tail]? = some st.current :=
  Graph_bfs_iterations pathGraph pathGraph_wf [9, 9, 9] [7, 7, 7] 0 (by decide) rfl rfl

/-- C34: for every well-formed CSR graph and every source `0 ≤ s < nNodes`,
`bfs` runs without an access outside an array (the run yields a result, which
the model does only when every index into `queue`, `nodes`, `edges` and
`distances` is inside its array), and in every state in which the body of the
loop is entered and in the state in which the loop is left, the cells
`queue[0 .. tail)` written so far do not contain the source and contain no node
twice, and `tail ≤ nNodes - 1`. The queue is only appended to, so the same holds
in between. -/
theorem Graph_bfs_in_bounds (G : Graph) (hG : G.WellFormed) (queue0 distances : List Nat)
    (s : Nat) (hs : s < G.nNodes) (hq : queue0.length = G.nNodes)
    (hd : distances.length = G.nNodes) :
    ∃ st0 tr st, G.bfs_start queue0 s distances = some st0 ∧
      bfs_loop_trace G G.nNodes st0 = some (tr, st) ∧
      G.bfs queue0 (s : Int) distances = some (0, st.distances) ∧
      ∀ x, x ∈ tr ++ [st] → x.queue.length = G.nNodes ∧ x.tail ≤ G.nNodes - 1 ∧
        s ∉ x.queue.take x.tail ∧ (x.queue.take x.tail).Nodup ∧ x.head ≤ x.tail + 1 := by
  obtain ⟨st0, tr, st, L, h1, h2, h3, hinv, hqr, hhead, -, hall, -, -⟩ :=
    G.bfs_trace_spec hG queue0 distances s hs hq hd
  refine ⟨st0, tr, st, h1, h2, h3, ?_⟩
  have key : ∀ (x : BfsState) (Lx : List Nat) (k : Nat), BfsInv G s x.distances Lx k →
      QRel G s x Lx → x.head ≤ Lx.length →
      x.queue.length = G.nNodes ∧ x.tail ≤ G.nNodes - 1 ∧
        s ∉ x.queue.take x.tail ∧ (x.queue.take x.tail).Nodup ∧ x.head ≤ x.tail + 1 := by
    intro x Lx k hi hr hh
    have hlen := QRel.length_eq hr
    have hnd := hi.nodup
    obtain ⟨r1, r2, r3⟩ := hr
    rw [r3, List.nodup_cons] at hnd
    exact ⟨r1, by omega, hnd.1, hnd.2, by omega⟩
  intro x hx
  rcases List.mem_append.mp hx with hx | hx
  · obtain ⟨i, hi, hix⟩ := List.mem_iff_getElem.mp hx
    obtain ⟨g1, Lx, g2, g3, g4⟩ := hall i x (by rw [List.getElem?_eq_getElem hi, hix])
    exact key x Lx i g2 g3 (by omega)
  · rw [List.mem_singleton] at hx
    subst hx
    exact key x L _ hinv hqr (by omega)

theorem Graph_bfs_in_bounds_witness :
    ∃ st0 tr st, pathGraph.bfs_start [9, 9, 9] 0 [7, 7, 7] = some st0 ∧
      bfs_loop_trace pathGraph pathGraph.nNodes st0 = some (tr, st) ∧
      pathGraph.bfs [9, 9, 9] ((0 : Nat) : Int) [7, 7, 7] = some (0, st.distances) ∧
      ∀ x, x ∈ tr ++ [st] → x.queue.length = pathGraph.nNodes ∧
        x.tail ≤ pathGraph.nNodes - 1 ∧
        0 ∉ x.queue.take x.tail ∧ (x.queue.take x.tail).Nodup ∧ x.head ≤ x.tail + 1 :=
  Graph_bfs_in_bounds pathGraph pathGraph_wf [9, 9, 9] [7, 7, 7] 0 (by decide) rfl rfl

/-- C35: for every well-formed CSR graph and every source `0 ≤ s < nNodes`,
`bfs` terminates: the loop is left within `nNodes` executions of its body.
`head` is `i` when the body is entered for the `i`-th time (counting from 0) and
equals the number of executions at the end, `tail` never exceeds `nNodes - 1`,
and the number of executions is exactly 1 + the number of nodes other than `s`
that are reachable from `s`. -/
theorem Graph_bfs_terminates (G : Graph) (hG : G.WellFormed) (queue0 distances : List Nat)
    (s : Nat) (hs : s < G.nNodes) (hq : queue0.length = G.nNodes)
    (hd : distances.length = G.nNodes) :
    ∃ st0 tr st, G.bfs_start queue0 s distances = some st0 ∧
      bfs_loop_trace G G.nNodes st0 = some (tr, st) ∧
      G.bfs queue0 (s : Int) distances = some (0, st.distances) ∧
      (∀ (i : Nat) (x : BfsState), tr[i]? = some x → x.head = i ∧ x.tail ≤ G.nNodes - 1) ∧
      st.head = tr.length ∧ st.tail ≤ G.nNodes - 1 ∧ tr.length ≤ G.nNodes ∧
      tr.length = 1 + Set.ncard {v | v ≠ s ∧ ∃ n, G.Walk s n v} := by
  obtain ⟨st0, tr, st, L, h1, h2, h3, hinv, hqr, hhead, hcur, hall, -, -⟩ :=
    G.bfs_trace_spec hG queue0 distances s hs hq hd
  have hL := QRel.length_eq hqr
  have htr : tr.length = L.length := by
    have := congrArg List.length hcur
    rwa [List.length_map] at this
  have hfinal := hinv.final hG
  have hnd := hinv.nodup
  obtain ⟨r1, r2, r3⟩ := hqr
  refine ⟨st0, tr, st, h1, h2, h3, ?_, by omega, by omega, by omega, ?_⟩
  · intro i x hx
    obtain ⟨g1, Lx, -, g3, -⟩ := hall i x hx
    exact ⟨g1, by have := g3.2.1; omega⟩
  · have hset : {v | v ≠ s ∧ ∃ n, G.Walk s n v} =
        ((st.queue.take st.tail).toFinset : Set Nat) := by
      ext v
      simp only [Set.mem_setOf_eq, List.coe_toFinset]
      rw [r3, List.nodup_cons] at hnd
      constructor
      · rintro ⟨hne, n, hw⟩
        have := (hfinal n v hw).1
        rw [r3, List.mem_cons] at this
        rcases this with h | h
        · exact absurd h hne
        · exact h
      · intro hv
        refine ⟨?_, _, hinv.walk v (by rw [r3]; exact List.mem_cons_of_mem _ hv)⟩
        rintro rfl
        exact hnd.1 hv
    rw [hset, Set.ncard_coe_Finset, List.toFinset_card_of_nodup]
    · rw [List.length_take, Nat.min_eq_left (by omega)]
      omega
    · rw [r3, List.nodup_cons] at hnd
      exact hnd.2

theorem Graph_bfs_terminates_witness :
    ∃ st0 tr st, pathGraph.bfs_start [9, 9, 9] 0 [7, 7, 7] = some st0 ∧
      bfs_loop_trace pathGraph pathGraph.nNodes st0 = some (tr, st) ∧
      pathGraph.bfs [9, 9, 9] ((0 : Nat) : Int) [7, 7, 7] = some (0, st.distances) ∧
      (∀ (i : Nat) (x : BfsState), tr[i]? = some x → x.head = i ∧ x.tail ≤ pathGraph.nNodes - 1) ∧
      st.head = tr.length ∧ st.tail ≤ pathGraph.nNodes - 1 ∧ tr.length ≤ pathGraph.nNodes ∧
      tr.length = 1 + Set.ncard {v | v ≠ 0 ∧ ∃ n, pathGraph.Walk 0 n v} :=
  Graph_bfs_terminates pathGraph pathGraph_wf [9, 9, 9] [7, 7, 7] 0 (by decide) rfl rfl

/-! ## The source check of `bfs` in the revision `bfs-icc` -/

/-- C33 (what the code does instead): in the revision `bfs-icc`, for `s < 0`
or `s > nNodes` the call `bfs(s, distances)` returns -1 only after the
initialisation loop has run: every entry of `distances` is `UINT_MAX`
afterwards, whatever it held before the call. -/
theorem Graph_bfs_icc_reject_overwrites (G : Graph) (queue0 distances : List Nat) (s : Int)
    (hs : s < 0 ∨ s > (G.nNodes : Int)) (hd : distances.length = G.nNodes) :
    G.bfs_icc queue0 s distances = some (-1, List.replicate G.nNodes UINT_MAX) := by
  obtain ⟨ds1, hinit, hlen1, hmax, -⟩ := init_distances_spec G.nNodes 0 distances (by omega)
  have hds : ds1 = List.replicate G.nNodes UINT_MAX := by
    apply List.ext_getElem?
    intro j
    by_cases hj : j < G.nNodes
    · rw [hmax j (Nat.zero_le j) (by omega), List.getElem?_replicate, if_pos hj]
    · rw [List.getElem?_eq_none (by omega), List.getElem?_eq_none (by simp; omega)]
  simp only [Graph.bfs_icc, hinit, if_pos hs, hds]

theorem Graph_bfs_icc_reject_overwrites_witness :
    pathGraph.bfs_icc [0, 0, 0] (-1) [7, 7, 7] =
      some (-1, List.replicate pathGraph.nNodes UINT_MAX) :=
  Graph_bfs_icc_reject_overwrites pathGraph [0, 0, 0] [7, 7, 7] (-1) (Or.inl (by decide)) rfl

/-! ## The archival revision: the range of `size` under `insert` -/

namespace Archival

theorem Bag.insert_loop_size {T : Type} :
    ∀ (fuel i : Nat) (c : Pennant T) (b b' : Bag T),
      Bag.insert_loop fuel i c b = some b' → b'.size = b.size := by
  intro fuel
  induction fuel with
  | zero =>
    intro i c b b' h
    simp [Bag.insert_loop] at h
  | succ fuel ih =>
    intro i c b b' h
    simp only [Bag.insert_loop] at h
    cases hp : (if i < b.fill then b.bag[i]? else some Pennant.null) with
    | none => rw [hp] at h; cases h
    | some p =>
      simp only [hp] at h
      by_cases hn : p.isNull = true
      · simp only [if_pos hn] at h
        cases hs : store b.bag i c with
        | none => rw [hs] at h; cases h
        | some bag' =>
          simp only [hs, Option.some.injEq] at h
          subst h
          rfl
      · simp only [if_neg hn] at h
        cases hc : p.combine c with
        | none => simp [hc] at h
        | some c' =>
          cases hs : store b.bag i Pennant.null with
          | none => simp [hc, hs] at h
          | some bag' =>
            simp only [hc, hs] at h
            by_cases hi : i + 1 < BAG_SIZE
            · simp only [if_pos hi] at h
              exact ih (i + 1) c' { b with bag := bag' } b' h
            · simp only [if_neg hi, Option.some.injEq] at h
              subst h
              rfl

/-- The loop of `insert` stores the carry at once in a slot at or above `fill`. -/
theorem Bag.insert_loop_free {T : Type} (fuel i : Nat) (c : Pennant T) (b : Bag T)
    (hi : ¬ i < b.fill) (hl : i < b.bag.length) :
    Bag.insert_loop (fuel + 1) i c b =
      some { b with bag := b.bag.set i c, fill := if b.fill > i + 1 then b.fill else i + 1 } := by
  simp only [Bag.insert_loop, if_neg hi, Pennant.isNull, if_true, store_eq hl]

/-- Under `insert` the field `size` stays at most `BLK_SIZE`. -/
theorem Bag.insert_size_le {T : Type} [Inhabited T] (b b' : Bag T) (el : T)
    (h : b.insert el = some b') : b'.size ≤ BLK_SIZE := by
  simp only [Bag.insert] at h
  by_cases hlt : b.size < BLK_SIZE
  · simp only [if_pos hlt] at h
    cases hf : b.filling with
    | null => simp [hf] at h
    | node e l r =>
      simp only [hf] at h
      cases hs : store e b.size el with
      | none => rw [hs] at h; cases h
      | some e' =>
        simp only [hs, Option.some.injEq] at h
        subst h
        exact hlt
  · simp only [if_neg hlt] at h
    cases hs : store (List.replicate BLK_SIZE (default : T)) 0 el with
    | none => rw [hs] at h; cases h
    | some e' =>
      simp only [hs] at h
      rw [Bag.insert_loop_size _ _ _ _ _ h]
      show 1 ≤ BLK_SIZE
      decide

/-- While the filling has room, `insert` only appends to it. -/
theorem Bag.insertAll_room {T : Type} [Inhabited T] :
    ∀ (els : List T) (b : Bag T) (e : List T), b.filling = Pennant.node e Pennant.null Pennant.null →
      e.length = BLK_SIZE → b.size + els.length ≤ BLK_SIZE →
      ∃ b' e', Bag.insertAll b els = some b' ∧ b'.size = b.size + els.length ∧
        b'.fill = b.fill ∧ b'.bag = b.bag ∧
        b'.filling = Pennant.node e' Pennant.null Pennant.null ∧ e'.length = BLK_SIZE := by
  intro els
  induction els with
  | nil =>
    intro b e hf he _
    exact ⟨b, e, rfl, rfl, rfl, rfl, hf, he⟩
  | cons x xs ih =>
    intro b e hf he hsz
    simp only [List.length_cons] at hsz
    have hlt : b.size < BLK_SIZE := by omega
    have hst : b.size < e.length := by omega
    obtain ⟨b', e', h1, h2, h3, h4, h5, h6⟩ :=
      ih { b with filling := Pennant.node (e.set b.size x) Pennant.null Pennant.null,
                  size := b.size + 1 } (e.set b.size x) rfl (by simpa using he)
        (by show b.size + 1 + xs.length ≤ BLK_SIZE; omega)
    refine ⟨b', e', ?_, ?_, h3, h4, h5, h6⟩
    · simp only [Bag.insertAll, Bag.insert, if_pos hlt, hf, store_eq hst]
      exact h1
    · rw [h2, List.length_cons]
      show b.size + 1 + xs.length = b.size + (xs.length + 1)
      omega

end Archival

/-- C31 (refuted as stated): in the archival revision, inserting the
`BLK_SIZE = 128` integers `0 .. 127` into a newly constructed bag leaves
`size == 128 == BLK_SIZE` and `fill == 0`: `insert` tests `size < BLK_SIZE`
before it stores, so the full block stays in `filling` until the next call. -/
theorem Archival_insert_block_stays :
    ∃ b, Archival.Bag.insertAll Archival.Bag.fresh (List.range Archival.BLK_SIZE) = some b ∧
      b.size = Archival.BLK_SIZE ∧ ¬ b.size < Archival.BLK_SIZE ∧ b.fill = 0 := by
  obtain ⟨b, e, h1, h2, h3, -, -, -⟩ :=
    Archival.Bag.insertAll_room (List.range Archival.BLK_SIZE) Archival.Bag.fresh
      (List.replicate Archival.BLK_SIZE 0) rfl (by simp)
      (by rw [List.length_range]; show 0 + Archival.BLK_SIZE ≤ Archival.BLK_SIZE; omega)
  rw [List.length_range] at h2
  have h0 : Archival.Bag.fresh.size = 0 := rfl
  have hf0 : Archival.Bag.fresh.fill = 0 := rfl
  exact ⟨b, h1, by omega, by omega, by omega⟩

/-- C31 (amended): in the archival revision (`BLK_SIZE = 128`) every state
reachable from a newly constructed bag by `insert` satisfies
`0 ≤ size ≤ BLK_SIZE`, and the value `BLK_SIZE` is reached: after inserting
exactly `BLK_SIZE` elements into a newly constructed bag, `size == BLK_SIZE` and
`fill == 0`; it is the next `insert` that moves the full block to `bag[0]`,
leaving `size == 1`, `fill == 1` and `bag[0]` non-null. -/
theorem Archival_insert_size_le {T : Type} [Inhabited T] :
    (∀ b : Archival.Bag T, b.ReachInsert → b.size ≤ Archival.BLK_SIZE) ∧
      ∀ (slots : List (Pennant T)) (blk els : List T) (el : T),
        slots.length = Archival.BAG_SIZE → blk.length = Archival.BLK_SIZE →
        els.length = Archival.BLK_SIZE →
        ∃ b b', Archival.Bag.insertAll (Archival.Bag.new slots blk) els = some b ∧
          b.size = Archival.BLK_SIZE ∧ b.fill = 0 ∧
          b.insert el = some b' ∧ b'.size = 1 ∧ b'.fill = 1 ∧
          ∃ p, b'.bag[0]? = some p ∧ p.isNull = false := by
  constructor
  · intro b hb
    induction hb with
    | new slots blk _ _ => exact Nat.zero_le _
    | insert el _ h _ => exact Archival.Bag.insert_size_le _ _ el h
  · intro slots blk els el hs hb he
    obtain ⟨b, e, h1, h2, h3, h4, h5, h6⟩ :=
      Archival.Bag.insertAll_room els (Archival.Bag.new slots blk) blk rfl hb
        (by rw [he]; show 0 + Archival.BLK_SIZE ≤ Archival.BLK_SIZE; omega)
    have hsz : b.size = Archival.BLK_SIZE := by
      rw [h2, he]
      show 0 + Archival.BLK_SIZE = Archival.BLK_SIZE
      omega
    have hfill : b.fill = 0 := h3
    have hbag : b.bag = slots := h4
    have h0 : 0 < slots.length := by rw [hs]; decide
    have hnl : ¬ b.size < Archival.BLK_SIZE := by omega
    have hrep : 0 < (List.replicate Archival.BLK_SIZE (default : T)).length := by
      rw [List.length_replicate]; decide
    refine ⟨b, { b with bag := slots.set 0 b.filling, fill := 1,
                        filling := Pennant.ofBlock
                          ((List.replicate Archival.BLK_SIZE (default : T)).set 0 el),
                        size := 1 }, h1, hsz, hfill, ?_, rfl, rfl, b.filling, ?_, ?_⟩
    · have hins : b.insert el = Archival.Bag.insert_loop (63 + 1) 0 b.filling
          { b with filling := Pennant.ofBlock
                     ((List.replicate Archival.BLK_SIZE (default : T)).set 0 el),
                   size := 1 } := by
        simp only [Archival.Bag.insert, if_neg hnl, store_eq hrep]
        rfl
      rw [hins, Archival.Bag.insert_loop_free 63 0 _ _ (by show ¬ 0 < b.fill; omega)
        (by show 0 < b.bag.length; rw [hbag]; exact h0)]
      show some _ = some _
      congr 1
      show Archival.Bag.mk _ _ _ _ = Archival.Bag.mk _ _ _ _
      rw [hbag, hfill]
      rfl
    · show (slots.set 0 b.filling)[0]? = some b.filling
      rw [List.getElem?_set_self h0]
    · rw [h5]
      rfl

theorem Archival_insert_size_le_witness :
    Archival.Bag.fresh.size ≤ Archival.BLK_SIZE ∧
      ∃ b b', Archival.Bag.insertAll Archival.Bag.fresh (List.replicate Archival.BLK_SIZE 5) =
          some b ∧
        b.size = Archival.BLK_SIZE ∧ b.fill = 0 ∧
        b.insert 6 = some b' ∧ b'.size = 1 ∧ b'.fill = 1 ∧
        ∃ p, b'.bag[0]? = some p ∧ p.isNull = false :=
  ⟨Archival_insert_size_le.1 Archival.Bag.fresh
      (Archival.Bag.ReachInsert.new _ _ (List.length_replicate _ _)
        (List.length_replicate _ _)),
    Archival_insert_size_le.2 (List.replicate Archival.BAG_SIZE Pennant.null)
      (List.replicate Archival.BLK_SIZE 0) (List.replicate Archival.BLK_SIZE 5) 6
      (List.length_replicate _ _) (List.length_replicate _ _) (List.length_replicate _ _)⟩

/-! ## The construction of a graph: the stores of the scatter loop -/

section

theorem Graph.new_scatter_col_log_fst (ir : List Int) (col : Nat) :
    ∀ (k : Nat) (j : Int) (w edges : List Nat),
      (Graph.new_scatter_col_log ir col k j w edges).map (fun x => (x.1, x.2.1)) =
        Graph.new_scatter_col ir col k j w edges := by
  intro k
  induction k with
  | zero => intro j w edges; rfl
  | succ k ih =>
    intro j w edges
    simp only [Graph.new_scatter_col_log, Graph.new_scatter_col]
    by_cases hj : j < 0
    · simp only [if_pos hj, Option.map_none']
    · simp only [if_neg hj]
      cases hr : ir[j.toNat]? with
      | none => rfl
      | some r =>
        simp only []
        by_cases hr0 : r < 0
        · simp only [if_pos hr0, Option.map_none']
        · simp only [if_neg hr0]
          cases hw : w[r.toNat]? with
          | none => rfl
          | some pos =>
            simp only []
            cases hs : store edges pos col with
            | none => rfl
            | some edges' =>
              simp only [Option.map_map]
              rw [← ih (j + 1) (w.set r.toNat (pos + 1)) edges']
              rfl

theorem Graph.new_scatter_log_fst (ir jc : List Int) :
    ∀ (k i : Nat) (w edges : List Nat),
      (Graph.new_scatter_log ir jc k i w edges).map (fun x => (x.1, x.2.1)) =
        Graph.new_scatter ir jc k i w edges := by
  intro k
  induction k with
  | zero => intro i w edges; rfl
  | succ k ih =>
    intro i w edges
    simp only [Graph.new_scatter_log, Graph.new_scatter]
    cases hlo : jc[i]? with
    | none => rfl
    | some lo =>
      cases hhi : jc[i + 1]? with
      | none => rfl
      | some hi =>
        simp only []
        rw [← Graph.new_scatter_col_log_fst ir i (hi - lo).toNat lo w edges]
        cases hc : Graph.new_scatter_col_log ir i (hi - lo).toNat lo w edges with
        | none => rfl
        | some x =>
          obtain ⟨w', edges', log⟩ := x
          simp only [Option.map_some', Option.map_map]
          rw [← ih (i + 1) w' edges']
          rfl

/-- The constructor with its record yields the graph of the constructor. -/
theorem Graph.new_log_fst (ir jc : List Int) (m n nnz : Nat) (nodes0 edges0 w0 : List Nat) :
    (Graph.new_log ir jc m n nnz nodes0 edges0 w0).map Prod.fst =
      Graph.new ir jc m n nnz nodes0 edges0 w0 := by
  simp only [Graph.new_log, Graph.new]
  cases h1 : Graph.new_zero m 0 w0 with
  | none => rfl
  | some w1 =>
    cases h2 : jc[n]? with
    | none => rfl
    | some tot =>
      simp only []
      cases h3 : Graph.new_count ir tot.toNat 0 w1 with
      | none => rfl
      | some w2 =>
        simp only []
        cases h4 : Graph.new_prefix m 0 w2 0 with
        | none => rfl
        | some x =>
          obtain ⟨w3, tempnz⟩ := x
          simp only []
          cases h5 : store nodes0 m tempnz with
          | none => rfl
          | some nodes1 =>
            simp only []
            cases h6 : Graph.new_copy w3 m 0 nodes1 with
            | none => rfl
            | some nodes2 =>
              simp only []
              rw [← Graph.new_scatter_log_fst ir jc n 0 w3 edges0]
              cases h7 : Graph.new_scatter_log ir jc n 0 w3 edges0 with
              | none => rfl
              | some y =>
                obtain ⟨w4, edges1, log⟩ := y
                rfl

/-- The array `edges` after the scatter loop of a column is the array before it
with the recorded stores applied in order. -/
theorem Graph.new_scatter_col_log_fold (ir : List Int) (col : Nat) :
    ∀ (k : Nat) (j : Int) (w edges w' edges' : List Nat) (log : List (Nat × Nat)),
      Graph.new_scatter_col_log ir col k j w edges = some (w', edges', log) →
      edges' = log.foldl (fun e pc => e.set pc.1 pc.2) edges := by
  intro k
  induction k with
  | zero =>
    intro j w edges w' edges' log h
    simp only [Graph.new_scatter_col_log, Option.some.injEq, Prod.mk.injEq] at h
    obtain ⟨-, rfl, rfl⟩ := h
    rfl
  | succ k ih =>
    intro j w edges w' edges' log h
    simp only [Graph.new_scatter_col_log] at h
    by_cases hj : j < 0
    · simp [hj] at h
    · simp only [if_neg hj] at h
      cases hr : ir[j.toNat]? with
      | none => rw [hr] at h; cases h
      | some r =>
        simp only [hr] at h
        by_cases hr0 : r < 0
        · simp [hr0] at h
        · simp only [if_neg hr0] at h
          cases hw : w[r.toNat]? with
          | none => rw [hw] at h; cases h
          | some pos =>
            simp only [hw] at h
            by_cases hp : pos < edges.length
            · simp only [store_eq hp] at h
              cases hrec : Graph.new_scatter_col_log ir col k (j + 1)
                  (w.set r.toNat (pos + 1)) (edges.set pos col) with
              | none => rw [hrec] at h; cases h
              | some x =>
                obtain ⟨w1, e1, l1⟩ := x
                rw [hrec] at h
                simp only [Option.map_some', Option.some.injEq, Prod.mk.injEq] at h
                obtain ⟨-, rfl, rfl⟩ := h
                rw [List.foldl_cons]
                exact ih (j + 1) _ _ _ _ _ hrec
            · simp [store, hp] at h

theorem Graph.new_scatter_log_fold (ir jc : List Int) :
    ∀ (k i : Nat) (w edges w' edges' : List Nat) (log : List (Nat × Nat)),
      Graph.new_scatter_log ir jc k i w edges = some (w', edges', log) →
      edges' = log.foldl (fun e pc => e.set pc.1 pc.2) edges := by
  intro k
  induction k with
  | zero =>
    intro i w edges w' edges' log h
    simp only [Graph.new_scatter_log, Option.some.injEq, Prod.mk.injEq] at h
    obtain ⟨-, rfl, rfl⟩ := h
    rfl
  | succ k ih =>
    intro i w edges w' edges' log h
    simp only [Graph.new_scatter_log] at h
    cases hlo : jc[i]? with
    | none => simp [hlo] at h
    | some lo =>
      cases hhi : jc[i + 1]? with
      | none => simp [hlo, hhi] at h
      | some hi =>
        simp only [hlo, hhi] at h
        cases hc : Graph.new_scatter_col_log ir i (hi - lo).toNat lo w edges with
        | none => rw [hc] at h; cases h
        | some x =>
          obtain ⟨w1, e1, l1⟩ := x
          simp only [hc] at h
          cases hrec : Graph.new_scatter_log ir jc k (i + 1) w1 e1 with
          | none => rw [hrec] at h; cases h
          | some y =>
            obtain ⟨w2, e2, l2⟩ := y
            rw [hrec] at h
            simp only [Option.map_some', Option.some.injEq, Prod.mk.injEq] at h
            obtain ⟨-, rfl, rfl⟩ := h
            rw [List.foldl_append, ← Graph.new_scatter_col_log_fold ir i _ _ _ _ _ _ _ hc]
            exact ih (i + 1) _ _ _ _ _ hrec

/-- After a sequence of stores, a cell holds either its old value, when no
store went to it, or the value of one of the stores that went to it. -/
theorem foldl_set_getElem (log : List (Nat × Nat)) :
    ∀ (e : List Nat) (i : Nat),
      ((∀ pc ∈ log, pc.1 ≠ i) ∧
          (log.foldl (fun e pc => e.set pc.1 pc.2) e)[i]? = e[i]?) ∨
        ∃ pc ∈ log, pc.1 = i ∧
          ((log.foldl (fun e pc => e.set pc.1 pc.2) e)[i]? = some pc.2 ∨
            (log.foldl (fun e pc => e.set pc.1 pc.2) e)[i]? = none) := by
  induction log with
  | nil =>
    intro e i
    exact Or.inl ⟨fun pc h => absurd h (List.not_mem_nil pc), rfl⟩
  | cons pc rest ih =>
    intro e i
    rw [List.foldl_cons]
    rcases ih (e.set pc.1 pc.2) i with ⟨hno, hval⟩ | ⟨qc, hq, hqi, hval⟩
    · by_cases hpi : pc.1 = i
      · right
        refine ⟨pc, List.mem_cons_self _ _, hpi, ?_⟩
        rw [hval, List.getElem?_set, if_pos hpi]
        by_cases hl : pc.1 < e.length
        · left; rw [if_pos hl]
        · right; rw [if_neg hl]
      · left
        refine ⟨?_, ?_⟩
        · intro qc hq
          rcases List.mem_cons.mp hq with rfl | hq
          · exact hpi
          · exact hno qc hq
        · rw [hval, List.getElem?_set, if_neg hpi]
    · right
      exact ⟨qc, List.mem_cons_of_mem _ hq, hqi, hval⟩

end
section

/-- The index at which the scatter loop stores for an entry with a known value. -/
theorem Graph.scatterPos_eq (ir : List Int) (N t r : Nat) (h : ir[t]? = some (r : Int)) :
    Graph.scatterPos ir N t =
      (∑ u in Finset.range r, (ir.take N).count (u : Int)) + (ir.take t).count (r : Int) := by
  have : ir.getD t 0 = (r : Int) := by
    rw [List.getD_eq_getElem?_getD, h]
    rfl
  rw [Graph.scatterPos, this, Int.toNat_ofNat]

/-- The scatter loop of one column with its record: the stores go to the indices
`scatterPos` of the entries visited. -/
theorem Graph.new_scatter_col_log_spec (ir : List Int) (m N col : Nat)
    (hir : ∀ t, t < N → ∃ r : Nat, ir[t]? = some (r : Int) ∧ r < m) :
    ∀ (k j : Nat) (w edges : List Nat), j + k ≤ N → w.length = m → edges.length = N →
      (∀ v, v < m → w[v]? = some ((∑ u in Finset.range v, (ir.take N).count (u : Int)) +
        (ir.take j).count (v : Int))) →
      ∃ w' edges', Graph.new_scatter_col_log ir col k (j : Int) w edges =
          some (w', edges', (List.range' j k).map (fun t => (Graph.scatterPos ir N t, col))) ∧
        w'.length = m ∧ edges'.length = N ∧
        ∀ v, v < m → w'[v]? = some ((∑ u in Finset.range v, (ir.take N).count (u : Int)) +
          (ir.take (j + k)).count (v : Int)) := by
  have htot := sum_count_take ir m N hir
  intro k
  induction k with
  | zero =>
    intro j w edges _ hlen hel hw
    exact ⟨w, edges, rfl, hlen, hel, hw⟩
  | succ k ih =>
    intro j w edges hjk hlen hel hw
    obtain ⟨r, hr, hrm⟩ := hir j (by omega)
    have hneg : ¬ ((r : Int) < 0) := by omega
    have hjneg : ¬ ((j : Int) < 0) := by omega
    have hstep := take_succ_count ir j r hr (r : Int)
    rw [if_pos rfl] at hstep
    have hle := count_take_le ir (j + 1) N (by omega) (r : Int)
    have hmono : ∑ u in Finset.range (r + 1), (ir.take N).count (u : Int) ≤
        ∑ u in Finset.range m, (ir.take N).count (u : Int) :=
      Finset.sum_le_sum_of_subset (Finset.range_mono (by omega))
    rw [Finset.sum_range_succ] at hmono
    have hpos : (∑ u in Finset.range r, (ir.take N).count (u : Int)) +
        (ir.take j).count (r : Int) < edges.length := by omega
    obtain ⟨w', edges', hrun, hlen', hel', hw'⟩ := ih (j + 1)
      (w.set r ((∑ u in Finset.range r, (ir.take N).count (u : Int)) +
        (ir.take j).count (r : Int) + 1))
      (edges.set ((∑ u in Finset.range r, (ir.take N).count (u : Int)) +
        (ir.take j).count (r : Int)) col)
      (by omega) (by simpa using hlen) (by simpa using hel) (by
        intro v hv
        rw [take_succ_count ir j r hr, List.getElem?_set]
        by_cases hrv : r = v
        · subst hrv
          rw [if_pos rfl, if_pos (by omega), if_pos rfl, Nat.add_assoc]
        · rw [if_neg hrv, if_neg (by omega), hw v hv, Nat.add_zero])
    refine ⟨w', edges', ?_, hlen', hel', ?_⟩
    · simp only [Graph.new_scatter_col_log, if_neg hjneg, Int.toNat_ofNat, hr, if_neg hneg,
        hw r hrm, store_eq hpos]
      have hcast : ((j : Int) + 1) = ((j + 1 : Nat) : Int) := by push_cast; rfl
      rw [hcast, hrun, List.range'_succ, List.map_cons, Graph.scatterPos_eq ir N j r hr]
      rfl
    · intro v hv
      have hidx : j + 1 + k = j + (k + 1) := by omega
      rw [hw' v hv, hidx]

/-- The scatter loop with its record: the entries of `ir` are visited in the
order of their indices, and the stores go to their indices `scatterPos`, with
values that are column numbers. -/
theorem Graph.new_scatter_log_spec (ir jc : List Int) (m n N : Nat)
    (hir : ∀ t, t < N → ∃ r : Nat, ir[t]? = some (r : Int) ∧ r < m)
    (hjc : ∀ i, i ≤ n → ∃ a : Nat, jc[i]? = some (a : Int) ∧ a ≤ N)
    (hjcn : jc[n]? = some (N : Int))
    (hmono : ∀ i (a b : Nat), i < n → jc[i]? = some (a : Int) →
      jc[i + 1]? = some (b : Int) → a ≤ b) :
    ∀ (k i a : Nat) (w edges : List Nat), i + k = n → jc[i]? = some (a : Int) →
      w.length = m → edges.length = N →
      (∀ v, v < m → w[v]? = some ((∑ u in Finset.range v, (ir.take N).count (u : Int)) +
        (ir.take a).count (v : Int))) →
      ∃ w' edges' log, Graph.new_scatter_log ir jc k i w edges = some (w', edges', log) ∧
        w'.length = m ∧ edges'.length = N ∧
        (∀ v, v < m → w'[v]? = some ((∑ u in Finset.range v, (ir.take N).count (u : Int)) +
          (ir.take N).count (v : Int))) ∧
        log.map Prod.fst = (List.range' a (N - a)).map (Graph.scatterPos ir N) ∧
        ∀ pc ∈ log, pc.2 < n := by
  intro k
  induction k with
  | zero =>
    intro i a w edges hik ha hlen hel hw
    have hin : i = n := by omega
    subst hin
    rw [hjcn] at ha
    simp only [Option.some.injEq, Nat.cast_inj] at ha
    subst ha
    refine ⟨w, edges, [], rfl, hlen, hel, hw, ?_, fun pc h => absurd h (List.not_mem_nil pc)⟩
    rw [Nat.sub_self]
    rfl
  | succ k ih =>
    intro i a w edges hik ha hlen hel hw
    obtain ⟨b, hb, hbN⟩ := hjc (i + 1) (by omega)
    have hab : a ≤ b := hmono i a b (by omega) ha hb
    have hsub : ((b : Int) - (a : Int)).toNat = b - a := by omega
    obtain ⟨w1, e1, hrun1, hlen1, hel1, hw1⟩ :=
      Graph.new_scatter_col_log_spec ir m N i hir (b - a) a w edges (by omega) hlen hel hw
    have hidx : a + (b - a) = b := by omega
    rw [hidx] at hw1
    obtain ⟨w2, e2, log2, hrun2, hlen2, hel2, hw2, hlog2, hval2⟩ :=
      ih (i + 1) b w1 e1 (by omega) hb hlen1 hel1 hw1
    refine ⟨w2, e2, (List.range' a (b - a)).map (fun t => (Graph.scatterPos ir N t, i)) ++ log2,
      ?_, hlen2, hel2, hw2, ?_, ?_⟩
    · simp only [Graph.new_scatter_log, ha, hb, hsub, hrun1, hrun2, Option.map_some']
    · rw [List.map_append, hlog2, List.map_map]
      have hcomp : (Prod.fst ∘ fun t => (Graph.scatterPos ir N t, i)) =
          Graph.scatterPos ir N := rfl
      rw [hcomp, ← List.map_append]
      congr 1
      have h1 := List.range'_append_1 a (b - a) (N - b)
      rw [hidx] at h1
      rw [h1]
      congr 1
      omega
    · intro pc hpc
      rcases List.mem_append.mp hpc with h | h
      · obtain ⟨t, -, rfl⟩ := List.mem_map.mp h
        show i < n
        omega
      · exact hval2 pc h

/-- The indices `scatterPos` of the entries of `ir` lie in `edges[0 .. N)` and
are pairwise distinct. -/
theorem Graph.scatterPos_inj (ir : List Int) (m N : Nat)
    (hir : ∀ t, t < N → ∃ r : Nat, ir[t]? = some (r : Int) ∧ r < m) :
    (∀ t, t < N → Graph.scatterPos ir N t < N) ∧
      ∀ t t', t < t' → t' < N → Graph.scatterPos ir N t < Graph.scatterPos ir N t' ∨
        Graph.scatterPos ir N t' < Graph.scatterPos ir N t := by
  have htot := sum_count_take ir m N hir
  have hbound : ∀ (t r : Nat), t < N → ir[t]? = some (r : Int) → r < m →
      (ir.take t).count (r : Int) < (ir.take N).count (r : Int) ∧
      (∑ u in Finset.range r, (ir.take N).count (u : Int)) + (ir.take N).count (r : Int) ≤ N := by
    intro t r ht hr hrm
    have hstep := take_succ_count ir t r hr (r : Int)
    rw [if_pos rfl] at hstep
    have hle := count_take_le ir (t + 1) N (by omega) (r : Int)
    have hmono := sum_count_mono ir N (r + 1) m (by omega)
    rw [Finset.sum_range_succ] at hmono
    exact ⟨by omega, by omega⟩
  constructor
  · intro t ht
    obtain ⟨r, hr, hrm⟩ := hir t ht
    rw [Graph.scatterPos_eq ir N t r hr]
    have := hbound t r ht hr hrm
    omega
  · intro t t' htt ht'
    obtain ⟨r, hr, hrm⟩ := hir t (by omega)
    obtain ⟨r', hr', hrm'⟩ := hir t' ht'
    rw [Graph.scatterPos_eq ir N t r hr, Graph.scatterPos_eq ir N t' r' hr']
    have hb := hbound t r (by omega) hr hrm
    have hb' := hbound t' r' ht' hr' hrm'
    rcases Nat.lt_trichotomy r r' with h | h | h
    · left
      have hmono := sum_count_mono ir N (r + 1) r' (by omega)
      rw [Finset.sum_range_succ] at hmono
      omega
    · subst h
      left
      have hstep := take_succ_count ir t r hr (r : Int)
      rw [if_pos rfl] at hstep
      have hle : (ir.take (t + 1)).count (r : Int) ≤ (ir.take t').count (r : Int) := by
        have := count_take_le (ir.take t') (t + 1) t' (by omega) (r : Int)
        rw [List.take_take, Nat.min_eq_left (by omega)] at this
        refine le_trans this ?_
        rw [List.take_take, Nat.min_self]
      omega
    · right
      have hmono := sum_count_mono ir N (r' + 1) r (by omega)
      rw [Finset.sum_range_succ] at hmono
      omega

end
/-- C36: for every coordinate input with `jc` non-decreasing, `jc[0] = 0`,
`jc[n] = nnz` and every `ir[t]`, `t < nnz`, in `[0, m)`, the constructor runs
without an access outside an array (it yields a graph, which the model does only
when every index into `ir`, `jc`, `w`, `nodes` and `edges` is inside its array),
the scatter loop stores to each index of `edges[0 .. nnz)` exactly once and to
no other index, every stored value lies in `[0, n)`, so that every cell of
`edges` holds a value in `[0, n)`, and after the loop `w[k] == nodes[k + 1]` for
every `k` in `[0, m)`. -/
theorem Graph_new_scatter_writes (ir jc : List Int) (m n nnz : Nat)
    (nodes0 edges0 w0 : List Nat)
    (h0 : jc[0]? = some 0) (hn : jc[n]? = some (nnz : Int))
    (hmono : ∀ (i j : Nat) (a b : Int), i ≤ j → j ≤ n → jc[i]? = some a → jc[j]? = some b →
      a ≤ b)
    (hir : ∀ t, t < nnz → ∃ r : Nat, ir[t]? = some (r : Int) ∧ r < m)
    (hnodes0 : nodes0.length = m + 1) (hedges0 : edges0.length = nnz)
    (hw0 : w0.length = m) :
    ∃ G w log, Graph.new_log ir jc m n nnz nodes0 edges0 w0 = some (G, w, log) ∧
      Graph.new ir jc m n nnz nodes0 edges0 w0 = some G ∧
      (∀ p, (log.map Prod.fst).count p = if p < nnz then 1 else 0) ∧
      (∀ pc ∈ log, pc.2 < n) ∧
      (∀ i, i < nnz → ∃ e, G.edges[i]? = some e ∧ e < n) ∧
      ∀ k, k < m → ∃ x, w[k]? = some x ∧ G.nodes[k + 1]? = some x := by
  have hnl : n < jc.length := by
    by_contra hcon
    rw [List.getElem?_eq_none (by omega)] at hn
    cases hn
  have hjc : ∀ i, i ≤ n → ∃ a : Nat, jc[i]? = some (a : Int) ∧ a ≤ nnz := by
    intro i hi
    have hil : i < jc.length := by omega
    have hget : jc[i]? = some jc[i] := List.getElem?_eq_getElem hil
    have h1 := hmono 0 i 0 jc[i] (Nat.zero_le i) hi h0 hget
    have h2 := hmono i n jc[i] nnz hi (le_refl n) hget hn
    refine ⟨jc[i].toNat, ?_, by omega⟩
    rw [hget]
    congr 1
    omega
  have hmono' : ∀ i (a b : Nat), i < n → jc[i]? = some (a : Int) →
      jc[i + 1]? = some (b : Int) → a ≤ b := by
    intro i a b hi ha hb
    have := hmono i (i + 1) a b (by omega) (by omega) ha hb
    omega
  -- the loops
  obtain ⟨w1, hrun1, hlen1, hz, -⟩ := Graph.new_zero_spec m 0 w0 (by omega)
  obtain ⟨w2, hrun2, hlen2, hc⟩ := Graph.new_count_spec ir m nnz hir nnz 0 w1 (by omega)
    (by omega) (by
      intro v hv
      rw [hz v (Nat.zero_le v) (by omega)]
      simp)
  rw [Nat.zero_add] at hc
  obtain ⟨w3, hrun3, hlen3, hp, -⟩ :=
    Graph.new_prefix_spec (fun u => (ir.take nnz).count (u : Int)) m m 0 w2 (by omega) hlen2
      (fun v hv => absurd hv (Nat.not_lt_zero v)) (fun v _ hv => hc v hv)
  simp only [Finset.range_zero, Finset.sum_empty, Nat.zero_add] at hrun3 hp
  have htot := sum_count_take ir m nnz hir
  rw [htot] at hrun3
  have hml : m < nodes0.length := by omega
  obtain ⟨nodes2, hrun4, hlen4, hcp1, hcp2⟩ :=
    Graph.new_copy_spec w3 m 0 (nodes0.set m nnz) (by omega) (by simp; omega)
  obtain ⟨a0, ha0, -⟩ := hjc 0 (Nat.zero_le n)
  have ha00 : a0 = 0 := by
    rw [h0] at ha0
    simp only [Option.some.injEq] at ha0
    omega
  subst ha00
  obtain ⟨w4, edges1, log, hrun5, hlen5, hel, hw4, hlog, hval⟩ :=
    Graph.new_scatter_log_spec ir jc m n nnz hir hjc hn hmono' n 0 0 w3 edges0 (by omega) ha0
      hlen3 hedges0 (by
        intro v hv
        rw [hp v hv]
        simp)
  rw [Nat.sub_zero, ← List.range_eq_range'] at hlog
  have hnodes : ∀ k, k ≤ m →
      nodes2[k]? = some (∑ u in Finset.range k, (ir.take nnz).count (u : Int)) := by
    intro k hk
    rcases Nat.lt_or_ge k m with hlt | hge
    · rw [hcp1 k (Nat.zero_le k) (by omega)]
      exact hp k hlt
    · have hkm : k = m := by omega
      subst hkm
      rw [hcp2 k (Or.inr (by omega)), List.getElem?_set_self hml, htot]
  have hrunlog : Graph.new_log ir jc m n nnz nodes0 edges0 w0 =
      some ({ nNodes := m, nEdges := nnz, nodes := nodes2, edges := edges1 }, w4, log) := by
    simp only [Graph.new_log, hrun1, hn, Int.toNat_ofNat, hrun2, hrun3, store_eq hml, hrun4,
      hrun5]
  -- the indices stored to
  obtain ⟨hlt, hinj⟩ := Graph.scatterPos_inj ir m nnz hir
  have hnd : (log.map Prod.fst).Nodup := by
    rw [hlog]
    refine List.Nodup.map_on ?_ (List.nodup_range nnz)
    intro x hx y hy hxy
    rw [List.mem_range] at hx hy
    rcases Nat.lt_trichotomy x y with h | h | h
    · rcases hinj x y h hy with h' | h' <;> omega
    · exact h
    · rcases hinj y x h hx with h' | h' <;> omega
  have hsub : ∀ p ∈ log.map Prod.fst, p < nnz := by
    intro p hp
    rw [hlog] at hp
    obtain ⟨t, ht, rfl⟩ := List.mem_map.mp hp
    exact hlt t (List.mem_range.mp ht)
  have hlenlog : (log.map Prod.fst).length = nnz := by
    rw [hlog, List.length_map, List.length_range]
  have hall : ∀ p, p < nnz → p ∈ log.map Prod.fst := by
    have hfin : (log.map Prod.fst).toFinset = Finset.range nnz := by
      apply Finset.eq_of_subset_of_card_le
      · intro p hp
        rw [List.mem_toFinset] at hp
        exact Finset.mem_range.mpr (hsub p hp)
      · rw [List.toFinset_card_of_nodup hnd, hlenlog, Finset.card_range]
    intro p hp
    rw [← List.mem_toFinset, hfin]
    exact Finset.mem_range.mpr hp
  have hfold := Graph.new_scatter_log_fold ir jc n 0 w3 edges0 w4 edges1 log hrun5
  refine ⟨_, w4, log, hrunlog, ?_, ?_, hval, ?_, ?_⟩
  · have := Graph.new_log_fst ir jc m n nnz nodes0 edges0 w0
    rw [hrunlog] at this
    exact this.symm
  · intro p
    by_cases hp : p < nnz
    · rw [if_pos hp]
      exact List.count_eq_one_of_mem hnd (hall p hp)
    · rw [if_neg hp]
      exact List.count_eq_zero_of_not_mem (fun hmem => hp (hsub p hmem))
  · intro i hi
    show ∃ e, edges1[i]? = some e ∧ e < n
    have hil : i < edges1.length := by omega
    rcases foldl_set_getElem log edges0 i with ⟨hno, -⟩ | ⟨pc, hpc, hpi, hv⟩
    · exfalso
      obtain ⟨pc, hpc, hpi⟩ := List.mem_map.mp (hall i hi)
      exact hno pc hpc hpi
    · rw [← hfold] at hv
      rcases hv with hv | hv
      · exact ⟨pc.2, hv, hval pc hpc⟩
      · rw [List.getElem?_eq_getElem hil] at hv
        cases hv
  · intro k hk
    refine ⟨_, hw4 k hk, ?_⟩
    show nodes2[k + 1]? = _
    rw [hnodes (k + 1) (by omega), Finset.sum_range_succ]

theorem Graph_new_scatter_writes_witness :
    ∃ G w log, Graph.new_log [1, 0, 2, 1] [0, 1, 3, 4] 3 3 4 [9, 9, 9, 9] [9, 9, 9, 9]
        [9, 9, 9] = some (G, w, log) ∧
      Graph.new [1, 0, 2, 1] [0, 1, 3, 4] 3 3 4 [9, 9, 9, 9] [9, 9, 9, 9] [9, 9, 9] = some G ∧
      (∀ p, (log.map Prod.fst).count p = if p < 4 then 1 else 0) ∧
      (∀ pc ∈ log, pc.2 < 3) ∧
      (∀ i, i < 4 → ∃ e, G.edges[i]? = some e ∧ e < 3) ∧
      ∀ k, k < 3 → ∃ x, w[k]? = some x ∧ G.nodes[k + 1]? = some x :=
  Graph_new_scatter_writes [1, 0, 2, 1] [0, 1, 3, 4] 3 3 4 [9, 9, 9, 9] [9, 9, 9, 9] [9, 9, 9]
    rfl rfl
    (by
      intro i j a b hij hj ha hb
      have hj4 : j < 4 := by omega
      interval_cases j <;> interval_cases i <;> simp at ha hb <;> omega)
    (by
      intro t ht
      interval_cases t
      · exact ⟨1, rfl, by decide⟩
      · exact ⟨0, rfl, by decide⟩
      · exact ⟨2, rfl, by decide⟩
      · exact ⟨1, rfl, by decide⟩)
    rfl rfl rfl

/-! ## Bags: the records of `insert` and `merge` yield the results of `insert` and `merge` -/

section

variable {T : Type}

theorem Bag.carry_log_fst (lim : Nat) :
    ∀ (fuel i : Nat) (c : Pennant T) (b : Bag T),
      (Bag.carry_log lim fuel i c b).map Prod.fst = Bag.carry lim fuel i c b := by
  intro fuel
  induction fuel with
  | zero => intro i c b; rfl
  | succ fuel ih =>
    intro i c b
    simp only [Bag.carry_log, Bag.carry]
    cases hp : (if i < lim then b.bag[i]? else some Pennant.null) with
    | none => rfl
    | some p =>
      simp only []
      by_cases hn : p.isNull = true
      · simp only [if_pos hn]
        cases hs : store b.bag i c with
        | none => rfl
        | some bag' => rfl
      · simp only [if_neg hn]
        cases hc : p.combine c with
        | none => rfl
        | some c' =>
          cases hs : store b.bag i Pennant.null with
          | none => rfl
          | some bag' =>
            simp only []
            by_cases hi : i + 1 < BAG_SIZE
            · simp only [if_pos hi, Option.map_map]
              rw [← ih (i + 1) c' { b with bag := bag' }]
              rfl
            · simp only [if_neg hi, Option.map_some']

theorem Bag.insert_log_fst [Inhabited T] (b : Bag T) (el : T) :
    (b.insert_log el).map Prod.fst = b.insert el := by
  simp only [Bag.insert_log, Bag.insert]
  cases hf : b.filling with
  | none => rfl
  | some f =>
    simp only []
    cases hs : store f b.size el with
    | none => rfl
    | some f' =>
      simp only []
      by_cases hlt : (b.size + 1) % 2 ^ 32 < BLK_SIZE
      · simp only [if_pos hlt, Option.map_some']
      · simp only [if_neg hlt]
        exact Bag.carry_log_fst _ _ _ _ _

theorem Bag.merge_step_log_fst (thatFill i : Nat) (ta tb : List (Pennant T)) (c : Pennant T) :
    (Bag.merge_step_log thatFill i ta tb c).map (fun r => (r.1, r.2.1, r.2.2.1)) =
      Bag.merge_step thatFill i ta tb c := by
  simp only [Bag.merge_step_log, Bag.merge_step]
  cases hp : ta[i]? with
  | none => rfl
  | some p =>
    cases hq : tb[i]? with
    | none => rfl
    | some q =>
      simp only []
      cases h1 : !p.isNull <;> cases h2 : (decide (i < thatFill) && !q.isNull) <;>
        cases h3 : !c.isNull <;> simp only [Option.map_some', Option.map_map] <;> rfl

theorem Bag.merge_loop_log_fst (thatFill : Nat) :
    ∀ (n i : Nat) (ta tb : List (Pennant T)) (c : Pennant T),
      (Bag.merge_loop_log thatFill n i ta tb c).map (fun r => (r.1, r.2.1, r.2.2.1)) =
        Bag.merge_loop thatFill n i ta tb c := by
  intro n
  induction n with
  | zero => intro i ta tb c; rfl
  | succ n ih =>
    intro i ta tb c
    simp only [Bag.merge_loop_log, Bag.merge_loop]
    rw [← Bag.merge_step_log_fst thatFill i ta tb c]
    cases hs : Bag.merge_step_log thatFill i ta tb c with
    | none => rfl
    | some x =>
      obtain ⟨ta', tb', c', log⟩ := x
      simp only [Option.map_some', Option.map_map]
      rw [← ih (i + 1) ta' tb' c']
      rfl

theorem Bag.merge_move_log_fst :
    ∀ (n j : Nat) (ta tb : List (Pennant T)),
      (Bag.merge_move_log n j ta tb).map (fun r => (r.1, r.2.1)) =
        Bag.merge_move n j ta tb := by
  intro n
  induction n with
  | zero => intro j ta tb; rfl
  | succ n ih =>
    intro j ta tb
    simp only [Bag.merge_move_log, Bag.merge_move]
    cases hq : tb[j]? with
    | none => rfl
    | some q =>
      simp only []
      cases h1 : store ta j q with
      | none => rfl
      | some ta' =>
        cases h2 : store tb j Pennant.null with
        | none => rfl
        | some tb' =>
          simp only [Option.map_map]
          rw [← ih (j + 1) ta' tb']
          rfl

theorem Bag.merge_ripple_log_fst (mx : Nat) :
    ∀ (fuel i : Nat) (c : Pennant T) (ta tb : List (Pennant T)),
      (Bag.merge_ripple_log mx fuel i c ta tb).map (fun r => (r.1, r.2.1, r.2.2.1)) =
        Bag.merge_ripple mx fuel i c ta tb := by
  intro fuel
  induction fuel with
  | zero => intro i c ta tb; rfl
  | succ fuel ih =>
    intro i c ta tb
    simp only [Bag.merge_ripple_log, Bag.merge_ripple]
    cases hq : (if i < mx then tb[i]? else some Pennant.null) with
    | none => rfl
    | some q =>
      simp only []
      by_cases hn : q.isNull = true
      · simp only [if_pos hn]
        cases hs : store ta i c with
        | none => rfl
        | some ta' =>
          simp only [Option.map_map]
          rw [← Bag.merge_move_log_fst _ _ ta' tb, Option.map_map]
          rfl
      · simp only [if_neg hn]
        cases hc : q.combine c with
        | none => rfl
        | some c' =>
          cases h1 : store ta i Pennant.null with
          | none => rfl
          | some ta' =>
            cases h2 : store tb i Pennant.null with
            | none => rfl
            | some tb' =>
              simp only []
              by_cases hi : i + 1 < BAG_SIZE
              · simp only [if_pos hi, Option.map_map]
                rw [← ih (i + 1) c' ta' tb']
                rfl
              · simp only [if_neg hi, Option.map_some']

/-- `merge` with its record yields the two bags of `merge`. -/
theorem Bag.merge_log_fst (a b : Bag T) :
    (a.merge_log b).map (fun r => (r.1, r.2.1)) = a.merge b := by
  simp only [Bag.merge_log, Bag.merge]
  cases hf : Bag.merge_filling a b with
  | none => rfl
  | some x =>
    obtain ⟨fa, sz, blk⟩ := x
    simp only []
    rw [← Bag.merge_loop_log_fst b.fill _ 0 a.bag b.bag (Pennant.ofCarry blk)]
    cases hl : Bag.merge_loop_log b.fill (if a.fill > b.fill then b.fill else a.fill) 0
        a.bag b.bag (Pennant.ofCarry blk) with
    | none => rfl
    | some y =>
      obtain ⟨ta, tb, c, log⟩ := y
      simp only [Option.map_some']
      by_cases h1 : a.fill = if a.fill > b.fill then a.fill else b.fill
      · rw [if_pos h1, if_pos h1]
        by_cases h2 : c.isNull = true
        · rw [if_pos h2, if_pos h2]
          rfl
        · rw [if_neg h2, if_neg h2, ← Bag.carry_log_fst, Option.map_map, Option.map_map]
          rfl
      · rw [if_neg h1, if_neg h1]
        by_cases h2 : c.isNull = true
        · rw [if_pos h2, if_pos h2, ← Bag.merge_move_log_fst, Option.map_map, Option.map_map]
          rfl
        · rw [if_neg h2, if_neg h2, ← Bag.merge_ripple_log_fst, Option.map_map,
            Option.map_map]
          rfl

end

/-! ## Bags: the events of `insert` and `merge` are harmless -/

section

variable {T : Type}

theorem Pennant.IsPennant.getRight_eq {k : Nat} {p : Pennant T} (hp : Pennant.IsPennant k p) :
    p.getRight = some Pennant.null := by
  cases p with
  | null => exact hp.elim
  | node e l r =>
    obtain ⟨hr, -⟩ := hp
    rw [hr]
    rfl

/-- The events of the carry loop are harmless when the carry fits. -/
theorem Bag.carry_log_safe (lim : Nat) (hlim : lim ≤ BAG_SIZE) (fa fb : Nat) (hfa : lim ≤ fa) :
    ∀ (fuel i : Nat) (c : Pennant T) (b : Bag T),
      b.bag.length = BAG_SIZE → i ≤ lim → i < BAG_SIZE → BAG_SIZE ≤ i + fuel →
      (∀ j p, j < lim → b.bag[j]? = some p → SlotOK j p) →
      Pennant.IsPennant i c → Pennant.FullBlocks c →
      wsum Pennant.numBlocks b.bag i lim + c.numBlocks < 2 ^ BAG_SIZE →
      ∃ b' log, Bag.carry_log lim fuel i c b = some (b', log) ∧
        ∀ ev ∈ log, BagEvent.Safe fa fb ev := by
  intro fuel
  induction fuel with
  | zero => intro i c b _ _ h1 h2; omega
  | succ fuel ih =>
    intro i c b hlen hil hiB hfuel hslots hc hcf hsat
    have hilen : i < b.bag.length := by omega
    have hget : b.bag[i]? = some b.bag[i] := List.getElem?_eq_getElem hilen
    have hgetD : b.bag.getD i Pennant.null = b.bag[i] := getD_of_get? hget
    rcases Nat.lt_or_ge i lim with hlt | hge
    · rcases (hslots i _ hlt hget).null_or with hnull | ⟨hnn, hrank, hfull⟩
      · refine ⟨{ b with bag := b.bag.set i c, fill := max lim (i + 1) },
          [BagEvent.read false i] ++ [BagEvent.write false i], ?_, ?_⟩
        · simp [Bag.carry_log, hlt, hget, hnull, Pennant.isNull, store_eq hilen]
        · intro ev hev
          simp only [List.mem_append, List.mem_singleton] at hev
          rcases hev with rfl | rfl
          · exact ⟨by omega, hiB⟩
          · exact hiB
      · obtain ⟨c', hcomb, hrank', hbs', hfull'⟩ := Pennant.combine_spec hrank hc
        have hnb : c'.numBlocks = b.bag[i].numBlocks + c.numBlocks := by
          rw [Pennant.numBlocks_eq_card, hbs', Multiset.card_add,
            ← Pennant.numBlocks_eq_card, ← Pennant.numBlocks_eq_card]
        have hsplit := wsum_succ_bot Pennant.numBlocks b.bag hlt
        rw [hgetD] at hsplit
        have hi1 : i + 1 < BAG_SIZE := by
          by_contra hcon
          have h64 : i + 1 = BAG_SIZE := by omega
          have := hrank'.numBlocks_eq
          rw [h64] at this
          omega
        have hsetlen : (b.bag.set i Pennant.null).length = BAG_SIZE := by simpa using hlen
        obtain ⟨b', log', hrun, hsafe⟩ :=
          ih (i + 1) c' { b with bag := b.bag.set i Pennant.null } hsetlen (by omega) hi1
            (by omega)
            (by
              intro j p hj hp
              simp only [List.getElem?_set] at hp
              split_ifs at hp with h1
              · cases hp; exact Or.inl rfl
              · exact hslots j p hj hp)
            hrank' (hfull' hfull hcf)
            (by
              show wsum Pennant.numBlocks (b.bag.set i Pennant.null) (i + 1) lim + _ < _
              rw [wsum_set_out Pennant.numBlocks b.bag Pennant.null (Or.inl (by omega : i < i + 1))]
              omega)
        refine ⟨b', [BagEvent.read false i] ++
          [BagEvent.read false i, BagEvent.combine b.bag[i] c, BagEvent.write false i] ++ log',
          ?_, ?_⟩
        · simp [Bag.carry_log, hlt, hget, hnn, hcomb, store_eq hilen, hi1, hrun]
        · intro ev hev
          simp only [List.mem_append, List.mem_singleton, List.mem_cons, List.not_mem_nil,
            or_false] at hev
          rcases hev with (rfl | rfl | rfl | rfl) | hev
          · exact ⟨by omega, hiB⟩
          · exact ⟨by omega, hiB⟩
          · exact ⟨hnn, hc.getRight_eq⟩
          · exact hiB
          · exact hsafe ev hev
    · have hil' : i = lim := by omega
      subst hil'
      refine ⟨{ b with bag := b.bag.set i c, fill := max i (i + 1) },
        [BagEvent.write false i], ?_, ?_⟩
      · simp [Bag.carry_log, Pennant.isNull, store_eq hilen]
      · intro ev hev
        rw [List.mem_singleton] at hev
        subst hev
        exact hiB

/-- The events of `insert` are harmless when the bag has room for the element. -/
theorem Bag.insert_log_safe [Inhabited T] (b : Bag T) (x : T) (h : b.WF)
    (hcap : Multiset.card b.elems + 1 < BLK_SIZE * 2 ^ BAG_SIZE) :
    ∃ b' log, b.insert_log x = some (b', log) ∧ b.insert x = some b' ∧
      ∀ ev ∈ log, BagEvent.Safe b.fill 0 ev := by
  suffices hs : ∃ b' log, b.insert_log x = some (b', log) ∧
      ∀ ev ∈ log, BagEvent.Safe b.fill 0 ev by
    obtain ⟨b', log, h1, h2⟩ := hs
    refine ⟨b', log, h1, ?_, h2⟩
    rw [← Bag.insert_log_fst, h1]
    rfl
  obtain ⟨f, hf, hfl⟩ := h.block
  have hsz := h.size_lt
  have hB := BLK_SIZE_lt
  have hst : b.size < f.length := by omega
  have hmod : (b.size + 1) % 2 ^ 32 = b.size + 1 := Nat.mod_eq_of_lt (by omega)
  by_cases hlt : b.size + 1 < BLK_SIZE
  · refine ⟨{ b with filling := some (f.set b.size x), size := b.size + 1 }, [], ?_, ?_⟩
    · simp only [Bag.insert_log, hf, store_eq hst, hmod, if_pos hlt]
    · intro ev hev
      exact absurd hev (List.not_mem_nil ev)
  · have hcard := h.card_elems
    have hfull : b.size + 1 = BLK_SIZE := by omega
    obtain ⟨b', log, hrun, hsafe⟩ :=
      Bag.carry_log_safe b.fill h.fill_le b.fill 0 (le_refl _) BAG_SIZE 0
        (Pennant.ofBlock (f.set b.size x))
        { b with filling := some (List.replicate BLK_SIZE default), size := 0 } h.slots
        (Nat.zero_le _) BAG_SIZE_pos (by omega) h.rank
        (Pennant.ofBlock_slotOK _ (by simpa using hfl)).1
        (Pennant.ofBlock_slotOK _ (by simpa using hfl)).2
        (by
          show wsum Pennant.numBlocks b.bag 0 b.fill + 1 < 2 ^ BAG_SIZE
          rw [← Bag.numBlocks_eq_wsum h.fill_le_length]
          have hpos := BLK_SIZE_pos
          by_contra hcon
          have h1 : 2 ^ BAG_SIZE ≤ b.numBlocks + 1 := by omega
          have h2 := Nat.mul_le_mul_left BLK_SIZE h1
          rw [Nat.mul_add, Nat.mul_one] at h2
          rw [Nat.mul_comm BLK_SIZE b.numBlocks] at h2
          omega)
    refine ⟨b', log, ?_, hsafe⟩
    simp only [Bag.insert_log, hf, store_eq hst, hmod, if_neg hlt]
    exact hrun

end
section

variable {T : Type}

theorem Pennant.exists_node_of_isNull {p : Pennant T} (h : p.isNull = false) :
    ∃ e l r, p = Pennant.node e l r := by
  cases p with
  | null => cases h
  | node e l r => exact ⟨e, l, r, rfl⟩

/-- The events of one iteration of the main loop of `merge` are harmless. -/
theorem Bag.merge_step_log_safe (thatFill i fa fb : Nat) (ta tb : List (Pennant T))
    (c p q : Pennant T) (hit : i < thatFill) (hgp : ta[i]? = some p) (hgq : tb[i]? = some q)
    (hp : SlotOK i p) (hq : SlotOK i q) (hc : SlotOK i c)
    (hia : i < fa) (hib : i < fb) (hiB : i < BAG_SIZE) :
    ∀ r, Bag.merge_step_log thatFill i ta tb c = some r →
      ∀ ev ∈ r.2.2.2, BagEvent.Safe fa fb ev := by
  intro r h ev hev
  rcases hp.null_or with rfl | ⟨hpn, hpr, -⟩ <;>
    rcases hq.null_or with rfl | ⟨hqn, hqr, -⟩ <;>
    rcases hc.null_or with rfl | ⟨hcn, hcr, -⟩
  · simp [Bag.merge_step_log, hgp, hgq, hit, Pennant.isNull] at h
    subst h
    simp at hev
    repeat' (rcases hev with hev | hev)
    all_goals
      first
        | exact ⟨hia, hiB⟩
        | exact ⟨hib, hiB⟩
        | exact hiB
  · obtain ⟨e, l, r, rfl⟩ := Pennant.exists_node_of_isNull hcn
    simp [Bag.merge_step_log, hgp, hgq, hit, Pennant.isNull] at h
    subst h
    simp at hev
    repeat' (rcases hev with hev | hev)
    all_goals
      first
        | exact ⟨hia, hiB⟩
        | exact ⟨hib, hiB⟩
        | exact hiB
  · obtain ⟨e, l, r, rfl⟩ := Pennant.exists_node_of_isNull hqn
    simp [Bag.merge_step_log, hgp, hgq, hit, Pennant.isNull] at h
    subst h
    simp at hev
    repeat' (rcases hev with hev | hev)
    all_goals
      first
        | exact ⟨hia, hiB⟩
        | exact ⟨hib, hiB⟩
        | exact hiB
  · have hcg := hcr.getRight_eq
    obtain ⟨e, l, r, rfl⟩ := Pennant.exists_node_of_isNull hqn
    obtain ⟨e', l', r', rfl⟩ := Pennant.exists_node_of_isNull hcn
    simp [Bag.merge_step_log, hgp, hgq, hit, Pennant.isNull, Pennant.combine] at h
    subst h
    simp at hev
    repeat' (rcases hev with hev | hev)
    all_goals
      first
        | exact ⟨hia, hiB⟩
        | exact ⟨hib, hiB⟩
        | exact hiB
        | exact ⟨rfl, hcg⟩
  · obtain ⟨e, l, r, rfl⟩ := Pennant.exists_node_of_isNull hpn
    simp [Bag.merge_step_log, hgp, hgq, hit, Pennant.isNull] at h
    subst h
    simp at hev
    repeat' (rcases hev with hev | hev)
    all_goals
      first
        | exact ⟨hia, hiB⟩
        | exact ⟨hib, hiB⟩
        | exact hiB
  · have hcg := hcr.getRight_eq
    obtain ⟨e, l, r, rfl⟩ := Pennant.exists_node_of_isNull hpn
    obtain ⟨e', l', r', rfl⟩ := Pennant.exists_node_of_isNull hcn
    simp [Bag.merge_step_log, hgp, hgq, hit, Pennant.isNull, Pennant.combine] at h
    subst h
    simp at hev
    repeat' (rcases hev with hev | hev)
    all_goals
      first
        | exact ⟨hia, hiB⟩
        | exact ⟨hib, hiB⟩
        | exact hiB
        | exact ⟨rfl, hcg⟩
  · have hqg := hqr.getRight_eq
    obtain ⟨e, l, r, rfl⟩ := Pennant.exists_node_of_isNull hpn
    obtain ⟨e', l', r', rfl⟩ := Pennant.exists_node_of_isNull hqn
    simp [Bag.merge_step_log, hgp, hgq, hit, Pennant.isNull, Pennant.combine] at h
    subst h
    simp at hev
    repeat' (rcases hev with hev | hev)
    all_goals
      first
        | exact ⟨hia, hiB⟩
        | exact ⟨hib, hiB⟩
        | exact hiB
        | exact ⟨rfl, hqg⟩
  · have hcg := hcr.getRight_eq
    obtain ⟨e, l, r, rfl⟩ := Pennant.exists_node_of_isNull hpn
    obtain ⟨e', l', r', rfl⟩ := Pennant.exists_node_of_isNull hqn
    obtain ⟨e'', l'', r'', rfl⟩ := Pennant.exists_node_of_isNull hcn
    simp [Bag.merge_step_log, hgp, hgq, hit, Pennant.isNull, Pennant.combine] at h
    subst h
    simp at hev
    repeat' (rcases hev with hev | hev)
    all_goals
      first
        | exact ⟨hia, hiB⟩
        | exact ⟨hib, hiB⟩
        | exact hiB
        | exact ⟨rfl, hcg⟩

end
section

variable {T : Type}

/-- The events of the main loop of `merge` are harmless. -/
theorem Bag.merge_loop_log_safe (thatFill fa fb : Nat) (hfb : thatFill ≤ fb) :
    ∀ (n i : Nat) (ta tb : List (Pennant T)) (c : Pennant T),
      i + n ≤ thatFill → i + n ≤ fa → i + n ≤ BAG_SIZE →
      i + n ≤ ta.length → i + n ≤ tb.length →
      (∀ j p, i ≤ j → j < i + n → ta[j]? = some p → SlotOK j p) →
      (∀ j p, i ≤ j → j < i + n → tb[j]? = some p → SlotOK j p) →
      SlotOK i c →
      ∃ ta' tb' c' log, Bag.merge_loop_log thatFill n i ta tb c = some (ta', tb', c', log) ∧
        ∀ ev ∈ log, BagEvent.Safe fa fb ev := by
  intro n
  induction n with
  | zero =>
    intro i ta tb c _ _ _ _ _ _ _ _
    exact ⟨ta, tb, c, [], rfl, fun ev hev => absurd hev (List.not_mem_nil ev)⟩
  | succ n ih =>
    intro i ta tb c hit hia hiB hla hlb hsa hsb hc
    have hgp : ta[i]? = some ta[i] := List.getElem?_eq_getElem (by omega)
    have hgq : tb[i]? = some tb[i] := List.getElem?_eq_getElem (by omega)
    have hp := hsa i _ (le_refl i) (by omega) hgp
    have hq := hsb i _ (le_refl i) (by omega) hgq
    obtain ⟨v, c1, hstep, hv, hc1, -⟩ :=
      Bag.merge_step_spec thatFill i ta tb c _ _ (by omega) hgp hgq hp hq hc
    have hfst := Bag.merge_step_log_fst thatFill i ta tb c
    rw [hstep] at hfst
    obtain ⟨r, hr, hproj⟩ := Option.map_eq_some'.mp hfst
    obtain ⟨ta1, tb1, c1', log1⟩ := r
    simp only [Prod.mk.injEq] at hproj
    obtain ⟨rfl, rfl, rfl⟩ := hproj
    have hsafe1 := Bag.merge_step_log_safe thatFill i fa fb ta tb c _ _ (by omega) hgp hgq hp hq
      hc (by omega) (by omega) (by omega) _ hr
    obtain ⟨ta', tb', c', log2, hrun, hsafe2⟩ :=
      ih (i + 1) (ta.set i v) (tb.set i Pennant.null) c1' (by omega) (by omega) (by omega)
        (by simp; omega) (by simp; omega)
        (by
          intro j p h1 h2 hj
          rw [List.getElem?_set, if_neg (by omega)] at hj
          exact hsa j p (by omega) (by omega) hj)
        (by
          intro j p h1 h2 hj
          rw [List.getElem?_set, if_neg (by omega)] at hj
          exact hsb j p (by omega) (by omega) hj)
        hc1
    refine ⟨ta', tb', c', log1 ++ log2, ?_, ?_⟩
    · simp only [Bag.merge_loop_log, hr, hrun, Option.map_some']
    · intro ev hev
      rcases List.mem_append.mp hev with h | h
      · exact hsafe1 ev h
      · exact hsafe2 ev h

/-- The events of the loops that move the remaining slots of `that` are
harmless. -/
theorem Bag.merge_move_log_safe (fa fb : Nat) :
    ∀ (n j : Nat) (ta tb : List (Pennant T)), j + n ≤ ta.length → j + n ≤ tb.length →
      j + n ≤ fb → j + n ≤ BAG_SIZE →
      ∃ ta' tb' log, Bag.merge_move_log n j ta tb = some (ta', tb', log) ∧
        ∀ ev ∈ log, BagEvent.Safe fa fb ev := by
  intro n
  induction n with
  | zero =>
    intro j ta tb _ _ _ _
    exact ⟨ta, tb, [], rfl, fun ev hev => absurd hev (List.not_mem_nil ev)⟩
  | succ n ih =>
    intro j ta tb hla hlb hfb hB
    have hja : j < ta.length := by omega
    have hjb : j < tb.length := by omega
    have hgq : tb[j]? = some tb[j] := List.getElem?_eq_getElem hjb
    obtain ⟨ta', tb', log, hrun, hsafe⟩ :=
      ih (j + 1) (ta.set j tb[j]) (tb.set j Pennant.null) (by simp; omega) (by simp; omega)
        (by omega) (by omega)
    refine ⟨ta', tb', [BagEvent.read true j, BagEvent.write false j, BagEvent.write true j] ++
      log, ?_, ?_⟩
    · simp only [Bag.merge_move_log, hgq, store_eq hja, store_eq hjb, hrun, Option.map_some']
    · intro ev hev
      simp only [List.mem_append, List.mem_cons, List.not_mem_nil, or_false] at hev
      rcases hev with (rfl | rfl | rfl) | hev
      · exact ⟨by omega, by omega⟩
      · show j < BAG_SIZE
        omega
      · show j < BAG_SIZE
        omega
      · exact hsafe ev hev

/-- The events of the second carry loop of `merge` are harmless when the carry
fits. -/
theorem Bag.merge_ripple_log_safe (mx : Nat) (hmx : mx ≤ BAG_SIZE) (fa fb : Nat)
    (hfb : mx ≤ fb) :
    ∀ (fuel i : Nat) (c : Pennant T) (ta tb : List (Pennant T)),
      ta.length = BAG_SIZE → tb.length = BAG_SIZE → i ≤ mx → i < BAG_SIZE →
      BAG_SIZE ≤ i + fuel →
      (∀ j p, i ≤ j → j < mx → tb[j]? = some p → SlotOK j p) →
      Pennant.IsPennant i c → Pennant.FullBlocks c →
      wsum Pennant.numBlocks tb i mx + c.numBlocks < 2 ^ BAG_SIZE →
      ∃ ta' tb' f log, Bag.merge_ripple_log mx fuel i c ta tb = some (ta', tb', f, log) ∧
        ∀ ev ∈ log, BagEvent.Safe fa fb ev := by
  intro fuel
  induction fuel with
  | zero => intro i c ta tb _ _ _ h1 h2; omega
  | succ fuel ih =>
    intro i c ta tb hla hlb him hiB hfuel hsb hc hcf hsat
    have hia : i < ta.length := by omega
    have hib : i < tb.length := by omega
    have hgq : tb[i]? = some tb[i] := List.getElem?_eq_getElem hib
    rcases Nat.lt_or_ge i mx with hlt | hge
    · rcases (hsb i _ (le_refl i) hlt hgq).null_or with hnull | ⟨hnn, hrank, hfull⟩
      · have hmax : max mx (i + 1) = mx := max_eq_left hlt
        obtain ⟨ta', tb', log, hrun, hsafe⟩ :=
          Bag.merge_move_log_safe fa fb (mx - (i + 1)) (i + 1) (ta.set i c) tb
            (by simp; omega) (by omega) (by omega) (by omega)
        refine ⟨ta', tb', mx, [BagEvent.read true i] ++ [BagEvent.write false i] ++ log, ?_, ?_⟩
        · simp only [Bag.merge_ripple_log, if_pos hlt, hgq, hnull, Pennant.isNull_null, if_true,
            store_eq hia, hmax, hrun, Option.map_some']
        · intro ev hev
          simp only [List.mem_append, List.mem_singleton] at hev
          rcases hev with (rfl | rfl) | hev
          · exact ⟨by omega, hiB⟩
          · exact hiB
          · exact hsafe ev hev
      · obtain ⟨c', hcomb, hrank', hbs', hfull'⟩ := Pennant.combine_spec hrank hc
        have hnb : c'.numBlocks = tb[i].numBlocks + c.numBlocks := by
          rw [Pennant.numBlocks_eq_card, hbs', Multiset.card_add,
            ← Pennant.numBlocks_eq_card, ← Pennant.numBlocks_eq_card]
        have hsplit := wsum_succ_bot Pennant.numBlocks tb hlt
        rw [getD_of_get? hgq] at hsplit
        have hi1 : i + 1 < BAG_SIZE := by
          by_contra hcon
          have h64 : i + 1 = BAG_SIZE := by omega
          have := hrank'.numBlocks_eq
          rw [h64] at this
          omega
        obtain ⟨ta', tb', f, log, hrun, hsafe⟩ :=
          ih (i + 1) c' (ta.set i Pennant.null) (tb.set i Pennant.null) (by simpa using hla)
            (by simpa using hlb) (by omega) hi1 (by omega)
            (by
              intro j p hj1 hj2 hj
              rw [List.getElem?_set, if_neg (by omega)] at hj
              exact hsb j p (by omega) hj2 hj)
            hrank' (hfull' hfull hcf)
            (by
              rw [wsum_set_out Pennant.numBlocks tb Pennant.null (Or.inl (by omega : i < i + 1))]
              omega)
        refine ⟨ta', tb', f, [BagEvent.read true i] ++
          [BagEvent.read true i, BagEvent.combine tb[i] c, BagEvent.write false i,
            BagEvent.write true i] ++ log, ?_, ?_⟩
        · simp only [Bag.merge_ripple_log, if_pos hlt, hgq, hnn, hcomb, store_eq hia,
            store_eq hib, if_pos hi1, hrun]
          simp
        · intro ev hev
          simp only [List.mem_append, List.mem_singleton, List.mem_cons, List.not_mem_nil,
            or_false] at hev
          rcases hev with (rfl | rfl | rfl | rfl | rfl) | hev
          · exact ⟨by omega, hiB⟩
          · exact ⟨by omega, hiB⟩
          · exact ⟨hnn, hc.getRight_eq⟩
          · exact hiB
          · exact hiB
          · exact hsafe ev hev
    · have hil : i = mx := by omega
      subst hil
      have hmax : max i (i + 1) = i + 1 := max_eq_right (Nat.le_succ i)
      refine ⟨ta.set i c, tb, i + 1, [BagEvent.write false i], ?_, ?_⟩
      · simp only [Bag.merge_ripple_log, if_neg (Nat.lt_irrefl i), Pennant.isNull_null, if_true,
          store_eq hia, hmax, Nat.sub_self, Bag.merge_move_log, Option.map_some']
        rfl
      · intro ev hev
        rw [List.mem_singleton] at hev
        subst hev
        exact hiB

end
section

variable {T : Type}

/-- The events of `merge` on two well-formed bags whose blocks fit into one
pennant array are harmless, and `merge` with its record yields the bags of
`merge`. -/
theorem Bag.merge_log_safe (a b : Bag T) (ha : a.WF) (hb : b.WF)
    (hsat : a.numBlocks + b.numBlocks + (a.size + b.size) / BLK_SIZE < 2 ^ BAG_SIZE) :
    ∃ a' b' log, a.merge_log b = some (a', b', log) ∧ a.merge b = some (a', b') ∧
      ∀ ev ∈ log, BagEvent.Safe a.fill b.fill ev := by
  suffices hs : ∃ a' b' log, a.merge_log b = some (a', b', log) ∧
      ∀ ev ∈ log, BagEvent.Safe a.fill b.fill ev by
    obtain ⟨a', b', log, h1, h2⟩ := hs
    refine ⟨a', b', log, h1, ?_, h2⟩
    rw [← Bag.merge_log_fst, h1]
    rfl
  obtain ⟨fa', sz, blk, hmf, hlen, hsz, hno, hyes, -⟩ := Bag.merge_filling_spec a b ha hb
  have hsa := ha.size_lt
  have hsb := hb.size_lt
  have hpos := BLK_SIZE_pos
  have hc0 : SlotOK 0 (Pennant.ofCarry blk) := by
    rcases Nat.lt_or_ge (a.size + b.size) BLK_SIZE with h | h
    · rw [(hno h).1]; exact Or.inl rfl
    · obtain ⟨e, hb0, hel, -⟩ := hyes h
      rw [hb0]; exact Or.inr (Pennant.ofBlock_slotOK e hel)
  have hc0nb : (Pennant.ofCarry blk).numBlocks = (a.size + b.size) / BLK_SIZE := by
    rcases Nat.lt_or_ge (a.size + b.size) BLK_SIZE with h | h
    · rw [(hno h).1, Nat.div_eq_of_lt h]; rfl
    · obtain ⟨e, hb0, -, hs⟩ := hyes h
      have : (a.size + b.size) / BLK_SIZE = 1 := by
        apply Nat.div_eq_of_lt_le <;> omega
      rw [hb0, this]; rfl
  have hsat' : a.numBlocks + b.numBlocks + (Pennant.ofCarry blk).numBlocks < 2 ^ BAG_SIZE := by
    rw [hc0nb]; exact hsat
  have hfa := ha.fill_le
  have hfb := hb.fill_le
  have hla := ha.slots
  have hlb := hb.slots
  have hfla := ha.fill_le_length
  have hflb := hb.fill_le_length
  -- the two bounds of the loops
  obtain ⟨mn, mx, hmn, hmx, hmnle, hmxle, hmnmx, hmna, hmnb, hmxeq⟩ :
      ∃ mn mx, (if a.fill > b.fill then b.fill else a.fill) = mn ∧
        (if a.fill > b.fill then a.fill else b.fill) = mx ∧ mn ≤ mx ∧ mx ≤ BAG_SIZE ∧
        ((a.fill = mx ∧ b.fill = mn) ∨ (a.fill = mn ∧ b.fill = mx ∧ mn < mx)) ∧
        mn ≤ a.fill ∧ mn ≤ b.fill ∧ mx = max a.fill b.fill := by
    by_cases h : a.fill > b.fill
    · exact ⟨b.fill, a.fill, if_pos h, if_pos h, by omega, hfa, Or.inl ⟨rfl, rfl⟩, by omega,
        le_refl _, by rw [max_eq_left (by omega)]⟩
    · refine ⟨a.fill, b.fill, if_neg h, if_neg h, by omega, hfb, ?_, le_refl _, by omega,
        by rw [max_eq_right (by omega)]⟩
      rcases Nat.lt_or_ge a.fill b.fill with h1 | h1
      · exact Or.inr ⟨rfl, rfl, h1⟩
      · exact Or.inl ⟨by omega, by omega⟩
  -- the main loop
  obtain ⟨ta, tb, c, hloop, hlta, hltb, hout, hok, hnull, hc, hsum⟩ :=
    Bag.merge_loop_spec b.fill mn 0 a.bag b.bag (Pennant.ofCarry blk) (by omega) (by omega)
      (by omega)
      (fun j p _ hj hp => ha.rank j p (by omega) hp)
      (fun j p _ hj hp => hb.rank j p (by omega) hp) hc0
  simp only [Nat.zero_add] at hout hok hnull hc hsum
  rw [hla] at hlta
  rw [hlb] at hltb
  obtain ⟨ta0, tb0, c0, log1, hlooplog, hsafe1⟩ :=
    Bag.merge_loop_log_safe b.fill a.fill b.fill (le_refl _) mn 0 a.bag b.bag
      (Pennant.ofCarry blk) (by omega) (by omega) (by omega) (by omega) (by omega)
      (fun j p _ hj hp => ha.rank j p (by omega) hp)
      (fun j p _ hj hp => hb.rank j p (by omega) hp) hc0
  have hfst := Bag.merge_loop_log_fst b.fill mn 0 a.bag b.bag (Pennant.ofCarry blk)
  rw [hlooplog, hloop] at hfst
  simp only [Option.map_some', Option.some.injEq, Prod.mk.injEq] at hfst
  obtain ⟨rfl, rfl, rfl⟩ := hfst
  have hta_hi : ∀ j, mn ≤ j → ta0[j]? = a.bag[j]? := fun j hj => (hout j (Or.inr hj)).1
  have htb_hi : ∀ j, mn ≤ j → tb0[j]? = b.bag[j]? := fun j hj => (hout j (Or.inr hj)).2
  have hA : a.blockSet = wsum Pennant.blockSet a.bag 0 a.fill := Bag.blockSet_eq_wsum hfla
  have hB : b.blockSet = wsum Pennant.blockSet b.bag 0 b.fill := Bag.blockSet_eq_wsum hflb
  have hsatc : Multiset.card (a.blockSet + b.blockSet + (Pennant.ofCarry blk).blockSet) <
      2 ^ BAG_SIZE := by
    rw [Multiset.card_add, Multiset.card_add, ← Bag.numBlocks_card_blockSet hfla,
      ← Bag.numBlocks_card_blockSet hflb, ← Pennant.numBlocks_eq_card]
    exact hsat'
  have hgetD_congr : ∀ (l l' : List (Pennant T)) (j : Nat), l'[j]? = l[j]? →
      l'.getD j Pennant.null = l.getD j Pennant.null := by
    intro l l' j h
    rw [List.getD_eq_getElem?_getD, List.getD_eq_getElem?_getD, h]
  have hrunlog : ∀ (r : Option (Bag T × Bag T × List (BagEvent T))),
      (if a.fill = mx then
        if c0.isNull then
          some (({ fill := a.fill, bag := ta0, filling := some fa', size := sz } : Bag T),
                ({ fill := 0, bag := tb0, filling := none, size := b.size } : Bag T), log1)
        else
          (Bag.carry_log mx (BAG_SIZE + 1) mn c0
              { fill := a.fill, bag := ta0, filling := some fa', size := sz }).map
            fun r => (r.1, { fill := 0, bag := tb0, filling := none, size := b.size },
              log1 ++ r.2)
      else
        if c0.isNull then
          (Bag.merge_move_log (mx - mn) mn ta0 tb0).map
            fun r => ({ fill := mx, bag := r.1, filling := some fa', size := sz },
                      { fill := 0, bag := r.2.1, filling := none, size := b.size },
                      log1 ++ r.2.2)
        else
          (Bag.merge_ripple_log mx (BAG_SIZE + 1) mn c0 ta0 tb0).map
            fun r => ({ fill := r.2.2.1, bag := r.1, filling := some fa', size := sz },
                      { fill := 0, bag := r.2.1, filling := none, size := b.size },
                      log1 ++ r.2.2.2)) = r → a.merge_log b = r := by
    intro r hr
    unfold Bag.merge_log
    rw [hmf]
    dsimp only
    rw [hmn, hmx, hlooplog]
    exact hr
  rcases hmnmx with ⟨hamx, hbmn⟩ | ⟨hamn, hbmx, hlt⟩
  · -- `this->fill == max`
    have hK : wsum Pennant.blockSet ta0 0 mx + c0.blockSet =
        a.blockSet + b.blockSet + (Pennant.ofCarry blk).blockSet := by
      rw [wsum_split _ ta0 (Nat.zero_le mn) hmnle,
        wsum_congr Pennant.blockSet a.bag ta0 mn mx
          (fun j h1 _ => hgetD_congr _ _ j (hta_hi j h1)),
        hA, hB, hamx, hbmn, wsum_split _ a.bag (Nat.zero_le mn) hmnle]
      rw [add_right_comm, hsum]
      abel
    have hslots : ∀ j p, j < mx → ta0[j]? = some p → SlotOK j p := by
      intro j p hj hp
      rcases Nat.lt_or_ge j mn with h | h
      · exact hok j p (Nat.zero_le j) h hp
      · rw [hta_hi j h] at hp
        exact ha.rank j p (by omega) hp
    by_cases hcn : c0.isNull = true
    · refine ⟨{ fill := a.fill, bag := ta0, filling := some fa', size := sz },
        { fill := 0, bag := tb0, filling := none, size := b.size }, log1, hrunlog _ ?_, hsafe1⟩
      rw [if_pos hamx, if_pos hcn]
    · have hcr : Pennant.IsPennant mn c0 ∧ Pennant.FullBlocks c0 := by
        rcases hc with h | h
        · exact absurd ((Pennant.isNull_iff c0).mpr h) hcn
        · exact h
      have hcardK : wsum Pennant.numBlocks ta0 0 mx + c0.numBlocks < 2 ^ BAG_SIZE := by
        have := congrArg Multiset.card hK
        rw [Multiset.card_add, card_wsum_blockSet, ← Pennant.numBlocks_eq_card] at this
        omega
      have hmnB : mn < BAG_SIZE := by
        by_contra hcon
        have h64 : mn = BAG_SIZE := by omega
        have := hcr.1.numBlocks_eq
        rw [h64] at this
        omega
      have hsplit := wsum_split Pennant.numBlocks ta0 (Nat.zero_le mn) hmnle
      obtain ⟨a', log2, hrun, hsafe2⟩ :=
        Bag.carry_log_safe mx hmxle a.fill b.fill (by omega) (BAG_SIZE + 1) mn c0
          { fill := a.fill, bag := ta0, filling := some fa', size := sz } hlta hmnle hmnB
          (by omega) hslots hcr.1 hcr.2 (by
            show wsum Pennant.numBlocks ta0 mn mx + _ < _
            omega)
      refine ⟨a', { fill := 0, bag := tb0, filling := none, size := b.size }, log1 ++ log2,
        hrunlog _ ?_, ?_⟩
      · rw [if_pos hamx, if_neg hcn, hrun]
        rfl
      · intro ev hev
        rcases List.mem_append.mp hev with h | h
        · exact hsafe1 ev h
        · exact hsafe2 ev h
  · -- `that->fill == max`
    have hne : ¬ a.fill = mx := by omega
    have hK : wsum Pennant.blockSet ta0 0 mn + wsum Pennant.blockSet tb0 mn mx + c0.blockSet =
        a.blockSet + b.blockSet + (Pennant.ofCarry blk).blockSet := by
      rw [wsum_congr Pennant.blockSet b.bag tb0 mn mx
          (fun j h1 _ => hgetD_congr _ _ j (htb_hi j h1)),
        hA, hB, hamn, hbmx, wsum_split _ b.bag (Nat.zero_le mn) hmnle]
      rw [add_right_comm, hsum]
      abel
    have hslotsb : ∀ j p, mn ≤ j → j < mx → tb0[j]? = some p → SlotOK j p := by
      intro j p h1 h2 hp
      rw [htb_hi j h1] at hp
      exact hb.rank j p (by omega) hp
    by_cases hcn : c0.isNull = true
    · obtain ⟨ta', tb', log2, hrun, hsafe2⟩ :=
        Bag.merge_move_log_safe a.fill b.fill (mx - mn) mn ta0 tb0 (by omega) (by omega)
          (by omega) (by omega)
      refine ⟨{ fill := mx, bag := ta', filling := some fa', size := sz },
        { fill := 0, bag := tb', filling := none, size := b.size }, log1 ++ log2,
        hrunlog _ ?_, ?_⟩
      · rw [if_neg hne, if_pos hcn, hrun]
        rfl
      · intro ev hev
        rcases List.mem_append.mp hev with h | h
        · exact hsafe1 ev h
        · exact hsafe2 ev h
    · have hcr : Pennant.IsPennant mn c0 ∧ Pennant.FullBlocks c0 := by
        rcases hc with h | h
        · exact absurd ((Pennant.isNull_iff c0).mpr h) hcn
        · exact h
      have hcardK : wsum Pennant.numBlocks tb0 mn mx + c0.numBlocks < 2 ^ BAG_SIZE := by
        have := congrArg Multiset.card hK
        rw [Multiset.card_add, Multiset.card_add, card_wsum_blockSet, card_wsum_blockSet,
          ← Pennant.numBlocks_eq_card] at this
        omega
      obtain ⟨ta', tb', f, log2, hrun, hsafe2⟩ :=
        Bag.merge_ripple_log_safe mx hmxle a.fill b.fill (by omega) (BAG_SIZE + 1) mn c0 ta0 tb0
          hlta hltb hmnle (by omega) (by omega) hslotsb hcr.1 hcr.2 hcardK
      refine ⟨{ fill := f, bag := ta', filling := some fa', size := sz },
        { fill := 0, bag := tb', filling := none, size := b.size }, log1 ++ log2,
        hrunlog _ ?_, ?_⟩
      · rw [if_neg hne, if_neg hcn, hrun]
        rfl
      · intro ev hev
        rcases List.mem_append.mp hev with h | h
        · exact hsafe1 ev h
        · exact hsafe2 ev h

end
section

variable {T : Type}

/-- When the argument of `combine` has a null right child, the assignment
`that->r = this->l` discards nothing: the result holds the blocks of both. -/
theorem Pennant.combine_keeps {x y : Pennant T} (hx : x.isNull = false)
    (hy : y.getRight = some Pennant.null) :
    ∃ z, x.combine y = some z ∧ z.blockSet = x.blockSet + y.blockSet := by
  cases x with
  | null => cases hx
  | node e l r =>
    cases y with
    | null => cases hy
    | node e' l' r' =>
      simp only [Pennant.getRight, Option.some.injEq] at hy
      subst hy
      refine ⟨_, rfl, ?_⟩
      simp only [Pennant.blockSet, Pennant.blocks, List.append_nil, ← Multiset.cons_coe,
        ← Multiset.coe_add, ← Multiset.singleton_add]
      abel

end
/-- C37: in every state of a bag reachable from a newly constructed bag by
`insert`, `merge` (with another such bag), `split` and `clear` without
saturating the pennant array, every pennant stored in a slot `bag[i]`,
`i < fill`, has a null right child at its root; every call `x->combine(y)` made
by a further `insert` or `merge` that does not saturate has a non-null `x` and
an argument `y` (a carry or a slot of `that`) whose root has a null right child,
so that the assignment `that->r = this->l` overwrites no subtree: the result of
the call holds the blocks of `x` and of `y`. -/
theorem Bag_reach_right_null {T : Type} [Inhabited T] (b : Bag T) (h : b.ReachUnsat) :
    (∀ i p, i < b.fill → b.bag[i]? = some p → p ≠ Pennant.null →
        p.getRight = some Pennant.null) ∧
      (∀ el : T, Multiset.card b.elems + 1 < BLK_SIZE * 2 ^ BAG_SIZE →
        ∃ b' log, b.insert_log el = some (b', log) ∧ b.insert el = some b' ∧
          ∀ x y, BagEvent.combine x y ∈ log →
            x.isNull = false ∧ y.getRight = some Pennant.null ∧
              ∃ z, x.combine y = some z ∧ z.blockSet = x.blockSet + y.blockSet) ∧
      ∀ b2 : Bag T, b2.ReachUnsat →
        b.numBlocks + b2.numBlocks + (b.size + b2.size) / BLK_SIZE < 2 ^ BAG_SIZE →
        ∃ a' b' log, b.merge_log b2 = some (a', b', log) ∧ b.merge b2 = some (a', b') ∧
          ∀ x y, BagEvent.combine x y ∈ log →
            x.isNull = false ∧ y.getRight = some Pennant.null ∧
              ∃ z, x.combine y = some z ∧ z.blockSet = x.blockSet + y.blockSet := by
  have hwf := h.wf_top.1
  refine ⟨?_, ?_, ?_⟩
  · intro i p hi hp hn
    rcases hwf.rank i p hi hp with h0 | ⟨hr, -⟩
    · exact absurd h0 hn
    · exact hr.getRight_eq
  · intro el hcap
    obtain ⟨b', log, h1, h2, hsafe⟩ := Bag.insert_log_safe b el hwf hcap
    refine ⟨b', log, h1, h2, ?_⟩
    intro x y hxy
    obtain ⟨hx, hy⟩ := hsafe _ hxy
    exact ⟨hx, hy, Pennant.combine_keeps hx hy⟩
  · intro b2 h2 hcap
    obtain ⟨a', b', log, h1, h3, hsafe⟩ := Bag.merge_log_safe b b2 hwf h2.wf_top.1 hcap
    refine ⟨a', b', log, h1, h3, ?_⟩
    intro x y hxy
    obtain ⟨hx, hy⟩ := hsafe _ hxy
    exact ⟨hx, hy, Pennant.combine_keeps hx hy⟩

theorem Bag_reach_right_null_witness :
    (∀ i p, i < Bag.oneBlock.fill → Bag.oneBlock.bag[i]? = some p → p ≠ Pennant.null →
        p.getRight = some Pennant.null) ∧
      (∀ el : Nat, Multiset.card Bag.oneBlock.elems + 1 < BLK_SIZE * 2 ^ BAG_SIZE →
        ∃ b' log, Bag.oneBlock.insert_log el = some (b', log) ∧
          Bag.oneBlock.insert el = some b' ∧
          ∀ x y, BagEvent.combine x y ∈ log →
            x.isNull = false ∧ y.getRight = some Pennant.null ∧
              ∃ z, x.combine y = some z ∧ z.blockSet = x.blockSet + y.blockSet) ∧
      ∀ b2 : Bag Nat, b2.ReachUnsat →
        Bag.oneBlock.numBlocks + b2.numBlocks + (Bag.oneBlock.size + b2.size) / BLK_SIZE <
          2 ^ BAG_SIZE →
        ∃ a' b' log, Bag.oneBlock.merge_log b2 = some (a', b', log) ∧
          Bag.oneBlock.merge b2 = some (a', b') ∧
          ∀ x y, BagEvent.combine x y ∈ log →
            x.isNull = false ∧ y.getRight = some Pennant.null ∧
              ∃ z, x.combine y = some z ∧ z.blockSet = x.blockSet + y.blockSet :=
  Bag_reach_right_null Bag.oneBlock Bag.oneBlock_reachUnsat

/-- C38: for all bags `A` and `B` satisfying the bag invariants whose full
blocks together (those of the pennants, plus the one the two fillings make up
when `A.size + B.size ≥ BLK_SIZE`) are fewer than `2 ^ BAG_SIZE`, `A.merge(B)`
runs to its end with every index into `A.bag` and `B.bag` below `BAG_SIZE`:
every read of a slot of `A` is at an index below `A.fill` and every read of a
slot of `B` at an index below `B.fill` (the values of `fill` on entry), every
store to a slot is at an index below `BAG_SIZE`, and the statement
`this->fill = BAG_SIZE;` after the carry loops is not reached, so that the call
returns from a branch that has stored the last carry, if there was one. -/
theorem Bag_merge_in_bounds {T : Type} (a b : Bag T) (ha : a.Inv) (hb : b.Inv)
    (hsat : a.numBlocks + b.numBlocks + (a.size + b.size) / BLK_SIZE < 2 ^ BAG_SIZE) :
    ∃ a' b' log, a.merge_log b = some (a', b', log) ∧ a.merge b = some (a', b') ∧
      (∀ i, BagEvent.read false i ∈ log → i < a.fill ∧ i < BAG_SIZE) ∧
      (∀ i, BagEvent.read true i ∈ log → i < b.fill ∧ i < BAG_SIZE) ∧
      (∀ t i, BagEvent.write t i ∈ log → i < BAG_SIZE) ∧
      BagEvent.saturate ∉ log := by
  obtain ⟨a', b', log, h1, h2, hsafe⟩ := Bag.merge_log_safe a b ha.wf hb.wf hsat
  exact ⟨a', b', log, h1, h2, fun i hi => hsafe _ hi, fun i hi => hsafe _ hi,
    fun t i hi => hsafe _ hi, fun hs => hsafe _ hs⟩

theorem Bag_merge_in_bounds_witness :
    ∃ a' b' log, Bag.oneBlock.merge_log Bag.oneBlock = some (a', b', log) ∧
      Bag.oneBlock.merge Bag.oneBlock = some (a', b') ∧
      (∀ i, BagEvent.read false i ∈ log → i < Bag.oneBlock.fill ∧ i < BAG_SIZE) ∧
      (∀ i, BagEvent.read true i ∈ log → i < Bag.oneBlock.fill ∧ i < BAG_SIZE) ∧
      (∀ t i, BagEvent.write t i ∈ log → i < BAG_SIZE) ∧
      BagEvent.saturate ∉ log :=
  Bag_merge_in_bounds Bag.oneBlock Bag.oneBlock Bag.oneBlock_inv Bag.oneBlock_inv (by
    have h1 : Bag.oneBlock.numBlocks = 1 := by
      simp [Bag.numBlocks, Bag.oneBlock, Pennant.numBlocks, Pennant.ofBlock, Pennant.blocks]
    rw [h1]
    norm_num [Bag.oneBlock, BLK_SIZE, BAG_SIZE])

/-! ## The archival revision: saturation of `insert` -/

namespace Archival

/-- While `size < BLK_SIZE` the archival `insert` only stores the element. -/
theorem Bag.insert_room {T : Type} [Inhabited T] (b : Bag T) (x : T) (e : List T)
    (l r : Pennant T) (hf : b.filling = Pennant.node e l r) (hlt : b.size < BLK_SIZE)
    (hel : b.size < e.length) :
    b.insert x =
      some { b with filling := Pennant.node (e.set b.size x) l r, size := b.size + 1 } := by
  simp only [Bag.insert, if_pos hlt, hf, store_eq hel]

/-- The loop of the archival `insert` on slots that are all non-null from `i`
on: every slot is emptied into the carry, the loop ends at `BAG_SIZE` and the
carry is dropped. -/
theorem Bag.insert_loop_saturate {T : Type} :
    ∀ (fuel i : Nat) (c : Pennant T) (b : Bag T), i < BAG_SIZE → BAG_SIZE ≤ i + fuel →
      b.bag.length = BAG_SIZE → b.fill = BAG_SIZE → c ≠ Pennant.null →
      (∀ j, i ≤ j → j < BAG_SIZE → ∃ p, b.bag[j]? = some p ∧ p ≠ Pennant.null) →
      ∃ b', Bag.insert_loop fuel i c b = some b' ∧ b'.fill = BAG_SIZE ∧
        b'.size = b.size ∧ b'.filling = b.filling ∧ b'.bag.length = BAG_SIZE ∧
        (∀ j, i ≤ j → j < BAG_SIZE → b'.bag[j]? = some Pennant.null) ∧
        (∀ j, j < i → b'.bag[j]? = b.bag[j]?) := by
  intro fuel
  induction fuel with
  | zero => intro i c b hi hf; omega
  | succ fuel ih =>
    intro i c b hi hf hlen hfill hc hfull
    obtain ⟨p, hp, hpn⟩ := hfull i (le_refl i) hi
    have hil : i < b.bag.length := by omega
    have hifill : i < b.fill := by omega
    obtain ⟨e, l, r, rfl⟩ : ∃ e l r, p = Pennant.node e l r := by
      cases p with
      | null => exact absurd rfl hpn
      | node e l r => exact ⟨e, l, r, rfl⟩
    obtain ⟨e', l', r', rfl⟩ : ∃ e l r, c = Pennant.node e l r := by
      cases c with
      | null => exact absurd rfl hc
      | node e l r => exact ⟨e, l, r, rfl⟩
    have hnn : (Pennant.node e l r).isNull = false := rfl
    by_cases hnext : i + 1 < BAG_SIZE
    · obtain ⟨b', hrun, h1, h2, h3, h4, h5, h6⟩ :=
        ih (i + 1) (Pennant.node e (Pennant.node e' l' l) r)
          { b with bag := b.bag.set i Pennant.null } hnext (by omega) (by simpa using hlen)
          hfill (by simp) (by
            intro j hj hjB
            obtain ⟨q, hq, hqn⟩ := hfull j (by omega) hjB
            refine ⟨q, ?_, hqn⟩
            show (b.bag.set i Pennant.null)[j]? = some q
            rw [List.getElem?_set_ne (by omega)]
            exact hq)
      refine ⟨b', ?_, h1, h2, h3, h4, ?_, ?_⟩
      · unfold Bag.insert_loop
        simp only [if_pos hifill, hp, hnn, Bool.false_eq_true, if_false, Pennant.combine,
          store_eq hil, if_pos hnext]
        exact hrun
      · intro j hj hjB
        rcases Nat.eq_or_lt_of_le hj with h7 | h7
        · subst h7
          rw [h6 i (by omega)]
          show (b.bag.set i Pennant.null)[i]? = some Pennant.null
          exact List.getElem?_set_self hil
        · exact h5 j h7 hjB
      · intro j hj
        rw [h6 j (by omega)]
        show (b.bag.set i Pennant.null)[j]? = b.bag[j]?
        exact List.getElem?_set_ne (by omega)
    · refine ⟨{ b with bag := b.bag.set i Pennant.null, fill := BAG_SIZE }, ?_, rfl, rfl, rfl,
        by simpa using hlen, ?_, ?_⟩
      · unfold Bag.insert_loop
        simp only [if_pos hifill, hp, hnn, Bool.false_eq_true, if_false, Pennant.combine,
          store_eq hil, if_neg hnext]
      · intro j hj hjB
        have : j = i := by omega
        subst this
        exact List.getElem?_set_self hil
      · intro j hj
        exact List.getElem?_set_ne (by omega)

/-- The archival `insert` on a bag whose slots are all non-null and whose
filling is full: the slots are emptied and the carry is dropped. -/
theorem Bag.insert_saturate {T : Type} [Inhabited T] (b : Bag T) (x : T)
    (hlen : b.bag.length = BAG_SIZE) (hfill : b.fill = BAG_SIZE)
    (hfull : ∀ j, j < BAG_SIZE → ∃ p, b.bag[j]? = some p ∧ p ≠ Pennant.null)
    (hf : b.filling ≠ Pennant.null) (hsz : b.size = BLK_SIZE) :
    ∃ b', b.insert x = some b' ∧ b'.fill = BAG_SIZE ∧ b'.size = 1 ∧
      (∀ j, j < BAG_SIZE → b'.bag[j]? = some Pennant.null) ∧
      b'.filling = Pennant.ofBlock ((List.replicate BLK_SIZE (default : T)).set 0 x) := by
  have hnl : ¬ b.size < BLK_SIZE := by omega
  have hrep : 0 < (List.replicate BLK_SIZE (default : T)).length := by
    rw [List.length_replicate]; decide
  obtain ⟨b', hrun, h1, h2, h3, -, h5, -⟩ :=
    Bag.insert_loop_saturate BAG_SIZE 0 b.filling
      { b with filling := Pennant.ofBlock ((List.replicate BLK_SIZE (default : T)).set 0 x),
               size := 1 }
      (by decide) (by omega) hlen hfill hf (fun j _ hj => hfull j hj)
  refine ⟨b', ?_, h1, h2, fun j hj => h5 j (Nat.zero_le j) hj, h3⟩
  simp only [Bag.insert, if_neg hnl, store_eq hrep]
  exact hrun

end Archival

/-- C25 (refuted as stated for the archival revision): in
`bfs-cilk++/bag.cpp`, on a bag whose 64 slots are all non-null
(`fill == BAG_SIZE`) and whose filling holds `BLK_SIZE - 1 = 127` elements,
`insert(5)` only stores the element: afterwards `size == 128`, not 0, and the
slots are what they were, all non-null. Nothing is lost by this call. -/
theorem Archival_insert_stores_at_full_slots :
    ∃ b', Archival.Bag.insert
        ({ fill := Archival.BAG_SIZE
           bag := List.replicate Archival.BAG_SIZE
             (Pennant.ofBlock (List.replicate Archival.BLK_SIZE 0))
           filling := Pennant.ofBlock (List.replicate Archival.BLK_SIZE 0)
           size := Archival.BLK_SIZE - 1 } : Archival.Bag Nat) 5 = some b' ∧
      b'.fill = Archival.BAG_SIZE ∧ b'.size = Archival.BLK_SIZE ∧ b'.size ≠ 0 ∧
      b'.bag = List.replicate Archival.BAG_SIZE
        (Pennant.ofBlock (List.replicate Archival.BLK_SIZE 0)) ∧
      b'.bag[0]? ≠ some Pennant.null := by
  refine ⟨_, Archival.Bag.insert_room _ 5 (List.replicate Archival.BLK_SIZE 0) Pennant.null
    Pennant.null rfl (by decide) (by rw [List.length_replicate]; decide), rfl, rfl,
    by decide, rfl, ?_⟩
  show (List.replicate Archival.BAG_SIZE
    (Pennant.ofBlock (List.replicate Archival.BLK_SIZE 0)))[0]? ≠ some Pennant.null
  rw [List.getElem?_replicate, if_pos (by decide)]
  simp [Pennant.ofBlock]

/-- C25 (amended): in the latest `bag.h`, for every bag whose slots
`bag[0 .. BAG_SIZE)` are all non-null (`fill == BAG_SIZE`) and whose filling
holds `BLK_SIZE - 1` elements, `insert(x)` returns normally with
`fill == BAG_SIZE`, `size == 0` and every slot `bag[0 .. BAG_SIZE)` null: the
final carry pennant is stored nowhere and the bag holds no element any more. In
the archival `bfs-cilk++/bag.cpp` the same loss happens one call later: for
every bag whose slots are all non-null and whose filling holds `BLK_SIZE`
elements, `insert(x)` returns normally with `fill == BAG_SIZE`, every slot null
and `size == 1`, the bag holding only `x` in a fresh filling; with `BLK_SIZE - 1`
elements in the filling the archival `insert(x)` only stores `x`. -/
theorem Bag_insert_saturates {T : Type} [Inhabited T] :
    (∀ (b : Bag T) (x : T) (f : List T), b.bag.length = BAG_SIZE → b.fill = BAG_SIZE →
      (∀ j, j < BAG_SIZE → ∃ p, b.bag[j]? = some p ∧ p ≠ Pennant.null) →
      b.filling = some f → f.length = BLK_SIZE → b.size = BLK_SIZE - 1 →
      ∃ b', b.insert x = some b' ∧ b'.fill = BAG_SIZE ∧ b'.size = 0 ∧
        (∀ j, j < BAG_SIZE → b'.bag[j]? = some Pennant.null) ∧ b'.elems = 0) ∧
    (∀ (b : Archival.Bag T) (x : T), b.bag.length = Archival.BAG_SIZE →
      b.fill = Archival.BAG_SIZE →
      (∀ j, j < Archival.BAG_SIZE → ∃ p, b.bag[j]? = some p ∧ p ≠ Pennant.null) →
      b.filling ≠ Pennant.null → b.size = Archival.BLK_SIZE →
      ∃ b', b.insert x = some b' ∧ b'.fill = Archival.BAG_SIZE ∧ b'.size = 1 ∧
        (∀ j, j < Archival.BAG_SIZE → b'.bag[j]? = some Pennant.null) ∧
        b'.filling =
          Pennant.ofBlock ((List.replicate Archival.BLK_SIZE (default : T)).set 0 x)) ∧
    ∀ (b : Archival.Bag T) (x : T) (e : List T) (l r : Pennant T),
      b.filling = Pennant.node e l r → e.length = Archival.BLK_SIZE →
      b.size = Archival.BLK_SIZE - 1 →
      b.insert x = some { b with filling := Pennant.node (e.set b.size x) l r,
                                 size := Archival.BLK_SIZE } := by
  refine ⟨fun b x f h1 h2 h3 h4 h5 h6 => Bag.insert_saturate_spec b x f h1 h2 h3 h4 h5 h6,
    fun b x h1 h2 h3 h4 h5 => Archival.Bag.insert_saturate b x h1 h2 h3 h4 h5, ?_⟩
  intro b x e l r hf hel hsz
  have hlt : b.size < Archival.BLK_SIZE := by
    rw [hsz]; decide
  rw [Archival.Bag.insert_room b x e l r hf hlt (by omega), hsz]
  rfl

theorem Bag_insert_saturates_witness :
    (∃ b', Bag.insert
        ({ fill := BAG_SIZE
           bag := List.replicate BAG_SIZE (Pennant.ofBlock (List.replicate BLK_SIZE 0))
           filling := some (List.replicate BLK_SIZE 0)
           size := BLK_SIZE - 1 } : Bag Nat) 5 = some b' ∧
      b'.fill = BAG_SIZE ∧ b'.size = 0 ∧
      (∀ j, j < BAG_SIZE → b'.bag[j]? = some Pennant.null) ∧ b'.elems = 0) ∧
    ∃ b', Archival.Bag.insert
        ({ fill := Archival.BAG_SIZE
           bag := List.replicate Archival.BAG_SIZE
             (Pennant.ofBlock (List.replicate Archival.BLK_SIZE 0))
           filling := Pennant.ofBlock (List.replicate Archival.BLK_SIZE 0)
           size := Archival.BLK_SIZE } : Archival.Bag Nat) 5 = some b' ∧
      b'.fill = Archival.BAG_SIZE ∧ b'.size = 1 ∧
      (∀ j, j < Archival.BAG_SIZE → b'.bag[j]? = some Pennant.null) ∧
      b'.filling = Pennant.ofBlock ((List.replicate Archival.BLK_SIZE (default : Nat)).set 0 5) :=
  ⟨Bag_insert_saturates.1 _ 5 (List.replicate BLK_SIZE 0) (List.length_replicate _ _) rfl
      (fun j hj => ⟨Pennant.ofBlock (List.replicate BLK_SIZE 0), by
        show (List.replicate BAG_SIZE (Pennant.ofBlock (List.replicate BLK_SIZE 0)))[j]? = _
        rw [List.getElem?_replicate, if_pos hj], by simp [Pennant.ofBlock]⟩)
      rfl (List.length_replicate _ _) rfl,
    Bag_insert_saturates.2.1 _ 5 (List.length_replicate _ _) rfl
      (fun j hj => ⟨Pennant.ofBlock (List.replicate Archival.BLK_SIZE 0), by
        show (List.replicate Archival.BAG_SIZE
          (Pennant.ofBlock (List.replicate Archival.BLK_SIZE 0)))[j]? = _
        rw [List.getElem?_replicate, if_pos hj], by simp [Pennant.ofBlock]⟩)
      (by simp [Pennant.ofBlock]) rfl⟩

/-! ## The parallel breadth-first search: the stores of one call -/

section

theorem pbfs_proc_edges_log_fst (G : Graph) (nd : Nat) :
    ∀ (n i : Nat) (st : PbfsState),
      (pbfs_proc_edges_log G nd n i st).map Prod.fst = pbfs_proc_edges G nd n i st := by
  intro n
  induction n with
  | zero => intro i st; rfl
  | succ n ih =>
    intro i st
    simp only [pbfs_proc_edges_log, pbfs_proc_edges]
    cases he : G.edges[i]? with
    | none => rfl
    | some edge =>
      simp only []
      cases hd : st.distances[edge]? with
      | none => rfl
      | some d =>
        simp only []
        by_cases hlt : nd < d
        · simp only [if_pos hlt]
          cases h1 : st.next.insert edge with
          | none => rfl
          | some nx =>
            cases h2 : store st.distances edge nd with
            | none => rfl
            | some ds =>
              simp only [Option.map_map]
              rw [← ih (i + 1) { next := nx, distances := ds }]
              rfl
        · simp only [if_neg hlt]
          exact ih (i + 1) st

theorem pbfs_proc_Node_log_fst (G : Graph) (n : List Nat) (off nd : Nat) :
    ∀ (cnt j : Nat) (st : PbfsState),
      (pbfs_proc_Node_log G n off nd cnt j st).map Prod.fst =
        pbfs_proc_Node G n off nd cnt j st := by
  intro cnt
  induction cnt with
  | zero => intro j st; rfl
  | succ cnt ih =>
    intro j st
    simp only [pbfs_proc_Node_log, pbfs_proc_Node]
    cases hu : n[off + j]? with
    | none => rfl
    | some u =>
      simp only []
      cases h1 : G.nodes[u]? with
      | none => rfl
      | some lo =>
        cases h2 : G.nodes[u + 1]? with
        | none => rfl
        | some hi =>
          simp only []
          rw [← pbfs_proc_edges_log_fst G nd (hi - lo) lo st]
          cases h3 : pbfs_proc_edges_log G nd (hi - lo) lo st with
          | none => rfl
          | some x =>
            obtain ⟨st', log⟩ := x
            simp only [Option.map_some', Option.map_map]
            rw [← ih (j + 1) st']
            rfl

theorem ProcEvent.inserted_append (l1 l2 : List ProcEvent) :
    ProcEvent.inserted (l1 ++ l2) = ProcEvent.inserted l1 ++ ProcEvent.inserted l2 := by
  induction l1 with
  | nil => rfl
  | cons ev l ih =>
    cases ev with
    | insert e =>
      show e :: ProcEvent.inserted (l ++ l2) = e :: (ProcEvent.inserted l ++ ProcEvent.inserted l2)
      rw [ih]
    | store e old v => exact ih

theorem ProcEvent.stored_append (l1 l2 : List ProcEvent) :
    ProcEvent.stored (l1 ++ l2) = ProcEvent.stored l1 ++ ProcEvent.stored l2 := by
  induction l1 with
  | nil => rfl
  | cons ev l ih =>
    cases ev with
    | insert e => exact ih
    | store e old v =>
      show e :: ProcEvent.stored (l ++ l2) = e :: (ProcEvent.stored l ++ ProcEvent.stored l2)
      rw [ih]

theorem ProcEvent.replay_append (l1 l2 : List ProcEvent) :
    ∀ ds ds1, ProcEvent.replay l1 ds = some ds1 →
      ProcEvent.replay (l1 ++ l2) ds = ProcEvent.replay l2 ds1 := by
  induction l1 with
  | nil =>
    intro ds ds1 h
    simp only [ProcEvent.replay, Option.some.injEq] at h
    subst h
    rfl
  | cons ev l ih =>
    intro ds ds1 h
    cases ev with
    | insert e =>
      simp only [List.cons_append, ProcEvent.replay] at h ⊢
      exact ih ds ds1 h
    | store e old v =>
      simp only [List.cons_append, ProcEvent.replay] at h ⊢
      by_cases hc : ds[e]? = some old
      · rw [if_pos hc] at h ⊢
        exact ih _ ds1 h
      · rw [if_neg hc] at h
        cases h

/-- The record of the edge loop of `pbfs_proc_Node`: every store writes
`newdist` to a cell that held a strictly greater value, the stores replayed on
the array on entry give the array on exit, and the elements inserted into
`next` are the indices stored to, one insertion for each store. -/
theorem pbfs_proc_edges_log_spec (G : Graph) (nd : Nat) :
    ∀ (n i : Nat) (st st' : PbfsState) (log : List ProcEvent),
      pbfs_proc_edges_log G nd n i st = some (st', log) →
      (∀ e old v, ProcEvent.store e old v ∈ log → v = nd ∧ nd < old) ∧
        ProcEvent.replay log st.distances = some st'.distances ∧
        ProcEvent.inserted log = ProcEvent.stored log ∧
        st.next.insertAll (ProcEvent.inserted log) = some st'.next := by
  intro n
  induction n with
  | zero =>
    intro i st st' log h
    simp only [pbfs_proc_edges_log, Option.some.injEq, Prod.mk.injEq] at h
    obtain ⟨rfl, rfl⟩ := h
    exact ⟨fun e old v hm => absurd hm (List.not_mem_nil _), rfl, rfl, rfl⟩
  | succ n ih =>
    intro i st st' log h
    simp only [pbfs_proc_edges_log] at h
    cases he : G.edges[i]? with
    | none => rw [he] at h; cases h
    | some edge =>
      simp only [he] at h
      cases hd : st.distances[edge]? with
      | none => rw [hd] at h; cases h
      | some d =>
        simp only [hd] at h
        by_cases hlt : nd < d
        · simp only [if_pos hlt] at h
          cases h1 : st.next.insert edge with
          | none => simp [h1] at h
          | some nx =>
            have hel : edge < st.distances.length := by
              by_contra hcon
              rw [List.getElem?_eq_none (by omega)] at hd
              cases hd
            simp only [h1, store_eq hel] at h
            cases hrec : pbfs_proc_edges_log G nd n (i + 1)
                { next := nx, distances := st.distances.set edge nd } with
            | none => rw [hrec] at h; cases h
            | some x =>
              obtain ⟨st1, log1⟩ := x
              rw [hrec] at h
              simp only [Option.map_some', Option.some.injEq, Prod.mk.injEq] at h
              obtain ⟨rfl, rfl⟩ := h
              obtain ⟨g1, g2, g3, g4⟩ := ih (i + 1) _ st1 log1 hrec
              refine ⟨?_, ?_, ?_, ?_⟩
              · intro e old v hm
                simp only [List.mem_cons] at hm
                rcases hm with hm | hm | hm
                · cases hm
                · cases hm
                  exact ⟨rfl, hlt⟩
                · exact g1 e old v hm
              · simp only [ProcEvent.replay, hd, if_true]
                exact g2
              · simp only [ProcEvent.inserted, ProcEvent.stored, g3]
              · simp only [ProcEvent.inserted, Bag.insertAll, h1]
                exact g4
        · simp only [if_neg hlt] at h
          exact ih (i + 1) st st' log h

/-- The record of a call of `pbfs_proc_Node`: every store writes `newdist` to a
cell that held a strictly greater value, the stores replayed on the array on
entry give the array on exit, and the elements inserted into `next` are the
indices stored to, one insertion for each store. -/
theorem pbfs_proc_Node_log_spec (G : Graph) (n : List Nat) (off nd : Nat) :
    ∀ (cnt j : Nat) (st st' : PbfsState) (log : List ProcEvent),
      pbfs_proc_Node_log G n off nd cnt j st = some (st', log) →
      (∀ e old v, ProcEvent.store e old v ∈ log → v = nd ∧ nd < old) ∧
        ProcEvent.replay log st.distances = some st'.distances ∧
        ProcEvent.inserted log = ProcEvent.stored log ∧
        st.next.insertAll (ProcEvent.inserted log) = some st'.next := by
  intro cnt
  induction cnt with
  | zero =>
    intro j st st' log h
    simp only [pbfs_proc_Node_log, Option.some.injEq, Prod.mk.injEq] at h
    obtain ⟨rfl, rfl⟩ := h
    exact ⟨fun e old v hm => absurd hm (List.not_mem_nil _), rfl, rfl, rfl⟩
  | succ cnt ih =>
    intro j st st' log h
    simp only [pbfs_proc_Node_log] at h
    cases hu : n[off + j]? with
    | none => rw [hu] at h; cases h
    | some u =>
      simp only [hu] at h
      cases h1 : G.nodes[u]? with
      | none => simp [h1] at h
      | some lo =>
        cases h2 : G.nodes[u + 1]? with
        | none => simp [h1, h2] at h
        | some hi =>
          simp only [h1, h2] at h
          cases h3 : pbfs_proc_edges_log G nd (hi - lo) lo st with
          | none => rw [h3] at h; cases h
          | some x =>
            obtain ⟨st1, log1⟩ := x
            simp only [h3] at h
            cases hrec : pbfs_proc_Node_log G n off nd cnt (j + 1) st1 with
            | none => rw [hrec] at h; cases h
            | some y =>
              obtain ⟨st2, log2⟩ := y
              rw [hrec] at h
              simp only [Option.map_some', Option.some.injEq, Prod.mk.injEq] at h
              obtain ⟨rfl, rfl⟩ := h
              obtain ⟨a1, a2, a3, a4⟩ := pbfs_proc_edges_log_spec G nd _ _ st st1 log1 h3
              obtain ⟨b1, b2, b3, b4⟩ := ih (j + 1) st1 st2 log2 hrec
              refine ⟨?_, ?_, ?_, ?_⟩
              · intro e old v hm
                rcases List.mem_append.mp hm with hm | hm
                · exact a1 e old v hm
                · exact b1 e old v hm
              · rw [ProcEvent.replay_append log1 log2 _ _ a2]
                exact b2
              · rw [ProcEvent.inserted_append, ProcEvent.stored_append, a3, b3]
              · rw [ProcEvent.inserted_append, Bag.insertAll_append, a4]
                exact b4

end

section

/-- Stores of `nd` to cells that hold a strictly greater value go to pairwise
distinct cells; afterwards exactly the cells stored to have changed. -/
theorem ProcEvent.replay_stored (nd : Nat) (log : List ProcEvent) :
    ∀ ds ds' : List Nat, ProcEvent.replay log ds = some ds' →
      (∀ e old v, ProcEvent.store e old v ∈ log → v = nd ∧ nd < old) →
      (ProcEvent.stored log).Nodup ∧
        (∀ e, e ∈ ProcEvent.stored log → ds'.getD e 0 = nd ∧ nd < ds.getD e 0) ∧
        (∀ e, e ∉ ProcEvent.stored log → ds'[e]? = ds[e]?) := by
  induction log with
  | nil =>
    intro ds ds' h _
    simp only [ProcEvent.replay, Option.some.injEq] at h
    subst h
    exact ⟨List.nodup_nil, fun e he => absurd he (List.not_mem_nil e), fun _ _ => rfl⟩
  | cons ev l ih =>
    intro ds ds' h hall
    cases ev with
    | insert x =>
      simp only [ProcEvent.replay] at h
      exact ih ds ds' h (fun e old v hm => hall e old v (List.mem_cons_of_mem _ hm))
    | store x old v =>
      simp only [ProcEvent.replay] at h
      by_cases hc : ds[x]? = some old
      · rw [if_pos hc] at h
        obtain ⟨hv, hold⟩ := hall x old v (List.mem_cons_self _ _)
        subst hv
        have hxl : x < ds.length := by
          by_contra hcon
          rw [List.getElem?_eq_none (by omega)] at hc
          cases hc
        have hdx : ds.getD x 0 = old := by
          rw [List.getD_eq_getElem?_getD, hc]
          rfl
        obtain ⟨h1, h2, h3⟩ :=
          ih (ds.set x v) ds' h (fun e old' v' hm => hall e old' v' (List.mem_cons_of_mem _ hm))
        have hsetx : (ds.set x v).getD x 0 = v := by
          rw [List.getD_eq_getElem?_getD, List.getElem?_set_self hxl]
          rfl
        have hnot : x ∉ ProcEvent.stored l := by
          intro hm
          have := (h2 x hm).2
          rw [hsetx] at this
          exact Nat.lt_irrefl _ this
        refine ⟨?_, ?_, ?_⟩
        · show (x :: ProcEvent.stored l).Nodup
          exact List.nodup_cons.mpr ⟨hnot, h1⟩
        · intro e he
          change e ∈ x :: ProcEvent.stored l at he
          rcases List.mem_cons.mp he with rfl | he
          · refine ⟨?_, by rw [hdx]; exact hold⟩
            rw [List.getD_eq_getElem?_getD, h3 e hnot, List.getElem?_set_self hxl]
            rfl
          · obtain ⟨g1, g2⟩ := h2 e he
            have hne : x ≠ e := by
              rintro rfl
              exact hnot he
            refine ⟨g1, ?_⟩
            rw [List.getD_eq_getElem?_getD, List.getElem?_set_ne hne] at g2
            rw [List.getD_eq_getElem?_getD]
            exact g2
        · intro e he
          change e ∉ x :: ProcEvent.stored l at he
          rw [List.mem_cons, not_or] at he
          rw [h3 e he.2, List.getElem?_set_ne (fun h => he.1 h.symm)]
      · rw [if_neg hc] at h
        cases h

end

/-- C29: for every call `pbfs_proc_Node(slice, fillSize, next, newdist,
distances, nodes, edges)` on a well-formed graph, with a slice of node ids and a
bag `next` with room, the call returns, and in the record of its insertions and
stores every store to `distances` writes exactly `newdist` and is made to a cell
whose value when the store is made is strictly greater than `newdist` (replaying
the recorded stores on the array on entry, each finds the recorded old value in
its cell and the result is the array on exit); the elements inserted into `next`
are the indices of the stores, in the same order, so that the number of
insertions equals the number of stores, and `next` on exit is `next` on entry
after these insertions. Hence every cell of `distances` either keeps its value
or had a value strictly greater than `newdist` and now holds `newdist`,
`distances` is pointwise non-increasing across the call, the cells that were
`≤ newdist` on entry are unchanged, no cell is stored to twice, and `next` gains
exactly the nodes whose cell has changed, each once. -/
theorem Graph_pbfs_proc_Node_stores (G : Graph) (hG : G.WellFormed) (n : List Nat)
    (off cnt newdist : Nat) (st : PbfsState)
    (hslice : ∀ k, k < cnt → ∃ u, n[off + k]? = some u ∧ u < G.nNodes)
    (hlen : st.distances.length = G.nNodes) (hwf : st.next.WF) (htop : st.next.Top)
    (hcap : Multiset.card st.next.elems + G.nNodes < BLK_SIZE * 2 ^ BAG_SIZE) :
    ∃ st' log, pbfs_proc_Node_log G n off newdist cnt 0 st = some (st', log) ∧
      pbfs_proc_Node G n off newdist cnt 0 st = some st' ∧
      (∀ e old v, ProcEvent.store e old v ∈ log → v = newdist ∧ newdist < old) ∧
      ProcEvent.replay log st.distances = some st'.distances ∧
      ProcEvent.inserted log = ProcEvent.stored log ∧
      (ProcEvent.inserted log).length = (ProcEvent.stored log).length ∧
      st.next.insertAll (ProcEvent.inserted log) = some st'.next ∧
      (∀ v, st'.distances.getD v 0 = st.distances.getD v 0 ∨
        (newdist < st.distances.getD v 0 ∧ st'.distances.getD v 0 = newdist)) ∧
      (∀ v, st'.distances.getD v 0 ≤ st.distances.getD v 0) ∧
      (∀ v, st.distances.getD v 0 ≤ newdist →
        st'.distances.getD v 0 = st.distances.getD v 0) ∧
      st'.distances.length = st.distances.length ∧
      (ProcEvent.inserted log).Nodup ∧
      st'.next.elems = st.next.elems + (ProcEvent.inserted log : Multiset Nat) ∧
      (∀ v, v ∈ ProcEvent.inserted log ↔ st'.distances.getD v 0 ≠ st.distances.getD v 0) ∧
      Multiset.card st'.next.elems = Multiset.card st.next.elems +
        ((Finset.range G.nNodes).filter
          (fun v => st'.distances.getD v 0 ≠ st.distances.getD v 0)).card := by
  obtain ⟨st', hrun, hrel, hstep, -⟩ :=
    pbfs_proc_Node_spec hG newdist (fun u => u < G.nNodes) (fun u hu => hu) st hcap n off cnt 0
      st (LevelRel.start newdist _ st hlen hwf htop)
      (fun k _ hk => hslice k (by omega))
  obtain ⟨A, hnd, hA, helems, hchg⟩ := hrel.added
  have hA' : ∀ v ∈ A, v < G.nNodes ∧ st'.distances.getD v 0 ≠ st.distances.getD v 0 := by
    intro v hv
    obtain ⟨h1, h2, h3, -⟩ := hA v hv
    exact ⟨h1, by omega⟩
  -- the record
  have hfst := pbfs_proc_Node_log_fst G n off newdist cnt 0 st
  rw [hrun] at hfst
  obtain ⟨r, hr, hproj⟩ := Option.map_eq_some'.mp hfst
  obtain ⟨st1, log⟩ := r
  simp only at hproj
  subst hproj
  obtain ⟨g1, g2, g3, g4⟩ := pbfs_proc_Node_log_spec G n off newdist cnt 0 st st1 log hr
  obtain ⟨k1, k2, k3⟩ := ProcEvent.replay_stored newdist log _ _ g2 g1
  have hmem : ∀ v, v ∈ ProcEvent.inserted log ↔
      st1.distances.getD v 0 ≠ st.distances.getD v 0 := by
    intro v
    rw [g3]
    constructor
    · intro hv
      obtain ⟨h1, h2⟩ := k2 v hv
      omega
    · intro hv
      by_contra hcon
      apply hv
      rw [List.getD_eq_getElem?_getD, List.getD_eq_getElem?_getD, k3 v hcon]
  have hperm : (A : Multiset Nat) = (ProcEvent.inserted log : Multiset Nat) := by
    rw [Multiset.coe_eq_coe]
    refine (List.perm_ext_iff_of_nodup hnd (by rw [g3]; exact k1)).mpr ?_
    intro v
    rw [hmem v]
    exact ⟨fun hv => (hA' v hv).2, hchg v⟩
  refine ⟨st1, log, hr, hrun, g1, g2, g3, by rw [g3], g4, hstep, hstep.le, hstep.le_of_le,
    by rw [hrel.len, hlen], by rw [g3]; exact k1, by rw [← hperm]; exact helems, hmem, ?_⟩
  rw [helems, Multiset.card_add, Multiset.coe_card,
    changed_card G.nNodes st.distances st1.distances A hnd hA' hchg]

theorem Graph_pbfs_proc_Node_stores_witness :
    ∃ st' log, pbfs_proc_Node_log pathGraph [1] 0 5 1 0
        { next := Bag.fresh, distances := [9, 0, 3] } = some (st', log) ∧
      pbfs_proc_Node pathGraph [1] 0 5 1 0
        { next := Bag.fresh, distances := [9, 0, 3] } = some st' ∧
      (∀ e old v, ProcEvent.store e old v ∈ log → v = 5 ∧ 5 < old) ∧
      ProcEvent.replay log [9, 0, 3] = some st'.distances ∧
      ProcEvent.inserted log = ProcEvent.stored log ∧
      (ProcEvent.inserted log).Nodup ∧
      st'.next.elems = Bag.fresh.elems + (ProcEvent.inserted log : Multiset Nat) ∧
      (∀ v, st'.distances.getD v 0 ≤ ([9, 0, 3] : List Nat).getD v 0) := by
  obtain ⟨st', log, h1, h2, h3, h4, h5, -, -, -, hle, -, -, hnd, helems, -⟩ :=
    Graph_pbfs_proc_Node_stores pathGraph pathGraph_wf [1] 0 1 5
      { next := Bag.fresh, distances := [9, 0, 3] }
      (fun k hk => ⟨1, by
        have : k = 0 := by omega
        subst this
        rfl, by decide⟩)
      rfl Bag.fresh_inv.wf Bag.fresh_inv.top (by
        show Multiset.card Bag.fresh.elems + pathGraph.nNodes < _
        rw [Bag.fresh, Bag.new_elems]
        norm_num [pathGraph, BLK_SIZE, BAG_SIZE])
  exact ⟨st', log, h1, h2, h3, h4, h5, hnd, helems, hle⟩

/-! ## The parallel breadth-first search: the record of the calls of the walkers -/

section

/-- The slice loops, whenever they return, have made the calls of
`sliceCallsSpec`, in order. -/
theorem pbfs_slices_log_eq (G : Graph) (d : Nat) (n : List Nat) :
    ∀ (cnt i : Nat) (st : PbfsState),
      pbfs_slices_log G n d cnt i st =
        (pbfs_slices G n d cnt i st).map (fun s => (s, sliceCallsSpec n cnt i)) := by
  intro cnt
  induction cnt with
  | zero => intro i st; rfl
  | succ cnt ih =>
    intro i st
    simp only [pbfs_slices_log, pbfs_slices, sliceCallsSpec]
    cases pbfs_proc_Node G n i d THRESHOLD 0 st with
    | none => rfl
    | some st' =>
      simp only [ih (i + THRESHOLD) st', Option.map_map]
      rfl

/-- `pbfs_walk_Pennant`, whenever it returns, has made the calls of
`Pennant.callsSpec`, in order. -/
theorem pbfs_walk_Pennant_log_eq (G : Graph) (d : Nat) :
    ∀ (p : Pennant Nat) (st : PbfsState),
      G.pbfs_walk_Pennant_log d p st =
        (G.pbfs_walk_Pennant d p st).map (fun s => (s, p.callsSpec)) := by
  intro p
  induction p with
  | null => intro st; rfl
  | node e l r ihl ihr =>
    intro st
    have hl : ∀ s, (if l.isNull then some (s, []) else G.pbfs_walk_Pennant_log d l s) =
        (if l.isNull then some s else G.pbfs_walk_Pennant d l s).map
          (fun s' => (s', l.callsSpec)) := by
      intro s
      cases l with
      | null => rfl
      | node e1 l1 r1 => exact ihl s
    have hr : ∀ s, (if r.isNull then some (s, []) else G.pbfs_walk_Pennant_log d r s) =
        (if r.isNull then some s else G.pbfs_walk_Pennant d r s).map
          (fun s' => (s', r.callsSpec)) := by
      intro s
      cases r with
      | null => rfl
      | node e1 l1 r1 => exact ihr s
    simp only [Graph.pbfs_walk_Pennant_log, Graph.pbfs_walk_Pennant, hl, hr,
      Pennant.callsSpec, block_slice_count, pbfs_slices_log_eq]
    cases (if l.isNull then some st else G.pbfs_walk_Pennant d l st) with
    | none => rfl
    | some st1 =>
      simp only [Option.map_some']
      cases (if r.isNull then some st1 else G.pbfs_walk_Pennant d r st1) with
      | none => rfl
      | some st2 =>
        simp only [Option.map_some', Option.map_map]
        rfl

/-- `pbfs_walk_Bag`, whenever it returns, has made the calls of `Bag.callsSpec`,
in order. -/
theorem pbfs_walk_Bag_log_eq (G : Graph) (d : Nat) :
    ∀ (n : Nat) (b : Bag Nat) (f : List Nat), b.fill = n → b.fill ≤ b.bag.length → b.Top →
      b.filling = some f →
      ∀ fuel st, b.fill < fuel →
        G.pbfs_walk_Bag_log d fuel b st =
          (G.pbfs_walk_Bag d fuel b st).map (fun r => (r.1, r.2, b.callsSpec)) := by
  intro n
  induction n using Nat.strong_induction_on with
  | _ n ih =>
    intro b f hn hle htop hf
    rcases Nat.eq_zero_or_pos b.fill with h0 | hpos
    · intro fuel st hfuel
      obtain ⟨k, rfl⟩ : ∃ k, fuel = k + 1 := ⟨fuel - 1, by omega⟩
      have hg : ¬ (b.getFill > 0) := by
        show ¬ (b.fill > 0)
        omega
      have hcalls : b.callsSpec =
          { n := f, off := b.size - b.size % THRESHOLD, cnt := b.size % THRESHOLD } ::
            sliceCallsSpec f (b.size / THRESHOLD) 0 := by
        simp [Bag.callsSpec, h0, hf]
      rw [hcalls]
      simp only [Graph.pbfs_walk_Bag_log, Graph.pbfs_walk_Bag, if_neg hg, Bag.getFilling, hf,
        Bag.getFillingSize, filling_slice_count, pbfs_slices_log_eq]
      cases pbfs_proc_Node G f (b.size - b.size % THRESHOLD) d (b.size % THRESHOLD) 0 st with
      | none => rfl
      | some st1 =>
        simp only [Option.map_map]
        rfl
    · obtain ⟨g, out, hrun, hget, hg, htop', hnull⟩ := Bag.split_of_fill_pos b hpos hle
      have hout : out ≠ Pennant.null := by
        rcases htop with h0 | ⟨p, hp, hpn⟩
        · omega
        · rw [hget] at hp; cases hp; exact hpn
      have htop1 :
          (({ b with fill := g, bag := b.bag.set (b.fill - 1) Pennant.null } : Bag Nat)).Top := by
        rcases htop' with h1 | ⟨p, hp, hpn⟩
        · exact Or.inl h1
        · rcases Nat.eq_zero_or_pos g with h1 | h1
          · exact Or.inl h1
          · right
            refine ⟨p, ?_, hpn⟩
            show (b.bag.set (b.fill - 1) Pennant.null)[g - 1]? = some p
            rw [List.getElem?_set, if_neg (by omega)]
            exact hp
      have hwalk :=
        ih g (by omega) { b with fill := g, bag := b.bag.set (b.fill - 1) Pennant.null } f rfl
          (by simp; omega) htop1 hf
      have hlist : (b.bag.take b.fill).filter (fun p => !p.isNull) =
          ((b.bag.set (b.fill - 1) Pennant.null).take g).filter (fun p => !p.isNull) ++
            [out] := by
        have h1 : b.fill = (b.fill - 1) + 1 := by omega
        rw [← filter_take_nulls _ g (b.fill - 1) (by omega)
          (fun i h1 h2 => hnull i h1 (by omega)), take_set_self]
        conv_lhs => rw [h1, List.take_succ, hget, List.filter_append]
        simp [(Pennant.isNull_false_iff out).mpr hout]
      have hcalls : b.callsSpec = out.callsSpec ++
          Bag.callsSpec { b with fill := g, bag := b.bag.set (b.fill - 1) Pennant.null } := by
        simp only [Bag.callsSpec, hlist, List.reverse_append, List.reverse_singleton,
          List.singleton_append, List.flatMap_cons, List.append_assoc]
      intro fuel st hfuel
      obtain ⟨k, rfl⟩ : ∃ k, fuel = k + 1 := ⟨fuel - 1, by omega⟩
      have hgt : b.getFill > 0 := hpos
      rw [hcalls]
      simp only [Graph.pbfs_walk_Bag_log, Graph.pbfs_walk_Bag, if_pos hgt, hrun,
        pbfs_walk_Pennant_log_eq]
      cases G.pbfs_walk_Pennant d out st with
      | none => rfl
      | some st1 =>
        simp only [Option.map_some']
        rw [hwalk k st1 (by show g < k; omega)]
        cases G.pbfs_walk_Bag d k
            { b with fill := g, bag := b.bag.set (b.fill - 1) Pennant.null } st1 with
        | none => rfl
        | some r => rfl

/-- The calls of `sliceCallsSpec`: one slice of `THRESHOLD` cells at each of the
first `cnt` multiples of `THRESHOLD` after `i`. -/
theorem sliceCallsSpec_eq (n : List Nat) :
    ∀ cnt i, sliceCallsSpec n cnt i =
      (List.range cnt).map (fun j => ({ n := n, off := i + j * THRESHOLD, cnt := THRESHOLD } :
        PbfsCall)) := by
  intro cnt
  induction cnt with
  | zero => intro i; rfl
  | succ cnt ih =>
    intro i
    rw [sliceCallsSpec, ih (i + THRESHOLD), List.range_succ_eq_map, List.map_cons,
      List.map_map]
    congr 1
    apply List.map_congr_left
    intro j _
    simp only [Function.comp, PbfsCall.mk.injEq, true_and, and_true]
    rw [Nat.succ_mul]
    omega

end

section

theorem Bag.oneBlock_mem (u : Nat) (h : u ∈ Bag.oneBlock.elems) : u < pathGraph.nNodes := by
  have hu : u = 0 := by
    rcases (Bag.mem_elems_iff Bag.oneBlock u).mp h with ⟨f, -, k, hk, -⟩ | ⟨i, p, hi, hp, e, he, hue⟩
    · exact absurd hk (Nat.not_lt_zero k)
    · have hi0 : i = 0 := by
        have : i < 1 := hi
        omega
      subst hi0
      have hp' : p = Pennant.ofBlock (List.replicate BLK_SIZE 0) := by
        have : some (Pennant.ofBlock (List.replicate BLK_SIZE 0)) = some p := hp
        simp only [Option.some.injEq] at this
        exact this.symm
      subst hp'
      simp only [Pennant.ofBlock, Pennant.blocks, List.append_nil, List.mem_singleton] at he
      subst he
      exact List.eq_of_mem_replicate hue
  subst hu
  decide

end

/-- C28: with `THRESHOLD = 256` dividing `BLK_SIZE = 2048`, for every bag `b`
satisfying the bag invariants the record of the calls
`pbfs_proc_Node(n + off, cnt, ...)` that the serial elision of `pbfs_walk_Bag`
makes, whenever it returns, is the list `Bag.callsSpec` (and it returns, with
that record, on every well-formed graph when `b` holds node ids and `next` is
empty): for every block of every pennant `BLK_SIZE / THRESHOLD` slices of
`THRESHOLD` cells at the multiples of `THRESHOLD`, and for the filling one
trailing slice of `size % THRESHOLD` cells starting at `size - size % THRESHOLD`
and `size / THRESHOLD` slices of `THRESHOLD` cells starting at the multiples of
`THRESHOLD`, no call more and none less. These slices together contain each
element of the bag exactly once, and each lies within `filling[0 .. size)` or
within `[0 .. BLK_SIZE)` of a block. -/
theorem Graph_pbfs_walk_Bag_slices (G : Graph) (newdist : Nat) (b : Bag Nat) (h : b.Inv) :
    ∃ b', (∀ st, G.pbfs_walk_Bag newdist (b.getFill + 1) b st =
        (G.pbfs_run_calls newdist b.callsSpec st).map (fun s => (b', s))) ∧
      ((b.callsSpec.flatMap PbfsCall.cells : List Nat) : Multiset Nat) = b.elems ∧
      (∀ c, c ∈ b.callsSpec →
        (b.filling = some c.n ∧ c.off + c.cnt ≤ b.size) ∨
          ∃ i p, i < b.fill ∧ b.bag[i]? = some p ∧ c.n ∈ p.blocks ∧
            c.n.length = BLK_SIZE ∧ c.off + c.cnt ≤ BLK_SIZE) ∧
      (∀ st, G.pbfs_walk_Bag_log newdist (b.getFill + 1) b st =
        (G.pbfs_walk_Bag newdist (b.getFill + 1) b st).map
          (fun r => (r.1, r.2, b.callsSpec))) ∧
      (∀ st, G.pbfs_walk_Bag_log newdist (b.getFill + 1) b st =
        (G.pbfs_run_calls newdist b.callsSpec st).map (fun s => (b', s, b.callsSpec))) ∧
      (G.WellFormed → (∀ u ∈ b.elems, u < G.nNodes) →
        ∀ (next : Bag Nat) (ds : List Nat), next.WF → next.isEmpty = true →
          ds.length = G.nNodes →
          ∃ st', G.pbfs_walk_Bag_log newdist (b.getFill + 1) b
            { next := next, distances := ds } = some (b', st', b.callsSpec)) ∧
      (∃ f, b.filling = some f ∧ f.length = BLK_SIZE ∧ b.size < BLK_SIZE ∧
        b.callsSpec =
          (((b.bag.take b.fill).filter (fun p => !p.isNull)).reverse).flatMap
              Pennant.callsSpec ++
            (({ n := f, off := b.size - b.size % THRESHOLD, cnt := b.size % THRESHOLD } :
                PbfsCall) ::
              (List.range (b.size / THRESHOLD)).map
                (fun j => ({ n := f, off := j * THRESHOLD, cnt := THRESHOLD } : PbfsCall)))) ∧
      (∀ (e : List Nat) (l r : Pennant Nat), (Pennant.node e l r).callsSpec =
        l.callsSpec ++ (r.callsSpec ++ (List.range (BLK_SIZE / THRESHOLD)).map
          (fun j => ({ n := e, off := j * THRESHOLD, cnt := THRESHOLD } : PbfsCall)))) ∧
      (Pennant.null : Pennant Nat).callsSpec = [] ∧
      BLK_SIZE / THRESHOLD * THRESHOLD = BLK_SIZE := by
  obtain ⟨f, hf, hflen⟩ := h.block
  obtain ⟨b', -, -, -, hwalk⟩ :=
    pbfs_walk_Bag_calls G newdist b.fill b f rfl h.wf.fill_le_length h.top hf
  have hlt : b.fill < b.getFill + 1 := by show b.fill < b.fill + 1; omega
  have hlog := fun st => pbfs_walk_Bag_log_eq G newdist b.fill b f rfl h.wf.fill_le_length
    h.top hf (b.getFill + 1) st hlt
  have hlog2 : ∀ st, G.pbfs_walk_Bag_log newdist (b.getFill + 1) b st =
      (G.pbfs_run_calls newdist b.callsSpec st).map (fun s => (b', s, b.callsSpec)) := by
    intro st
    rw [hlog st, hwalk (b.getFill + 1) st hlt, Option.map_map]
    rfl
  refine ⟨b', fun st => hwalk (b.getFill + 1) st hlt,
    Bag.cells_callsSpec b h.wf, fun c hc => Bag.mem_callsSpec b h.wf c hc, hlog, hlog2,
    ?_, ⟨f, hf, hflen, h.size_lt, ?_⟩, ?_, rfl, rfl⟩
  · intro hG hnodes next ds hnext hempty hlen
    have hN := hG.nNodes_lt
    have he0 : next.elems = 0 := Bag.elems_of_isEmpty hempty
    have hfill0 : next.fill = 0 := by
      simp only [Bag.isEmpty, Bool.and_eq_true, beq_iff_eq] at hempty
      exact hempty.1
    obtain ⟨b1, st', hrun, -⟩ :=
      pbfs_walk_Bag_spec hG newdist (fun u => u ∈ b.elems) hnodes
        { next := next, distances := ds }
        (by
          show Multiset.card next.elems + G.nNodes < _
          rw [he0]
          have := cap_large
          simp only [Multiset.card_zero, Nat.zero_add]
          omega)
        (b.getFill + 1) b { next := next, distances := ds } hlt
        (BagOK.of_frontier h.wf h.top (fun u hu => hu))
        (LevelRel.start newdist _ _ hlen hnext (Or.inl hfill0))
    have h1 := hwalk (b.getFill + 1) { next := next, distances := ds } hlt
    rw [hrun] at h1
    cases hr : G.pbfs_run_calls newdist b.callsSpec { next := next, distances := ds } with
    | none => rw [hr] at h1; cases h1
    | some s =>
      refine ⟨s, ?_⟩
      rw [hlog2, hr]
      rfl
  · simp only [Bag.callsSpec, hf, Option.getD_some, sliceCallsSpec_eq, Nat.zero_add]
  · intro e l r
    simp only [Pennant.callsSpec, sliceCallsSpec_eq, Nat.zero_add]

theorem Graph_pbfs_walk_Bag_slices_witness :
    ∃ b', (∀ st, pathGraph.pbfs_walk_Bag 2 (Bag.oneBlock.getFill + 1) Bag.oneBlock st =
        (pathGraph.pbfs_run_calls 2 Bag.oneBlock.callsSpec st).map (fun s => (b', s))) ∧
      ((Bag.oneBlock.callsSpec.flatMap PbfsCall.cells : List Nat) : Multiset Nat) =
        Bag.oneBlock.elems ∧
      (∀ c, c ∈ Bag.oneBlock.callsSpec →
        (Bag.oneBlock.filling = some c.n ∧ c.off + c.cnt ≤ Bag.oneBlock.size) ∨
          ∃ i p, i < Bag.oneBlock.fill ∧ Bag.oneBlock.bag[i]? = some p ∧ c.n ∈ p.blocks ∧
            c.n.length = BLK_SIZE ∧ c.off + c.cnt ≤ BLK_SIZE) ∧
      ∃ st', pathGraph.pbfs_walk_Bag_log 2 (Bag.oneBlock.getFill + 1) Bag.oneBlock
          { next := Bag.fresh, distances := [0, 9, 3] } =
        some (b', st', Bag.oneBlock.callsSpec) :=
  (Graph_pbfs_walk_Bag_slices pathGraph 2 Bag.oneBlock Bag.oneBlock_inv).imp
    fun _ hb => ⟨hb.1, hb.2.1, hb.2.2.1,
      hb.2.2.2.2.2.1 pathGraph_wf Bag.oneBlock_mem Bag.fresh [0, 9, 3] Bag.fresh_inv.wf rfl rfl⟩

end PBFS
